import Mathlib

/-!
# toydb: slotted-page layer (`pflayer/splayer.c`) over the paged-file layer

Shallow embedding of the slotted-page record layer.  A page buffer is a
byte-addressed memory of `PF_PAGE_SIZE` bytes; the page header and the slot
directory are read from and written to those bytes exactly as the C code does
(`memcpy` of the structs), with the little-endian layout of the host the
code is built for (`sizeof(SP_PageHeader) = 12`, `sizeof(SP_SlotEntry) = 4`).
An access that leaves the page buffer has no defined behaviour in C; the
embedding reports it as the outcome `undef`.

The paged-file layer and the hash index of its buffer pool, of which the
repository holds the declarations (`pf.h`, `pftypes.h`) and a test
(`testhash.c`), are modelled from the specification.  So are the buffer pool
with its counters, under the workload of `test_pf_experiments.c`, and the
B+-tree of the access method, of which `am.h` holds the declarations.  The
index build drivers of `amlayer` and the static simulation of `test_sp.c` are
embedded from their sources.
-/

namespace ToyDB

/-! ## Bytes and page buffers -/

/-- One byte of memory. -/
abbrev Byte := Fin 256

/-- The contents of a page buffer `char pagebuf[PF_PAGE_SIZE]`, by offset.
Only offsets below `PF_PAGE_SIZE` belong to the buffer. -/
abbrev Page := Nat → Byte

/-- Page size `PF_PAGE_SIZE` of `pf.h`. -/
def PF_PAGE_SIZE : Nat := 4096

/-- Size `sizeof(SP_PageHeader)`: a `uint32_t` and three `uint16_t`, padded to
the alignment of `uint32_t`. -/
def SP_HEADER_SIZE : Nat := 12

/-- Size `sizeof(SP_SlotEntry)`: two `int16_t`. -/
def SP_SLOT_SIZE : Nat := 4

/-- Magic value `SP_MAGIC_VAL`, the bytes "SPLT". -/
def SP_MAGIC_VAL : Nat := 0x53504C54

/-- Low byte of a number. -/
def byteOf (v : Nat) : Byte := ⟨v % 256, Nat.mod_lt _ (by decide)⟩

/-- Conversion to `uint16_t`: reduction modulo `2^16`. -/
def u16 (x : Int) : Nat := (x % 65536).toNat

/-- Value of a 16-bit pattern read as `int16_t`. -/
def toInt16 (raw : Nat) : Int := if raw < 32768 then (raw : Int) else (raw : Int) - 65536

/-- The cast `(int16_t)x`. -/
def int16 (x : Int) : Int := toInt16 (u16 x)

/-- Store of one byte. -/
def wr8 (p : Page) (off : Nat) (b : Byte) : Page := fun i => if i = off then b else p i

/-- Load of a little-endian 16-bit field. -/
def rd16 (p : Page) (off : Nat) : Nat := (p off).val + 256 * (p (off + 1)).val

/-- Store of a little-endian 16-bit field. -/
def wr16 (p : Page) (off : Nat) (v : Nat) : Page :=
  wr8 (wr8 p off (byteOf v)) (off + 1) (byteOf (v / 256))

/-- Load of a little-endian 32-bit field. -/
def rd32 (p : Page) (off : Nat) : Nat := rd16 p off + 65536 * rd16 p (off + 2)

/-- Store of a little-endian 32-bit field. -/
def wr32 (p : Page) (off : Nat) (v : Nat) : Page :=
  wr16 (wr16 p off v) (off + 2) (v / 65536)

/-- The call `memcpy(pagebuf + off, data, len)` from a caller buffer. -/
def memcpyIn (p : Page) (off : Nat) (data : List Byte) (len : Nat) : Page :=
  fun i => if off ≤ i ∧ i < off + len then data.getD (i - off) 0 else p i

/-- The call `memcpy(dst + doff, src + soff, len)` between two page buffers. -/
def memcpyPage (dst : Page) (doff : Nat) (src : Page) (soff : Nat) (len : Nat) : Page :=
  fun i => if doff ≤ i ∧ i < doff + len then src (soff + (i - doff)) else dst i

/-- The `len` bytes copied out by `memcpy(buf, pagebuf + off, len)`. -/
def readBytes (p : Page) (off len : Nat) : List Byte :=
  (List.range len).map (fun i => p (off + i))

/-! ## Page header and slot directory -/

/-- The struct `SP_PageHeader`; `pad` is the two bytes of trailing padding,
which `memcpy` of the struct carries along with the fields. -/
structure SP_PageHeader where
  magic : Nat
  slot_count : Nat
  free_offset : Nat
  free_space : Nat
  pad : Nat

/-- The struct `SP_SlotEntry`, with the values of its two `int16_t` fields. -/
structure SP_SlotEntry where
  offset : Int
  length : Int
deriving DecidableEq

/-- The function `sp_read_header`: `memcpy(hdr, pagebuf, SP_HEADER_SIZE)`. -/
def sp_read_header (p : Page) : SP_PageHeader :=
  { magic := rd32 p 0, slot_count := rd16 p 4, free_offset := rd16 p 6,
    free_space := rd16 p 8, pad := rd16 p 10 }

/-- The function `sp_write_header`: `memcpy(pagebuf, hdr, SP_HEADER_SIZE)`. -/
def sp_write_header (p : Page) (hdr : SP_PageHeader) : Page :=
  wr16 (wr16 (wr16 (wr16 (wr32 p 0 hdr.magic) 4 hdr.slot_count) 6 hdr.free_offset)
    8 hdr.free_space) 10 hdr.pad

/-- The function `sp_init_page`.  The local header is not zeroed, so its
padding bytes are indeterminate; they are taken to be the bytes the buffer
holds already, which are arbitrary for a newly allocated page. -/
def sp_init_page (p : Page) : Page :=
  sp_write_header p
    { magic := SP_MAGIC_VAL, slot_count := 0,
      free_offset := u16 PF_PAGE_SIZE,
      free_space := u16 ((PF_PAGE_SIZE : Int) - SP_HEADER_SIZE),
      pad := rd16 p 10 }

/-- Offset of slot `slotIndex` in the page: the pointer `sp_slot_ptr`. -/
def sp_slot_ptr (slotIndex : Nat) : Nat := SP_HEADER_SIZE + slotIndex * SP_SLOT_SIZE

/-- Whether slot `slotIndex` lies inside the page buffer. -/
def slotInPage (slotIndex : Nat) : Prop := sp_slot_ptr slotIndex + SP_SLOT_SIZE ≤ PF_PAGE_SIZE

instance (i : Nat) : Decidable (slotInPage i) := by unfold slotInPage; infer_instance

/-- Load of the slot entry `*sp_slot_ptr(pagebuf, slotIndex)`. -/
def readSlot (p : Page) (slotIndex : Nat) : SP_SlotEntry :=
  { offset := toInt16 (rd16 p (sp_slot_ptr slotIndex)),
    length := toInt16 (rd16 p (sp_slot_ptr slotIndex + 2)) }

/-- Store of a slot entry at `sp_slot_ptr(pagebuf, slotIndex)`. -/
def writeSlot (p : Page) (slotIndex : Nat) (s : SP_SlotEntry) : Page :=
  wr16 (wr16 p (sp_slot_ptr slotIndex) (u16 s.offset)) (sp_slot_ptr slotIndex + 2) (u16 s.length)

/-- Whether `len` bytes at offset `off` lie inside the page buffer. -/
def inPage (off len : Int) : Prop := 0 ≤ off ∧ 0 ≤ len ∧ off + len ≤ PF_PAGE_SIZE

instance (off len : Int) : Decidable (inPage off len) := by unfold inPage; infer_instance

/-! ## The work of each operation on the pinned page buffer -/

/-- Result of the part of an operation that runs on a pinned page buffer. -/
inductive PgRes (α : Type) where
  /-- The code runs through to its success exit. -/
  | ok (v : α)
  /-- The code takes a `return -1` exit. -/
  | fail
  /-- The code accesses memory outside the page buffer. -/
  | undef

/-- Result of the loop that looks for a tombstone slot. -/
inductive Scan where
  /-- The loop left through `break` at this index. -/
  | found (i : Nat)
  /-- The loop ran to `slot_count` without finding a tombstone. -/
  | absent
  /-- The loop read a slot outside the page buffer. -/
  | oob
deriving DecidableEq

/-- The loop `for (i = ..; i < hdr.slot_count; i++) if (s->offset == -1) break`,
started at index `i` with `k` slots left to visit. -/
def sp_scan_deleted (p : Page) : Nat → Nat → Scan
  | _, 0 => .absent
  | i, k + 1 =>
    if ¬ slotInPage i then .oob
    else if (readSlot p i).offset = -1 then .found i
    else sp_scan_deleted p (i + 1) k

/-- Lines 148-190 of `SP_InsertRecord`: the insertion into the pinned page.
Yields the new page contents and the slot index, `fail` when the free-space
re-check fires. -/
def SP_InsertRecord_page (p : Page) (data : List Byte) (len : Int) : PgRes (Page × Nat) :=
  let hdr := sp_read_header p
  match sp_scan_deleted p 0 hdr.slot_count with
  | .oob => .undef
  | sc =>
    let reuse_slot : Bool := sc != .absent
    let slotIndex := match sc with
      | .found i => i
      | _ => hdr.slot_count
    let slot_count := if reuse_slot then hdr.slot_count else (hdr.slot_count + 1) % 65536
    let slot_dir_size := slot_count * SP_SLOT_SIZE
    let needed : Int := len + (if reuse_slot then 0 else SP_SLOT_SIZE)
    if (hdr.free_space : Int) < needed then .fail
    else
      let free_offset := u16 ((hdr.free_offset : Int) - len)
      let data_off : Int := free_offset
      if ¬ (inPage data_off len ∧ len ≤ data.length) then .undef
      else
        let p1 := memcpyIn p free_offset data len.toNat
        if ¬ slotInPage slotIndex then .undef
        else
          let se : SP_SlotEntry := { offset := int16 data_off, length := int16 len }
          let p2 := writeSlot p1 slotIndex se
          let free_space := u16 ((free_offset : Int) - (SP_HEADER_SIZE + slot_dir_size))
          .ok (sp_write_header p2
                { hdr with slot_count := slot_count, free_offset := free_offset,
                           free_space := free_space }, slotIndex)

/-- Lines 212-224 of `SP_GetRecord`: the lookup in the pinned page.  Yields
the length stored through `len` and the bytes copied into `buf`. -/
def SP_GetRecord_page (p : Page) (slotIndex : Nat) : PgRes (Int × List Byte) :=
  let hdr := sp_read_header p
  if slotIndex ≥ hdr.slot_count then .fail
  else if ¬ slotInPage slotIndex then .undef
  else
    let s := readSlot p slotIndex
    if s.offset = -1 then .fail
    else if ¬ inPage s.offset s.length then .undef
    else .ok (s.length, readBytes p s.offset.toNat s.length.toNat)

/-- Lines 238-258 of `SP_DeleteRecord`: the deletion in the pinned page. -/
def SP_DeleteRecord_page (p : Page) (slotIndex : Nat) : PgRes Page :=
  let hdr := sp_read_header p
  if slotIndex ≥ hdr.slot_count then .fail
  else if ¬ slotInPage slotIndex then .undef
  else
    let s := readSlot p slotIndex
    if s.offset = -1 then .fail
    else
      let freed := s.length
      let p1 := writeSlot p slotIndex { offset := -1, length := 0 }
      let free_space := u16 ((hdr.free_space : Int) + freed)
      .ok (sp_write_header p1 { hdr with free_space := free_space })

/-- The loop of `SP_CompactPage` over the slots, started at slot `i` with `k`
slots left: reads the snapshot `tmp`, writes the page buffer `p`, and carries
`cur_free`.  `none` when an access leaves a buffer. -/
def sp_compact_loop (tmp : Page) : Nat → Nat → Page → Int → Option (Page × Int)
  | _, 0, p, cur_free => some (p, cur_free)
  | i, k + 1, p, cur_free =>
    if ¬ slotInPage i then none
    else
      let s := readSlot tmp i
      if s.offset = -1 then sp_compact_loop tmp (i + 1) k p cur_free
      else
        let cur := cur_free - s.length
        if ¬ (inPage s.offset s.length ∧ inPage cur s.length) then none
        else
          let p1 := memcpyPage p cur.toNat tmp s.offset.toNat s.length.toNat
          let new_s : SP_SlotEntry := { offset := int16 cur, length := s.length }
          sp_compact_loop tmp (i + 1) k (writeSlot p1 i new_s) cur

/-- Lines 270-294 of `SP_CompactPage`: the compaction of the pinned page. -/
def SP_CompactPage_page (p : Page) : PgRes Page :=
  let hdr := sp_read_header p
  match sp_compact_loop p 0 hdr.slot_count p PF_PAGE_SIZE with
  | none => .undef
  | some (p1, cur_free) =>
    let free_offset := u16 cur_free
    let free_space :=
      u16 ((free_offset : Int) - (SP_HEADER_SIZE + hdr.slot_count * SP_SLOT_SIZE))
    .ok (sp_write_header p1 { hdr with free_offset := free_offset, free_space := free_space })

/-! ## The paged-file layer, as the slotted-page layer sees it -/

/-- Error code `PFE_OK` of `pf.h`. -/
def PFE_OK : Int := 0

/-- Error code `PFE_EOF` of `pf.h`. -/
def PFE_EOF : Int := -14

/-- Error code `PFE_PAGEUNFIXED` of `pf.h`. -/
def PFE_PAGEUNFIXED : Int := -16

/-- A call into the paged-file layer. -/
inductive PFCall where
  | GetFirstPage
  | GetNextPage (pagenum : Nat)
  | GetThisPage (pagenum : Nat)
  | AllocPage
  | UnfixPage (pagenum : Nat) (dirty : Bool)
deriving DecidableEq

/-- Modelled from the spec: the paged-file layer (`PF_GetFirstPage`,
`PF_GetNextPage`, `PF_GetThisPage`, `PF_AllocPage`, `PF_UnfixPage`), of which
only the declarations in `pftypes.h` are at hand.  The state of one open file:
its pages (all in use, since the slotted-page layer never disposes of a page)
with the contents of their frames, and the pin count of each page.  `junk n`
is what the frame of a newly allocated page `n` holds before it is
initialised (spec: contents undefined).  `faults` are the return codes
injected into the coming calls, one per call (`PFE_OK` or none: the call runs
as the spec describes it); this stands for the failures the buffer pool and
the file system can produce.  `trace` logs every call with its return code,
the most recent first. -/
structure PFState where
  numpages : Nat
  page : Nat → Page
  pins : Nat → Nat
  junk : Nat → Page
  faults : List Int
  trace : List (PFCall × Int)

/-- The injected return code of the next call, and the state without it. -/
def PFState.nextFault (st : PFState) : Int × PFState :=
  match st.faults with
  | [] => (PFE_OK, st)
  | e :: rest => (e, { st with faults := rest })

/-- The state with a call and its return code logged. -/
def PFState.log (st : PFState) (c : PFCall) (rc : Int) : PFState :=
  { st with trace := (c, rc) :: st.trace }

/-- The state after the caller has written `p` into the frame of `pagenum`. -/
def PFState.setPage (st : PFState) (pagenum : Nat) (p : Page) : PFState :=
  { st with page := fun n => if n = pagenum then p else st.page n }

/-- Modelled from the spec: pinning page `pagenum` on behalf of call `c`
(spec, `get`: the pin count is incremented; the call fails with `EOF` when the
page number exceeds `numpages`). -/
def PFState.fix (st : PFState) (c : PFCall) (pagenum : Nat) : Int × PFState :=
  match st.nextFault with
  | (e, st1) =>
    if e ≠ PFE_OK then (e, st1.log c e)
    else if pagenum ≥ st1.numpages then (PFE_EOF, st1.log c PFE_EOF)
    else
      (PFE_OK,
        { st1 with pins := fun n => if n = pagenum then st1.pins n + 1 else st1.pins n }.log
          c PFE_OK)

/-- Modelled from the spec: `PF_GetThisPage(fd, pagenum, &pagebuf)`. -/
def PF_GetThisPage (st : PFState) (pagenum : Nat) : Int × PFState :=
  st.fix (.GetThisPage pagenum) pagenum

/-- Modelled from the spec: `PF_GetFirstPage(fd, &pagenum, &pagebuf)`; yields
the return code, the page number stored through `pagenum` when the call
returns `PFE_OK`, and the state. -/
def PF_GetFirstPage (st : PFState) : Int × Nat × PFState :=
  match st.fix .GetFirstPage 0 with
  | (rc, st1) => (rc, 0, st1)

/-- Modelled from the spec: `PF_GetNextPage(fd, &pagenum, &pagebuf)` called
with `*pagenum = pagenum`; yields the return code, the page number stored
through `pagenum` when the call returns `PFE_OK`, and the state. -/
def PF_GetNextPage (st : PFState) (pagenum : Nat) : Int × Nat × PFState :=
  match st.fix (.GetNextPage pagenum) (pagenum + 1) with
  | (rc, st1) => (rc, pagenum + 1, st1)

/-- Modelled from the spec: `PF_AllocPage(fd, &pagenum, &pagebuf)` (spec,
`alloc`: with an empty free list the file grows by one page; the frame is
installed without reading, contents undefined; pin := 1); yields the return
code, the page number stored through `pagenum` when the call returns
`PFE_OK`, and the state. -/
def PF_AllocPage (st : PFState) : Int × Nat × PFState :=
  match st.nextFault with
  | (e, st1) =>
    if e ≠ PFE_OK then (e, st1.numpages, st1.log .AllocPage e)
    else
      let n := st1.numpages
      (PFE_OK, n,
        { st1 with
          numpages := n + 1
          page := fun m => if m = n then st1.junk n else st1.page m
          pins := fun m => if m = n then 1 else st1.pins m }.log .AllocPage PFE_OK)

/-- Modelled from the spec: `PF_UnfixPage(fd, pagenum, dirty)` (spec, `unfix`:
the pin count is decremented; the call fails with `PAGEUNFIXED` on a page
that is not pinned). -/
def PF_UnfixPage (st : PFState) (pagenum : Nat) (dirty : Bool) : Int × PFState :=
  match st.nextFault with
  | (e, st1) =>
    if e ≠ PFE_OK then (e, st1.log (.UnfixPage pagenum dirty) e)
    else if st1.pins pagenum = 0 then
      (PFE_PAGEUNFIXED, st1.log (.UnfixPage pagenum dirty) PFE_PAGEUNFIXED)
    else
      (PFE_OK,
        { st1 with pins := fun n => if n = pagenum then st1.pins n - 1 else st1.pins n }.log
          (.UnfixPage pagenum dirty) PFE_OK)

/-- A newly created, empty file (`SP_CreateFile`, `SP_OpenFile`). -/
def PFState.fresh (junk : Nat → Page) (faults : List Int) : PFState :=
  { numpages := 0, page := junk, pins := fun _ => 0, junk := junk, faults := faults,
    trace := [] }

/-! ## The slotted-page operations on a file -/

/-- Result of a slotted-page operation. -/
inductive SPRet (α : Type) where
  /-- The call returns 0, with its outputs and the state it leaves. -/
  | ok (v : α) (st : PFState)
  /-- The call returns through an error exit with value `rc`. -/
  | fail (rc : Int) (st : PFState)
  /-- The call accesses memory outside a page buffer, or the iteration bound
  of the embedding is used up. -/
  | undef

/-- The tail of `sp_find_page_for_insert`: allocate and initialise a page. -/
def sp_alloc_new_page (st : PFState) : SPRet Nat :=
  match PF_AllocPage st with
  | (rc, pageNum, st1) =>
    if rc ≠ PFE_OK then .fail (-1) st1
    else .ok pageNum (st1.setPage pageNum (sp_init_page (st1.page pageNum)))

/-- The loop `while (1)` of `sp_find_page_for_insert`, entered with `pageNum`
pinned; `fuel` bounds the number of iterations. -/
def sp_find_page_loop (rec_len : Int) : Nat → PFState → Nat → SPRet Nat
  | 0, _, _ => .undef
  | fuel + 1, st, pageNum =>
    let pagebuf := st.page pageNum
    let hdr := sp_read_header pagebuf
    match sp_scan_deleted pagebuf 0 hdr.slot_count with
    | .oob => .undef
    | sc =>
      let found_deleted : Bool := sc != .absent
      let needed : Int := rec_len + (if found_deleted then 0 else SP_SLOT_SIZE)
      if (hdr.free_space : Int) ≥ needed then .ok pageNum st
      else
        match PF_UnfixPage st pageNum false with
        | (rc, st1) =>
          if rc ≠ PFE_OK then .fail (-1) st1
          else
            match PF_GetNextPage st1 pageNum with
            | (rc2, nextPage, st2) =>
              if rc2 = PFE_EOF then sp_alloc_new_page st2
              else if rc2 ≠ PFE_OK then .fail (-1) st2
              else sp_find_page_loop rec_len fuel st2 nextPage

/-- The function `sp_find_page_for_insert`: yields the page number stored
through `outPageNum`, with that page pinned.  The loop visits each page of
the file at most once, so `numpages` iterations are enough. -/
def sp_find_page_for_insert (st : PFState) (rec_len : Int) : SPRet Nat :=
  match PF_GetFirstPage st with
  | (err, pageNum, st1) =>
    if err = PFE_EOF then sp_alloc_new_page st1
    else if err ≠ PFE_OK then .fail (-1) st1
    else sp_find_page_loop rec_len st1.numpages st1 pageNum

/-- The record id `((unsigned int)pageNum << 16) | (unsigned int)slotIndex`. -/
def mkRecId (pageNum slotIndex : Nat) : Nat :=
  ((pageNum <<< 16) % 2 ^ 32) ||| (slotIndex % 2 ^ 32)

/-- The function `decode_recId`: page number and slot index of a record id. -/
def decode_recId (rid : Nat) : Nat × Nat := (rid >>> 16, rid &&& 0xFFFF)

/-- The function `SP_InsertRecord`; yields the record id stored through
`recId`. -/
def SP_InsertRecord (st : PFState) (data : List Byte) (len : Int) : SPRet Nat :=
  if len ≤ 0 ∨ len > (PF_PAGE_SIZE : Int) - SP_HEADER_SIZE - SP_SLOT_SIZE then .fail (-1) st
  else
    match sp_find_page_for_insert st len with
    | .undef => .undef
    | .fail _ st1 => .fail (-1) st1
    | .ok pageNum st1 =>
      match SP_InsertRecord_page (st1.page pageNum) data len with
      | .undef => .undef
      | .fail => .fail (-1) (PF_UnfixPage st1 pageNum false).2
      | .ok (p, slotIndex) =>
        match PF_UnfixPage (st1.setPage pageNum p) pageNum true with
        | (rc, st2) =>
          if rc ≠ PFE_OK then .fail (-1) st2
          else .ok (mkRecId pageNum slotIndex) st2

/-- The function `SP_GetRecord`; yields the length stored through `len` and
the bytes copied into `buf`. -/
def SP_GetRecord (st : PFState) (recId : Nat) : SPRet (Int × List Byte) :=
  match decode_recId recId with
  | (pageNum, slotIndex) =>
    match PF_GetThisPage st pageNum with
    | (rc, st1) =>
      if rc ≠ PFE_OK then .fail (-1) st1
      else
        match SP_GetRecord_page (st1.page pageNum) slotIndex with
        | .undef => .undef
        | .fail => .fail (-1) (PF_UnfixPage st1 pageNum false).2
        | .ok v => .ok v (PF_UnfixPage st1 pageNum false).2

/-- The function `SP_DeleteRecord`. -/
def SP_DeleteRecord (st : PFState) (recId : Nat) : SPRet Unit :=
  match decode_recId recId with
  | (pageNum, slotIndex) =>
    match PF_GetThisPage st pageNum with
    | (rc, st1) =>
      if rc ≠ PFE_OK then .fail (-1) st1
      else
        match SP_DeleteRecord_page (st1.page pageNum) slotIndex with
        | .undef => .undef
        | .fail => .fail (-1) (PF_UnfixPage st1 pageNum false).2
        | .ok p =>
          match PF_UnfixPage (st1.setPage pageNum p) pageNum true with
          | (rc2, st2) => if rc2 ≠ PFE_OK then .fail (-1) st2 else .ok () st2

/-- The function `SP_CompactPage`; `mallocOk` tells whether `malloc` of the
scratch copy succeeds. -/
def SP_CompactPage (st : PFState) (pageNum : Nat) (mallocOk : Bool) : SPRet Unit :=
  match PF_GetThisPage st pageNum with
  | (rc, st1) =>
    if rc ≠ PFE_OK then .fail (-1) st1
    else if ¬ mallocOk then .fail (-1) (PF_UnfixPage st1 pageNum false).2
    else
      match SP_CompactPage_page (st1.page pageNum) with
      | .undef => .undef
      | .fail => .fail (-1) st1
      | .ok p =>
        match PF_UnfixPage (st1.setPage pageNum p) pageNum true with
        | (rc2, st2) => if rc2 ≠ PFE_OK then .fail (-1) st2 else .ok () st2

/-- The inner loop of `SP_ComputeSpaceUtilization`: the sum `used` of the
lengths of the live slots, started at slot `i` with `k` slots left. -/
def sp_used_loop (p : Page) : Nat → Nat → Int → Option Int
  | _, 0, used => some used
  | i, k + 1, used =>
    if ¬ slotInPage i then none
    else
      let s := readSlot p i
      if s.offset = -1 then sp_used_loop p (i + 1) k used
      else sp_used_loop p (i + 1) k (used + s.length)

/-- The loop `while (1)` of `SP_ComputeSpaceUtilization`, entered with
`pageNum` pinned; yields `pages` and `total_bytes` at the `break`. -/
def sp_util_loop : Nat → PFState → Nat → Int → Int → SPRet (Int × Int)
  | 0, _, _, _, _ => .undef
  | fuel + 1, st, pageNum, pages, total_bytes =>
    let pagebuf := st.page pageNum
    let hdr := sp_read_header pagebuf
    match sp_used_loop pagebuf 0 hdr.slot_count 0 with
    | none => .undef
    | some used =>
      match PF_UnfixPage st pageNum false with
      | (rc, st1) =>
        if rc ≠ PFE_OK then .fail 0 st1
        else
          match PF_GetNextPage st1 pageNum with
          | (rc2, nextPage, st2) =>
            if rc2 = PFE_EOF then .ok (pages + 1, total_bytes + used) st2
            else if rc2 ≠ PFE_OK then .fail 0 st2
            else sp_util_loop fuel st2 nextPage (pages + 1) (total_bytes + used)

/-- The integer nearest to `a / b`, the even one of the two when `a / b` lies
half way between two integers. -/
def roundHalfEven (a b : Nat) : Nat :=
  if 2 * (a % b) < b then a / b
  else if b < 2 * (a % b) then a / b + 1
  else if a / b % 2 = 0 then a / b else a / b + 1

/-- The number of binary digits of `n`, counted in at most `fuel` halvings;
`n` halvings are enough. -/
def bitLen : Nat → Nat → Nat
  | 0, _ => 0
  | fuel + 1, n => if n = 0 then 0 else bitLen fuel (n / 2) + 1

/-- The binary exponent of `a / b` for positive `a` and `b`: the integer `e`
with `2^e ≤ a / b < 2^(e+1)`. -/
def floorLog2 (a b : Nat) : Int :=
  if b * 2 ^ ((bitLen a a : Int) - (bitLen b b : Int)).toNat ≤
      a * 2 ^ ((bitLen b b : Int) - (bitLen a a : Int)).toNat then
    (bitLen a a : Int) - (bitLen b b : Int)
  else (bitLen a a : Int) - (bitLen b b : Int) - 1

/-- The value of type `double` that a conversion or an arithmetic operation
with the exact result `x` yields on the host (IEEE 754 binary64, rounding to
nearest, ties to the even significand): a significand of 53 binary digits
scaled by a power of two, of exponent at least -1074.  The result `m / 2^s`
has `2^52 ≤ m ≤ 2^53` unless `s` is held at 1074.  Results of magnitude
`2^1024` or more, which the host rounds to infinity, do not arise from the
integers a file can hold. -/
def roundDouble (x : ℚ) : ℚ :=
  if x = 0 then 0
  else
    let a := x.num.natAbs
    let b := x.den
    let s : Int := min (52 - floorLog2 a b) 1074
    let m := roundHalfEven (a * 2 ^ s.toNat) (b * 2 ^ (-s).toNat)
    let v : ℚ := (m : ℚ) * 2 ^ (-s).toNat / 2 ^ s.toNat
    if x < 0 then -v else v

/-- Line 411 of `SP_ComputeSpaceUtilization`: the value of
`((double)total_bytes) / ((double)pages * (double)PF_PAGE_SIZE) * 100.0`,
each conversion and each operation rounded to `double`. -/
def sp_util_value (pages total_bytes : Int) : ℚ :=
  roundDouble
    (roundDouble
        (roundDouble (total_bytes : ℚ) /
          roundDouble (roundDouble (pages : ℚ) * roundDouble ((PF_PAGE_SIZE : Nat) : ℚ))) *
      100)

/-- The function `SP_ComputeSpaceUtilization`; yields the values stored
through `out_pages` and `out_total_bytes` and the returned utilization, a
value of type `double`.  An error exit returns `0.0` and stores nothing. -/
def SP_ComputeSpaceUtilization (st : PFState) : SPRet (Int × Int × ℚ) :=
  match PF_GetFirstPage st with
  | (rc, pageNum, st1) =>
    if rc = PFE_EOF then .ok (0, 0, 0) st1
    else if rc ≠ PFE_OK then .fail 0 st1
    else
      match sp_util_loop st1.numpages st1 pageNum 0 0 with
      | .undef => .undef
      | .fail r st2 => .fail r st2
      | .ok (pages, total_bytes) st2 =>
        let util : ℚ := if pages > 0 then sp_util_value pages total_bytes else 0
        .ok (pages, total_bytes, util) st2

/-! ## The slotted-page invariants of the data model -/

/-- The extents `[offset, offset + length)` of slots `i` and `j` do not
overlap. -/
def SlotsDisjoint (p : Page) (i j : Nat) : Prop :=
  (readSlot p i).offset + (readSlot p i).length ≤ (readSlot p j).offset ∨
  (readSlot p j).offset + (readSlot p j).length ≤ (readSlot p i).offset

instance (p : Page) (i j : Nat) : Decidable (SlotsDisjoint p i j) := by
  unfold SlotsDisjoint; infer_instance

/-- The extent of slot `i` lies inside `[free_offset, PF_PAGE_SIZE)`. -/
def SlotInArea (p : Page) (i : Nat) : Prop :=
  0 ≤ (readSlot p i).length ∧
  ((sp_read_header p).free_offset : Int) ≤ (readSlot p i).offset ∧
  (readSlot p i).offset + (readSlot p i).length ≤ (PF_PAGE_SIZE : Int)

instance (p : Page) (i : Nat) : Decidable (SlotInArea p i) := by
  unfold SlotInArea; infer_instance

/-- Layout invariant of a slotted page: `free_offset` lies between the end of
the slot directory and `PF_PAGE_SIZE`, every slot that is not a tombstone
has its extent inside `[free_offset, PF_PAGE_SIZE)`, and the extents of two
such slots do not overlap. -/
def Layout (p : Page) : Prop :=
  SP_HEADER_SIZE + (sp_read_header p).slot_count * SP_SLOT_SIZE ≤ (sp_read_header p).free_offset ∧
  (sp_read_header p).free_offset ≤ PF_PAGE_SIZE ∧
  (∀ i, i < (sp_read_header p).slot_count → (readSlot p i).offset ≠ -1 → SlotInArea p i) ∧
  (∀ i, i < (sp_read_header p).slot_count → ∀ j, j < (sp_read_header p).slot_count → i ≠ j →
    (readSlot p i).offset ≠ -1 → (readSlot p j).offset ≠ -1 → SlotsDisjoint p i j)

set_option synthInstance.maxSize 4000 in
instance (p : Page) : Decidable (Layout p) := by unfold Layout; infer_instance

/-- Space accounting of a slotted page:
`free_space == free_offset - header_size - slot_count * slot_size`. -/
def SpaceExact (p : Page) : Prop :=
  ((sp_read_header p).free_space : Int) =
    ((sp_read_header p).free_offset : Int) - SP_HEADER_SIZE -
      (sp_read_header p).slot_count * SP_SLOT_SIZE

instance (p : Page) : Decidable (SpaceExact p) := by unfold SpaceExact; infer_instance

/-- Sum of the lengths of the slots below `i` that are not tombstones. -/
def liveBytes (p : Page) : Nat → Int
  | 0 => 0
  | i + 1 => liveBytes p i + (if (readSlot p i).offset = -1 then 0 else (readSlot p i).length)

/-- The contiguous free bytes of a page: the gap between the end of the slot
directory and `free_offset`. -/
def gapBytes (p : Page) : Int :=
  ((sp_read_header p).free_offset : Int) - SP_HEADER_SIZE -
    (sp_read_header p).slot_count * SP_SLOT_SIZE

/-- The bytes an insertion of `len` record bytes takes from the page: `len`
if a tombstone slot can be reused, `len + slot_size` if a slot is appended. -/
def neededBytes (p : Page) (len : Int) : Int :=
  len + (if ∃ i, i < (sp_read_header p).slot_count ∧ (readSlot p i).offset = -1 then 0
    else (SP_SLOT_SIZE : Int))

/-- The effect of inserting the first `len` bytes of `data` into page `p`,
giving page `p'` with the record in slot `idx`: the slot is the lowest
tombstone, or a new slot when there is none; the record is placed right below
the old `free_offset`; the header is brought up to date; nothing else that is
in use changes. -/
structure InsertEffect (p : Page) (data : List Byte) (len : Int) (p' : Page) (idx : Nat) :
    Prop where
  slot_choice :
    ((readSlot p idx).offset = -1 ∧ idx < (sp_read_header p).slot_count ∧
      (∀ m, m < idx → (readSlot p m).offset ≠ -1) ∧
      (sp_read_header p').slot_count = (sp_read_header p).slot_count) ∨
    ((∀ m, m < (sp_read_header p).slot_count → (readSlot p m).offset ≠ -1) ∧
      idx = (sp_read_header p).slot_count ∧
      (sp_read_header p').slot_count = (sp_read_header p).slot_count + 1)
  free_offset_eq :
    ((sp_read_header p').free_offset : Int) = ((sp_read_header p).free_offset : Int) - len
  free_space_eq :
    ((sp_read_header p').free_space : Int) =
      ((sp_read_header p').free_offset : Int) -
        (SP_HEADER_SIZE + (sp_read_header p').slot_count * SP_SLOT_SIZE : Nat)
  magic_eq : (sp_read_header p').magic = (sp_read_header p).magic
  slot_eq :
    readSlot p' idx = { offset := ((sp_read_header p).free_offset : Int) - len, length := len }
  slot_other :
    ∀ j, j < (sp_read_header p').slot_count → j ≠ idx → readSlot p' j = readSlot p j
  bytes_eq :
    readBytes p' ((sp_read_header p).free_offset - len.toNat) len.toNat = data.take len.toNat
  area_eq : ∀ i, (sp_read_header p).free_offset ≤ i → p' i = p i

/-- The offsets covered by the extents of the slots below `i` that are not
tombstones. -/
def liveArea (p : Page) : Nat → Finset Nat
  | 0 => ∅
  | i + 1 =>
    liveArea p i ∪
      (if (readSlot p i).offset = -1 then ∅
       else Finset.Ico (readSlot p i).offset.toNat
         ((readSlot p i).offset + (readSlot p i).length).toNat)

/-- The state of the compaction loop before slot `i` is visited: the header
bytes, the tombstones and the slots from `i` on are as in the snapshot `p`;
every live slot below `i` has been moved to its new place, with its bytes. -/
structure CompactInv (p : Page) (i : Nat) (q : Page) : Prop where
  header : ∀ x, x < 12 → q x = p x
  untouched : ∀ j, j < (sp_read_header p).slot_count → (i ≤ j ∨ (readSlot p j).offset = -1) →
    readSlot q j = readSlot p j
  moved : ∀ j, j < i → (readSlot p j).offset ≠ -1 →
    readSlot q j = { offset := 4096 - liveBytes p (j + 1), length := (readSlot p j).length }
  bytes : ∀ j, j < i → (readSlot p j).offset ≠ -1 →
    ∀ t : Nat, (t : Int) < (readSlot p j).length →
      q ((4096 - liveBytes p (j + 1)).toNat + t) = p ((readSlot p j).offset.toNat + t)

/-- A page whose frame holds only zero bytes. -/
def zeroPage : Page := fun _ => 0

/-- The page can take a record of `len` bytes, in the words of the spec:
`free_space ≥ len` if it has a tombstone slot, `free_space ≥ len + slot_size`
if it has none. -/
def PageFits (p : Page) (len : Int) : Prop :=
  ((∃ i, i < (sp_read_header p).slot_count ∧ (readSlot p i).offset = -1) ∧
    ((sp_read_header p).free_space : Int) ≥ len) ∨
  ((∀ i, i < (sp_read_header p).slot_count → (readSlot p i).offset ≠ -1) ∧
    ((sp_read_header p).free_space : Int) ≥ len + SP_SLOT_SIZE)

instance (p : Page) (len : Int) : Decidable (PageFits p len) := by
  unfold PageFits; infer_instance

/-- First-fit choice of page `q` for a record of `len` bytes among the pages
`start, start + 1, ...` of the file `st`, leaving the state `st1`: `q` is the
first of those pages that can take the record, and the file is unchanged; or
none of them can, `q` is a new page appended to the file and initialised by
`sp_init_page`, and the other pages are unchanged. -/
def FirstFit (st : PFState) (len : Int) (start q : Nat) (st1 : PFState) : Prop :=
  (q < st.numpages ∧ start ≤ q ∧ PageFits (st.page q) len ∧
    (∀ m, start ≤ m → m < q → ¬ PageFits (st.page m) len) ∧
    st1.numpages = st.numpages ∧ st1.page = st.page) ∨
  (q = st.numpages ∧ (∀ m, start ≤ m → m < st.numpages → ¬ PageFits (st.page m) len) ∧
    st1.numpages = st.numpages + 1 ∧
    st1.page = fun m => if m = st.numpages then sp_init_page (st.junk st.numpages) else st.page m)

/-- A file of one page, with no failure pending, whose page satisfies the
layout invariant and the space accounting, has `n` slots, none of them a
tombstone, `free_offset = f`, and `T` bytes of records. -/
def OnePage (st : PFState) (n f : Nat) (T : Int) : Prop :=
  st.faults = [] ∧ st.numpages = 1 ∧ Layout (st.page 0) ∧ SpaceExact (st.page 0) ∧
  (sp_read_header (st.page 0)).slot_count = n ∧ (sp_read_header (st.page 0)).free_offset = f ∧
  (∀ i, i < n → (readSlot (st.page 0) i).offset ≠ -1) ∧ liveBytes (st.page 0) n = T

/-- The state a call leaves, `d` when the call has no defined result. -/
def SPRet.state {α : Type} (r : SPRet α) (d : PFState) : PFState :=
  match r with
  | .ok _ st => st
  | .fail _ st => st
  | .undef => d

/-- The output of a successful call, `d` otherwise. -/
def SPRet.val {α : Type} (r : SPRet α) (d : α) : α :=
  match r with
  | .ok v _ => v
  | _ => d

/-- A new file whose frames hold zero bytes, with no failure injected. -/
def file0 : PFState := PFState.fresh (fun _ => zeroPage) []

/-- The file `file0` after the record `[1, 2, 3]` has been inserted. -/
def file1 : PFState := (SP_InsertRecord file0 [1, 2, 3] 3).state file0

/-- The file `file1` after the record `[4, 5]` has been inserted as well. -/
def file2 : PFState := (SP_InsertRecord file1 [4, 5] 2).state file0

/-- The file `file2` after the record `[1, 2, 3]` (record id 0) has been
deleted. -/
def file3 : PFState := (SP_DeleteRecord file2 0).state file0

/-- The file `file3` after its page 0 has been compacted. -/
def file4 : PFState := (SP_CompactPage file3 0 true).state file0

/-- The state in which `SP_InsertRecord` into `file0` has found its page:
page 0, new, initialised and pinned. -/
def file0pinned : PFState := (sp_find_page_for_insert file0 3).state file0

/-- The state in which `SP_InsertRecord` of 2 bytes into `file3` has found
its page: page 0, pinned. -/
def file3pinned : PFState := (sp_find_page_for_insert file3 2).state file0

/-- Whether a call returned 0. -/
def SPRet.isOk {α : Type} (r : SPRet α) : Bool :=
  match r with
  | .ok _ _ => true
  | _ => false

/-- A new file after a record of 4000 bytes `0xAA` has been inserted. -/
def fileA : PFState := (SP_InsertRecord file0 (List.replicate 4000 170) 4000).state file0

/-- The file `fileA` after that record (record id 0) has been deleted. -/
def fileB : PFState := (SP_DeleteRecord fileA 0).state file0

/-- The file `fileB` after a record of 90 bytes `0xAA` has been inserted. -/
def fileC : PFState := (SP_InsertRecord fileB (List.replicate 90 170) 90).state file0

/-- Scenario 4 with records of zero bytes: a new file after records of
lengths 10, 20, 4000 and 30 have been inserted, in that order. -/
def scen1 : PFState := (SP_InsertRecord file0 (List.replicate 10 0) 10).state file0

/-- Scenario 4, after the second insertion. -/
def scen2 : PFState := (SP_InsertRecord scen1 (List.replicate 20 0) 20).state file0

/-- Scenario 4, after the third insertion. -/
def scen3 : PFState := (SP_InsertRecord scen2 (List.replicate 4000 0) 4000).state file0

/-- Scenario 4, after the fourth insertion. -/
def scen4 : PFState := (SP_InsertRecord scen3 (List.replicate 30 0) 30).state file0

/-! ## The pin discipline, read off the log of paged-file calls -/

/-- The file does not pin a page it does not have. -/
def NoPinBeyond (st : PFState) : Prop := ∀ n, st.numpages ≤ n → st.pins n = 0

/-- One call of the log replayed on the pins an operation holds.  The
replayed state is the number of pages of the file and the page the operation
holds pinned, if any.  A call that failed changes nothing; a successful
`PF_UnfixPage` must release the page held; a successful call that pins a page
must find no page held, and the page it pins becomes the page held.  `none`
when the call breaks that discipline. -/
def pinStep (s : Nat × Option Nat) (x : PFCall × Int) : Option (Nat × Option Nat) :=
  if x.2 ≠ PFE_OK then some s
  else
    match x.1, s.2 with
    | .UnfixPage p _, some q => if p = q then some (s.1, none) else none
    | .UnfixPage _ _, none => none
    | .GetFirstPage, none => some (s.1, some 0)
    | .GetNextPage k, none => some (s.1, some (k + 1))
    | .GetThisPage k, none => some (s.1, some k)
    | .AllocPage, none => some (s.1 + 1, some s.1)
    | _, some _ => none

/-- The calls of a log, oldest first, replayed by `pinStep`. -/
def pinRun (s : Nat × Option Nat) : List (PFCall × Int) → Option (Nat × Option Nat)
  | [] => some s
  | x :: xs =>
    match pinStep s x with
    | none => none
    | some s' => pinRun s' xs

/-- The paged-file calls `seg` (most recent first) take the file from `st`,
where the operation holds the page `h`, to `st'`, where it holds `h'`: they
are what the log has gained, their replay never holds two pages, and, in a
file that pins no page it does not have, the pin counts have changed by the
pins the operation holds. -/
structure PinExt (st : PFState) (h : Option Nat) (seg : List (PFCall × Int))
    (st' : PFState) (h' : Option Nat) : Prop where
  trace : st'.trace = seg ++ st.trace
  run : pinRun (st.numpages, h) seg.reverse = some (st'.numpages, h')
  pins : NoPinBeyond st → ∀ n, st'.pins n + (if h = some n then 1 else 0) =
    st.pins n + (if h' = some n then 1 else 0)
  beyond : NoPinBeyond st → NoPinBeyond st'

/-- Some `PF_UnfixPage` call of the log failed. -/
def UnfixFailed (seg : List (PFCall × Int)) : Prop :=
  ∃ p d rc, (PFCall.UnfixPage p d, rc) ∈ seg ∧ rc ≠ PFE_OK

/-- The call is `PF_GetFirstPage` or `PF_GetNextPage`, the two calls that
iterate over the pages of a file. -/
def PFCall.iterates : PFCall → Bool
  | .GetFirstPage => true
  | .GetNextPage _ => true
  | _ => false

/-- The call is `PF_UnfixPage`. -/
def PFCall.isUnfix : PFCall → Bool
  | .UnfixPage _ _ => true
  | _ => false

/-- A logged call that did not fail: it returned `PFE_OK`, or it is an
iteration call that returned `PFE_EOF`. -/
def Benign (x : PFCall × Int) : Prop :=
  x.2 = PFE_OK ∨ (x.2 = PFE_EOF ∧ x.1.iterates = true)

instance (x : PFCall × Int) : Decidable (Benign x) := by unfold Benign; infer_instance

/-- Sum, over the pages below `n` of the file, of the lengths of the slots
that are not tombstones. -/
def fileLiveBytes (st : PFState) : Nat → Int
  | 0 => 0
  | n + 1 => fileLiveBytes st n + liveBytes (st.page n) (sp_read_header (st.page n)).slot_count

/-- Every call of the log is benign. -/
def AllBenign (seg : List (PFCall × Int)) : Prop := ∀ x, x ∈ seg → Benign x

/-- What the log tells about the search for a page by
`sp_find_page_for_insert`, entered holding the page `h`: when the search
returns a page, that page is the one page held and no call has failed; when
it fails it returns -1 and holds no page unless a `PF_UnfixPage` failed. -/
def FindTrace (s : PFState) (h : Option Nat) (r : SPRet Nat) : Prop :=
  (∀ pn s', r = .ok pn s' → ∃ seg, PinExt s h seg s' (some pn) ∧ AllBenign seg) ∧
  (∀ rc s', r = .fail rc s' → rc = -1 ∧
    ∃ seg h', PinExt s h seg s' h' ∧ (h' = none ∨ UnfixFailed seg))

/-- What the log tells about a slotted-page operation that returned: the
operation never held two pages, at its return it holds no page unless a
`PF_UnfixPage` failed, an error exit returns `failCode`, and when the
operation returned 0 no call has failed (`lax`: but for `PF_UnfixPage`
calls, whose result the operation does not look at). -/
def OpTrace {α : Type} (st : PFState) (r : SPRet α) (failCode : Int) (lax : Bool) : Prop :=
  (∀ v st', r = .ok v st' →
    ∃ seg h', PinExt st none seg st' h' ∧ (h' = none ∨ UnfixFailed seg) ∧
      ∀ x, x ∈ seg → Benign x ∨ (lax = true ∧ x.1.isUnfix = true)) ∧
  (∀ rc st', r = .fail rc st' → rc = failCode ∧
    ∃ seg h', PinExt st none seg st' h' ∧ (h' = none ∨ UnfixFailed seg))

/-- The state a call leaves when it returns. -/
def SPRet.final {α : Type} : SPRet α → Option PFState
  | .ok _ st => some st
  | .fail _ st => some st
  | .undef => none

/-- Pin discipline of an operation that took the file from `st` to `st'`:
the paged-file calls it made, replayed in order from a state in which it
holds no page, never pin a page while it holds one and release only the page
it holds, so that it holds at most one pinned page at every step; and when
every `PF_UnfixPage` it called succeeded it holds no page at its return, and
the pin count of every page is what it was before the operation. -/
def PinDiscipline (st st' : PFState) : Prop :=
  ∃ seg h', PinExt st none seg st' h' ∧
    ((∀ p d rc, (PFCall.UnfixPage p d, rc) ∈ seg → rc = PFE_OK) →
      h' = none ∧ (NoPinBeyond st → ∀ n, st'.pins n = st.pins n))

/-- Error code `PFE_NOBUF` of `pf.h`: no buffer space. -/
def PFE_NOBUF : Int := -2

/-- The file `file2` at a moment when the buffer pool has no frame to give:
the next paged-file call fails with `PFE_NOBUF`. -/
def file2nobuf : PFState := { file2 with faults := [PFE_NOBUF] }

/-! ## The scan of a file -/

/-- The struct `SP_Scan` of one file.  `pageBuf` is the frame of page
`curPageNum`: it is set together with `curPageNum` by the call that pins the
page. -/
structure SP_Scan where
  curPageNum : Int
  slotIndex : Nat
  initialized : Bool
deriving DecidableEq

/-- The function `SP_ScanInit`: the scan it sets up. -/
def SP_ScanInit : SP_Scan := { curPageNum := -1, slotIndex := 0, initialized := false }

/-- Result of `SP_ScanNext`. -/
inductive ScanRet where
  /-- The call returns 0 with the buffer stored through `outBuf`, the length
  stored through `outLen` and the record id stored through `outRecId`. -/
  | ok (buf : List Byte) (len : Int) (recId : Nat) (scan : SP_Scan) (st : PFState)
  /-- The call returns -1. -/
  | fail (scan : SP_Scan) (st : PFState)
  /-- The call accesses memory outside a page buffer, or the iteration bound
  of the embedding is used up. -/
  | undef

/-- The loop `for (; scan->slotIndex < hdr.slot_count; scan->slotIndex++)` of
`SP_ScanNext` up to its `return`, started at index `i` with `k` slots left:
`found i` when slot `i` is the first that is not a tombstone, `absent` when
the loop runs to `slot_count`. -/
def sp_scan_live (p : Page) : Nat → Nat → Scan
  | _, 0 => .absent
  | i, k + 1 =>
    if ¬ slotInPage i then .oob
    else if (readSlot p i).offset = -1 then sp_scan_live p (i + 1) k
    else .found i

/-- The loop `while (1)` of `SP_ScanNext`; `fuel` bounds the number of
iterations, `mallocOk` tells whether `malloc` of the output buffer succeeds.
The loop reads the frame `scan->pageBuf`, which belongs to page
`scan->curPageNum`; a scan whose `curPageNum` is negative has no such
frame. -/
def sp_scan_loop (mallocOk : Bool) : Nat → PFState → SP_Scan → ScanRet
  | 0, _, _ => .undef
  | fuel + 1, st, scan =>
    if scan.curPageNum < 0 then .undef
    else
      let pageBuf := st.page scan.curPageNum.toNat
      let hdr := sp_read_header pageBuf
      match sp_scan_live pageBuf scan.slotIndex (hdr.slot_count - scan.slotIndex) with
      | .oob => .undef
      | .found i =>
        let s := readSlot pageBuf i
        let len := s.length
        if ¬ mallocOk then .fail { scan with slotIndex := i } st
        else if ¬ inPage s.offset len then .undef
        else
          .ok (readBytes pageBuf s.offset.toNat len.toNat) len
            (mkRecId scan.curPageNum.toNat i) { scan with slotIndex := i + 1 } st
      | .absent =>
        let scan1 := { scan with slotIndex := max scan.slotIndex hdr.slot_count }
        let prevPage := scan.curPageNum.toNat
        match PF_UnfixPage st prevPage false with
        | (rc, st1) =>
          if rc ≠ PFE_OK then .fail scan1 st1
          else
            match PF_GetNextPage st1 prevPage with
            | (rc2, nextPage, st2) =>
              if rc2 = PFE_EOF then .fail { scan1 with initialized := false } st2
              else if rc2 ≠ PFE_OK then .fail scan1 st2
              else
                sp_scan_loop mallocOk fuel st2
                  { scan1 with curPageNum := nextPage, slotIndex := 0 }

/-- The function `SP_ScanNext`.  The loop moves to the next page of the file
in each iteration, so `numpages + 1` iterations are enough. -/
def SP_ScanNext (st : PFState) (scan : SP_Scan) (mallocOk : Bool) : ScanRet :=
  if ¬ scan.initialized then
    match PF_GetFirstPage st with
    | (rc, pageNum, st1) =>
      if rc = PFE_EOF then .fail scan st1
      else if rc ≠ PFE_OK then .fail scan st1
      else
        sp_scan_loop mallocOk (st1.numpages + 1) st1
          { curPageNum := pageNum, slotIndex := 0, initialized := true }
  else sp_scan_loop mallocOk (st.numpages + 1) st scan

/-- The function `SP_ScanClose`; it returns 0. -/
def SP_ScanClose (st : PFState) (scan : SP_Scan) : SP_Scan × PFState :=
  ({ scan with initialized := false },
    if scan.initialized = true ∧ scan.curPageNum ≥ 0 then
      (PF_UnfixPage st scan.curPageNum.toNat false).2
    else st)

/-- The records emitted by calls of `SP_ScanNext`, repeated until the first
return of -1, with `malloc` succeeding in each call; `fuel` bounds the number
of calls.  Each record is the record id, the length and the bytes of the
buffer. -/
def scanAll : Nat → PFState → SP_Scan → Option (List (Nat × Int × List Byte) × SP_Scan × PFState)
  | 0, _, _ => none
  | fuel + 1, st, scan =>
    match SP_ScanNext st scan true with
    | .undef => none
    | .fail scan' st' => some ([], scan', st')
    | .ok buf len recId scan' st' =>
      match scanAll fuel st' scan' with
      | none => none
      | some (l, sc, s) => some ((recId, len, buf) :: l, sc, s)

/-- The slots of page number `pn` with contents `p` that are not tombstones,
from slot `i` on with `k` slots left, in ascending order, each with its page
number. -/
def liveSlotsFrom (p : Page) (pn : Nat) : Nat → Nat → List (Nat × Nat)
  | _, 0 => []
  | i, k + 1 =>
    if (readSlot p i).offset = -1 then liveSlotsFrom p pn (i + 1) k
    else (pn, i) :: liveSlotsFrom p pn (i + 1) k

/-- The slots of the file that are not tombstones, on the `n` pages from
page `q` on, page by page. -/
def fileLiveSlots (st : PFState) : Nat → Nat → List (Nat × Nat)
  | _, 0 => []
  | q, n + 1 =>
    liveSlotsFrom (st.page q) q 0 (sp_read_header (st.page q)).slot_count ++
      fileLiveSlots st (q + 1) n

/-- The record in slot `x.2` of page `x.1`: its record id, its length and its
bytes. -/
def recordAt (st : PFState) (x : Nat × Nat) : Nat × Int × List Byte :=
  (mkRecId x.1 x.2, (readSlot (st.page x.1) x.2).length,
    readBytes (st.page x.1) (readSlot (st.page x.1) x.2).offset.toNat
      (readSlot (st.page x.1) x.2).length.toNat)

/-- The order of slots by page number, then slot index. -/
def slotLt (a b : Nat × Nat) : Prop := a.1 < b.1 ∨ (a.1 = b.1 ∧ a.2 < b.2)

/-- The slot directory of the page lies inside the page buffer, and so does
the extent of every slot that is not a tombstone. -/
def SlotsReadable (p : Page) : Prop :=
  ∀ i, i < (sp_read_header p).slot_count →
    slotInPage i ∧ ((readSlot p i).offset ≠ -1 → inPage (readSlot p i).offset (readSlot p i).length)

/-- The state a call of `SP_ScanNext` leaves, `d` when the call has no
defined result. -/
def ScanRet.state (r : ScanRet) (d : PFState) : PFState :=
  match r with
  | .ok _ _ _ _ st => st
  | .fail _ st => st
  | .undef => d

/-- The scan a call of `SP_ScanNext` leaves. -/
def ScanRet.scan (r : ScanRet) : SP_Scan :=
  match r with
  | .ok _ _ _ scan _ => scan
  | .fail scan _ => scan
  | .undef => SP_ScanInit

/-- The record id a call of `SP_ScanNext` emits, if it returns 0. -/
def ScanRet.recId (r : ScanRet) : Option Nat :=
  match r with
  | .ok _ _ recId _ _ => some recId
  | _ => none

/-- Whether a call of `SP_ScanNext` returned -1. -/
def ScanRet.isFail (r : ScanRet) : Bool :=
  match r with
  | .fail _ _ => true
  | _ => false

/-- Error code `PFE_INCOMPLETEREAD` of `pf.h`: incomplete read of a page from
the file. -/
def PFE_INCOMPLETEREAD : Int := -6

/-- The file `fileA` after a second record of 4000 bytes has been inserted:
two pages, one record on each. -/
def fileAA : PFState := (SP_InsertRecord fileA (List.replicate 4000 187) 4000).state file0

/-- The file `fileAA` at a moment when the third paged-file call to come
fails with `PFE_INCOMPLETEREAD`. -/
def scanFile : PFState := { fileAA with faults := [PFE_OK, PFE_OK, PFE_INCOMPLETEREAD] }

/-- A scan of `scanFile`: the first call of `SP_ScanNext`. -/
def scanStep1 : ScanRet := SP_ScanNext scanFile SP_ScanInit true

/-- A scan of `scanFile`: the second call of `SP_ScanNext`. -/
def scanStep2 : ScanRet := SP_ScanNext (scanStep1.state file0) scanStep1.scan true

/-- A scan of `scanFile`: `SP_ScanClose` after the second call. -/
def scanClosed : SP_Scan × PFState := SP_ScanClose (scanStep2.state file0) scanStep2.scan

/-- The slots that are not tombstones from slot `i` of page `q` on: the rest
of page `q`, then the pages after it. -/
def scanRest (st : PFState) (q i : Nat) : List (Nat × Nat) :=
  liveSlotsFrom (st.page q) q i ((sp_read_header (st.page q)).slot_count - i) ++
    fileLiveSlots st (q + 1) (st.numpages - (q + 1))

instance (p : Page) : Decidable (SlotsReadable p) := by unfold SlotsReadable; infer_instance

/-! ## The hash index of the buffer pool -/

/-- Number of buckets `PF_HASH_TBL_SIZE` of `pftypes.h`. -/
def PF_HASH_TBL_SIZE : Nat := 20

/-- The macro `PFhash(fd,page)` of `pftypes.h`, on a file descriptor and a
page number, neither of them negative. -/
def PFhash (fd page : Nat) : Nat := (fd + page) % PF_HASH_TBL_SIZE

/-- Error code `PFE_HASHNOTFOUND` of `pf.h`. -/
def PFE_HASHNOTFOUND : Int := -18

/-- Error code `PFE_HASHPAGEEXIST` of `pf.h`. -/
def PFE_HASHPAGEEXIST : Int := -19

/-- The struct `PFhash_entry` of `pftypes.h`, without its chain pointers:
the key `(fd, page)` and the buffer page `bpage`, a pointer, by its
address. -/
structure PFhash_entry where
  fd : Nat
  page : Nat
  bpage : Nat
deriving DecidableEq

/-- The key of a hash table entry. -/
def PFhash_entry.key (e : PFhash_entry) : Nat × Nat := (e.fd, e.page)

/-- The hash table: the chain of entries of each bucket, the head first. -/
abbrev PFhashTbl := Nat → List PFhash_entry

/-- Modelled from the spec: the walk along the chain of a bucket that looks
for the entry of `(fd, page)` (`PFhashFind`, whose definition is missing);
the buffer page of the first such entry. -/
def chainFind : List PFhash_entry → Nat → Nat → Option Nat
  | [], _, _ => none
  | e :: es, fd, page =>
    if e.fd = fd ∧ e.page = page then some e.bpage else chainFind es fd page

/-- Modelled from the spec: the chain of a bucket with the first entry of
`(fd, page)` unlinked (`PFhashDelete`, whose definition is missing). -/
def chainDelete : List PFhash_entry → Nat → Nat → List PFhash_entry
  | [], _, _ => []
  | e :: es, fd, page =>
    if e.fd = fd ∧ e.page = page then es else e :: chainDelete es fd page

/-- Modelled from the spec: `PFhashInit`, whose definition is missing (spec:
a fixed-bucket chained hash); every bucket is empty. -/
def PFhashInit : PFhashTbl := fun _ => []

/-- Modelled from the spec: `PFhashFind(fd, page)`, whose definition is
missing (spec: `find(fd,p)`, with the hash function
`(fd + page) mod TABLE_SIZE`); `none` is the `NULL` pointer, which no buffer
page is. -/
def PFhashFind (t : PFhashTbl) (fd page : Nat) : Option Nat :=
  chainFind (t (PFhash fd page)) fd page

/-- Modelled from the spec: `PFhashInsert(fd, page, bpage)`, whose definition
is missing (spec: `insert(fd,p,frame)` fails if already present); the new
entry becomes the head of the chain of its bucket. -/
def PFhashInsert (t : PFhashTbl) (fd page bpage : Nat) : Int × PFhashTbl :=
  if (PFhashFind t fd page).isSome then (PFE_HASHPAGEEXIST, t)
  else
    (PFE_OK, fun b =>
      if b = PFhash fd page then { fd := fd, page := page, bpage := bpage } :: t b else t b)

/-- Modelled from the spec: `PFhashDelete(fd, page)`, whose definition is
missing (spec: `delete(fd,p)` fails if absent). -/
def PFhashDelete (t : PFhashTbl) (fd page : Nat) : Int × PFhashTbl :=
  if (PFhashFind t fd page).isNone then (PFE_HASHNOTFOUND, t)
  else (PFE_OK, fun b => if b = PFhash fd page then chainDelete (t b) fd page else t b)

/-- The first two loops of `main` of `testhash.c`, over the keys in the order
of the loops: `i` from 1 to 10, and for each `i`, `j` from 1 to 10. -/
def testhash_keys : List (Nat × Nat) :=
  (List.range' 1 10).flatMap (fun i => (List.range' 1 10).map (fun j => (i, j)))

/-- The third loop of `main` of `testhash.c`, over the keys in the order of
the loop: `j` from 10 down to 1, and for each `j`, `i` from 10 down to 1. -/
def testhash_keys_rev : List (Nat × Nat) :=
  (List.range' 1 10).reverse.flatMap (fun j => (List.range' 1 10).reverse.map (fun i => (i, j)))

/-- The insertions of `main` of `testhash.c`: `PFhashInsert(i, j, i + j)` for
each key; `none` when one of them fails and the program exits. -/
def testhash_inserts : List (Nat × Nat) → PFhashTbl → Option PFhashTbl
  | [], t => some t
  | (i, j) :: ks, t =>
    match PFhashInsert t i j (i + j) with
    | (rc, t') => if rc ≠ PFE_OK then none else testhash_inserts ks t'

/-- The lookups of `main` of `testhash.c`: whether `PFhashFind(i, j)` is not
`NULL` for each key. -/
def testhash_finds (ks : List (Nat × Nat)) (t : PFhashTbl) : Bool :=
  ks.all (fun k => (PFhashFind t k.1 k.2).isSome)

/-- The deletions of `main` of `testhash.c`: `PFhashDelete(i, j)` for each
key; `none` when one of them fails and the program exits. -/
def testhash_deletes : List (Nat × Nat) → PFhashTbl → Option PFhashTbl
  | [], t => some t
  | (i, j) :: ks, t =>
    match PFhashDelete t i j with
    | (rc, t') => if rc ≠ PFE_OK then none else testhash_deletes ks t'

/-- The function `main` of `testhash.c`, without its printing: the exit
status, 1 when a hash table call does not give what the test expects. -/
def testhash_main : Nat :=
  match testhash_inserts testhash_keys PFhashInit with
  | none => 1
  | some t1 =>
    if ¬ testhash_finds testhash_keys t1 then 1
    else
      match testhash_deletes testhash_keys_rev t1 with
      | none => 1
      | some _ => 0

/-- A call of the hash table interface. -/
inductive HashOp where
  | insert (fd page bpage : Nat)
  | find (fd page : Nat)
  | delete (fd page : Nat)

/-- What a call of the hash table interface returns: a return code, or for
`PFhashFind` a buffer page (`none`: `NULL`). -/
inductive HashOut where
  | code (rc : Int)
  | frame (f : Option Nat)
deriving DecidableEq

/-- One call on the hash table. -/
def hashStep (t : PFhashTbl) : HashOp → HashOut × PFhashTbl
  | .insert fd page bpage => (.code (PFhashInsert t fd page bpage).1, (PFhashInsert t fd page bpage).2)
  | .find fd page => (.frame (PFhashFind t fd page), t)
  | .delete fd page => (.code (PFhashDelete t fd page).1, (PFhashDelete t fd page).2)

/-- A sequence of calls on the hash table: what each returns. -/
def hashRun (t : PFhashTbl) : List HashOp → List HashOut
  | [] => []
  | op :: ops => (hashStep t op).1 :: hashRun (hashStep t op).2 ops

/-- A finite map from keys `(fd, page)` to buffer pages, as a partial
function. -/
abbrev FrameMap := Nat × Nat → Option Nat

/-- One call on the finite map, in the words of the spec: an insertion
succeeds iff the key is absent, and binds the key; a lookup gives the buffer
page bound to the key, `NULL` when there is none; a deletion succeeds iff the
key is present, and removes that key only. -/
def mapStep (m : FrameMap) : HashOp → HashOut × FrameMap
  | .insert fd page bpage =>
    if (m (fd, page)).isSome then (.code PFE_HASHPAGEEXIST, m)
    else (.code PFE_OK, fun k => if k = (fd, page) then some bpage else m k)
  | .find fd page => (.frame (m (fd, page)), m)
  | .delete fd page =>
    if (m (fd, page)).isNone then (.code PFE_HASHNOTFOUND, m)
    else (.code PFE_OK, fun k => if k = (fd, page) then none else m k)

/-- A sequence of calls on the finite map: what each returns. -/
def mapRun (m : FrameMap) : List HashOp → List HashOut
  | [] => []
  | op :: ops => (mapStep m op).1 :: mapRun (mapStep m op).2 ops

/-- The hash table `t` holds the finite map `m`: a lookup in `t` gives what
`m` binds, and no chain has two entries of one key. -/
def HashRep (t : PFhashTbl) (m : FrameMap) : Prop :=
  (∀ fd page, PFhashFind t fd page = m (fd, page)) ∧
  ∀ b, ((t b).map PFhash_entry.key).Nodup

/-- The hash table after a sequence of calls, started from `PFhashInit`. -/
def hashTable : List HashOp → PFhashTbl
  | [] => PFhashInit
  | op :: ops => (hashStep (hashTable ops) op).2

/-! ## The hash macro on C integers -/

/-- Conversion of an integer value to `int`, 32 bits in two's complement. -/
def toInt32 (x : Int) : Int :=
  if x % 4294967296 < 2147483648 then x % 4294967296 else x % 4294967296 - 4294967296

/-- The macro `PFhash(fd,page)` of `pftypes.h` on `int` operands: the sum is an
`int`, and `%` is the remainder of C, which takes the sign of the dividend. -/
def PFhash_int (fd page : Int) : Int := Int.tmod (toInt32 (fd + page)) PF_HASH_TBL_SIZE

/-! ## The static fixed-length simulation of `test_sp.c` -/

/-- Function `simulate_static` of `test_sp.c`: `none` is the return value -1,
and `some (pages, wasted, util)` is the return value 0 with the three
outputs.  `per_page` and `pages` are `int`, the other quantities `long`, whose
arithmetic is taken without overflow; `/` is the truncating division of C.
The utilisation is the exact quotient, `none` where the C code divides zero by
zero. -/
def simulate_static (total_records max_rec_len : Int) : Option (Int × Int × Option ℚ) :=
  if max_rec_len ≤ 0 then none
  else
    let per_page := Int.tdiv PF_PAGE_SIZE max_rec_len
    if per_page ≤ 0 then none
    else
      let pages := toInt32 (Int.tdiv (total_records + per_page - 1) per_page)
      let total_capacity := pages * PF_PAGE_SIZE
      let used_bytes := total_records * max_rec_len
      let wasted := total_capacity - used_bytes
      let util : Option ℚ :=
        if total_capacity = 0 then none
        else some ((used_bytes : ℚ) / (total_capacity : ℚ) * 100)
      some (pages, wasted, util)

/-! ## The index build drivers of `amlayer` -/

/-- Modelled from the spec: the name of the file that
`AM_CreateIndex(fileName, indexNo, ...)` creates, `<base_name>.<index_no>`.
The function is declared in `am.h`; its definition is not among the sources. -/
def AM_indexFileName (fileName : String) (indexNo : Int) : String :=
  fileName ++ "." ++ toString indexNo

/-- The name `test_queries.c` opens: `sprintf(indexfname, "student.%d", indexNo)`. -/
def test_queries_indexfname (indexNo : Int) : String := "student." ++ toString indexNo

/-- The file an `AM_InsertEntry` call of a build driver works on: the file whose
`PF_OpenFile` gave the descriptor `amFd`, or whatever file descriptor 0 denotes
where the driver passes the constant 0. -/
inductive InsertTarget where
  | opened (fname : String)
  | fd0
  deriving DecidableEq

/-- What a build driver does to the index layer: the arguments of its
`AM_CreateIndex` call, and for each `AM_InsertEntry` call in order the file it
works on, the key and the record id. -/
structure BuildRun where
  /-- Arguments `fileName` and `indexNo` of the `AM_CreateIndex` call. -/
  created : String × Int
  /-- The `AM_InsertEntry` calls. -/
  inserts : List (InsertTarget × Int × Int)

/-- One round of the insert loop shared by the three drivers:
`amFd = PF_OpenFile(fname)`, then `AM_InsertEntry(0, ...)` if `amFd < 0` and
`AM_InsertEntry(amFd, ...)` followed by `PF_CloseFile(amFd)` otherwise.
`canOpen` tells which files `PF_OpenFile` can open. -/
def driver_insert (canOpen : String → Bool) (fname : String) (x : Int × Int) :
    InsertTarget × Int × Int :=
  if canOpen fname then (.opened fname, x.1, x.2) else (.fd0, x.1, x.2)

/-- Function `main` of `build_incremental.c`.  `arg` is `atoi(argv[2])` where
`argc > 2`; `recs` are the (key, record id) pairs the scan of the slotted file
delivers. -/
def build_incremental (arg : Option Int) (canOpen : String → Bool) (recs : List (Int × Int)) :
    BuildRun :=
  let indexNo := arg.getD 2
  { created := ("student", indexNo)
    inserts := recs.map (driver_insert canOpen "student.2") }

/-- Function `main` of `build_from_file.c`.  The first pass calls
`AM_InsertEntry(0, ...)` record by record and stops at the first call that
fails, the call number `firstFail` (counted from 0); the second pass is the
loop of the other drivers on the name `student.1`. -/
def build_from_file (arg : Option Int) (canOpen : String → Bool) (firstFail : Nat)
    (recs : List (Int × Int)) : BuildRun :=
  let indexNo := arg.getD 1
  { created := ("student", indexNo)
    inserts := (recs.take (firstFail + 1)).map (fun x => (InsertTarget.fd0, x.1, x.2))
      ++ recs.map (driver_insert canOpen "student.1") }

/-- Function `main` of `bulk_load_index.c`: the pairs are sorted by key
(`qsort` with `cmp_keyrec`; an insertion sort stands for it, the order of
equal keys being left open by `qsort`), the index is created, and the pairs are
inserted on the name `student.3`. -/
def bulk_load_index (arg : Option Int) (canOpen : String → Bool) (recs : List (Int × Int)) :
    BuildRun :=
  let indexNo := arg.getD 3
  { created := ("student", indexNo)
    inserts := (recs.insertionSort (fun a b => a.1 ≤ b.1)).map (driver_insert canOpen "student.3") }

/-- The driver inserts into the index it created: every `AM_InsertEntry` call
works on the file that was opened under the name of the created index. -/
def InsertsIntoCreated (r : BuildRun) : Prop :=
  ∀ x, x ∈ r.inserts → x.1 = .opened (AM_indexFileName r.created.1 r.created.2)

instance (r : BuildRun) : Decidable (InsertsIntoCreated r) := by
  unfold InsertsIntoCreated; infer_instance

/-! ## A page with two records, one deleted and one inserted -/

/-- The new file after `SP_InsertRecord` of 2000 bytes `0xAA`. -/
def fileD : PFState := (SP_InsertRecord file0 (List.replicate 2000 170) 2000).state file0

/-- The file `fileD` after `SP_InsertRecord` of 2000 bytes `0xBB`. -/
def fileE : PFState := (SP_InsertRecord fileD (List.replicate 2000 187) 2000).state file0

/-- The file `fileE` after `SP_DeleteRecord` of record id 0. -/
def fileF : PFState := (SP_DeleteRecord fileE 0).state file0

/-- The file `fileF` after `SP_InsertRecord` of 90 bytes `0x01`. -/
def fileG : PFState := (SP_InsertRecord fileF (List.replicate 90 1) 90).state file0

/-! ## Files built by inserts and compactions -/

/-- A call that builds a file: `SP_InsertRecord(fd, data, len, &rid)` or
`SP_CompactPage(fd, pageNum)`, the latter with the outcome of its `malloc`. -/
inductive BuildOp where
  | insert (data : List Byte) (len : Int)
  | compact (pageNum : Nat) (mallocOk : Bool)

/-- The file after one building call, whether it returns 0 or -1; `none` where
the call has no defined result. -/
def buildStep (st : PFState) : BuildOp → Option PFState
  | .insert data len => (SP_InsertRecord st data len).final
  | .compact pageNum mallocOk => (SP_CompactPage st pageNum mallocOk).final

/-- The file after a sequence of building calls. -/
def buildFile (st : PFState) : List BuildOp → Option PFState
  | [] => some st
  | op :: ops =>
    match buildStep st op with
    | none => none
    | some st' => buildFile st' ops

/-- Every page of the file satisfies the layout invariant and the space
accounting. -/
def PagesInv (st : PFState) : Prop :=
  ∀ pn, pn < st.numpages → Layout (st.page pn) ∧ SpaceExact (st.page pn)

/-- Four building calls on a new file: two inserts, a compaction, an insert. -/
def buildOps : List BuildOp :=
  [.insert [1, 2, 3] 3, .insert [4, 5] 2, .compact 0 true, .insert [6] 1]

/-- The file the calls `buildOps` build from the new file `file0`. -/
def fileBuilt : PFState := (buildFile file0 buildOps).getD file0

/-! ## The buffer pool and its counters -/

/-- Replacement policy `PF_REPLACEMENT_LRU` of `pf.h`. -/
def PF_REPLACEMENT_LRU : Nat := 0

/-- Replacement policy `PF_REPLACEMENT_MRU` of `pf.h`. -/
def PF_REPLACEMENT_MRU : Nat := 1

/-- Error code `PFE_PAGEFIXED` of `pf.h`. -/
def PFE_PAGEFIXED : Int := -3

/-- Error code `PFE_PAGENOTINBUF` of `pf.h`. -/
def PFE_PAGENOTINBUF : Int := -4

/-- Error code `PFE_PAGEINBUF` of `pf.h`. -/
def PFE_PAGEINBUF : Int := -17

/-- The struct `PF_Frame` of `pf.h`, without the page data and the list
pointers: `pageNum` is `none` for -1, a free frame. -/
structure PF_Frame where
  fileDesc : Nat
  pageNum : Option Nat
  dirty : Bool
  fixedCount : Nat

/-- A frame that holds no page. -/
def PF_Frame.free : PF_Frame := { fileDesc := 0, pageNum := none, dirty := false, fixedCount := 0 }

/-- The struct `PF_BufferPool` of `pf.h`: the array of frames, the pool size,
the replacement policy, the replacement list as the list of frame indices from
the hot end to the cold end, the hash index, and the five counters, which are
`unsigned long`. -/
structure PF_BufferPool where
  frames : List PF_Frame
  poolSize : Nat
  replacement : Nat
  lru : List Nat
  hash : PFhashTbl
  logicalPageRequests : Nat
  logicalPageHits : Nat
  physicalReads : Nat
  physicalWrites : Nat
  pageAllocations : Nat

/-- The statement `c++` on an `unsigned long` counter of 64 bits. -/
def ulInc (c : Nat) : Nat := (c + 1) % 18446744073709551616

/-- Modelled from the spec: `PFbufInitPool(poolSize)` with the policy of
`PF_InitWithOptions`, whose definitions are missing (spec: a fixed-size pool
of frames, configurable with pool size and replacement policy at init):
every frame is free, the replacement list and the hash index are empty, the
counters are zero. -/
def PFbufInitPool (poolSize replacementPolicy : Nat) : PF_BufferPool :=
  { frames := List.replicate poolSize PF_Frame.free, poolSize := poolSize,
    replacement := replacementPolicy, lru := [], hash := PFhashInit,
    logicalPageRequests := 0, logicalPageHits := 0, physicalReads := 0, physicalWrites := 0,
    pageAllocations := 0 }

/-- Frame `i` of the pool. -/
def PF_BufferPool.frame (b : PF_BufferPool) (i : Nat) : PF_Frame := b.frames.getD i PF_Frame.free

/-- Modelled from the spec: the choice of the frame that takes a new page,
part of the buffer manager, whose definition is missing.  A free frame is
taken if there is one; otherwise the victim is the frame with pin count 0
nearest to the cold end of the replacement list under LRU, nearest to the
hot end under MRU; a dirty victim is written back (`physical_writes`), and the
victim leaves the hash index and the replacement list.  `none` where no
frame can be taken (`NOBUF`). -/
def PFbufVictim (b : PF_BufferPool) : Option (Nat × PF_BufferPool) :=
  match (List.range b.poolSize).find? (fun i => (b.frame i).pageNum.isNone) with
  | some i => some (i, b)
  | none =>
    let unpinned := fun i => decide ((b.frame i).fixedCount = 0)
    let victim :=
      if b.replacement = PF_REPLACEMENT_LRU then b.lru.reverse.find? unpinned
      else b.lru.find? unpinned
    match victim with
    | none => none
    | some i =>
      let f := b.frame i
      some (i,
        { b with
          frames := b.frames.set i PF_Frame.free
          lru := b.lru.erase i
          hash := (PFhashDelete b.hash f.fileDesc (f.pageNum.getD 0)).2
          physicalWrites := if f.dirty then ulInc b.physicalWrites else b.physicalWrites })

/-- Modelled from the spec: the installation of page `(fd, page)` in frame `i`
(spec, `get`: hash-insert; pin := 1), part of the buffer manager, whose
definition is missing. -/
def PF_BufferPool.install (b : PF_BufferPool) (i fd page : Nat) (dirty : Bool) : PF_BufferPool :=
  { b with
    frames := b.frames.set i { fileDesc := fd, pageNum := some page, dirty := dirty, fixedCount := 1 }
    hash := (PFhashInsert b.hash fd page i).2 }

/-- Modelled from the spec: `PFbufGet(fd, pagenum, ...)`, declared in
`pftypes.h`, whose definition is missing (spec, `get`: if hashed, pin++,
detach from the replacement list, increment `logical_hits`; else take a
victim, read the requested page into the frame, hash-insert, pin := 1; fails
with `NOBUF` if no unpinned frame exists).  Every call is a logical request
and every read a physical read.  The spec does not say whether a call that
fails counts as a request: `countFailed` tells. -/
def PFbufGet (countFailed : Bool) (b : PF_BufferPool) (fd page : Nat) : Int × PF_BufferPool :=
  match PFhashFind b.hash fd page with
  | some i =>
    let f := b.frame i
    (PFE_OK,
      { b with
        frames := b.frames.set i { f with fixedCount := f.fixedCount + 1 }
        lru := b.lru.erase i
        logicalPageRequests := ulInc b.logicalPageRequests
        logicalPageHits := ulInc b.logicalPageHits })
  | none =>
    match PFbufVictim b with
    | none =>
      (PFE_NOBUF,
        if countFailed then { b with logicalPageRequests := ulInc b.logicalPageRequests } else b)
    | some (i, b1) =>
      (PFE_OK,
        { b1.install i fd page false with
          logicalPageRequests := ulInc b1.logicalPageRequests
          physicalReads := ulInc b1.physicalReads })

/-- Modelled from the spec: `PFbufAlloc(fd, pagenum, ...)`, declared in
`pftypes.h`, whose definition is missing (spec, `alloc`: the page must not
already be in the pool, internal error `PAGEINBUF`; install a new frame
exactly like `get` but without reading from disk; pin := 1; mark dirty).  The
call counts as a page allocation. -/
def PFbufAlloc (b : PF_BufferPool) (fd page : Nat) : Int × PF_BufferPool :=
  if (PFhashFind b.hash fd page).isSome then (PFE_PAGEINBUF, b)
  else
    match PFbufVictim b with
    | none => (PFE_NOBUF, b)
    | some (i, b1) =>
      (PFE_OK, { b1.install i fd page true with pageAllocations := ulInc b1.pageAllocations })

/-- Modelled from the spec: `PFbufUnfix(fd, pagenum, dirty)`, declared in
`pftypes.h`, whose definition is missing (spec, `unfix`: decrement pin; OR the
dirty flag into the frame; when pin reaches 0, splice to the hot end of the
replacement list; fails with `PAGENOTINBUF` or `PAGEUNFIXED` on misuse). -/
def PFbufUnfix (b : PF_BufferPool) (fd page : Nat) (dirty : Bool) : Int × PF_BufferPool :=
  match PFhashFind b.hash fd page with
  | none => (PFE_PAGENOTINBUF, b)
  | some i =>
    let f := b.frame i
    if f.fixedCount = 0 then (PFE_PAGEUNFIXED, b)
    else
      (PFE_OK,
        { b with
          frames := b.frames.set i
            { f with fixedCount := f.fixedCount - 1, dirty := f.dirty || dirty }
          lru := if f.fixedCount = 1 then i :: b.lru else b.lru })

/-- The frames of file `fd` that hold a page, by index. -/
def PF_BufferPool.framesOf (b : PF_BufferPool) (fd : Nat) : List Nat :=
  (List.range b.poolSize).filter
    (fun i => (b.frame i).pageNum.isSome && decide ((b.frame i).fileDesc = fd))

/-- Modelled from the spec: the release of frame `i` (spec, `release_file`: if
dirty, write back; drop from hash; return to the free frame list), part of
the buffer manager, whose definition is missing. -/
def PF_BufferPool.releaseFrame (b : PF_BufferPool) (i : Nat) : PF_BufferPool :=
  let f := b.frame i
  { b with
    frames := b.frames.set i PF_Frame.free
    lru := b.lru.erase i
    hash := (PFhashDelete b.hash f.fileDesc (f.pageNum.getD 0)).2
    physicalWrites := if f.dirty then ulInc b.physicalWrites else b.physicalWrites }

/-- Modelled from the spec: `PFbufReleaseFile(fd, ...)`, declared in
`pftypes.h`, whose definition is missing (spec, `release_file`: for every
resident frame of `fd`: if dirty, write back; drop from hash; return to the
free frame list; fails with `PAGEFIXED` if any frame of `fd` is still
pinned). -/
def PFbufReleaseFile (b : PF_BufferPool) (fd : Nat) : Int × PF_BufferPool :=
  if (b.framesOf fd).any (fun i => decide ((b.frame i).fixedCount ≠ 0)) then (PFE_PAGEFIXED, b)
  else (PFE_OK, (b.framesOf fd).foldl PF_BufferPool.releaseFrame b)

/-- The paged-file layer over the buffer pool: the pool, and of every open
file the page count `numpages` and the chain of free pages that starts at
`firstfree` (struct `PFhdr_str` of `pftypes.h`). -/
structure PFsys where
  pool : PF_BufferPool
  numpages : Nat → Nat
  freeList : Nat → List Nat
  countFailed : Bool

/-- Modelled from the spec: `PF_GetThisPage(fd, pagenum, &pagebuf)` over the
buffer pool, whose definition is missing (spec, `get`: fails with `EOF` if
the page number exceeds `numpages`; page numbers are 0-based). -/
def PFsys.PF_GetThisPage (s : PFsys) (fd page : Nat) : Int × PFsys :=
  if page ≥ s.numpages fd then
    (PFE_EOF,
      if s.countFailed then
        { s with pool := { s.pool with
            logicalPageRequests := ulInc s.pool.logicalPageRequests } }
      else s)
  else
    match PFbufGet s.countFailed s.pool fd page with
    | (rc, b) => (rc, { s with pool := b })

/-- Modelled from the spec: `PF_AllocPage(fd, &pagenum, &pagebuf)` over the
buffer pool, whose definition is missing (spec, `alloc`: pop from the file's
free list if non-empty, updating `firstfree`; otherwise grow `numpages` by
one); yields the return code, the page number, and the state, which a call
that fails leaves as it was. -/
def PFsys.PF_AllocPage (s : PFsys) (fd : Nat) : Int × Nat × PFsys :=
  let page := match s.freeList fd with
    | p :: _ => p
    | [] => s.numpages fd
  match PFbufAlloc s.pool fd page with
  | (rc, b) =>
    if rc ≠ PFE_OK then (rc, page, s)
    else
      (PFE_OK, page,
        match s.freeList fd with
        | _ :: rest =>
          { s with pool := b, freeList := fun d => if d = fd then rest else s.freeList d }
        | [] =>
          { s with pool := b
                   numpages := fun d => if d = fd then s.numpages fd + 1 else s.numpages d })

/-- Modelled from the spec: `PF_UnfixPage(fd, pagenum, dirty)` over the buffer
pool, whose definition is missing. -/
def PFsys.PF_UnfixPage (s : PFsys) (fd page : Nat) (dirty : Bool) : Int × PFsys :=
  match PFbufUnfix s.pool fd page dirty with
  | (rc, b) => (rc, { s with pool := b })

/-- Modelled from the spec: `PF_CloseFile(fd)` over the buffer pool, whose
definition is missing (spec: `release_file` is called on file close). -/
def PFsys.PF_CloseFile (s : PFsys) (fd : Nat) : Int × PFsys :=
  match PFbufReleaseFile s.pool fd with
  | (rc, b) => (rc, { s with pool := b })

/-- A call of the buffer-pool interface: `get`, `unfix` or `alloc`. -/
inductive PoolOp where
  | get (fd page : Nat)
  | unfix (fd page : Nat) (dirty : Bool)
  | alloc (fd : Nat)

/-- Whether the call is a `get`. -/
def PoolOp.isGet : PoolOp → Bool
  | .get _ _ => true
  | _ => false

/-- One call: its return code and the state it leaves. -/
def poolStep (s : PFsys) : PoolOp → Int × PFsys
  | .get fd page => s.PF_GetThisPage fd page
  | .unfix fd page dirty => s.PF_UnfixPage fd page dirty
  | .alloc fd => ((s.PF_AllocPage fd).1, (s.PF_AllocPage fd).2.2)

/-- A run of calls: the calls with their return codes, in order, and the
state the run leaves. -/
def poolRun (s : PFsys) : List PoolOp → List (PoolOp × Int) × PFsys
  | [] => ([], s)
  | op :: ops =>
    ((op, (poolStep s op).1) :: (poolRun (poolStep s op).2 ops).1,
      (poolRun (poolStep s op).2 ops).2)

/-- The counter identity `logical_requests = logical_hits + physical_reads`,
on `unsigned long`. -/
def CounterIdentity (b : PF_BufferPool) : Prop :=
  b.logicalPageRequests = (b.logicalPageHits + b.physicalReads) % 18446744073709551616

instance (b : PF_BufferPool) : Decidable (CounterIdentity b) := by
  unfold CounterIdentity; infer_instance

/-- The pre-allocation loop of `run_workload` in `test_pf_experiments.c`, with
`k` rounds left: `PF_AllocPage`, then `PF_UnfixPage(fd, pageNum, TRUE)`, whose
return code is not looked at; `none` where the program exits. -/
def run_workload_alloc (fd : Nat) : Nat → PFsys → Option PFsys
  | 0, s => some s
  | k + 1, s =>
    match s.PF_AllocPage fd with
    | (rc, pageNum, s1) =>
      if rc ≠ PFE_OK then none
      else run_workload_alloc fd k (s1.PF_UnfixPage fd pageNum true).2

/-- The loop of random operations of `run_workload`, over the pairs of values
that the two calls of `rand()` give in each round: `PF_GetThisPage` of the
target, then `PF_UnfixPage`, dirty for a write; `none` where the program
exits. -/
def run_workload_ops (fd readPct maxPage : Nat) : List (Nat × Nat) → PFsys → Option PFsys
  | [], s => some s
  | (r0, t0) :: rest, s =>
    let r := r0 % 100
    let target := t0 % maxPage
    match s.PF_GetThisPage fd target with
    | (rc, s1) =>
      if rc ≠ PFE_OK then none
      else
        run_workload_ops fd readPct maxPage rest
          (s1.PF_UnfixPage fd target (decide (¬ r < readPct))).2

/-- Function `run_workload` of `test_pf_experiments.c`; `ops` is the length of
`rands`.  The four counters are reset, the test file is created anew and
opened as `fd`, `maxPage` pages are allocated, the operations run, the file is
closed; the result is the state whose counters go into the CSV row, `none`
where the program exits before. -/
def run_workload (s : PFsys) (fd readPct maxPage : Nat) (rands : List (Nat × Nat)) :
    Option PFsys :=
  let s0 : PFsys :=
    { s with
      pool := { s.pool with
        logicalPageRequests := 0, logicalPageHits := 0, physicalReads := 0,
        physicalWrites := 0 }
      numpages := fun d => if d = fd then 0 else s.numpages d
      freeList := fun d => if d = fd then [] else s.freeList d }
  match run_workload_alloc fd maxPage s0 with
  | none => none
  | some s1 =>
    match run_workload_ops fd readPct maxPage rands s1 with
    | none => none
    | some s2 => some (s2.PF_CloseFile fd).2

/-- The state after `PF_Init` and `PF_InitWithOptions(20, PF_REPLACEMENT_LRU)`
in `main` of `test_pf_experiments.c`, with no file open. -/
def pfInit (countFailed : Bool) : PFsys :=
  { pool := PFbufInitPool 20 PF_REPLACEMENT_LRU, numpages := fun _ => 0,
    freeList := fun _ => [], countFailed := countFailed }

/-- A pool of 3 frames under LRU, for the round-robin scenario of the spec. -/
def pfInit3 : PFsys :=
  { pool := PFbufInitPool 3 PF_REPLACEMENT_LRU, numpages := fun _ => 0,
    freeList := fun _ => [], countFailed := true }

/-- The three counters of the identity. -/
def PF_BufferPool.lookups (b : PF_BufferPool) : Nat × Nat × Nat :=
  (b.logicalPageRequests, b.logicalPageHits, b.physicalReads)

/-- A run of calls on a pool of 3 frames: two pages are allocated and
released, then read by turns. -/
def poolOps : List PoolOp :=
  [.alloc 0, .unfix 0 0 true, .alloc 0, .unfix 0 1 true, .alloc 0, .unfix 0 2 true,
    .alloc 0, .unfix 0 3 true, .get 0 0, .unfix 0 0 false, .get 0 3, .unfix 0 3 false,
    .get 0 1, .get 0 3, .unfix 0 1 true, .unfix 0 3 false]

/-! ## The B+-tree index -/

/-- Modelled from the spec: a leaf page of the index (spec, leaf page layout;
`am.h` declares its header `AM_LEAFHEADER`, the code that fills it is
missing): its page number, the keys in ascending order, each with the chain
of record ids stored under it, and `next_leaf`, the page number of the right
sibling (`none` for `AM_NULL_PAGE`).  Keys are of attribute type INT. -/
structure AMLeaf where
  page : Nat
  entries : List (Int × List Int)
  next_leaf : Option Nat

/-- Modelled from the spec: the tree below a node, by height: a leaf page at
height 0; an internal node at height `h + 1`, with child 0 and then the keys, each followed by the
child to its right, so that `num_keys` keys go with `num_keys + 1` children
(spec, internal page layout). -/
def AMTree : Nat → Type
  | 0 => AMLeaf
  | h + 1 => AMTree h × List (Int × AMTree h)

/-- Modelled from the spec: the insertion of `(key, recId)` into the entries
of a leaf in place (`AM_InsertintoLeaf`, declared in `am.h`, whose definition
is missing).  The search stops at the leftmost position whose key is not
below `key`; where the key is found there (`AM_FOUND`) the record id is
appended to its chain, otherwise (`AM_NOT_FOUND`) the keys from that position
on move one to the right and the new key with its record id takes the
position. -/
def AM_InsertintoLeaf : List (Int × List Int) → Int → Int → List (Int × List Int)
  | [], key, recId => [(key, [recId])]
  | (k, c) :: es, key, recId =>
    if key = k then (k, c ++ [recId]) :: es
    else if key < k then (key, [recId]) :: (k, c) :: es
    else (k, c) :: AM_InsertintoLeaf es key recId

/-- Modelled from the spec: the insertion into a leaf, with the split of a
leaf that has no room (`AM_SplitLeaf`, declared in `am.h`, whose definition is
missing).  The leaf has room for a new key while `num_keys < max_keys`; the
spec is of two minds on a key that is found in a full leaf (step 2 of
`insert` splits, its last paragraph appends), and `splitDup` tells which.
The split leaves the lower half of the entries in place and moves the upper
half to the new leaf on page `newPage`, puts the new entry into the side it
belongs to, links `old.next_leaf = new.page` and `new.next_leaf = old_next`,
and returns the first key of the new leaf with that leaf. -/
def AM_SplitLeaf (maxKeys : Nat) (splitDup : Bool) (newPage : Nat) (l : AMLeaf)
    (key recId : Int) : AMLeaf × Option (Int × AMLeaf) :=
  let found := l.entries.any (fun e => decide (e.1 = key))
  if l.entries.length < maxKeys ∨ (found = true ∧ splitDup = false) then
    ({ l with entries := AM_InsertintoLeaf l.entries key recId }, none)
  else
    let mid := l.entries.length / 2
    let lower := l.entries.take mid
    let upper := l.entries.drop mid
    let goRight : Bool :=
      match upper with
      | e :: _ => decide (e.1 ≤ key)
      | [] => true
    let lower1 := if goRight then lower else AM_InsertintoLeaf lower key recId
    let upper1 := if goRight then AM_InsertintoLeaf upper key recId else upper
    let splitKey :=
      match upper1 with
      | e :: _ => e.1
      | [] => key
    ({ page := l.page, entries := lower1, next_leaf := some newPage },
      some (splitKey, { page := newPage, entries := upper1, next_leaf := l.next_leaf }))

/-- The result of an insertion below a node: the node as it is now, the key
and the new right sibling where the node was split, and the number of pages
of the file. -/
abbrev AMInsertResult (h : Nat) : Type := AMTree h × Option (Int × AMTree h) × Nat

/-- Modelled from the spec: the step of an insertion at an internal node
(`AM_Search` with `AM_BinSearch` on the way down, `AM_AddtoParent` with
`AM_AddtoIntPage` on the way up, all declared in `am.h`, their definitions
missing).  The walk over the keys stops at the smallest `i` such that
`key < key_i`; the insertion goes on below child `i` by `ins`; where that
child was split, the split key and the new child are put into the node right
after child `i`, the recorded offset.  `c` is the child before the keys that
are left to look at. -/
def AM_AddtoIntPage {h : Nat} (ins : AMTree h → Nat → AMInsertResult h) (key : Int) :
    AMTree h → List (Int × AMTree h) → Nat → (AMTree h × List (Int × AMTree h)) × Nat
  | c, [], np =>
    match ins c np with
    | (c1, none, np1) => ((c1, []), np1)
    | (c1, some (s, r), np1) => ((c1, [(s, r)]), np1)
  | c, (k, d) :: rest, np =>
    if key < k then
      match ins c np with
      | (c1, none, np1) => ((c1, (k, d) :: rest), np1)
      | (c1, some (s, r), np1) => ((c1, (s, r) :: (k, d) :: rest), np1)
    else
      match AM_AddtoIntPage ins key d rest np with
      | ((d1, rest1), np1) => ((c, (k, d1) :: rest1), np1)

/-- Modelled from the spec: the split of an internal node that overflows
(`AM_SplitIntNode`, declared in `am.h`, whose definition is missing): the
median key is promoted, and the two halves become the left and the right
internal node; the right one takes a new page. -/
def AM_SplitIntNode {h : Nat} (maxKeys : Nat) (node : AMTree h × List (Int × AMTree h))
    (np : Nat) : AMInsertResult (h + 1) :=
  if node.2.length ≤ maxKeys then (node, none, np)
  else
    match node.2.drop (node.2.length / 2) with
    | [] => (node, none, np)
    | (k, d) :: rest => ((node.1, node.2.take (node.2.length / 2)), some (k, (d, rest)), np + 1)

/-- Modelled from the spec: the insertion below a node of height `h` (steps 1
to 4 of `insert`); the recursion holds what the descent stack holds. -/
def AM_insertAt (maxLeaf maxInt : Nat) (splitDup : Bool) (key recId : Int) :
    (h : Nat) → AMTree h → Nat → AMInsertResult h
  | 0, l, np =>
    match AM_SplitLeaf maxLeaf splitDup np l key recId with
    | (l1, none) => (l1, none, np)
    | (l1, some (s, r)) => (l1, some (s, r), np + 1)
  | h + 1, (c, ps), np =>
    match AM_AddtoIntPage (AM_insertAt maxLeaf maxInt splitDup key recId h) key c ps np with
    | (node, np1) => AM_SplitIntNode maxInt node np1

/-- Modelled from the spec: an index file (spec, global per-tree state): the
height of the tree and its root, the page number of
the leftmost leaf (`AM_LeftPageNum`), the number of pages of the file, and the
`max_keys` of leaves and of internal nodes with the reading of the spec that
`splitDup` stands for. -/
structure AMIndex where
  height : Nat
  root : AMTree height
  leftPageNum : Nat
  numpages : Nat
  maxLeaf : Nat
  maxInt : Nat
  splitDup : Bool

/-- Modelled from the spec: `AM_CreateIndex`, declared in `am.h`, whose
definition is missing (spec, `create_index`: a header page, and a tree whose
root is an empty leaf, which is the leftmost leaf). -/
def AM_CreateIndex (maxLeaf maxInt : Nat) (splitDup : Bool) : AMIndex :=
  { height := 0, root := ({ page := 1, entries := [], next_leaf := none } : AMLeaf),
    leftPageNum := 1, numpages := 2, maxLeaf := maxLeaf, maxInt := maxInt,
    splitDup := splitDup }

/-- Modelled from the spec: `AM_InsertEntry(fileDesc, attrType, attrLength,
value, recId)`, declared in `am.h`, whose definition is missing (spec,
`insert`; a root split allocates a new root with two children, by
`AM_FillRootPage`). -/
def AM_InsertEntry (x : AMIndex) (key recId : Int) : AMIndex :=
  match AM_insertAt x.maxLeaf x.maxInt x.splitDup key recId x.height x.root x.numpages with
  | (t, none, np) => { x with root := t, numpages := np }
  | (t, some (s, r), np) =>
    { x with height := x.height + 1, root := ((t, [(s, r)]) : AMTree (x.height + 1)),
             numpages := np + 1 }

/-- The index after a sequence of `AM_InsertEntry` calls on a new index. -/
def AM_inserts (x : AMIndex) : List (Int × Int) → AMIndex
  | [] => x
  | (key, recId) :: rest => AM_inserts (AM_InsertEntry x key recId) rest

/-- The leaf pages below a node, from left to right. -/
def AMTree.leaves : (h : Nat) → AMTree h → List AMLeaf
  | 0, l => [l]
  | h + 1, (c, ps) => AMTree.leaves h c ++ ps.flatMap (fun p => AMTree.leaves h p.2)

/-- The leaf page with page number `p` (the page that `PF_GetThisPage` pins). -/
def leafAt (ls : List AMLeaf) (p : Nat) : Option AMLeaf := ls.find? (fun l => decide (l.page = p))

/-- The pairs `(key, recId)` of a leaf in the order a scan emits them: key by
key, and under each key along its chain of record ids. -/
def AMLeaf.pairs (l : AMLeaf) : List (Int × Int) :=
  l.entries.flatMap (fun e => e.2.map (fun r => (e.1, r)))

/-- Modelled from the spec: what the calls `AM_FindNextEntry` of a scan with
operator `ALL` emit until `AME_EOF`, from leaf page `p` on (spec, `next`:
advance within the leaf; on exhausting a leaf follow `next_leaf` to the right
sibling; run until the end of the leaf chain).  `fuel` bounds the number of
leaves visited. -/
def AM_scanFrom (ls : List AMLeaf) : Nat → Option Nat → List (Int × Int)
  | 0, _ => []
  | _ + 1, none => []
  | fuel + 1, some p =>
    match leafAt ls p with
    | none => []
    | some l => l.pairs ++ AM_scanFrom ls fuel l.next_leaf

/-- Modelled from the spec: the scan `AM_OpenIndexScan` with operator `ALL`
followed by `AM_FindNextEntry` until `AME_EOF`: it starts at the leftmost
leaf, index 0. -/
def AM_scanAll (x : AMIndex) : List (Int × Int) :=
  AM_scanFrom (AMTree.leaves x.height x.root) x.numpages (some x.leftPageNum)

/-- The key `k` is not below the lower bound `lo`, if there is one. -/
def geLo (lo : Option Int) (k : Int) : Prop := ∀ a, lo = some a → a ≤ k

/-- The key `k` is below the upper bound `hi`, if there is one. -/
def ltHi (hi : Option Int) (k : Int) : Prop := ∀ b, hi = some b → k < b

/-- The key `k` is not above the upper bound `hi`, if there is one. -/
def leHi (hi : Option Int) (k : Int) : Prop := ∀ b, hi = some b → k ≤ b

/-- The keys of a leaf are strictly ascending and lie in `[lo, hi)`. -/
def EntriesOK (es : List (Int × List Int)) (lo hi : Option Int) : Prop :=
  (es.map Prod.fst).Pairwise (fun a b => a < b) ∧ ∀ e, e ∈ es → geLo lo e.1 ∧ ltHi hi e.1

/-- The children of an internal node are within their ranges: the subtree of
child 0 holds keys below the first key, the subtree of each further child keys
from the key to its left up to the key to its right (spec, internal page
layout), and the keys of the node are ascending within the range of the node.
`B` is the same property one level down. -/
def BoundedKids {h : Nat} (B : AMTree h → Option Int → Option Int → Prop) :
    AMTree h → List (Int × AMTree h) → Option Int → Option Int → Prop
  | c, [], lo, hi => B c lo hi
  | c, (k, d) :: rest, lo, hi =>
    B c lo (some k) ∧ geLo lo k ∧ leHi hi k ∧ BoundedKids B d rest (some k) hi

/-- Order invariant of the tree below a node whose keys belong to `[lo, hi)`
(spec, B+-tree invariants: leaf keys sorted ascending; internal keys
consistent with subtree ranges). -/
def Bounded : (h : Nat) → AMTree h → Option Int → Option Int → Prop
  | 0, l, lo, hi => EntriesOK (AMLeaf.entries l) lo hi
  | h + 1, (c, ps), lo, hi => BoundedKids (Bounded h) c ps lo hi

/-- The leaves `ls` are chained from page `start` to `stop` through
`next_leaf`: `start` is the page of the first, the `next_leaf` of each is the
page of the one after it, and the `next_leaf` of the last is `stop`. -/
def Linked : Option Nat → List AMLeaf → Option Nat → Prop
  | start, [], stop => start = stop
  | start, l :: rest, stop => start = some l.page ∧ Linked l.next_leaf rest stop

/-- The leaves an insertion leaves in the place of leaf `l`: the leaf itself,
followed by its new right sibling if it was split. -/
def leafResult (maxKeys : Nat) (splitDup : Bool) (newPage : Nat) (l : AMLeaf) (key recId : Int) :
    List AMLeaf :=
  match AM_SplitLeaf maxKeys splitDup newPage l key recId with
  | (l1, none) => [l1]
  | (l1, some (_, r)) => [l1, r]

/-- The leaves of a result of `AM_insertAt`, from left to right. -/
def AMInsertResult.leaves {h : Nat} (res : AMInsertResult h) : List AMLeaf :=
  AMTree.leaves h res.1 ++
    (match res.2.1 with
     | none => []
     | some (_, r) => AMTree.leaves h r)

/-- The order invariant of a result of `AM_insertAt` below a node whose keys
belong to `[lo, hi)`. -/
def AMInsertResult.Bounded {h : Nat} (res : AMInsertResult h) (lo hi : Option Int) : Prop :=
  match res.2.1 with
  | none => ToyDB.Bounded h res.1 lo hi
  | some (s, r) =>
    ToyDB.Bounded h res.1 lo (some s) ∧ ToyDB.Bounded h r (some s) hi ∧ geLo lo s ∧ leHi hi s

/-- Invariant of an index file: the order invariant of the tree, the chain of
the leaves from the leftmost leaf to the end, and leaf pages that are pages
of the file, each of them the page of one leaf. -/
def IndexInv (x : AMIndex) : Prop :=
  Bounded x.height x.root none none
    ∧ Linked (some x.leftPageNum) (AMTree.leaves x.height x.root) none
    ∧ ((AMTree.leaves x.height x.root).map AMLeaf.page).Nodup
    ∧ ∀ l, l ∈ AMTree.leaves x.height x.root → l.page < x.numpages

/-- The pairs in the leaves of an index, from left to right. -/
def AMIndex.pairs (x : AMIndex) : List (Int × Int) :=
  (AMTree.leaves x.height x.root).flatMap AMLeaf.pairs

/-! ## The scan cursor of the index -/

/-- Scan status `FIRST` of `am.h`. -/
def FIRST : Nat := 1

/-- Scan status `BUSY` of `am.h`. -/
def BUSY : Nat := 2

/-- Scan status `OVER` of `am.h`. -/
def OVER : Nat := 4

/-- Scan operator `ALL` of `am.h`. -/
def ALL : Nat := 0

/-- Modelled from the spec: an index-scan cursor (spec, scan cursor; the scan
table is not among the sources): the comparison operator, the
current leaf page number (`none` for `AM_NULL_PAGE`), the current index
within the leaf, the position within the chain of record ids of the current
key, and the status. -/
structure AMScan where
  op : Nat
  pageNum : Option Nat
  index : Nat
  recIndex : Nat
  status : Nat

/-- Modelled from the spec: `AM_OpenIndexScan(fileDesc, attrType, attrLength,
op, value)` with operator `ALL`, declared in `am.h`, whose definition is
missing (spec, `open_scan`; positioning policy for `ALL`: start at the
leftmost leaf, index 0). -/
def AM_OpenIndexScan (x : AMIndex) : AMScan :=
  { op := ALL, pageNum := some x.leftPageNum, index := 0, recIndex := 0, status := FIRST }

/-- Modelled from the spec: `AM_FindNextEntry(scanDesc)` for operator `ALL`,
declared in `am.h`, whose definition is missing (spec, `next`): if the cursor
is `OVER`, `AME_EOF`; the record id under the cursor is emitted, advancing
within the chain of record ids of the key first, then to the next key slot;
on exhausting a leaf the cursor follows `next_leaf` to the right sibling, and
at the end of the leaf chain it is `OVER`.  The result is the pair of the key
and the record id emitted, `none` for `AME_EOF`, and the cursor.  `fuel`
bounds the number of key slots and leaves the call moves over. -/
def AM_FindNextEntry (ls : List AMLeaf) : Nat → AMScan → Option (Int × Int) × AMScan
  | 0, c => (none, c)
  | fuel + 1, c =>
    if c.status = OVER then (none, c)
    else
      match c.pageNum with
      | none => (none, { c with status := OVER })
      | some p =>
        match leafAt ls p with
        | none => (none, { c with status := OVER })
        | some l =>
          match l.entries.drop c.index with
          | [] =>
            AM_FindNextEntry ls fuel
              { c with pageNum := l.next_leaf, index := 0, recIndex := 0, status := BUSY }
          | e :: _ =>
            match e.2.drop c.recIndex with
            | [] =>
              AM_FindNextEntry ls fuel
                { c with index := c.index + 1, recIndex := 0, status := BUSY }
            | r :: _ => (some (e.1, r), { c with recIndex := c.recIndex + 1, status := BUSY })

/-- The pairs that `n` calls of `AM_FindNextEntry` emit, up to the first
`AME_EOF`. -/
def AM_scanLoop (ls : List AMLeaf) (fuel : Nat) : Nat → AMScan → List (Int × Int)
  | 0, _ => []
  | n + 1, c =>
    match AM_FindNextEntry ls fuel c with
    | (none, _) => []
    | (some pr, c1) => pr :: AM_scanLoop ls fuel n c1

/-- The scan of an index with operator `ALL`: `AM_OpenIndexScan`, then
`AM_FindNextEntry` until `AME_EOF`, at most `n` times. -/
def AM_scan (x : AMIndex) (fuel n : Nat) : List (Int × Int) :=
  AM_scanLoop (AMTree.leaves x.height x.root) fuel n (AM_OpenIndexScan x)

/-- The key slots and the leaves of a list of leaves, counted together, and
one: more than a call of `AM_FindNextEntry` moves over. -/
def scanWork : List AMLeaf → Nat
  | [] => 1
  | l :: ls => l.entries.length + 1 + scanWork ls

/-- The pairs of a leaf from key slot `i`, position `j` of its chain, on. -/
def pairsFrom (es : List (Int × List Int)) (i j : Nat) : List (Int × Int) :=
  match es.drop i with
  | [] => []
  | e :: rest =>
    (e.2.drop j).map (fun r => (e.1, r)) ++ rest.flatMap (fun e => e.2.map (fun r => (e.1, r)))

/-- The cursor stands in the list of leaves `ls` with the pairs `tail` left to
emit and the work `w` left to a call of `AM_FindNextEntry`: it is on a leaf
whose right siblings are chained to the end, or past the last leaf. -/
def CursorAt (ls : List AMLeaf) (c : AMScan) (tail : List (Int × Int)) (w : Nat) : Prop :=
  c.status ≠ OVER ∧
    ((c.pageNum = none ∧ tail = [] ∧ w = 1) ∨
      ∃ pre l post, ls = pre ++ l :: post ∧ c.pageNum = some l.page ∧
        Linked l.next_leaf post none ∧
        tail = pairsFrom l.entries c.index c.recIndex ++ post.flatMap AMLeaf.pairs ∧
        w = (l.entries.length - c.index) + 1 + scanWork post)

/-! ## Accesses of an insertion, and the files of further runs -/

/-- The accesses of an insertion of `len` bytes into the page stay inside the
page buffer: the record goes to `[free_offset - len, free_offset)`, which
lies inside the buffer, and so does the slot that the insertion appends when
the page has no tombstone. -/
def InsertInPage (p : Page) (len : Int) : Prop :=
  len ≤ ((sp_read_header p).free_offset : Int) ∧ (sp_read_header p).free_offset ≤ PF_PAGE_SIZE ∧
  ((∀ i, i < (sp_read_header p).slot_count → (readSlot p i).offset ≠ -1) →
    slotInPage (sp_read_header p).slot_count)

instance (p : Page) (len : Int) : Decidable (InsertInPage p len) := by
  unfold InsertInPage; infer_instance

/-- The file `fileA` after a record of 100 bytes `0xBB` has been inserted:
page 0 holds the record of 4000 bytes and has 80 bytes of free space, page 1
holds the record of 100 bytes. -/
def fileH : PFState := (SP_InsertRecord fileA (List.replicate 100 187) 100).state file0

/-- The file `fileH` after the record `[4, 5]` has been inserted. -/
def fileH2 : PFState := (SP_InsertRecord fileH [4, 5] 2).state file0

/-- The file `fileH2` after the record `[7]` has been inserted. -/
def fileH3 : PFState := (SP_InsertRecord fileH2 [7] 1).state file0

/-- The file `fileH3` after the record `[4, 5]` (record id 1) has been
deleted: page 0 holds a record of 4000 bytes, a tombstone and the record
`[7]`, page 1 holds a record of 100 bytes. -/
def fileW : PFState := (SP_DeleteRecord fileH3 1).state file0

/-- The file `fileC` after the record of 90 bytes (record id 0) has been
deleted. -/
def fileC2 : PFState := (SP_DeleteRecord fileC 0).state file0

/-- The state in which `SP_InsertRecord` of 10 bytes into `fileB` has found
its page: page 0, pinned. -/
def fileBpinned : PFState := (sp_find_page_for_insert fileB 10).state file0

/-- The file `fileB` after a record of 10 bytes `0xAA` has been inserted. -/
def fileB10 : PFState := (SP_InsertRecord fileB (List.replicate 10 170) 10).state file0

/-- A record of 90 bytes whose bytes 10 to 13 are the bytes of the slot entry
`{offset = 96, length = 4000}`. -/
def craftedRecord : List Byte := List.replicate 10 1 ++ [96, 0, 160, 15] ++ List.replicate 76 1

/-- The file `fileF` (two records of 2000 bytes inserted, the first deleted)
after the record `craftedRecord` has been inserted. -/
def fileK : PFState := (SP_InsertRecord fileF craftedRecord 90).state file0

/-- The file `fileK` after its page 0 has been compacted. -/
def fileL : PFState := (SP_CompactPage fileK 0 true).state file0

/-- The file `fileAA` after a third record of 4000 bytes has been inserted:
three pages, one record on each. -/
def fileAAA : PFState := (SP_InsertRecord fileAA (List.replicate 4000 204) 4000).state file0

/-- The file `fileAAA` after the record `[1]` has been inserted: three pages,
12001 bytes of records. -/
def fileU : PFState := (SP_InsertRecord fileAAA [1] 1).state file0

/-- The record that fills page `n` of the file `fillFile`: 4080 bytes, `0xAA`
on page 0 and `0xBB` on every other page. -/
def fillRecord (n : Nat) : List Byte := List.replicate 4080 (if n = 0 then 170 else 187)

/-- A new file after `n` records of 4080 bytes have been inserted, the
records `fillRecord 0`, ..., `fillRecord (n - 1)` in that order. -/
def fillFile : Nat → PFState
  | 0 => file0
  | n + 1 => (SP_InsertRecord (fillFile n) (fillRecord n) 4080).state file0

/-- A page buffer of zero bytes after `sp_init_page` and the insertion of a
record of 4080 bytes `b`: the page has one slot and no free space. -/
def fullPage (b : Byte) : Page :=
  match SP_InsertRecord_page (sp_init_page zeroPage) (List.replicate 4080 b) 4080 with
  | .ok (p, _) => p
  | _ => zeroPage

/-! # Properties -/

/-! ## Loads and stores -/

theorem rd16_lt (p : Page) (off : Nat) : rd16 p off < 65536 := by
  unfold rd16
  have h0 := (p off).isLt
  have h1 := (p (off + 1)).isLt
  omega

theorem rd32_lt (p : Page) (off : Nat) : rd32 p off < 4294967296 := by
  unfold rd32
  have h0 := rd16_lt p off
  have h1 := rd16_lt p (off + 2)
  omega

theorem rd16_congr {p q : Page} {off : Nat} (h0 : p off = q off)
    (h1 : p (off + 1) = q (off + 1)) : rd16 p off = rd16 q off := by
  unfold rd16; rw [h0, h1]

theorem wr8_apply (p : Page) (off : Nat) (b : Byte) (i : Nat) :
    wr8 p off b i = if i = off then b else p i := rfl

theorem wr16_apply (p : Page) (off v i : Nat) :
    wr16 p off v i =
      if i = off + 1 then byteOf (v / 256) else if i = off then byteOf v else p i := rfl

theorem wr16_outside {p : Page} {off v i : Nat} (h : i < off ∨ off + 2 ≤ i) :
    wr16 p off v i = p i := by
  rw [wr16_apply]
  have h1 : i ≠ off + 1 := by omega
  have h2 : i ≠ off := by omega
  simp [h1, h2]

theorem rd16_wr16_same (p : Page) (off v : Nat) : rd16 (wr16 p off v) off = v % 65536 := by
  simp [rd16, wr16_apply, byteOf]
  omega

theorem rd16_wr16_other {p : Page} {off v off2 : Nat} (h : off2 + 2 ≤ off ∨ off + 2 ≤ off2) :
    rd16 (wr16 p off v) off2 = rd16 p off2 :=
  rd16_congr (wr16_outside (by omega)) (wr16_outside (by omega))

theorem wr32_outside {p : Page} {off v i : Nat} (h : i < off ∨ off + 4 ≤ i) :
    wr32 p off v i = p i := by
  unfold wr32
  rw [wr16_outside (by omega), wr16_outside (by omega)]

theorem rd32_wr32_same (p : Page) (off v : Nat) :
    rd32 (wr32 p off v) off = v % 4294967296 := by
  unfold rd32 wr32
  rw [rd16_wr16_same, rd16_wr16_other (by omega), rd16_wr16_same]
  omega

theorem memcpyIn_apply (p : Page) (off : Nat) (data : List Byte) (len i : Nat) :
    memcpyIn p off data len i =
      if off ≤ i ∧ i < off + len then data.getD (i - off) 0 else p i := rfl

theorem memcpyIn_outside {p : Page} {off : Nat} {data : List Byte} {len i : Nat}
    (h : i < off ∨ off + len ≤ i) : memcpyIn p off data len i = p i := by
  rw [memcpyIn_apply]
  have : ¬ (off ≤ i ∧ i < off + len) := by omega
  simp [this]

theorem memcpyPage_apply (dst : Page) (doff : Nat) (src : Page) (soff len i : Nat) :
    memcpyPage dst doff src soff len i =
      if doff ≤ i ∧ i < doff + len then src (soff + (i - doff)) else dst i := rfl

theorem memcpyPage_outside {dst : Page} {doff : Nat} {src : Page} {soff len i : Nat}
    (h : i < doff ∨ doff + len ≤ i) : memcpyPage dst doff src soff len i = dst i := by
  rw [memcpyPage_apply]
  have : ¬ (doff ≤ i ∧ i < doff + len) := by omega
  simp [this]

theorem readBytes_length (p : Page) (off len : Nat) : (readBytes p off len).length = len := by
  simp [readBytes]

theorem readBytes_congr {p q : Page} {off len : Nat}
    (h : ∀ i, off ≤ i → i < off + len → p i = q i) :
    readBytes p off len = readBytes q off len := by
  unfold readBytes
  apply List.map_congr_left
  intro i hi
  rw [List.mem_range] at hi
  exact h _ (by omega) (by omega)

theorem readBytes_memcpyIn (p : Page) (off : Nat) (data : List Byte) :
    readBytes (memcpyIn p off data data.length) off data.length = data := by
  apply List.ext_getElem
  · simp [readBytes]
  · intro i h1 h2
    simp [readBytes, memcpyIn_apply] at h1 h2 ⊢
    simp [h2, List.getD_eq_getElem?_getD, List.getElem?_eq_getElem h2]

/-! ## Integer conversions -/

theorem u16_lt (x : Int) : u16 x < 65536 := by
  unfold u16; omega

theorem u16_of_range {x : Int} (h0 : 0 ≤ x) (h1 : x < 65536) : (u16 x : Int) = x := by
  unfold u16; omega

theorem u16_natCast {n : Nat} (h : n < 65536) : u16 (n : Int) = n := by
  unfold u16; omega

theorem u16_mod (x : Int) : u16 x % 65536 = u16 x := Nat.mod_eq_of_lt (u16_lt x)

theorem toInt16_eq_neg_one {raw : Nat} (h : raw < 65536) : toInt16 raw = -1 ↔ raw = 65535 := by
  unfold toInt16; split <;> omega

theorem int16_of_range {x : Int} (h0 : 0 ≤ x) (h1 : x < 32768) : int16 x = x := by
  unfold int16 toInt16 u16; split <;> omega

theorem int16_neg_one : int16 (-1) = -1 := by decide

theorem toInt16_u16 {x : Int} (h0 : -32768 ≤ x) (h1 : x < 32768) : toInt16 (u16 x) = x := by
  unfold toInt16 u16; split <;> omega

theorem u16_toInt16 {raw : Nat} (h : raw < 65536) : u16 (toInt16 raw) = raw := by
  unfold toInt16 u16; split <;> omega

/-! ## Header and slot accesses -/

theorem sp_write_header_outside {p : Page} {hdr : SP_PageHeader} {i : Nat} (h : 12 ≤ i) :
    sp_write_header p hdr i = p i := by
  unfold sp_write_header
  rw [wr16_outside (by omega), wr16_outside (by omega), wr16_outside (by omega),
    wr16_outside (by omega), wr32_outside (by omega)]

theorem sp_read_header_congr {p q : Page} (h : ∀ i, i < 12 → p i = q i) :
    sp_read_header p = sp_read_header q := by
  unfold sp_read_header rd32
  rw [rd16_congr (h 0 (by omega)) (h 1 (by omega)), rd16_congr (h 2 (by omega)) (h 3 (by omega)),
    rd16_congr (h 4 (by omega)) (h 5 (by omega)), rd16_congr (h 6 (by omega)) (h 7 (by omega)),
    rd16_congr (h 8 (by omega)) (h 9 (by omega)), rd16_congr (h 10 (by omega)) (h 11 (by omega))]

theorem sp_read_header_write (p : Page) (hdr : SP_PageHeader) :
    sp_read_header (sp_write_header p hdr) =
      { magic := hdr.magic % 4294967296, slot_count := hdr.slot_count % 65536,
        free_offset := hdr.free_offset % 65536, free_space := hdr.free_space % 65536,
        pad := hdr.pad % 65536 } := by
  unfold sp_read_header sp_write_header
  congr 1
  · unfold rd32 wr32
    rw [rd16_wr16_other (by omega), rd16_wr16_other (by omega), rd16_wr16_other (by omega),
      rd16_wr16_other (by omega), rd16_wr16_other (by omega), rd16_wr16_same,
      rd16_wr16_other (by omega), rd16_wr16_other (by omega), rd16_wr16_other (by omega),
      rd16_wr16_other (by omega), rd16_wr16_same]
    omega
  · rw [rd16_wr16_other (by omega), rd16_wr16_other (by omega), rd16_wr16_other (by omega),
      rd16_wr16_same]
  · rw [rd16_wr16_other (by omega), rd16_wr16_other (by omega), rd16_wr16_same]
  · rw [rd16_wr16_other (by omega), rd16_wr16_same]
  · rw [rd16_wr16_same]

theorem sp_slot_ptr_eq (i : Nat) : sp_slot_ptr i = 12 + i * 4 := rfl

theorem slotInPage_iff (i : Nat) : slotInPage i ↔ 12 + i * 4 + 4 ≤ 4096 := Iff.rfl

theorem inPage_iff (off len : Int) : inPage off len ↔ 0 ≤ off ∧ 0 ≤ len ∧ off + len ≤ 4096 :=
  Iff.rfl

theorem readSlot_congr {p q : Page} {j : Nat}
    (h : ∀ i, 12 + j * 4 ≤ i → i < 12 + j * 4 + 4 → p i = q i) : readSlot p j = readSlot q j := by
  unfold readSlot
  rw [sp_slot_ptr_eq, rd16_congr (h _ (by omega) (by omega)) (h _ (by omega) (by omega)),
    rd16_congr (h _ (by omega) (by omega)) (h _ (by omega) (by omega))]

theorem writeSlot_outside {p : Page} {j : Nat} {s : SP_SlotEntry} {i : Nat}
    (h : i < 12 + j * 4 ∨ 12 + j * 4 + 4 ≤ i) : writeSlot p j s i = p i := by
  unfold writeSlot
  rw [sp_slot_ptr_eq, wr16_outside (by omega), wr16_outside (by omega)]

theorem readSlot_writeSlot_same (p : Page) (j : Nat) (s : SP_SlotEntry) :
    readSlot (writeSlot p j s) j = { offset := int16 s.offset, length := int16 s.length } := by
  unfold readSlot writeSlot int16
  rw [rd16_wr16_other (by omega), rd16_wr16_same, rd16_wr16_same, u16_mod, u16_mod]

theorem readSlot_writeSlot_other {p : Page} {j k : Nat} (s : SP_SlotEntry) (h : k ≠ j) :
    readSlot (writeSlot p j s) k = readSlot p k :=
  readSlot_congr (fun i h1 h2 => writeSlot_outside (by omega))

theorem readSlot_write_header (p : Page) (hdr : SP_PageHeader) (j : Nat) :
    readSlot (sp_write_header p hdr) j = readSlot p j :=
  readSlot_congr (fun i h1 _ => sp_write_header_outside (by omega))

theorem sp_read_header_writeSlot (p : Page) (j : Nat) (s : SP_SlotEntry) :
    sp_read_header (writeSlot p j s) = sp_read_header p :=
  sp_read_header_congr (fun i h => writeSlot_outside (by omega))

theorem readSlot_offset_range (p : Page) (j : Nat) :
    -32768 ≤ (readSlot p j).offset ∧ (readSlot p j).offset < 32768 := by
  unfold readSlot toInt16
  have := rd16_lt p (sp_slot_ptr j)
  constructor <;> (simp only; split <;> omega)

theorem readSlot_length_range (p : Page) (j : Nat) :
    -32768 ≤ (readSlot p j).length ∧ (readSlot p j).length < 32768 := by
  unfold readSlot toInt16
  have := rd16_lt p (sp_slot_ptr j + 2)
  constructor <;> (simp only; split <;> omega)

theorem sp_read_header_slot_count_lt (p : Page) : (sp_read_header p).slot_count < 65536 :=
  rd16_lt p 4

theorem sp_read_header_free_offset_lt (p : Page) : (sp_read_header p).free_offset < 65536 :=
  rd16_lt p 6

theorem sp_read_header_free_space_lt (p : Page) : (sp_read_header p).free_space < 65536 :=
  rd16_lt p 8

/-! ## The tombstone search -/

theorem sp_scan_deleted_congr {p q : Page} (k : Nat) :
    ∀ i, (∀ x, 12 + i * 4 ≤ x → x < 12 + (i + k) * 4 → p x = q x) →
      sp_scan_deleted p i k = sp_scan_deleted q i k := by
  induction k with
  | zero => intro i _; rfl
  | succ k ih =>
    intro i h
    unfold sp_scan_deleted
    rw [readSlot_congr (p := p) (q := q) (fun x h1 h2 => h x h1 (by omega)),
      ih (i + 1) (fun x h1 h2 => h x (by omega) (by omega))]

theorem sp_scan_deleted_found {p : Page} (k : Nat) :
    ∀ i j, sp_scan_deleted p i k = .found j →
      i ≤ j ∧ j < i + k ∧ slotInPage j ∧ (readSlot p j).offset = -1 ∧
        ∀ m, i ≤ m → m < j → (readSlot p m).offset ≠ -1 := by
  induction k with
  | zero => intro i j h; simp [sp_scan_deleted] at h
  | succ k ih =>
    intro i j h
    unfold sp_scan_deleted at h
    split_ifs at h with h1 h2
    · cases h
      exact ⟨le_refl _, by omega, h1, h2, fun m hm1 hm2 => by omega⟩
    · obtain ⟨a, b, c, d, e⟩ := ih (i + 1) j h
      refine ⟨by omega, by omega, c, d, fun m hm1 hm2 => ?_⟩
      by_cases hmi : m = i
      · subst hmi; exact h2
      · exact e m (by omega) hm2

theorem sp_scan_deleted_absent {p : Page} (k : Nat) :
    ∀ i, sp_scan_deleted p i k = .absent →
      ∀ m, i ≤ m → m < i + k → (readSlot p m).offset ≠ -1 := by
  induction k with
  | zero => intro i _ m h1 h2; omega
  | succ k ih =>
    intro i h m hm1 hm2
    unfold sp_scan_deleted at h
    split_ifs at h with h1 h2
    by_cases hmi : m = i
    · subst hmi; exact h2
    · exact ih (i + 1) h m (by omega) (by omega)

theorem sp_scan_deleted_ne_oob {p : Page} (k : Nat) :
    ∀ i, 12 + (i + k) * 4 ≤ 4096 → sp_scan_deleted p i k ≠ .oob := by
  induction k with
  | zero => intro i _; simp [sp_scan_deleted]
  | succ k ih =>
    intro i h
    unfold sp_scan_deleted
    have hin : slotInPage i := by rw [slotInPage_iff]; omega
    split_ifs with h2
    · simp
    · exact ih (i + 1) (by omega)

theorem sp_scan_deleted_absent_of {p : Page} (k : Nat) :
    ∀ i, 12 + (i + k) * 4 ≤ 4096 → (∀ m, i ≤ m → m < i + k → (readSlot p m).offset ≠ -1) →
      sp_scan_deleted p i k = .absent := by
  induction k with
  | zero => intro i _ _; rfl
  | succ k ih =>
    intro i h hall
    unfold sp_scan_deleted
    have hin : slotInPage i := by rw [slotInPage_iff]; omega
    rw [if_neg (not_not.mpr hin), if_neg (hall i (le_refl _) (by omega))]
    exact ih (i + 1) (by omega) (fun m h1 h2 => hall m (by omega) (by omega))

theorem sp_scan_deleted_found_of {p : Page} (k : Nat) :
    ∀ i j, 12 + (i + k) * 4 ≤ 4096 → i ≤ j → j < i + k → (readSlot p j).offset = -1 →
      (∀ m, i ≤ m → m < j → (readSlot p m).offset ≠ -1) →
      sp_scan_deleted p i k = .found j := by
  induction k with
  | zero => intro i j _ h1 h2; omega
  | succ k ih =>
    intro i j h h1 h2 hj hall
    unfold sp_scan_deleted
    have hin : slotInPage i := by rw [slotInPage_iff]; omega
    rw [if_neg (not_not.mpr hin)]
    by_cases hji : j = i
    · subst hji; rw [if_pos hj]
    · rw [if_neg (hall i (le_refl _) (by omega))]
      exact ih (i + 1) j (by omega) (by omega) (by omega) hj
        (fun m hm1 hm2 => hall m (by omega) hm2)

/-! ## Insertion into a page -/

/-- What a successful run of the insertion code has done, read off the code. -/
theorem SP_InsertRecord_page_ok {p : Page} {data : List Byte} {len : Int} {p' : Page}
    {idx : Nat} (h : SP_InsertRecord_page p data len = .ok (p', idx)) :
    inPage (u16 (((sp_read_header p).free_offset : Int) - len)) len ∧ len ≤ data.length ∧
    slotInPage idx ∧
    ((sp_scan_deleted p 0 (sp_read_header p).slot_count = .found idx ∧
      ((sp_read_header p).free_space : Int) ≥ len ∧
      p' = sp_write_header
        (writeSlot
          (memcpyIn p (u16 (((sp_read_header p).free_offset : Int) - len)) data len.toNat) idx
          { offset := int16 (u16 (((sp_read_header p).free_offset : Int) - len)),
            length := int16 len })
        { sp_read_header p with
          free_offset := u16 (((sp_read_header p).free_offset : Int) - len)
          free_space := u16 ((u16 (((sp_read_header p).free_offset : Int) - len) : Int) -
            (SP_HEADER_SIZE + (sp_read_header p).slot_count * SP_SLOT_SIZE : Nat)) }) ∨
     (sp_scan_deleted p 0 (sp_read_header p).slot_count = .absent ∧
      idx = (sp_read_header p).slot_count ∧
      ((sp_read_header p).free_space : Int) ≥ len + 4 ∧
      p' = sp_write_header
        (writeSlot
          (memcpyIn p (u16 (((sp_read_header p).free_offset : Int) - len)) data len.toNat) idx
          { offset := int16 (u16 (((sp_read_header p).free_offset : Int) - len)),
            length := int16 len })
        { sp_read_header p with
          slot_count := ((sp_read_header p).slot_count + 1) % 65536
          free_offset := u16 (((sp_read_header p).free_offset : Int) - len)
          free_space := u16 ((u16 (((sp_read_header p).free_offset : Int) - len) : Int) -
            (SP_HEADER_SIZE + (((sp_read_header p).slot_count + 1) % 65536) * SP_SLOT_SIZE :
              Nat)) })) := by
  cases hsc : sp_scan_deleted p 0 (sp_read_header p).slot_count with
  | oob => simp [SP_InsertRecord_page, hsc] at h
  | found i =>
    simp only [SP_InsertRecord_page, hsc] at h
    simp only [bne_iff_ne, ne_eq, reduceCtorEq, not_false_eq_true, decide_True, if_true,
      Bool.true_eq_false, if_false] at h
    split_ifs at h with h1 h2 h3
    simp only [PgRes.ok.injEq, Prod.mk.injEq] at h
    obtain ⟨hp, hi⟩ := h
    subst hi
    refine ⟨h2.1, h2.2, h3, Or.inl ⟨rfl, ?_, ?_⟩⟩
    · simp at h1; omega
    · rw [← hp]; simp
  | absent =>
    simp only [SP_InsertRecord_page, hsc] at h
    simp only [bne_self_eq_false, Bool.false_eq_true, if_false] at h
    split_ifs at h with h1 h2 h3
    simp only [PgRes.ok.injEq, Prod.mk.injEq] at h
    obtain ⟨hp, hi⟩ := h
    subst hi
    refine ⟨h2.1, h2.2, h3, Or.inr ⟨rfl, rfl, ?_, ?_⟩⟩
    · simp [SP_SLOT_SIZE] at h1; omega
    · rw [← hp]; simp

theorem sp_read_header_eta (p : Page) :
    ({ magic := (sp_read_header p).magic % 4294967296,
       slot_count := (sp_read_header p).slot_count % 65536,
       free_offset := (sp_read_header p).free_offset % 65536,
       free_space := (sp_read_header p).free_space % 65536,
       pad := (sp_read_header p).pad % 65536 } : SP_PageHeader) = sp_read_header p := by
  unfold sp_read_header
  simp only
  rw [Nat.mod_eq_of_lt (rd32_lt p 0), Nat.mod_eq_of_lt (rd16_lt p 4),
    Nat.mod_eq_of_lt (rd16_lt p 6), Nat.mod_eq_of_lt (rd16_lt p 8),
    Nat.mod_eq_of_lt (rd16_lt p 10)]

/-- The page an insertion produces, in the form the code builds it. -/
theorem insert_page_shape (p : Page) (data : List Byte) {len : Int} (idx n' : Nat) {fo : Nat}
    (hfo : (fo : Int) = ((sp_read_header p).free_offset : Int) - len) (hlen : 0 < len)
    (hdir : 12 + n' * 4 ≤ fo) (hidx : idx < n') (hf : (sp_read_header p).free_offset ≤ 4096)
    (hdata : len ≤ data.length) (fs : Nat) (hfs : fs = fo - (12 + n' * 4)) :
    let p' := sp_write_header
      (writeSlot (memcpyIn p fo data len.toNat) idx
        { offset := int16 fo, length := int16 len })
      { sp_read_header p with slot_count := n', free_offset := fo, free_space := fs }
    (sp_read_header p').slot_count = n' ∧
    ((sp_read_header p').free_offset : Int) = ((sp_read_header p).free_offset : Int) - len ∧
    ((sp_read_header p').free_space : Int) =
      ((sp_read_header p').free_offset : Int) -
        (SP_HEADER_SIZE + (sp_read_header p').slot_count * SP_SLOT_SIZE : Nat) ∧
    (sp_read_header p').magic = (sp_read_header p).magic ∧
    readSlot p' idx = { offset := ((sp_read_header p).free_offset : Int) - len, length := len } ∧
    (∀ j, j < n' → j ≠ idx → readSlot p' j = readSlot p j) ∧
    readBytes p' ((sp_read_header p).free_offset - len.toNat) len.toNat = data.take len.toNat ∧
    (∀ i, (sp_read_header p).free_offset ≤ i → p' i = p i) := by
  intro p'
  have hhdr : sp_read_header p' =
      { sp_read_header p with slot_count := n', free_offset := fo, free_space := fs } := by
    show sp_read_header (sp_write_header _ _) = _
    rw [sp_read_header_write]
    have e := congrArg SP_PageHeader.magic (sp_read_header_eta p)
    have e2 := congrArg SP_PageHeader.pad (sp_read_header_eta p)
    simp only at e e2
    simp only [e, e2]
    rw [Nat.mod_eq_of_lt (by omega : n' < 65536), Nat.mod_eq_of_lt (by omega : fo < 65536),
      Nat.mod_eq_of_lt (by omega : fs < 65536)]
  have hfoNat : fo = (sp_read_header p).free_offset - len.toNat := by omega
  refine ⟨by rw [hhdr], by rw [hhdr]; exact hfo, ?_, by rw [hhdr], ?_, ?_, ?_, ?_⟩
  · rw [hhdr]; simp only [SP_HEADER_SIZE, SP_SLOT_SIZE]; omega
  · show readSlot (sp_write_header _ _) idx = _
    rw [readSlot_write_header, readSlot_writeSlot_same]
    simp only
    rw [int16_of_range (x := int16 fo), int16_of_range (x := (fo : Int)),
      int16_of_range (x := int16 len), int16_of_range (x := len), hfo] <;>
      first
        | omega
        | (rw [int16_of_range] <;> omega)
  · intro j hj hne
    show readSlot (sp_write_header _ _) j = _
    rw [readSlot_write_header, readSlot_writeSlot_other _ hne]
    exact readSlot_congr (fun i h1 h2 => memcpyIn_outside (by omega))
  · rw [← hfoNat]
    apply List.ext_getElem
    · simp [readBytes]; omega
    · intro i h1 h2
      simp only [readBytes_length] at h1
      simp only [readBytes, List.getElem_map, List.getElem_range, List.getElem_take]
      show sp_write_header _ _ (fo + i) = _
      rw [sp_write_header_outside (by omega), writeSlot_outside (by omega), memcpyIn_apply,
        if_pos (by omega)]
      have hi : i < data.length := by omega
      simp [List.getD_eq_getElem?_getD, List.getElem?_eq_getElem hi]
  · intro i hi
    show sp_write_header _ _ i = _
    rw [sp_write_header_outside (by omega), writeSlot_outside (by omega),
      memcpyIn_outside (by omega)]

/-- A successful insertion whose needed bytes fit in the gap between the slot
directory and `free_offset` has the effect `InsertEffect`. -/
theorem insert_effect_of_gap {p : Page} {data : List Byte} {len : Int} {p' : Page} {idx : Nat}
    (h : SP_InsertRecord_page p data len = .ok (p', idx)) (hlen : 0 < len)
    (hgap : neededBytes p len ≤ gapBytes p) : InsertEffect p data len p' idx := by
  obtain ⟨hin, hdata, hslot, hcase⟩ := SP_InsertRecord_page_ok h
  unfold neededBytes gapBytes at hgap
  rw [inPage_iff] at hin
  rw [slotInPage_iff] at hslot
  simp only [SP_HEADER_SIZE, SP_SLOT_SIZE] at hgap
  have hfs := sp_read_header_free_space_lt p
  have hfl := sp_read_header_free_offset_lt p
  have hsl := sp_read_header_slot_count_lt p
  rcases hcase with ⟨hsc, hspace, hp⟩ | ⟨hsc, hidx, hspace, hp⟩
  · obtain ⟨-, hlt, -, hoff, hbelow⟩ := sp_scan_deleted_found _ _ _ hsc
    rw [if_pos ⟨idx, by omega, hoff⟩] at hgap
    have hfo : ((u16 (((sp_read_header p).free_offset : Int) - len) : Nat) : Int) =
        ((sp_read_header p).free_offset : Int) - len := u16_of_range (by omega) (by omega)
    have hfs2 : u16 ((u16 (((sp_read_header p).free_offset : Int) - len) : Int) -
        (SP_HEADER_SIZE + (sp_read_header p).slot_count * SP_SLOT_SIZE : Nat)) =
        u16 (((sp_read_header p).free_offset : Int) - len) -
          (12 + (sp_read_header p).slot_count * 4) := by
      simp only [SP_HEADER_SIZE, SP_SLOT_SIZE]
      have := u16_of_range (x := (u16 (((sp_read_header p).free_offset : Int) - len) : Int) -
        ((12 + (sp_read_header p).slot_count * 4 : Nat) : Int)) (by omega) (by omega)
      omega
    obtain ⟨a1, a2, a3, a4, a5, a6, a7, a8⟩ :=
      insert_page_shape p data idx (sp_read_header p).slot_count hfo hlen (by omega) (by omega)
        (by omega) hdata _ hfs2
    rw [← hp] at a1 a2 a3 a4 a5 a6 a7 a8
    exact ⟨Or.inl ⟨hoff, by omega, fun m hm => hbelow m (by omega) hm, a1⟩, a2, a3, a4, a5,
      fun j hj hne => a6 j (by rw [← a1]; exact hj) hne, a7, a8⟩
  · have hall := sp_scan_deleted_absent _ _ hsc
    rw [if_neg (fun ⟨i, hi, ho⟩ => hall i (by omega) (by omega) ho)] at hgap
    have hn : ((sp_read_header p).slot_count + 1) % 65536 = (sp_read_header p).slot_count + 1 :=
      Nat.mod_eq_of_lt (by omega)
    rw [hn] at hp
    have hfo : ((u16 (((sp_read_header p).free_offset : Int) - len) : Nat) : Int) =
        ((sp_read_header p).free_offset : Int) - len := u16_of_range (by omega) (by omega)
    have hfs2 : u16 ((u16 (((sp_read_header p).free_offset : Int) - len) : Int) -
        (SP_HEADER_SIZE + ((sp_read_header p).slot_count + 1) * SP_SLOT_SIZE : Nat)) =
        u16 (((sp_read_header p).free_offset : Int) - len) -
          (12 + ((sp_read_header p).slot_count + 1) * 4) := by
      simp only [SP_HEADER_SIZE, SP_SLOT_SIZE]
      have := u16_of_range (x := (u16 (((sp_read_header p).free_offset : Int) - len) : Int) -
        ((12 + ((sp_read_header p).slot_count + 1) * 4 : Nat) : Int)) (by omega) (by omega)
      omega
    obtain ⟨a1, a2, a3, a4, a5, a6, a7, a8⟩ :=
      insert_page_shape p data idx ((sp_read_header p).slot_count + 1) hfo hlen (by omega)
        (by omega) (by omega) hdata _ hfs2
    rw [← hp] at a1 a2 a3 a4 a5 a6 a7 a8
    exact ⟨Or.inr ⟨fun m hm => hall m (by omega) (by omega), hidx, a1⟩, a2, a3, a4, a5,
      fun j hj hne => a6 j (by rw [← a1]; exact hj) hne, a7, a8⟩

/-- When the space accounting holds, the bytes needed by a successful
insertion fit in the gap. -/
theorem needed_le_gap {p : Page} {data : List Byte} {len : Int} {p' : Page} {idx : Nat}
    (h : SP_InsertRecord_page p data len = .ok (p', idx)) (hex : SpaceExact p) :
    neededBytes p len ≤ gapBytes p := by
  obtain ⟨-, -, -, hcase⟩ := SP_InsertRecord_page_ok h
  unfold SpaceExact at hex
  unfold neededBytes gapBytes
  simp only [SP_HEADER_SIZE, SP_SLOT_SIZE] at hex ⊢
  rcases hcase with ⟨hsc, hspace, -⟩ | ⟨hsc, -, hspace, -⟩
  · obtain ⟨-, hlt, -, hoff, -⟩ := sp_scan_deleted_found _ _ _ hsc
    rw [if_pos ⟨idx, by omega, hoff⟩]
    omega
  · have hall := sp_scan_deleted_absent _ _ hsc
    rw [if_neg (fun ⟨i, hi, ho⟩ => hall i (by omega) (by omega) ho)]
    omega

/-- On a page that satisfies the space accounting, a successful insertion has
the effect `InsertEffect`. -/
theorem insert_effect {p : Page} {data : List Byte} {len : Int} {p' : Page} {idx : Nat}
    (h : SP_InsertRecord_page p data len = .ok (p', idx)) (hex : SpaceExact p)
    (hlen : 0 < len) : InsertEffect p data len p' idx :=
  insert_effect_of_gap h hlen (needed_le_gap h hex)

/-! ## The paged-file calls -/

theorem nextFault_nil {st : PFState} (h : st.faults = []) : st.nextFault = (PFE_OK, st) := by
  unfold PFState.nextFault; rw [h]

theorem nextFault_page (st : PFState) : st.nextFault.2.page = st.page := by
  unfold PFState.nextFault; cases st.faults <;> rfl

theorem nextFault_numpages (st : PFState) : st.nextFault.2.numpages = st.numpages := by
  unfold PFState.nextFault; cases st.faults <;> rfl

theorem nextFault_junk (st : PFState) : st.nextFault.2.junk = st.junk := by
  unfold PFState.nextFault; cases st.faults <;> rfl

theorem fix_page (st : PFState) (c : PFCall) (n : Nat) : (st.fix c n).2.page = st.page := by
  unfold PFState.fix
  have h := nextFault_page st
  revert h
  cases st.nextFault with
  | mk e st1 => intro h; simp only at h ⊢; split_ifs <;> exact h

theorem fix_numpages (st : PFState) (c : PFCall) (n : Nat) :
    (st.fix c n).2.numpages = st.numpages := by
  unfold PFState.fix
  have h := nextFault_numpages st
  revert h
  cases st.nextFault with
  | mk e st1 => intro h; simp only at h ⊢; split_ifs <;> exact h

theorem fix_junk (st : PFState) (c : PFCall) (n : Nat) : (st.fix c n).2.junk = st.junk := by
  unfold PFState.fix
  have h := nextFault_junk st
  revert h
  cases st.nextFault with
  | mk e st1 => intro h; simp only at h ⊢; split_ifs <;> exact h

theorem fix_ok_lt {st : PFState} {c : PFCall} {n : Nat} (h : (st.fix c n).1 = PFE_OK) :
    n < st.numpages := by
  unfold PFState.fix at h
  have hn := nextFault_numpages st
  revert h hn
  cases st.nextFault with
  | mk e st1 =>
    intro h hn
    simp only at h hn
    split_ifs at h with h1 h2
    · exact absurd h h1
    · simp [PFE_EOF, PFE_OK] at h
    · omega

theorem fix_nil {st : PFState} (c : PFCall) {n : Nat} (hf : st.faults = [])
    (hn : n < st.numpages) :
    st.fix c n = (PFE_OK,
      { st with pins := fun m => if m = n then st.pins m + 1 else st.pins m }.log c PFE_OK) := by
  unfold PFState.fix
  rw [nextFault_nil hf]
  simp only [ne_eq, not_true_eq_false, if_false]
  rw [if_neg (by omega)]

theorem fix_nil_eof {st : PFState} (c : PFCall) {n : Nat} (hf : st.faults = [])
    (hn : st.numpages ≤ n) : st.fix c n = (PFE_EOF, st.log c PFE_EOF) := by
  unfold PFState.fix
  rw [nextFault_nil hf]
  simp only [ne_eq, not_true_eq_false, if_false]
  rw [if_pos (by omega)]

theorem PF_GetThisPage_page (st : PFState) (n : Nat) : (PF_GetThisPage st n).2.page = st.page :=
  fix_page st _ n

theorem PF_GetThisPage_numpages (st : PFState) (n : Nat) :
    (PF_GetThisPage st n).2.numpages = st.numpages :=
  fix_numpages st _ n

theorem PF_GetThisPage_junk (st : PFState) (n : Nat) : (PF_GetThisPage st n).2.junk = st.junk :=
  fix_junk st _ n

theorem PF_UnfixPage_page (st : PFState) (n : Nat) (d : Bool) :
    (PF_UnfixPage st n d).2.page = st.page := by
  unfold PF_UnfixPage
  have h := nextFault_page st
  revert h
  cases st.nextFault with
  | mk e st1 => intro h; simp only at h ⊢; split_ifs <;> exact h

theorem PF_UnfixPage_numpages (st : PFState) (n : Nat) (d : Bool) :
    (PF_UnfixPage st n d).2.numpages = st.numpages := by
  unfold PF_UnfixPage
  have h := nextFault_numpages st
  revert h
  cases st.nextFault with
  | mk e st1 => intro h; simp only at h ⊢; split_ifs <;> exact h

theorem PF_UnfixPage_junk (st : PFState) (n : Nat) (d : Bool) :
    (PF_UnfixPage st n d).2.junk = st.junk := by
  unfold PF_UnfixPage
  have h := nextFault_junk st
  revert h
  cases st.nextFault with
  | mk e st1 => intro h; simp only at h ⊢; split_ifs <;> exact h

theorem PF_UnfixPage_nil {st : PFState} {n : Nat} (d : Bool) (hf : st.faults = [])
    (hp : 0 < st.pins n) :
    PF_UnfixPage st n d = (PFE_OK,
      { st with pins := fun m => if m = n then st.pins m - 1 else st.pins m }.log
        (.UnfixPage n d) PFE_OK) := by
  unfold PF_UnfixPage
  rw [nextFault_nil hf]
  simp only [ne_eq, not_true_eq_false, if_false]
  rw [if_neg (by omega)]

theorem setPage_page_same (st : PFState) (n : Nat) (p : Page) : (st.setPage n p).page n = p := by
  simp [PFState.setPage]

theorem setPage_page_other (st : PFState) {n m : Nat} (p : Page) (h : m ≠ n) :
    (st.setPage n p).page m = st.page m := by
  simp [PFState.setPage, h]

theorem PF_UnfixPage_nil_ex (st : PFState) (n : Nat) (d : Bool) (hf : st.faults = [])
    (hp : 0 < st.pins n) :
    ∃ st1, PF_UnfixPage st n d = (PFE_OK, st1) ∧ st1.page = st.page ∧
      st1.numpages = st.numpages ∧ st1.junk = st.junk ∧ st1.faults = [] := by
  rw [PF_UnfixPage_nil d hf hp]
  exact ⟨_, rfl, rfl, rfl, rfl, hf⟩

theorem PF_GetNextPage_nil {st : PFState} {n : Nat} (hf : st.faults = [])
    (hn : n + 1 < st.numpages) :
    ∃ st1, PF_GetNextPage st n = (PFE_OK, n + 1, st1) ∧ st1.page = st.page ∧
      st1.numpages = st.numpages ∧ st1.junk = st.junk ∧ st1.faults = [] ∧
      0 < st1.pins (n + 1) := by
  unfold PF_GetNextPage
  rw [fix_nil _ hf hn]
  exact ⟨_, rfl, rfl, rfl, rfl, hf, by simp [PFState.log]⟩

theorem PF_GetNextPage_nil_eof {st : PFState} {n : Nat} (hf : st.faults = [])
    (hn : st.numpages ≤ n + 1) :
    ∃ st1, PF_GetNextPage st n = (PFE_EOF, n + 1, st1) ∧ st1.page = st.page ∧
      st1.numpages = st.numpages ∧ st1.junk = st.junk ∧ st1.faults = [] := by
  unfold PF_GetNextPage
  rw [fix_nil_eof _ hf hn]
  exact ⟨_, rfl, rfl, rfl, rfl, hf⟩

theorem PF_GetFirstPage_nil {st : PFState} (hf : st.faults = []) (hn : 0 < st.numpages) :
    ∃ st1, PF_GetFirstPage st = (PFE_OK, 0, st1) ∧ st1.page = st.page ∧
      st1.numpages = st.numpages ∧ st1.junk = st.junk ∧ st1.faults = [] ∧ 0 < st1.pins 0 := by
  unfold PF_GetFirstPage
  rw [fix_nil _ hf hn]
  exact ⟨_, rfl, rfl, rfl, rfl, hf, by simp [PFState.log]⟩

theorem PF_GetFirstPage_nil_eof {st : PFState} (hf : st.faults = []) (hn : st.numpages = 0) :
    ∃ st1, PF_GetFirstPage st = (PFE_EOF, 0, st1) ∧ st1.page = st.page ∧
      st1.numpages = st.numpages ∧ st1.junk = st.junk ∧ st1.faults = [] := by
  unfold PF_GetFirstPage
  rw [fix_nil_eof _ hf (by omega)]
  exact ⟨_, rfl, rfl, rfl, rfl, hf⟩

theorem PF_GetThisPage_nil {st : PFState} {n : Nat} (hf : st.faults = [])
    (hn : n < st.numpages) :
    ∃ st1, PF_GetThisPage st n = (PFE_OK, st1) ∧ st1.page = st.page ∧
      st1.numpages = st.numpages ∧ st1.junk = st.junk ∧ st1.faults = [] ∧ 0 < st1.pins n := by
  unfold PF_GetThisPage
  rw [fix_nil _ hf hn]
  exact ⟨_, rfl, rfl, rfl, rfl, hf, by simp [PFState.log]⟩

/-! ## Deletion -/

/-- What a successful run of the deletion code has done, read off the code. -/
theorem SP_DeleteRecord_page_ok {p : Page} {slot : Nat} {p' : Page}
    (h : SP_DeleteRecord_page p slot = .ok p') :
    slot < (sp_read_header p).slot_count ∧ slotInPage slot ∧ (readSlot p slot).offset ≠ -1 ∧
    p' = sp_write_header (writeSlot p slot { offset := -1, length := 0 })
      { sp_read_header p with
        free_space := u16 (((sp_read_header p).free_space : Int) + (readSlot p slot).length) } := by
  unfold SP_DeleteRecord_page at h
  simp only at h
  split_ifs at h with h1 h2 h3
  simp only [PgRes.ok.injEq] at h
  exact ⟨by omega, h2, h3, h.symm⟩

theorem delete_page_header {p : Page} {slot : Nat} {p' : Page}
    (h : SP_DeleteRecord_page p slot = .ok p') :
    sp_read_header p' =
      { sp_read_header p with
        free_space := u16 (((sp_read_header p).free_space : Int) + (readSlot p slot).length) } := by
  obtain ⟨-, -, -, hp⟩ := SP_DeleteRecord_page_ok h
  rw [hp, sp_read_header_write]
  simp only [SP_PageHeader.mk.injEq]
  exact ⟨Nat.mod_eq_of_lt (rd32_lt p 0), Nat.mod_eq_of_lt (rd16_lt p 4),
    Nat.mod_eq_of_lt (rd16_lt p 6), u16_mod _, Nat.mod_eq_of_lt (rd16_lt p 10)⟩

theorem delete_page_slot_same {p : Page} {slot : Nat} {p' : Page}
    (h : SP_DeleteRecord_page p slot = .ok p') :
    readSlot p' slot = { offset := -1, length := 0 } := by
  obtain ⟨-, -, -, hp⟩ := SP_DeleteRecord_page_ok h
  rw [hp, readSlot_write_header, readSlot_writeSlot_same]
  rfl

theorem delete_page_slot_other {p : Page} {slot : Nat} {p' : Page}
    (h : SP_DeleteRecord_page p slot = .ok p') {j : Nat} (hj : j ≠ slot) :
    readSlot p' j = readSlot p j := by
  obtain ⟨-, -, -, hp⟩ := SP_DeleteRecord_page_ok h
  rw [hp, readSlot_write_header, readSlot_writeSlot_other _ hj]

theorem delete_page_bytes {p : Page} {slot : Nat} {p' : Page}
    (h : SP_DeleteRecord_page p slot = .ok p') {i : Nat} (h12 : 12 ≤ i)
    (hi : i < 12 + slot * 4 ∨ 12 + slot * 4 + 4 ≤ i) : p' i = p i := by
  obtain ⟨-, -, -, hp⟩ := SP_DeleteRecord_page_ok h
  rw [hp, sp_write_header_outside h12, writeSlot_outside hi]

/-- A successful `SP_DeleteRecord` is a successful deletion in the page the
record id names, stored back into that page. -/
theorem SP_DeleteRecord_ok {st : PFState} {rid : Nat} {st' : PFState}
    (h : SP_DeleteRecord st rid = .ok () st') :
    (decode_recId rid).1 < st.numpages ∧ st'.numpages = st.numpages ∧
    ∃ p', SP_DeleteRecord_page (st.page (decode_recId rid).1) (decode_recId rid).2 = .ok p' ∧
      st'.page = fun n => if n = (decode_recId rid).1 then p' else st.page n := by
  unfold SP_DeleteRecord at h
  simp only at h
  have hpg := PF_GetThisPage_page st (decode_recId rid).1
  have hnp := PF_GetThisPage_numpages st (decode_recId rid).1
  have hlt : (PF_GetThisPage st (decode_recId rid).1).1 = PFE_OK → _ := fix_ok_lt
  revert h hpg hnp hlt
  cases PF_GetThisPage st (decode_recId rid).1 with
  | mk rc st1 =>
    intro h hpg hnp hlt
    simp only at h hpg hnp hlt
    split_ifs at h with h1
    rw [hpg] at h
    cases hd : SP_DeleteRecord_page (st.page (decode_recId rid).1) (decode_recId rid).2 with
    | undef => simp [hd] at h
    | fail => simp [hd] at h
    | ok p' =>
      simp only [hd] at h
      have hpg2 := PF_UnfixPage_page (st1.setPage (decode_recId rid).1 p')
        (decode_recId rid).1 true
      have hnp2 := PF_UnfixPage_numpages (st1.setPage (decode_recId rid).1 p')
        (decode_recId rid).1 true
      revert h hpg2 hnp2
      cases PF_UnfixPage (st1.setPage (decode_recId rid).1 p') (decode_recId rid).1 true with
      | mk rc2 st2 =>
        intro h hpg2 hnp2
        simp only at h hpg2 hnp2
        split_ifs at h with h2
        simp only [SPRet.ok.injEq, true_and] at h
        subst h
        refine ⟨hlt (not_not.mp h1), ?_, p', rfl, ?_⟩
        · rw [hnp2]; exact hnp
        · rw [hpg2]; simp only [PFState.setPage, hpg]

/-- Any result of `SP_DeleteRecord` other than `undef` leaves the number of
pages as it was, and a failing one leaves every page as it was. -/
theorem SP_DeleteRecord_fail {st : PFState} {rid : Nat} {rc : Int} {st' : PFState}
    (h : SP_DeleteRecord st rid = .fail rc st') :
    rc = -1 ∧ st'.numpages = st.numpages ∧
    ((PF_GetThisPage st (decode_recId rid).1).1 = PFE_OK →
      SP_DeleteRecord_page (st.page (decode_recId rid).1) (decode_recId rid).2 = .fail →
      st'.page = st.page) := by
  unfold SP_DeleteRecord at h
  simp only at h
  have hpg := PF_GetThisPage_page st (decode_recId rid).1
  have hnp := PF_GetThisPage_numpages st (decode_recId rid).1
  revert h hpg hnp
  cases PF_GetThisPage st (decode_recId rid).1 with
  | mk rc1 st1 =>
    intro h hpg hnp
    simp only at h hpg hnp ⊢
    split_ifs at h with h1
    · simp only [SPRet.fail.injEq] at h
      exact ⟨h.1.symm, by rw [← h.2]; exact hnp, fun h2 => absurd h2 h1⟩
    · rw [hpg] at h
      cases hd : SP_DeleteRecord_page (st.page (decode_recId rid).1) (decode_recId rid).2 with
      | undef => simp [hd] at h
      | fail =>
        simp only [hd, SPRet.fail.injEq] at h
        refine ⟨h.1.symm, ?_, fun _ _ => ?_⟩
        · rw [← h.2, PF_UnfixPage_numpages]; exact hnp
        · rw [← h.2, PF_UnfixPage_page]; exact hpg
      | ok p' =>
        simp only [hd] at h
        have hnp2 := PF_UnfixPage_numpages (st1.setPage (decode_recId rid).1 p')
          (decode_recId rid).1 true
        revert h hnp2
        cases PF_UnfixPage (st1.setPage (decode_recId rid).1 p') (decode_recId rid).1 true with
        | mk rc2 st2 =>
          intro h hnp2
          simp only at h hnp2
          split_ifs at h with h2
          simp only [SPRet.fail.injEq] at h
          refine ⟨h.1.symm, ?_, fun _ h3 => ?_⟩
          · rw [← h.2, hnp2]; exact hnp
          · simp at h3

theorem delete_page_twice {p : Page} {slot : Nat} {p' : Page}
    (h : SP_DeleteRecord_page p slot = .ok p') : SP_DeleteRecord_page p' slot = .fail := by
  obtain ⟨hlt, hin, -, -⟩ := SP_DeleteRecord_page_ok h
  have hh := delete_page_header h
  have hs := delete_page_slot_same h
  unfold SP_DeleteRecord_page
  simp only [hh, hs]
  rw [if_neg (by omega), if_neg (not_not.mpr hin)]
  simp

/-- C5: after a successful `SP_DeleteRecord` of a record id, a second
`SP_DeleteRecord` of the same record id returns the error value -1 and
leaves every page of the file, byte for byte, as the first deletion left
it. -/
theorem C5_double_delete_detected (st st' : PFState) (rid : Nat)
    (h : SP_DeleteRecord st rid = .ok () st') :
    ∃ st'', SP_DeleteRecord st' rid = .fail (-1) st'' ∧ st''.page = st'.page ∧
      st''.numpages = st'.numpages := by
  obtain ⟨-, -, p', hp', hpage⟩ := SP_DeleteRecord_ok h
  have h2 := delete_page_twice hp'
  have hcur : st'.page (decode_recId rid).1 = p' := by rw [hpage]; simp
  unfold SP_DeleteRecord
  simp only
  have hpg := PF_GetThisPage_page st' (decode_recId rid).1
  have hnp := PF_GetThisPage_numpages st' (decode_recId rid).1
  revert hpg hnp
  cases PF_GetThisPage st' (decode_recId rid).1 with
  | mk rc st1 =>
    intro hpg hnp
    simp only at hpg hnp ⊢
    split_ifs with h1
    · exact ⟨st1, rfl, hpg, hnp⟩
    · rw [hpg, hcur, h2]
      exact ⟨_, rfl, by rw [PF_UnfixPage_page]; exact hpg,
        by rw [PF_UnfixPage_numpages]; exact hnp⟩

/-- C5 (witness): deleting record id 0 of `file1` twice. -/
theorem C5_double_delete_detected_witness :
    SP_DeleteRecord file1 0 = .ok () ((SP_DeleteRecord file1 0).state file0) ∧
    ∃ st'', SP_DeleteRecord ((SP_DeleteRecord file1 0).state file0) 0 = .fail (-1) st'' ∧
      st''.page = ((SP_DeleteRecord file1 0).state file0).page ∧
      st''.numpages = ((SP_DeleteRecord file1 0).state file0).numpages :=
  ⟨rfl, C5_double_delete_detected file1 _ 0 rfl⟩

/-- Where the sum `free_space + L` is in the range of `uint16_t` (as it is
on every page that satisfies the layout invariant with `free_space` at most
`PF_PAGE_SIZE`), a successful `SP_DeleteRecord` of record id
`rid = (pn, slot)` deletes a slot that was live, of length `L`; it sets that
slot to `{offset = -1, length = 0}` and increases `free_space` by exactly
`L`; `slot_count`, `free_offset`, `magic`, every other slot entry, every byte
from the end of the header on other than the four bytes of that slot entry,
every other page and the number of pages stay as they were. -/
theorem delete_effect_of_range (st st' : PFState) (rid pn slot : Nat)
    (hdec : decode_recId rid = (pn, slot)) (h : SP_DeleteRecord st rid = .ok () st')
    (hlo : 0 ≤ ((sp_read_header (st.page pn)).free_space : Int) +
      (readSlot (st.page pn) slot).length)
    (hhi : ((sp_read_header (st.page pn)).free_space : Int) +
      (readSlot (st.page pn) slot).length < 65536) :
    slot < (sp_read_header (st.page pn)).slot_count ∧
    (readSlot (st.page pn) slot).offset ≠ -1 ∧
    readSlot (st'.page pn) slot = { offset := -1, length := 0 } ∧
    ((sp_read_header (st'.page pn)).free_space : Int) =
      ((sp_read_header (st.page pn)).free_space : Int) + (readSlot (st.page pn) slot).length ∧
    (sp_read_header (st'.page pn)).slot_count = (sp_read_header (st.page pn)).slot_count ∧
    (sp_read_header (st'.page pn)).free_offset = (sp_read_header (st.page pn)).free_offset ∧
    (sp_read_header (st'.page pn)).magic = (sp_read_header (st.page pn)).magic ∧
    (∀ j, j ≠ slot → readSlot (st'.page pn) j = readSlot (st.page pn) j) ∧
    (∀ i, SP_HEADER_SIZE ≤ i →
      (i < sp_slot_ptr slot ∨ sp_slot_ptr slot + SP_SLOT_SIZE ≤ i) →
      st'.page pn i = st.page pn i) ∧
    (∀ q, q ≠ pn → st'.page q = st.page q) ∧ st'.numpages = st.numpages := by
  obtain ⟨-, hnp, p', hp', hpage⟩ := SP_DeleteRecord_ok h
  rw [hdec] at hp' hpage
  simp only at hp' hpage
  have hcur : st'.page pn = p' := by rw [hpage]; simp
  obtain ⟨hlt, -, hlive, -⟩ := SP_DeleteRecord_page_ok hp'
  have hh := delete_page_header hp'
  rw [hcur]
  refine ⟨hlt, hlive, delete_page_slot_same hp', ?_, by rw [hh], by rw [hh], by rw [hh],
    fun j hj => delete_page_slot_other hp' hj, fun i h12 hi => ?_, fun q hq => ?_, hnp⟩
  · rw [hh]
    simp only
    exact u16_of_range hlo hhi
  · simp only [SP_HEADER_SIZE, SP_SLOT_SIZE, sp_slot_ptr_eq] at h12 hi
    exact delete_page_bytes hp' h12 hi
  · rw [hpage]; simp [hq]

/-- The deletion of record id 0, of length 3, of `file1`. -/
theorem delete_effect_of_range_file1 :
    decode_recId 0 = (0, 0) ∧
    SP_DeleteRecord file1 0 = .ok () ((SP_DeleteRecord file1 0).state file0) ∧
    (sp_read_header (file1.page 0)).free_space = 4077 ∧
    (readSlot (file1.page 0) 0).length = 3 ∧
    ((sp_read_header (((SP_DeleteRecord file1 0).state file0).page 0)).free_space : Int) =
      ((sp_read_header (file1.page 0)).free_space : Int) + (readSlot (file1.page 0) 0).length :=
  ⟨rfl, rfl, by decide, by decide,
    (delete_effect_of_range file1 _ 0 0 0 rfl rfl (by decide) (by decide)).2.2.2.1⟩

/-! ## The search for a page -/

/-- The test the code makes on a page, `free_space >= needed`, is the test
`PageFits` of the spec. -/
theorem pageFits_iff_of_scan (p : Page) (len : Int) :
    (∀ i, sp_scan_deleted p 0 (sp_read_header p).slot_count = .found i →
      (PageFits p len ↔ ((sp_read_header p).free_space : Int) ≥ len)) ∧
    (sp_scan_deleted p 0 (sp_read_header p).slot_count = .absent →
      (PageFits p len ↔ ((sp_read_header p).free_space : Int) ≥ len + 4)) := by
  constructor
  · intro i hsc
    obtain ⟨-, hlt, -, hoff, -⟩ := sp_scan_deleted_found _ _ _ hsc
    unfold PageFits
    constructor
    · rintro (⟨-, h⟩ | ⟨h, -⟩)
      · exact h
      · exact absurd hoff (h i (by omega))
    · intro h
      exact Or.inl ⟨⟨i, by omega, hoff⟩, h⟩
  · intro hsc
    have hall := sp_scan_deleted_absent _ _ hsc
    unfold PageFits
    simp only [SP_SLOT_SIZE]
    constructor
    · rintro (⟨⟨i, hi, hoff⟩, -⟩ | ⟨-, h⟩)
      · exact absurd hoff (hall i (by omega) (by omega))
      · exact h
    · intro h
      exact Or.inr ⟨fun i hi => hall i (by omega) (by omega), h⟩

theorem FirstFit_congr {st st2 : PFState} {len : Int} {start q : Nat} {st1 : PFState}
    (hn : st2.numpages = st.numpages) (hp : st2.page = st.page) (hj : st2.junk = st.junk)
    (h : FirstFit st2 len start q st1) : FirstFit st len start q st1 := by
  unfold FirstFit at h ⊢
  rw [hn, hp, hj] at h
  exact h

theorem FirstFit_step {st : PFState} {len : Int} {pn q : Nat} {st1 : PFState}
    (hnot : ¬ PageFits (st.page pn) len) (h : FirstFit st len (pn + 1) q st1) :
    FirstFit st len pn q st1 := by
  rcases h with ⟨a, b, c, d, e, f⟩ | ⟨a, b, c, d⟩
  · refine Or.inl ⟨a, by omega, c, fun m h1 h2 => ?_, e, f⟩
    by_cases hm : m = pn
    · subst hm; exact hnot
    · exact d m (by omega) h2
  · refine Or.inr ⟨a, fun m h1 h2 => ?_, c, d⟩
    by_cases hm : m = pn
    · subst hm; exact hnot
    · exact b m (by omega) h2

theorem sp_alloc_new_page_nil {st : PFState} (hf : st.faults = []) :
    ∃ st1, sp_alloc_new_page st = .ok st.numpages st1 ∧ st1.numpages = st.numpages + 1 ∧
      (st1.page = fun m =>
        if m = st.numpages then sp_init_page (st.junk st.numpages) else st.page m) ∧
      st1.junk = st.junk ∧ st1.faults = [] ∧ 0 < st1.pins st.numpages := by
  unfold sp_alloc_new_page PF_AllocPage
  rw [nextFault_nil hf]
  simp only [ne_eq, not_true_eq_false, if_false]
  refine ⟨_, rfl, rfl, ?_, rfl, hf, ?_⟩
  · funext m
    simp only [PFState.setPage, PFState.log]
    split_ifs <;> simp_all
  · simp [PFState.setPage, PFState.log]

/-- One iteration of the loop of `sp_find_page_for_insert`, from the test of
`free_space` on, when no failure is injected. -/
theorem sp_find_page_step (len : Int) (fuel : Nat)
    (ih : ∀ (st : PFState) (pn : Nat), st.faults = [] → pn < st.numpages →
      st.numpages ≤ pn + fuel → 0 < st.pins pn →
      (sp_find_page_loop len fuel st pn = .undef ∧ ∃ m, pn ≤ m ∧ m < st.numpages ∧
        (∀ k, pn ≤ k → k < m → ¬ PageFits (st.page k) len) ∧
        sp_scan_deleted (st.page m) 0 (sp_read_header (st.page m)).slot_count = .oob) ∨
      ∃ q st1, sp_find_page_loop len fuel st pn = .ok q st1 ∧ FirstFit st len pn q st1 ∧
        st1.junk = st.junk ∧ st1.faults = [] ∧ 0 < st1.pins q)
    (st : PFState) (pn : Nat) (hf : st.faults = []) (hpn : pn < st.numpages)
    (hfuel : st.numpages ≤ pn + (fuel + 1)) (hpin : 0 < st.pins pn) (c : Int)
    (hiff : PageFits (st.page pn) len ↔
      ((sp_read_header (st.page pn)).free_space : Int) ≥ len + c)
    (r : SPRet Nat)
    (hr : r =
      if ((sp_read_header (st.page pn)).free_space : Int) ≥ len + c then .ok pn st
      else
        match PF_UnfixPage st pn false with
        | (rc, st1) =>
          if rc ≠ PFE_OK then .fail (-1) st1
          else
            match PF_GetNextPage st1 pn with
            | (rc2, nextPage, st2) =>
              if rc2 = PFE_EOF then sp_alloc_new_page st2
              else if rc2 ≠ PFE_OK then .fail (-1) st2
              else sp_find_page_loop len fuel st2 nextPage) :
    (r = .undef ∧ ∃ m, pn ≤ m ∧ m < st.numpages ∧
        (∀ k, pn ≤ k → k < m → ¬ PageFits (st.page k) len) ∧
        sp_scan_deleted (st.page m) 0 (sp_read_header (st.page m)).slot_count = .oob) ∨
      ∃ q st1, r = .ok q st1 ∧ FirstFit st len pn q st1 ∧
        st1.junk = st.junk ∧ st1.faults = [] ∧ 0 < st1.pins q := by
  subst hr
  by_cases hfit : ((sp_read_header (st.page pn)).free_space : Int) ≥ len + c
  · rw [if_pos hfit]
    refine Or.inr ⟨pn, st, rfl, Or.inl ⟨hpn, le_refl _, hiff.2 hfit, ?_, rfl, rfl⟩,
      rfl, hf, hpin⟩
    intro m h1 h2; omega
  · have hnot : ¬ PageFits (st.page pn) len := fun h => hfit (hiff.1 h)
    obtain ⟨sa, ea, pa, na, ja, fa⟩ := PF_UnfixPage_nil_ex st pn false hf hpin
    rw [if_neg hfit, ea]
    simp only [ne_eq, not_true_eq_false, if_false]
    by_cases hlast : pn + 1 < st.numpages
    · obtain ⟨sb, eb, pb, nb, jb, fb, qb⟩ := PF_GetNextPage_nil (n := pn) fa (by rw [na]; exact hlast)
      rw [eb]
      simp only [PFE_OK, PFE_EOF]
      rw [if_neg (by decide), if_neg (by decide)]
      rcases ih sb (pn + 1) fb (by rw [nb, na]; exact hlast) (by rw [nb, na]; omega) qb
        with ⟨hu, m, hm1, hm2, hm3, hm4⟩ | ⟨q, st1, hq, hff, hj, hfl, hp⟩
      · rw [nb, na] at hm2
        rw [pb, pa] at hm3 hm4
        refine Or.inl ⟨hu, m, by omega, hm2, fun k hk1 hk2 => ?_, hm4⟩
        by_cases hk : k = pn
        · subst hk; exact hnot
        · exact hm3 k (by omega) hk2
      · exact Or.inr ⟨q, st1, hq,
          FirstFit_step hnot (FirstFit_congr (nb.trans na) (pb.trans pa) (jb.trans ja) hff),
          hj.trans (jb.trans ja), hfl, hp⟩
    · obtain ⟨sb, eb, pb, nb, jb, fb⟩ := PF_GetNextPage_nil_eof (n := pn) fa (by rw [na]; omega)
      rw [eb]
      simp only [if_true]
      obtain ⟨st1, h1, h2, h3, h4, h5, h6⟩ := sp_alloc_new_page_nil fb
      rw [nb, na] at h1 h2 h6
      rw [nb, na, pb, pa, jb, ja] at h3
      refine Or.inr ⟨_, st1, h1, Or.inr ⟨rfl, fun m hm1 hm2 => ?_, h2, h3⟩,
        h4.trans (jb.trans ja), h5, h6⟩
      have hm : m = pn := by omega
      subst hm
      exact hnot

/-- With no failure injected, the loop of `sp_find_page_for_insert` entered
at a pinned page `pn` makes the first-fit choice among the pages from `pn`
on, unless the scan of a slot directory leaves a page buffer. -/
theorem sp_find_page_loop_nil (len : Int) :
    ∀ (fuel : Nat) (st : PFState) (pn : Nat), st.faults = [] → pn < st.numpages →
      st.numpages ≤ pn + fuel → 0 < st.pins pn →
      (sp_find_page_loop len fuel st pn = .undef ∧ ∃ m, pn ≤ m ∧ m < st.numpages ∧
        (∀ k, pn ≤ k → k < m → ¬ PageFits (st.page k) len) ∧
        sp_scan_deleted (st.page m) 0 (sp_read_header (st.page m)).slot_count = .oob) ∨
      ∃ q st1, sp_find_page_loop len fuel st pn = .ok q st1 ∧ FirstFit st len pn q st1 ∧
        st1.junk = st.junk ∧ st1.faults = [] ∧ 0 < st1.pins q := by
  intro fuel
  induction fuel with
  | zero => intro st pn _ h1 h2; omega
  | succ fuel ih =>
    intro st pn hf hpn hfuel hpin
    cases hsc : sp_scan_deleted (st.page pn) 0 (sp_read_header (st.page pn)).slot_count with
    | oob =>
      left
      refine ⟨by unfold sp_find_page_loop; simp only [hsc], pn, le_refl _, hpn,
        fun k h1 h2 => by omega, hsc⟩
    | found i =>
      have hiff := (pageFits_iff_of_scan (st.page pn) len).1 i hsc
      refine sp_find_page_step len fuel ih st pn hf hpn hfuel hpin ((0 : Nat) : Int)
        (hiff.trans (by constructor <;> intro h <;> omega)) _ ?_
      rw [sp_find_page_loop]
      simp only [hsc]
      rfl
    | absent =>
      have hiff := (pageFits_iff_of_scan (st.page pn) len).2 hsc
      refine sp_find_page_step len fuel ih st pn hf hpn hfuel hpin ((SP_SLOT_SIZE : Nat) : Int)
        (hiff.trans (by simp only [SP_SLOT_SIZE]; constructor <;> intro h <;> omega)) _ ?_
      rw [sp_find_page_loop]
      simp only [hsc]
      rfl

/-- With no failure injected, `sp_find_page_for_insert` makes the first-fit
choice among all pages of the file, unless the scan of a slot directory
leaves a page buffer; it never fails. -/
theorem sp_find_page_for_insert_nil (st : PFState) (len : Int) (hf : st.faults = []) :
    (sp_find_page_for_insert st len = .undef ∧ ∃ m, m < st.numpages ∧
      (∀ k, k < m → ¬ PageFits (st.page k) len) ∧
      sp_scan_deleted (st.page m) 0 (sp_read_header (st.page m)).slot_count = .oob) ∨
    ∃ q st1, sp_find_page_for_insert st len = .ok q st1 ∧ FirstFit st len 0 q st1 ∧
      st1.junk = st.junk ∧ st1.faults = [] ∧ 0 < st1.pins q := by
  unfold sp_find_page_for_insert
  by_cases h0 : 0 < st.numpages
  · obtain ⟨sa, ea, pa, na, ja, fa, qa⟩ := PF_GetFirstPage_nil hf h0
    rw [ea]
    simp only [PFE_OK, PFE_EOF]
    rw [if_neg (by decide), if_neg (by decide)]
    rcases sp_find_page_loop_nil len sa.numpages sa 0 fa (by rw [na]; exact h0) (by omega) qa
      with ⟨hu, m, -, hm2, hm3, hm4⟩ | ⟨q, st1, hq, hff, hj, hfl, hp⟩
    · rw [na] at hm2
      rw [pa] at hm3 hm4
      exact Or.inl ⟨hu, m, hm2, fun k hk => hm3 k (Nat.zero_le _) hk, hm4⟩
    · exact Or.inr ⟨q, st1, hq, FirstFit_congr na pa ja hff, hj.trans ja, hfl, hp⟩
  · obtain ⟨sa, ea, pa, na, ja, fa⟩ := PF_GetFirstPage_nil_eof hf (by omega)
    rw [ea]
    simp only [if_true]
    obtain ⟨st1, h1, h2, h3, h4, h5, h6⟩ := sp_alloc_new_page_nil fa
    rw [na] at h1 h2 h6
    rw [na, pa, ja] at h3
    exact Or.inr ⟨_, st1, h1, Or.inr ⟨rfl, fun m _ hm => by omega, h2, h3⟩, h4.trans ja, h5, h6⟩

/-! ## `SP_InsertRecord` on a file -/

theorem sp_read_header_init (j : Page) :
    sp_read_header (sp_init_page j) =
      { magic := SP_MAGIC_VAL, slot_count := 0, free_offset := 4096, free_space := 4084,
        pad := rd16 j 10 } := by
  unfold sp_init_page
  rw [sp_read_header_write]
  simp only [SP_PageHeader.mk.injEq]
  refine ⟨by decide, by decide, by decide, by decide, Nat.mod_eq_of_lt (rd16_lt j 10)⟩

theorem pageFits_init (j : Page) {len : Int} (h : len ≤ 4080) : PageFits (sp_init_page j) len := by
  unfold PageFits
  rw [sp_read_header_init]
  simp only [SP_SLOT_SIZE]
  exact Or.inr ⟨fun i hi => by omega, by omega⟩

/-- On a page that passes the test of `sp_find_page_for_insert`, the
free-space re-check of `SP_InsertRecord` does not fire. -/
theorem insert_page_ne_fail {p : Page} {len : Int} (data : List Byte) (h : PageFits p len) :
    SP_InsertRecord_page p data len ≠ .fail := by
  cases hsc : sp_scan_deleted p 0 (sp_read_header p).slot_count with
  | oob => simp [SP_InsertRecord_page, hsc]
  | found i =>
    have hfit := ((pageFits_iff_of_scan p len).1 i hsc).1 h
    simp only [SP_InsertRecord_page, hsc]
    simp only [bne_iff_ne, ne_eq, reduceCtorEq, not_false_eq_true, decide_True, if_true]
    rw [if_neg (by simp; omega)]
    split_ifs <;> simp
  | absent =>
    have hfit := ((pageFits_iff_of_scan p len).2 hsc).1 h
    simp only [SP_InsertRecord_page, hsc]
    simp only [bne_self_eq_false, Bool.false_eq_true, if_false, SP_SLOT_SIZE]
    rw [if_neg (by simp; omega)]
    split_ifs <;> simp

/-- A successful `SP_InsertRecord` is a successful insertion in the page that
`sp_find_page_for_insert` chose, stored back into that page. -/
theorem SP_InsertRecord_ok {st : PFState} {data : List Byte} {len : Int} {rid : Nat}
    {st' : PFState} (h : SP_InsertRecord st data len = .ok rid st') :
    0 < len ∧ len ≤ 4080 ∧
    ∃ q st1 p' idx, sp_find_page_for_insert st len = .ok q st1 ∧
      SP_InsertRecord_page (st1.page q) data len = .ok (p', idx) ∧ rid = mkRecId q idx ∧
      (st'.page = fun m => if m = q then p' else st1.page m) ∧
      st'.numpages = st1.numpages ∧ st'.junk = st1.junk := by
  unfold SP_InsertRecord at h
  simp only [PF_PAGE_SIZE, SP_HEADER_SIZE, SP_SLOT_SIZE] at h
  split_ifs at h with h0
  refine ⟨by omega, by omega, ?_⟩
  cases hfind : sp_find_page_for_insert st len with
  | undef => simp [hfind] at h
  | fail rc s => simp [hfind] at h
  | ok q st1 =>
    simp only [hfind] at h
    cases hbody : SP_InsertRecord_page (st1.page q) data len with
    | undef => simp [hbody] at h
    | fail => simp [hbody] at h
    | ok v =>
      obtain ⟨p', idx⟩ := v
      simp only [hbody] at h
      have hpg := PF_UnfixPage_page (st1.setPage q p') q true
      have hnp := PF_UnfixPage_numpages (st1.setPage q p') q true
      have hjk := PF_UnfixPage_junk (st1.setPage q p') q true
      revert h hpg hnp hjk
      cases PF_UnfixPage (st1.setPage q p') q true with
      | mk rc2 st2 =>
        intro h hpg hnp hjk
        simp only at h hpg hnp hjk
        split_ifs at h with h2
        simp only [SPRet.ok.injEq] at h
        obtain ⟨hr, hs⟩ := h
        subst hs
        exact ⟨q, st1, p', idx, rfl, hbody, hr.symm, hpg, hnp, hjk⟩

/-- With no failure injected and a length in range, `SP_InsertRecord` does
not fail: it inserts into the first-fit page, unless an access leaves a page
buffer. -/
theorem SP_InsertRecord_nil (st : PFState) (data : List Byte) (len : Int)
    (hf : st.faults = []) (h0 : 0 < len) (h1 : len ≤ 4080) :
    SP_InsertRecord st data len = .undef ∨
    ∃ q st1 p' idx st', sp_find_page_for_insert st len = .ok q st1 ∧
      FirstFit st len 0 q st1 ∧
      SP_InsertRecord_page (st1.page q) data len = .ok (p', idx) ∧
      SP_InsertRecord st data len = .ok (mkRecId q idx) st' ∧ st'.faults = [] := by
  unfold SP_InsertRecord
  simp only [PF_PAGE_SIZE, SP_HEADER_SIZE, SP_SLOT_SIZE]
  rw [if_neg (by omega)]
  rcases sp_find_page_for_insert_nil st len hf with ⟨hu, -⟩ | ⟨q, st1, hq, hff, hj, hfl, hp⟩
  · left; simp only [hu]
  · simp only [hq]
    have hfits : PageFits (st1.page q) len := by
      rcases hff with ⟨-, -, c, -, -, f⟩ | ⟨a, -, -, d⟩
      · rw [f]; exact c
      · rw [d, a]; simp only [if_true]; exact pageFits_init _ h1
    cases hbody : SP_InsertRecord_page (st1.page q) data len with
    | undef => left; rfl
    | fail => exact absurd hbody (insert_page_ne_fail data hfits)
    | ok v =>
      obtain ⟨p', idx⟩ := v
      right
      simp only
      obtain ⟨s2, e2, -, -, -, f2⟩ :=
        PF_UnfixPage_nil_ex (st1.setPage q p') q true hfl hp
      rw [e2]
      simp only [ne_eq, not_true_eq_false, if_false]
      exact ⟨q, st1, p', idx, s2, rfl, hff, hbody, rfl, f2⟩

/-- C7: with no failure coming from the paged-file layer, `SP_InsertRecord`
returns an error exactly when `len <= 0` or
`len > PF_PAGE_SIZE - sizeof(SP_PageHeader) - sizeof(SP_SlotEntry)`; such a
rejection returns -1 and leaves the whole state (pages, pin counts, the log
of paged-file calls) as it was; and for every other `len` the free-space
re-check on the page chosen by `sp_find_page_for_insert` does not fire. -/
theorem C7_length_validation (st : PFState) (data : List Byte) (len : Int)
    (hf : st.faults = []) :
    ((∃ rc st', SP_InsertRecord st data len = .fail rc st') ↔
      (len ≤ 0 ∨ len > (PF_PAGE_SIZE : Int) - SP_HEADER_SIZE - SP_SLOT_SIZE)) ∧
    ((len ≤ 0 ∨ len > (PF_PAGE_SIZE : Int) - SP_HEADER_SIZE - SP_SLOT_SIZE) →
      SP_InsertRecord st data len = .fail (-1) st) ∧
    (¬ (len ≤ 0 ∨ len > (PF_PAGE_SIZE : Int) - SP_HEADER_SIZE - SP_SLOT_SIZE) →
      ∀ q st1, sp_find_page_for_insert st len = .ok q st1 →
        SP_InsertRecord_page (st1.page q) data len ≠ .fail) := by
  have hrej : (len ≤ 0 ∨ len > (PF_PAGE_SIZE : Int) - SP_HEADER_SIZE - SP_SLOT_SIZE) →
      SP_InsertRecord st data len = .fail (-1) st := by
    intro h
    unfold SP_InsertRecord
    rw [if_pos h]
  refine ⟨⟨?_, fun h => ⟨-1, st, hrej h⟩⟩, hrej, ?_⟩
  · rintro ⟨rc, st', hfail⟩
    by_contra hlen
    simp only [PF_PAGE_SIZE, SP_HEADER_SIZE, SP_SLOT_SIZE] at hlen
    rcases SP_InsertRecord_nil st data len hf (by omega) (by omega) with hu |
      ⟨q, st1, p', idx, s, -, -, -, hok, -⟩
    · rw [hu] at hfail; cases hfail
    · rw [hok] at hfail; cases hfail
  · intro hlen q st1 hfind
    simp only [PF_PAGE_SIZE, SP_HEADER_SIZE, SP_SLOT_SIZE] at hlen
    rcases sp_find_page_for_insert_nil st len hf with ⟨hu, -⟩ | ⟨q2, st2, hq, hff, -, -, -⟩
    · rw [hu] at hfind; cases hfind
    · rw [hq] at hfind
      simp only [SPRet.ok.injEq] at hfind
      obtain ⟨e1, e2⟩ := hfind
      subst e1 e2
      apply insert_page_ne_fail
      rcases hff with ⟨-, -, c, -, -, f⟩ | ⟨a, -, -, d⟩
      · rw [f]; exact c
      · rw [d, a]; simp only [if_true]; exact pageFits_init _ (by omega)

/-- C7 (witness): lengths 0 and 3 on the new file `file0`. -/
theorem C7_length_validation_witness :
    file0.faults = [] ∧ SP_InsertRecord file0 [] 0 = .fail (-1) file0 ∧
    ((∃ rc st', SP_InsertRecord file0 [1, 2, 3] 3 = .fail rc st') ↔
      ((3 : Int) ≤ 0 ∨ (3 : Int) > (PF_PAGE_SIZE : Int) - SP_HEADER_SIZE - SP_SLOT_SIZE)) :=
  ⟨rfl, (C7_length_validation file0 [] 0 rfl).2.1 (Or.inl (le_refl _)),
    (C7_length_validation file0 [1, 2, 3] 3 rfl).1⟩

/-- With no failure coming from the paged-file layer, a successful
`SP_InsertRecord` of `len` bytes has put the record on page `q`, where either
`q` is the first page of the file, in page order, that can take the record,
and the file keeps its number of pages; or no page of the file can take the
record, and `q` is one new page appended to the file, initialised by
`sp_init_page` before the insertion.  Every other page is unchanged. -/
theorem insert_first_fit_of_ok (st : PFState) (data : List Byte) (len : Int) (rid : Nat)
    (st' : PFState) (hf : st.faults = []) (h : SP_InsertRecord st data len = .ok rid st') :
    ∃ q idx, rid = mkRecId q idx ∧
      ((q < st.numpages ∧ PageFits (st.page q) len ∧
          (∀ m, m < q → ¬ PageFits (st.page m) len) ∧ st'.numpages = st.numpages ∧
          SP_InsertRecord_page (st.page q) data len = .ok (st'.page q, idx)) ∨
        (q = st.numpages ∧ (∀ m, m < st.numpages → ¬ PageFits (st.page m) len) ∧
          st'.numpages = st.numpages + 1 ∧
          SP_InsertRecord_page (sp_init_page (st.junk st.numpages)) data len =
            .ok (st'.page q, idx))) ∧
      ∀ m, m ≠ q → st'.page m = st.page m := by
  obtain ⟨-, -, q, st1, p', idx, hfind, hbody, hrid, hpage, hnp, -⟩ := SP_InsertRecord_ok h
  rcases sp_find_page_for_insert_nil st len hf with ⟨hu, -⟩ | ⟨q2, st2, hq, hff, -, -, -⟩
  · rw [hu] at hfind; cases hfind
  · rw [hq] at hfind
    simp only [SPRet.ok.injEq] at hfind
    obtain ⟨e1, e2⟩ := hfind
    subst e1 e2
    have hcur : st'.page q2 = p' := by rw [hpage]; simp
    refine ⟨q2, idx, hrid, ?_, ?_⟩
    · rcases hff with ⟨a, -, c, d, e, f⟩ | ⟨a, b, c, d⟩
      · refine Or.inl ⟨a, c, fun m hm => d m (Nat.zero_le _) hm, hnp.trans e, ?_⟩
        rw [hcur, ← hbody, f]
      · refine Or.inr ⟨a, fun m hm => b m (Nat.zero_le _) hm, hnp.trans c, ?_⟩
        rw [hcur, ← hbody, d, a]
        simp
    · intro m hm
      rw [hpage]
      simp only [hm, if_false]
      rcases hff with ⟨-, -, -, -, -, f⟩ | ⟨a, -, -, d⟩
      · rw [f]
      · rw [d]; simp only [← a, hm, if_false]

/-- On the chosen page, with header `slot_count = n` and `free_offset = f`,
a successful `SP_InsertRecord` of `len` bytes whose needed bytes (`len`, plus
`slot_size` when no tombstone can be reused) fit in the gap between the slot
directory and `free_offset` returns `recid = (page << 16) | idx`, where `idx`
is the lowest-index tombstone slot if there is one (and `slot_count` stays
`n`) and `n` otherwise (and `slot_count` becomes `n + 1`); the `len` record
bytes lie at offset `f - len`; `free_offset` is `f - len`; slot `idx` is
`{offset = f - len, length = len}`; and `free_space` is
`free_offset - (header_size + slot_count * slot_size)`. -/
theorem insert_placement_of_gap (st : PFState) (data : List Byte) (len : Int)
    (q : Nat) (st1 : PFState) (rid : Nat) (st' : PFState)
    (hfind : sp_find_page_for_insert st len = .ok q st1)
    (hins : SP_InsertRecord st data len = .ok rid st')
    (hgap : neededBytes (st1.page q) len ≤ gapBytes (st1.page q)) :
    ∃ idx, rid = mkRecId q idx ∧
      (((readSlot (st1.page q) idx).offset = -1 ∧
          idx < (sp_read_header (st1.page q)).slot_count ∧
          (∀ m, m < idx → (readSlot (st1.page q) m).offset ≠ -1) ∧
          (sp_read_header (st'.page q)).slot_count = (sp_read_header (st1.page q)).slot_count) ∨
        ((∀ m, m < (sp_read_header (st1.page q)).slot_count →
            (readSlot (st1.page q) m).offset ≠ -1) ∧
          idx = (sp_read_header (st1.page q)).slot_count ∧
          (sp_read_header (st'.page q)).slot_count =
            (sp_read_header (st1.page q)).slot_count + 1)) ∧
      readBytes (st'.page q) ((sp_read_header (st1.page q)).free_offset - len.toNat) len.toNat =
        data.take len.toNat ∧
      ((sp_read_header (st'.page q)).free_offset : Int) =
        ((sp_read_header (st1.page q)).free_offset : Int) - len ∧
      readSlot (st'.page q) idx =
        { offset := ((sp_read_header (st1.page q)).free_offset : Int) - len, length := len } ∧
      ((sp_read_header (st'.page q)).free_space : Int) =
        ((sp_read_header (st'.page q)).free_offset : Int) -
          (SP_HEADER_SIZE + (sp_read_header (st'.page q)).slot_count * SP_SLOT_SIZE : Nat) := by
  obtain ⟨hlen, -, q2, st2, p', idx, hfind2, hbody, hrid, hpage, -, -⟩ := SP_InsertRecord_ok hins
  rw [hfind] at hfind2
  simp only [SPRet.ok.injEq] at hfind2
  obtain ⟨e1, e2⟩ := hfind2
  subst e1 e2
  have hcur : st'.page q = p' := by rw [hpage]; simp
  have eff := insert_effect_of_gap hbody hlen hgap
  rw [hcur]
  exact ⟨idx, hrid, eff.slot_choice, eff.bytes_eq, eff.free_offset_eq, eff.slot_eq,
    eff.free_space_eq⟩

/-- The insertion of `[4, 5]` into the file `file3`, whose page
0 holds a tombstone in slot 0 (reused by the insertion) and one record in slot
1, with `free_offset = 4091`. -/
theorem insert_placement_of_gap_file3 :
    sp_find_page_for_insert file3 2 = .ok 0 file3pinned ∧
    SP_InsertRecord file3 [4, 5] 2 = .ok 0 ((SP_InsertRecord file3 [4, 5] 2).state file0) ∧
    neededBytes (file3pinned.page 0) 2 ≤ gapBytes (file3pinned.page 0) ∧
    (sp_read_header (file3pinned.page 0)).slot_count = 2 ∧
    (sp_read_header (file3pinned.page 0)).free_offset = 4091 ∧
    (readSlot (file3pinned.page 0) 0).offset = -1 ∧
    readSlot (((SP_InsertRecord file3 [4, 5] 2).state file0).page 0) 0 =
      { offset := 4089, length := 2 } ∧
    ∃ idx, 0 = mkRecId 0 idx ∧
      (((readSlot (file3pinned.page 0) idx).offset = -1 ∧
          idx < (sp_read_header (file3pinned.page 0)).slot_count ∧
          (∀ m, m < idx → (readSlot (file3pinned.page 0) m).offset ≠ -1) ∧
          (sp_read_header (((SP_InsertRecord file3 [4, 5] 2).state file0).page 0)).slot_count =
            (sp_read_header (file3pinned.page 0)).slot_count) ∨
        ((∀ m, m < (sp_read_header (file3pinned.page 0)).slot_count →
            (readSlot (file3pinned.page 0) m).offset ≠ -1) ∧
          idx = (sp_read_header (file3pinned.page 0)).slot_count ∧
          (sp_read_header (((SP_InsertRecord file3 [4, 5] 2).state file0).page 0)).slot_count =
            (sp_read_header (file3pinned.page 0)).slot_count + 1)) ∧
      readBytes (((SP_InsertRecord file3 [4, 5] 2).state file0).page 0)
          ((sp_read_header (file3pinned.page 0)).free_offset - (2 : Int).toNat)
          (2 : Int).toNat =
        [4, 5].take (2 : Int).toNat ∧
      ((sp_read_header (((SP_InsertRecord file3 [4, 5] 2).state file0).page 0)).free_offset :
          Int) =
        ((sp_read_header (file3pinned.page 0)).free_offset : Int) - 2 ∧
      readSlot (((SP_InsertRecord file3 [4, 5] 2).state file0).page 0) idx =
        { offset := ((sp_read_header (file3pinned.page 0)).free_offset : Int) - 2,
          length := 2 } ∧
      ((sp_read_header (((SP_InsertRecord file3 [4, 5] 2).state file0).page 0)).free_space :
          Int) =
        ((sp_read_header (((SP_InsertRecord file3 [4, 5] 2).state file0).page 0)).free_offset :
            Int) -
          (SP_HEADER_SIZE +
            (sp_read_header (((SP_InsertRecord file3 [4, 5] 2).state file0).page 0)).slot_count *
              SP_SLOT_SIZE : Nat) :=
  ⟨rfl, rfl, by decide, by decide, by decide, by decide, by decide,
    insert_placement_of_gap file3 [4, 5] 2 0 file3pinned 0 _ rfl rfl (by decide)⟩

/-! ## The bytes in use on a page -/

theorem liveArea_succ (p : Page) (i : Nat) :
    liveArea p (i + 1) =
      liveArea p i ∪
        (if (readSlot p i).offset = -1 then ∅
         else Finset.Ico (readSlot p i).offset.toNat
           ((readSlot p i).offset + (readSlot p i).length).toNat) := rfl

theorem mem_liveArea {p : Page} {x : Nat} :
    ∀ i, x ∈ liveArea p i ↔
      ∃ j, j < i ∧ (readSlot p j).offset ≠ -1 ∧ (readSlot p j).offset ≤ (x : Int) ∧
        (x : Int) < (readSlot p j).offset + (readSlot p j).length := by
  intro i
  induction i with
  | zero => simp [liveArea]
  | succ i ih =>
    rw [liveArea_succ, Finset.mem_union, ih]
    constructor
    · rintro (⟨j, hj, h⟩ | h)
      · exact ⟨j, by omega, h⟩
      · split_ifs at h with h1
        · simp at h
        · rw [Finset.mem_Ico] at h
          exact ⟨i, by omega, h1, by omega, by omega⟩
    · rintro ⟨j, hj, h1, h2, h3⟩
      by_cases hji : j = i
      · subst hji
        right
        rw [if_neg h1, Finset.mem_Ico]
        omega
      · exact Or.inl ⟨j, by omega, h1, h2, h3⟩

theorem liveBytes_succ (p : Page) (i : Nat) :
    liveBytes p (i + 1) =
      liveBytes p i + (if (readSlot p i).offset = -1 then 0 else (readSlot p i).length) := rfl

/-- On a page that satisfies the layout invariant, the lengths of the live
slots below `i` add up to the number of offsets their extents cover. -/
theorem card_liveArea {p : Page} (hlay : Layout p) :
    ∀ i, i ≤ (sp_read_header p).slot_count → ((liveArea p i).card : Int) = liveBytes p i := by
  obtain ⟨-, -, harea, hdisj⟩ := hlay
  intro i
  induction i with
  | zero => intro _; rfl
  | succ i ih =>
    intro hi
    rw [liveBytes_succ, ← ih (by omega), liveArea_succ]
    by_cases h1 : (readSlot p i).offset = -1
    · rw [if_pos h1, if_pos h1]; simp
    · rw [if_neg h1, if_neg h1]
      obtain ⟨a, b, c⟩ := harea i (by omega) h1
      simp only [PF_PAGE_SIZE] at c
      rw [Finset.card_union_of_disjoint, Nat.card_Ico]
      · omega
      · rw [Finset.disjoint_left]
        intro x hx hx2
        rw [mem_liveArea] at hx
        obtain ⟨j, hj, h2, h3, h4⟩ := hx
        rw [Finset.mem_Ico] at hx2
        have := hdisj i (by omega) j (by omega) (by omega) h1 h2
        unfold SlotsDisjoint at this
        omega

theorem liveArea_subset {p : Page} (hlay : Layout p) :
    ∀ i, i ≤ (sp_read_header p).slot_count →
      liveArea p i ⊆ Finset.Ico (sp_read_header p).free_offset 4096 := by
  obtain ⟨-, -, harea, -⟩ := hlay
  intro i hi x hx
  rw [mem_liveArea] at hx
  obtain ⟨j, hj, h1, h2, h3⟩ := hx
  obtain ⟨a, b, c⟩ := harea j (by omega) h1
  simp only [PF_PAGE_SIZE] at c
  rw [Finset.mem_Ico]
  omega

/-- On a page that satisfies the layout invariant, the live records fit in
the record area `[free_offset, PF_PAGE_SIZE)`. -/
theorem liveBytes_le {p : Page} (hlay : Layout p) {i : Nat}
    (hi : i ≤ (sp_read_header p).slot_count) :
    liveBytes p i ≤ 4096 - ((sp_read_header p).free_offset : Int) := by
  have h1 := Finset.card_le_card (liveArea_subset hlay i hi)
  rw [Nat.card_Ico] at h1
  have h2 := card_liveArea hlay i hi
  have h3 := hlay.2.1
  simp only [PF_PAGE_SIZE] at h3
  omega

theorem liveBytes_mono {p : Page} (hlay : Layout p) {i j : Nat} (hij : i ≤ j)
    (hj : j ≤ (sp_read_header p).slot_count) : liveBytes p i ≤ liveBytes p j := by
  induction j with
  | zero =>
    have : i = 0 := by omega
    subst this; exact le_refl _
  | succ j ih =>
    by_cases h : i = j + 1
    · subst h; exact le_refl _
    · have := ih (by omega) (by omega)
      rw [liveBytes_succ]
      split_ifs with h1
      · omega
      · have := (hlay.2.2.1 j (by omega) h1).1
        omega

theorem liveBytes_nonneg {p : Page} (hlay : Layout p) {i : Nat}
    (hi : i ≤ (sp_read_header p).slot_count) : 0 ≤ liveBytes p i :=
  liveBytes_mono hlay (Nat.zero_le i) hi

/-! ## Compaction -/

theorem compactInv_start (p : Page) : CompactInv p 0 p :=
  ⟨fun _ _ => rfl, fun _ _ _ => rfl, fun j hj => by omega, fun j hj => by omega⟩

theorem compactInv_skip {p q : Page} {i : Nat} (h : CompactInv p i q)
    (hi : (readSlot p i).offset = -1) : CompactInv p (i + 1) q := by
  refine ⟨h.header, fun j hj hc => h.untouched j hj ?_, fun j hj hl => h.moved j ?_ hl,
    fun j hj hl => h.bytes j ?_ hl⟩
  · rcases hc with hc | hc
    · left; omega
    · right; exact hc
  · by_cases hji : j = i
    · subst hji; exact absurd hi hl
    · omega
  · by_cases hji : j = i
    · subst hji; exact absurd hi hl
    · omega

/-- The step of the compaction loop on a live slot keeps the loop invariant. -/
theorem compactInv_move {p q : Page} {i : Nat} (hlay : Layout p) (h : CompactInv p i q)
    (hi : i < (sp_read_header p).slot_count) (hl : (readSlot p i).offset ≠ -1) :
    CompactInv p (i + 1)
      (writeSlot
        (memcpyPage q (4096 - liveBytes p (i + 1)).toNat p (readSlot p i).offset.toNat
          (readSlot p i).length.toNat) i
        { offset := int16 (4096 - liveBytes p (i + 1)), length := (readSlot p i).length }) := by
  have hdir := hlay.1
  have hfo := hlay.2.1
  obtain ⟨hl0, hl1, hl2⟩ := hlay.2.2.1 i hi hl
  simp only [SP_HEADER_SIZE, SP_SLOT_SIZE, PF_PAGE_SIZE] at hdir hfo hl2
  have hle := liveBytes_le hlay (i := i + 1) (by omega)
  have hnn := liveBytes_nonneg hlay (i := i) (by omega)
  have hsucc : liveBytes p (i + 1) = liveBytes p i + (readSlot p i).length := by
    rw [liveBytes_succ, if_neg hl]
  refine ⟨fun x hx => ?_, fun j hj hc => ?_, fun j hj hlj => ?_, fun j hj hlj t ht => ?_⟩
  · rw [writeSlot_outside (by omega), memcpyPage_outside (by omega)]
    exact h.header x hx
  · have hji : j ≠ i := by
      rcases hc with hc | hc
      · omega
      · intro e; subst e; exact hl hc
    have hc2 : i ≤ j ∨ (readSlot p j).offset = -1 := by
      rcases hc with hc | hc
      · left; omega
      · right; exact hc
    rw [readSlot_writeSlot_other _ hji, ← h.untouched j hj hc2]
    exact readSlot_congr (fun x h1 h2 => memcpyPage_outside (by omega))
  · by_cases hji : j = i
    · subst hji
      rw [readSlot_writeSlot_same]
      simp only [SP_SlotEntry.mk.injEq]
      constructor
      · rw [int16_of_range (x := int16 _)] <;> rw [int16_of_range] <;> omega
      · rw [int16_of_range] <;> omega
    · have hjlt : j < i := by omega
      rw [readSlot_writeSlot_other _ hji, ← h.moved j hjlt hlj]
      exact readSlot_congr (fun x h1 h2 => memcpyPage_outside (by omega))
  · by_cases hji : j = i
    · subst hji
      rw [writeSlot_outside (by omega), memcpyPage_apply, if_pos (by omega)]
      congr 1
      omega
    · have hjlt : j < i := by omega
      have hm := liveBytes_mono hlay (i := j + 1) (j := i) (by omega) (by omega)
      have hlej := liveBytes_le hlay (i := j + 1) (by omega)
      rw [writeSlot_outside (by omega), memcpyPage_outside (by omega)]
      exact h.bytes j hjlt hlj t ht

/-- On a page that satisfies the layout invariant, the compaction loop runs
through without leaving a buffer, ends with `cur_free` equal to
`PF_PAGE_SIZE` less the live bytes, and establishes the loop invariant for
all slots. -/
theorem sp_compact_loop_spec {p : Page} (hlay : Layout p) :
    ∀ k i q, i + k = (sp_read_header p).slot_count → CompactInv p i q →
      ∃ q', sp_compact_loop p i k q (4096 - liveBytes p i) =
          some (q', 4096 - liveBytes p (sp_read_header p).slot_count) ∧
        CompactInv p (sp_read_header p).slot_count q' := by
  intro k
  induction k with
  | zero =>
    intro i q hik hinv
    have : i = (sp_read_header p).slot_count := by omega
    subst this
    exact ⟨q, rfl, hinv⟩
  | succ k ih =>
    intro i q hik hinv
    have hdir := hlay.1
    have hfo := hlay.2.1
    simp only [SP_HEADER_SIZE, SP_SLOT_SIZE, PF_PAGE_SIZE] at hdir hfo
    have hin : slotInPage i := by rw [slotInPage_iff]; omega
    rw [sp_compact_loop]
    simp only
    rw [if_neg (not_not.mpr hin)]
    by_cases hl : (readSlot p i).offset = -1
    · rw [if_pos hl]
      have hsucc : liveBytes p (i + 1) = liveBytes p i := by
        rw [liveBytes_succ, if_pos hl]; omega
      rw [← hsucc]
      exact ih (i + 1) q (by omega) (compactInv_skip hinv hl)
    · rw [if_neg hl]
      obtain ⟨hl0, hl1, hl2⟩ := hlay.2.2.1 i (by omega) hl
      simp only [PF_PAGE_SIZE] at hl2
      have hle := liveBytes_le hlay (i := i + 1) (by omega)
      have hnn := liveBytes_nonneg hlay (i := i) (by omega)
      have hsucc : liveBytes p i + (readSlot p i).length = liveBytes p (i + 1) := by
        rw [liveBytes_succ, if_neg hl]
      have hcur : 4096 - liveBytes p i - (readSlot p i).length = 4096 - liveBytes p (i + 1) := by
        omega
      rw [hcur, if_neg]
      · exact ih (i + 1) _ (by omega) (compactInv_move hlay hinv (by omega) hl)
      · rw [not_not, inPage_iff, inPage_iff]
        omega

/-- On a page that satisfies the layout invariant, `SP_CompactPage` succeeds
and yields a page with the same header but for `free_offset` and
`free_space`, the same tombstones, and every live record moved, bytes and
length unchanged, to `PF_PAGE_SIZE` less the live bytes up to its slot. -/
theorem compact_page_effect {p : Page} (hlay : Layout p) :
    ∃ p', SP_CompactPage_page p = .ok p' ∧
      sp_read_header p' =
        { sp_read_header p with
          free_offset := (4096 - liveBytes p (sp_read_header p).slot_count).toNat
          free_space := (4096 - liveBytes p (sp_read_header p).slot_count).toNat -
            (12 + (sp_read_header p).slot_count * 4) } ∧
      (∀ j, j < (sp_read_header p).slot_count → (readSlot p j).offset = -1 →
        readSlot p' j = readSlot p j) ∧
      (∀ j, j < (sp_read_header p).slot_count → (readSlot p j).offset ≠ -1 →
        readSlot p' j =
          { offset := 4096 - liveBytes p (j + 1), length := (readSlot p j).length }) ∧
      (∀ j, j < (sp_read_header p).slot_count → (readSlot p j).offset ≠ -1 →
        ∀ t : Nat, (t : Int) < (readSlot p j).length →
          p' ((4096 - liveBytes p (j + 1)).toNat + t) = p ((readSlot p j).offset.toNat + t)) := by
  obtain ⟨q', hloop, hinv⟩ :=
    sp_compact_loop_spec hlay (sp_read_header p).slot_count 0 p (by omega) (compactInv_start p)
  have hdir := hlay.1
  have hfo := hlay.2.1
  simp only [SP_HEADER_SIZE, SP_SLOT_SIZE, PF_PAGE_SIZE] at hdir hfo
  have hle := liveBytes_le hlay (i := (sp_read_header p).slot_count) (le_refl _)
  have hnn := liveBytes_nonneg hlay (i := (sp_read_header p).slot_count) (le_refl _)
  have h0 : (4096 : Int) - liveBytes p 0 = ((PF_PAGE_SIZE : Nat) : Int) := by
    simp [liveBytes, PF_PAGE_SIZE]
  rw [h0] at hloop
  have hres : SP_CompactPage_page p = .ok (sp_write_header q'
      { sp_read_header p with
        free_offset := u16 (4096 - liveBytes p (sp_read_header p).slot_count)
        free_space := u16 ((u16 (4096 - liveBytes p (sp_read_header p).slot_count) : Int) -
          (SP_HEADER_SIZE + (sp_read_header p).slot_count * SP_SLOT_SIZE)) }) := by
    unfold SP_CompactPage_page
    simp only [hloop]
  refine ⟨_, hres, ?_, ?_, ?_, ?_⟩
  · rw [sp_read_header_write]
    simp only [SP_PageHeader.mk.injEq, SP_HEADER_SIZE, SP_SLOT_SIZE]
    have e1 : u16 (4096 - liveBytes p (sp_read_header p).slot_count) =
        (4096 - liveBytes p (sp_read_header p).slot_count).toNat := by
      have := u16_of_range (x := 4096 - liveBytes p (sp_read_header p).slot_count)
        (by omega) (by omega)
      omega
    rw [e1]
    have e2 : u16 (((4096 - liveBytes p (sp_read_header p).slot_count).toNat : Int) -
        (((12 : Nat) : Int) + ((sp_read_header p).slot_count : Int) * ((4 : Nat) : Int))) =
        (4096 - liveBytes p (sp_read_header p).slot_count).toNat -
          (12 + (sp_read_header p).slot_count * 4) := by
      have := u16_of_range
        (x := ((4096 - liveBytes p (sp_read_header p).slot_count).toNat : Int) -
          (((12 : Nat) : Int) + ((sp_read_header p).slot_count : Int) * ((4 : Nat) : Int)))
        (by omega) (by omega)
      omega
    rw [e2]
    refine ⟨Nat.mod_eq_of_lt (rd32_lt p 0), Nat.mod_eq_of_lt (rd16_lt p 4),
      Nat.mod_eq_of_lt (by omega), Nat.mod_eq_of_lt (by omega), Nat.mod_eq_of_lt (rd16_lt p 10)⟩
  · intro j hj ht
    rw [readSlot_write_header]
    exact hinv.untouched j hj (Or.inr ht)
  · intro j hj hl
    rw [readSlot_write_header]
    exact hinv.moved j hj hl
  · intro j hj hl t ht
    have hlej := liveBytes_le hlay (i := j + 1) (by omega)
    rw [sp_write_header_outside (by omega)]
    exact hinv.bytes j hj hl t ht

/-- On a page that satisfies the layout invariant, the lookup of every slot
gives the same result after the compaction as before it. -/
theorem compact_get_same {p p' : Page} (hlay : Layout p)
    (h : SP_CompactPage_page p = .ok p') (slot : Nat) :
    SP_GetRecord_page p' slot = SP_GetRecord_page p slot := by
  obtain ⟨p2, h2, hh, htomb, hlive, hbytes⟩ := compact_page_effect hlay
  rw [h] at h2
  simp only [PgRes.ok.injEq] at h2
  subst h2
  have hdir := hlay.1
  have hfo := hlay.2.1
  simp only [SP_HEADER_SIZE, SP_SLOT_SIZE, PF_PAGE_SIZE] at hdir hfo
  unfold SP_GetRecord_page
  simp only [hh]
  by_cases hs : slot ≥ (sp_read_header p).slot_count
  · rw [if_pos hs, if_pos hs]
  · rw [if_neg hs, if_neg hs]
    have hin : slotInPage slot := by rw [slotInPage_iff]; omega
    rw [if_neg (not_not.mpr hin), if_neg (not_not.mpr hin)]
    by_cases ht : (readSlot p slot).offset = -1
    · rw [htomb slot (by omega) ht, if_pos ht, if_pos ht]
    · obtain ⟨hl0, hl1, hl2⟩ := hlay.2.2.1 slot (by omega) ht
      simp only [PF_PAGE_SIZE] at hl2
      have hle := liveBytes_le hlay (i := slot + 1) (by omega)
      have hnn := liveBytes_nonneg hlay (i := slot) (by omega)
      have hsucc : liveBytes p (slot + 1) = liveBytes p slot + (readSlot p slot).length := by
        rw [liveBytes_succ, if_neg ht]
      rw [hlive slot (by omega) ht, if_neg ht]
      simp only
      rw [if_neg (by omega), if_neg, if_neg]
      · congr 2
        unfold readBytes
        apply List.map_congr_left
        intro t ht2
        rw [List.mem_range] at ht2
        exact hbytes slot (by omega) ht t (by omega)
      · rw [not_not, inPage_iff]; omega
      · rw [not_not, inPage_iff]; omega

/-- With no failure injected, `SP_CompactPage` of an existing page succeeds
whenever the compaction of the page does, and stores the result back. -/
theorem SP_CompactPage_nil {st : PFState} {pn : Nat} {p' : Page} (hf : st.faults = [])
    (hn : pn < st.numpages) (h : SP_CompactPage_page (st.page pn) = .ok p') :
    ∃ st', SP_CompactPage st pn true = .ok () st' ∧ st'.numpages = st.numpages ∧
      (st'.page = fun m => if m = pn then p' else st.page m) ∧ st'.faults = [] := by
  unfold SP_CompactPage
  obtain ⟨sa, ea, pa, na, ja, fa, qa⟩ := PF_GetThisPage_nil hf hn
  rw [ea]
  simp only [ne_eq, not_true_eq_false, if_false, Bool.not_eq_true, Bool.true_eq_false]
  rw [pa, h]
  simp only
  obtain ⟨sb, eb, pb, nb, jb, fb⟩ :=
    PF_UnfixPage_nil_ex (sa.setPage pn p') pn true fa qa
  rw [eb]
  simp only [ne_eq, not_true_eq_false, if_false]
  refine ⟨sb, rfl, by rw [nb]; exact na, ?_, fb⟩
  rw [pb]
  simp only [PFState.setPage, pa]

/-- A successful `SP_CompactPage` is a successful compaction of the page,
stored back into that page. -/
theorem SP_CompactPage_ok {st : PFState} {pn : Nat} {b : Bool} {st' : PFState}
    (h : SP_CompactPage st pn b = .ok () st') :
    pn < st.numpages ∧ st'.numpages = st.numpages ∧
    ∃ p', SP_CompactPage_page (st.page pn) = .ok p' ∧
      st'.page = fun m => if m = pn then p' else st.page m := by
  unfold SP_CompactPage at h
  have hpg := PF_GetThisPage_page st pn
  have hnp := PF_GetThisPage_numpages st pn
  have hlt : (PF_GetThisPage st pn).1 = PFE_OK → _ := fix_ok_lt
  revert h hpg hnp hlt
  cases PF_GetThisPage st pn with
  | mk rc st1 =>
    intro h hpg hnp hlt
    simp only at h hpg hnp hlt
    split_ifs at h with h1 h2
    rw [hpg] at h
    cases hd : SP_CompactPage_page (st.page pn) with
    | undef => simp [hd] at h
    | fail => simp [hd] at h
    | ok p' =>
      simp only [hd] at h
      have hpg2 := PF_UnfixPage_page (st1.setPage pn p') pn true
      have hnp2 := PF_UnfixPage_numpages (st1.setPage pn p') pn true
      revert h hpg2 hnp2
      cases PF_UnfixPage (st1.setPage pn p') pn true with
      | mk rc2 st2 =>
        intro h hpg2 hnp2
        simp only at h hpg2 hnp2
        split_ifs at h with h3
        simp only [SPRet.ok.injEq, true_and] at h
        subst h
        refine ⟨hlt (not_not.mp h1), by rw [hnp2]; exact hnp, p', rfl, ?_⟩
        rw [hpg2]; simp only [PFState.setPage, hpg]

/-! ## `SP_GetRecord` on a file -/

/-- A successful `SP_GetRecord` is a successful lookup in the page the record
id names. -/
theorem SP_GetRecord_ok {st : PFState} {rid : Nat} {v : Int × List Byte} {st' : PFState}
    (h : SP_GetRecord st rid = .ok v st') :
    (decode_recId rid).1 < st.numpages ∧
    SP_GetRecord_page (st.page (decode_recId rid).1) (decode_recId rid).2 = .ok v ∧
    st'.page = st.page ∧ st'.numpages = st.numpages := by
  unfold SP_GetRecord at h
  simp only at h
  have hpg := PF_GetThisPage_page st (decode_recId rid).1
  have hnp := PF_GetThisPage_numpages st (decode_recId rid).1
  have hlt : (PF_GetThisPage st (decode_recId rid).1).1 = PFE_OK → _ := fix_ok_lt
  revert h hpg hnp hlt
  cases PF_GetThisPage st (decode_recId rid).1 with
  | mk rc st1 =>
    intro h hpg hnp hlt
    simp only at h hpg hnp hlt
    split_ifs at h with h1
    rw [hpg] at h
    cases hd : SP_GetRecord_page (st.page (decode_recId rid).1) (decode_recId rid).2 with
    | undef => simp [hd] at h
    | fail => simp [hd] at h
    | ok w =>
      simp only [hd, SPRet.ok.injEq] at h
      obtain ⟨e1, e2⟩ := h
      subst e1 e2
      exact ⟨hlt (not_not.mp h1), rfl, by rw [PF_UnfixPage_page]; exact hpg,
        by rw [PF_UnfixPage_numpages]; exact hnp⟩

/-- With no failure injected, `SP_GetRecord` of a record id on an existing
page succeeds whenever the lookup in the page does. -/
theorem SP_GetRecord_nil {st : PFState} (rid : Nat) {v : Int × List Byte}
    (hf : st.faults = []) (hn : (decode_recId rid).1 < st.numpages)
    (h : SP_GetRecord_page (st.page (decode_recId rid).1) (decode_recId rid).2 = .ok v) :
    ∃ st', SP_GetRecord st rid = .ok v st' := by
  unfold SP_GetRecord
  simp only
  obtain ⟨sa, ea, pa, na, ja, fa, qa⟩ := PF_GetThisPage_nil hf hn
  rw [ea]
  simp only [ne_eq, not_true_eq_false, if_false]
  rw [pa, h]
  exact ⟨_, rfl⟩

/-- On a page that satisfies the layout invariant, the lookup of a live slot
succeeds with the length and the bytes of the slot. -/
theorem get_page_live {p : Page} {slot : Nat} (hlay : Layout p)
    (hlt : slot < (sp_read_header p).slot_count) (hl : (readSlot p slot).offset ≠ -1) :
    SP_GetRecord_page p slot =
      .ok ((readSlot p slot).length,
        readBytes p (readSlot p slot).offset.toNat (readSlot p slot).length.toNat) := by
  have hdir := hlay.1
  have hfo := hlay.2.1
  obtain ⟨hl0, hl1, hl2⟩ := hlay.2.2.1 slot hlt hl
  simp only [SP_HEADER_SIZE, SP_SLOT_SIZE, PF_PAGE_SIZE] at hdir hfo hl2
  have hin : slotInPage slot := by rw [slotInPage_iff]; omega
  unfold SP_GetRecord_page
  simp only
  rw [if_neg (by omega), if_neg (not_not.mpr hin), if_neg hl, if_neg]
  rw [not_not, inPage_iff]
  omega

/-- With no failure coming from the paged-file layer, `SP_CompactPage`
of a page of the file that satisfies the layout invariant succeeds; it keeps
`slot_count` and keeps the set of tombstone slot indices, and for every
record id `rid = (pn, slot)` of a slot of that page that is not a tombstone,
`SP_GetRecord` succeeds before and after the compaction and returns the same
length and the same bytes, which are the length and the bytes of the slot
before the compaction. -/
theorem compact_preserves_records_of_layout (st : PFState) (pn : Nat)
    (hf : st.faults = []) (hn : pn < st.numpages) (hlay : Layout (st.page pn)) :
    ∃ st', SP_CompactPage st pn true = .ok () st' ∧
      (sp_read_header (st'.page pn)).slot_count = (sp_read_header (st.page pn)).slot_count ∧
      (∀ j, j < (sp_read_header (st.page pn)).slot_count →
        ((readSlot (st'.page pn) j).offset = -1 ↔ (readSlot (st.page pn) j).offset = -1)) ∧
      (∀ rid slot, decode_recId rid = (pn, slot) →
        slot < (sp_read_header (st.page pn)).slot_count →
        (readSlot (st.page pn) slot).offset ≠ -1 →
        ∃ v sa sb, SP_GetRecord st rid = .ok v sa ∧ SP_GetRecord st' rid = .ok v sb ∧
          v = ((readSlot (st.page pn) slot).length,
            readBytes (st.page pn) (readSlot (st.page pn) slot).offset.toNat
              (readSlot (st.page pn) slot).length.toNat)) := by
  obtain ⟨p', hp', hh, htomb, hlive, -⟩ := compact_page_effect hlay
  obtain ⟨st', h, hnp, hpage, hf2⟩ := SP_CompactPage_nil hf hn hp'
  have hcur : st'.page pn = p' := by rw [hpage]; simp
  have hdir := hlay.1
  simp only [SP_HEADER_SIZE, SP_SLOT_SIZE] at hdir
  refine ⟨st', h, ?_⟩
  rw [hcur]
  refine ⟨by rw [hh], fun j hj => ?_, fun rid slot hdec hslot hl => ?_⟩
  · by_cases ht : (readSlot (st.page pn) j).offset = -1
    · rw [htomb j hj ht]
    · rw [hlive j hj ht]
      have hle := liveBytes_le hlay (i := j + 1) (by omega)
      constructor
      · intro hc
        simp only at hc
        omega
      · intro hc
        exact absurd hc ht
  · have g := get_page_live hlay hslot hl
    have hd1 : (decode_recId rid).1 = pn := by rw [hdec]
    have hd2 : (decode_recId rid).2 = slot := by rw [hdec]
    obtain ⟨sa, ha⟩ := SP_GetRecord_nil rid hf (by rw [hd1]; exact hn)
      (by rw [hd1, hd2]; exact g)
    obtain ⟨sb, hb⟩ := SP_GetRecord_nil rid hf2 (by rw [hnp, hd1]; exact hn)
      (by rw [hd1, hd2, hcur, compact_get_same hlay hp']; exact g)
    exact ⟨_, sa, sb, ha, hb, rfl⟩

/-- The compaction of page 0 of `file3`, which holds a tombstone in
slot 0 and the record `[4, 5]` in slot 1; the record moves from offset 4091
to offset 4094 and reads the same. -/
theorem compact_preserves_records_of_layout_file3 :
    file3.faults = [] ∧ 0 < file3.numpages ∧ Layout (file3.page 0) ∧
    SP_CompactPage file3 0 true = .ok () file4 ∧
    (readSlot (file3.page 0) 0).offset = -1 ∧ (readSlot (file4.page 0) 0).offset = -1 ∧
    (readSlot (file3.page 0) 1).offset = 4091 ∧ (readSlot (file4.page 0) 1).offset = 4094 ∧
    (SP_GetRecord file3 1).val (0, []) = (2, [4, 5]) ∧
    (SP_GetRecord file4 1).val (0, []) = (2, [4, 5]) ∧
    ∃ st', SP_CompactPage file3 0 true = .ok () st' ∧
      (sp_read_header (st'.page 0)).slot_count = (sp_read_header (file3.page 0)).slot_count ∧
      (∀ j, j < (sp_read_header (file3.page 0)).slot_count →
        ((readSlot (st'.page 0) j).offset = -1 ↔ (readSlot (file3.page 0) j).offset = -1)) ∧
      (∀ rid slot, decode_recId rid = (0, slot) →
        slot < (sp_read_header (file3.page 0)).slot_count →
        (readSlot (file3.page 0) slot).offset ≠ -1 →
        ∃ v sa sb, SP_GetRecord file3 rid = .ok v sa ∧ SP_GetRecord st' rid = .ok v sb ∧
          v = ((readSlot (file3.page 0) slot).length,
            readBytes (file3.page 0) (readSlot (file3.page 0) slot).offset.toNat
              (readSlot (file3.page 0) slot).length.toNat)) :=
  ⟨rfl, by decide, by decide, rfl, by decide, by decide, by decide, by decide, by decide,
    by decide, compact_preserves_records_of_layout file3 0 rfl (by decide) (by decide)⟩

/-- C1 (the code run on a delete followed by an insert): on a new file, insert a record of
4000 bytes, delete it, insert a record of 90 bytes `0xAA`.  All three calls
return 0 and the last returns record id 0; `SP_GetRecord` of that record id
returns 0 with length 90, but the bytes it returns are not the record: they
start with the bytes of the header fields `free_offset = 6` and
`free_space = 65526`, and bytes 6 to 9 are the slot entry
`{offset = 6, length = 90}`. -/
theorem C1_round_trip_fails_after_delete :
    (SP_InsertRecord file0 (List.replicate 4000 170) 4000).isOk = true ∧
    (SP_InsertRecord file0 (List.replicate 4000 170) 4000).val 1 = 0 ∧
    (SP_DeleteRecord fileA 0).isOk = true ∧
    (SP_InsertRecord fileB (List.replicate 90 170) 90).isOk = true ∧
    (SP_InsertRecord fileB (List.replicate 90 170) 90).val 1 = 0 ∧
    (SP_GetRecord fileC 0).isOk = true ∧
    ((SP_GetRecord fileC 0).val (0, [])).1 = 90 ∧
    ((SP_GetRecord fileC 0).val (0, [])).2.take 4 = [6, 0, 246, 255] ∧
    (((SP_GetRecord fileC 0).val (0, [])).2.drop 6).take 4 = [6, 0, 90, 0] ∧
    ((SP_GetRecord fileC 0).val (0, [])).2 ≠ List.replicate 90 170 := by
  decide!

/-- C3 (the code run on a delete followed by an insert): on a new file, insert a record of
4000 bytes, delete it, insert a record of 90 bytes.  The page was reached
from a freshly initialised page by slotted-page operations, and after the
last insert it has `slot_count = 1` and `free_offset = 6`, below the end of
the slot directory at 16, and `free_space = 65526`: the layout invariant
does not hold. -/
theorem C3_layout_broken_after_delete_insert :
    (SP_InsertRecord file0 (List.replicate 4000 170) 4000).isOk = true ∧
    (SP_DeleteRecord fileA 0).isOk = true ∧
    (SP_InsertRecord fileB (List.replicate 90 170) 90).isOk = true ∧
    Layout (fileA.page 0) ∧ Layout (fileB.page 0) ∧
    (sp_read_header (fileB.page 0)).free_offset = 96 ∧
    (sp_read_header (fileB.page 0)).free_space = 4080 ∧
    (sp_read_header (fileC.page 0)).slot_count = 1 ∧
    (sp_read_header (fileC.page 0)).free_offset = 6 ∧
    (sp_read_header (fileC.page 0)).free_space = 65526 ∧
    ¬ Layout (fileC.page 0) := by
  decide!

/-! ## Insertion keeps the invariants -/

theorem layout_init (j : Page) : Layout (sp_init_page j) := by
  unfold Layout
  rw [sp_read_header_init]
  simp only [SP_HEADER_SIZE, SP_SLOT_SIZE, PF_PAGE_SIZE]
  refine ⟨by omega, by omega, fun i hi => ?_, fun i hi => ?_⟩
  · omega
  · omega

theorem spaceExact_init (j : Page) : SpaceExact (sp_init_page j) := by
  unfold SpaceExact
  rw [sp_read_header_init]
  simp only [SP_HEADER_SIZE, SP_SLOT_SIZE]
  omega

/-- On a page that satisfies the layout invariant and the space accounting
and passes the test of `sp_find_page_for_insert`, the insertion runs to its
success exit. -/
theorem insert_page_progress {p : Page} {data : List Byte} {len : Int} (hlay : Layout p)
    (hex : SpaceExact p) (hfit : PageFits p len) (hlen : 0 < len) (hdata : len ≤ data.length) :
    ∃ p' idx, SP_InsertRecord_page p data len = .ok (p', idx) := by
  have hdir := hlay.1
  have hfo := hlay.2.1
  unfold SpaceExact at hex
  simp only [SP_HEADER_SIZE, SP_SLOT_SIZE, PF_PAGE_SIZE] at hdir hfo hex
  cases hsc : sp_scan_deleted p 0 (sp_read_header p).slot_count with
  | oob => exact absurd hsc (sp_scan_deleted_ne_oob _ 0 (by omega))
  | found i =>
    have hsp := ((pageFits_iff_of_scan p len).1 i hsc).1 hfit
    obtain ⟨-, hlt, hin, -, -⟩ := sp_scan_deleted_found _ _ _ hsc
    have hfo2 : ((u16 (((sp_read_header p).free_offset : Int) - len) : Nat) : Int) =
        ((sp_read_header p).free_offset : Int) - len := u16_of_range (by omega) (by omega)
    simp only [SP_InsertRecord_page, hsc]
    simp only [bne_iff_ne, ne_eq, reduceCtorEq, not_false_eq_true, decide_True, if_true]
    rw [if_neg (by simp; omega), if_neg, if_neg (not_not.mpr hin)]
    · exact ⟨_, _, rfl⟩
    · rw [not_not, inPage_iff]
      exact ⟨⟨by omega, by omega, by omega⟩, hdata⟩
  | absent =>
    have hsp := ((pageFits_iff_of_scan p len).2 hsc).1 hfit
    have hfo2 : ((u16 (((sp_read_header p).free_offset : Int) - len) : Nat) : Int) =
        ((sp_read_header p).free_offset : Int) - len := u16_of_range (by omega) (by omega)
    have hin : slotInPage (sp_read_header p).slot_count := by rw [slotInPage_iff]; omega
    simp only [SP_InsertRecord_page, hsc]
    simp only [bne_self_eq_false, Bool.false_eq_true, if_false, SP_SLOT_SIZE]
    rw [if_neg (by simp; omega), if_neg, if_neg (not_not.mpr hin)]
    · exact ⟨_, _, rfl⟩
    · rw [not_not, inPage_iff]
      exact ⟨⟨by omega, by omega, by omega⟩, hdata⟩

/-- An insertion with the effect `InsertEffect` on a page that satisfies the
layout invariant gives a page that satisfies the layout invariant and the
space accounting. -/
theorem insert_effect_layout {p : Page} {data : List Byte} {len : Int} {p' : Page} {idx : Nat}
    (eff : InsertEffect p data len p' idx) (hlay : Layout p) (hlen : 0 < len) :
    Layout p' ∧ SpaceExact p' := by
  obtain ⟨hdir, hfo, harea, hdisj⟩ := hlay
  have e1 := eff.free_offset_eq
  have e2 := eff.free_space_eq
  have e3 := eff.slot_eq
  have hidx : idx < (sp_read_header p').slot_count ∧
      (sp_read_header p).slot_count ≤ (sp_read_header p').slot_count ∧
      (∀ j, j < (sp_read_header p').slot_count → j ≠ idx →
        j < (sp_read_header p).slot_count) := by
    rcases eff.slot_choice with ⟨-, a, -, b⟩ | ⟨-, a, b⟩
    · exact ⟨by omega, by omega, fun j hj _ => by omega⟩
    · exact ⟨by omega, by omega, fun j hj hne => by omega⟩
  obtain ⟨hidx1, hidx2, hidx3⟩ := hidx
  simp only [SP_HEADER_SIZE, SP_SLOT_SIZE, PF_PAGE_SIZE] at hdir hfo e2 ⊢
  have hslot : ∀ j, j < (sp_read_header p').slot_count → (readSlot p' j).offset ≠ -1 →
      0 ≤ (readSlot p' j).length ∧
      ((sp_read_header p').free_offset : Int) ≤ (readSlot p' j).offset ∧
      (readSlot p' j).offset + (readSlot p' j).length ≤ 4096 ∧
      (j ≠ idx → ((sp_read_header p).free_offset : Int) ≤ (readSlot p' j).offset) := by
    intro j hj hl
    by_cases hji : j = idx
    · subst hji
      rw [e3]
      simp only
      exact ⟨by omega, by omega, by omega, fun h => absurd rfl h⟩
    · have hs := eff.slot_other j hj hji
      rw [hs] at hl ⊢
      obtain ⟨a, b, c⟩ := harea j (hidx3 j hj hji) hl
      simp only [PF_PAGE_SIZE] at c
      exact ⟨a, by omega, c, fun _ => b⟩
  refine ⟨⟨?_, ?_, fun j hj hl => ?_, fun i hi j hj hij hli hlj => ?_⟩, ?_⟩
  · simp only [SP_HEADER_SIZE, SP_SLOT_SIZE]; omega
  · simp only [PF_PAGE_SIZE]; omega
  · obtain ⟨a, b, c, -⟩ := hslot j hj hl
    exact ⟨a, b, by simp only [PF_PAGE_SIZE]; exact c⟩
  · unfold SlotsDisjoint
    obtain ⟨a1, b1, c1, d1⟩ := hslot i hi hli
    obtain ⟨a2, b2, c2, d2⟩ := hslot j hj hlj
    by_cases hii : i = idx
    · have hjj : j ≠ idx := fun h => hij (hii.trans h.symm)
      have := d2 hjj
      have e4 := congrArg SP_SlotEntry.offset e3
      have e5 := congrArg SP_SlotEntry.length e3
      simp only at e4 e5
      rw [hii, e4, e5]
      left; omega
    · by_cases hjj : j = idx
      · have := d1 hii
        have e4 := congrArg SP_SlotEntry.offset e3
        have e5 := congrArg SP_SlotEntry.length e3
        simp only at e4 e5
        rw [hjj, e4, e5]
        right; omega
      · rw [eff.slot_other i hi hii, eff.slot_other j hj hjj] at *
        exact hdisj i (hidx3 i hi hii) j (hidx3 j hj hjj) hij hli hlj
  · unfold SpaceExact
    simp only [SP_HEADER_SIZE, SP_SLOT_SIZE]
    omega

theorem liveBytes_congr {p p' : Page} :
    ∀ i, (∀ j, j < i → readSlot p' j = readSlot p j) → liveBytes p' i = liveBytes p i := by
  intro i
  induction i with
  | zero => intro _; rfl
  | succ i ih =>
    intro h
    rw [liveBytes_succ, liveBytes_succ, ih (fun j hj => h j (by omega)), h i (by omega)]

/-- The inner loop of `SP_ComputeSpaceUtilization` adds up the lengths of the
live slots. -/
theorem sp_used_loop_eq (p : Page) :
    ∀ k i acc, 12 + (i + k) * 4 ≤ 4096 →
      sp_used_loop p i k acc = some (acc + (liveBytes p (i + k) - liveBytes p i)) := by
  intro k
  induction k with
  | zero => intro i acc _; simp [sp_used_loop]
  | succ k ih =>
    intro i acc h
    have hin : slotInPage i := by rw [slotInPage_iff]; omega
    rw [sp_used_loop]
    simp only
    rw [if_neg (not_not.mpr hin)]
    have e : i + (k + 1) = (i + 1) + k := by omega
    split_ifs with h1
    · rw [ih (i + 1) acc (by omega), e, liveBytes_succ p i, if_pos h1]
      congr 1; omega
    · rw [ih (i + 1) _ (by omega), e, liveBytes_succ p i, if_neg h1]
      congr 1; omega

/-! ## Runs of insertions into one page -/

theorem SP_InsertRecord_of_find {st : PFState} {data : List Byte} {len : Int} {q : Nat}
    {st1 : PFState} {p' : Page} {idx : Nat} (h0 : 0 < len) (h1 : len ≤ 4080)
    (hfind : sp_find_page_for_insert st len = .ok q st1)
    (hbody : SP_InsertRecord_page (st1.page q) data len = .ok (p', idx))
    (hf : st1.faults = []) (hp : 0 < st1.pins q) :
    ∃ st', SP_InsertRecord st data len = .ok (mkRecId q idx) st' ∧ st'.faults = [] ∧
      st'.numpages = st1.numpages ∧ st'.page = fun m => if m = q then p' else st1.page m := by
  unfold SP_InsertRecord
  simp only [PF_PAGE_SIZE, SP_HEADER_SIZE, SP_SLOT_SIZE]
  rw [if_neg (by omega)]
  simp only [hfind, hbody]
  obtain ⟨s2, e2, p2, n2, -, f2⟩ :=
    PF_UnfixPage_nil_ex (st1.setPage q p') q true hf hp
  rw [e2]
  simp only [ne_eq, not_true_eq_false, if_false]
  exact ⟨s2, rfl, f2, n2, p2⟩

/-- With no failure injected, the search picks page 0 when that page can
take the record and its slot directory lies inside the page. -/
theorem find_first_page {st : PFState} {len : Int} (hf : st.faults = [])
    (hn : 0 < st.numpages)
    (hdir : 12 + (sp_read_header (st.page 0)).slot_count * 4 ≤ 4096)
    (hfit : PageFits (st.page 0) len) :
    ∃ st1, sp_find_page_for_insert st len = .ok 0 st1 ∧ st1.page = st.page ∧
      st1.numpages = st.numpages ∧ st1.faults = [] ∧ 0 < st1.pins 0 := by
  rcases sp_find_page_for_insert_nil st len hf with
    ⟨-, m, hm1, hm2, hm3⟩ | ⟨q, st1, hq, hff, -, hfl, hp⟩
  · have hm : m = 0 := by
      by_contra h
      exact hm2 0 (by omega) hfit
    subst hm
    exact absurd hm3 (sp_scan_deleted_ne_oob _ 0 (by omega))
  · rcases hff with ⟨-, -, -, d, e, f⟩ | ⟨-, b, -, -⟩
    · have hq0 : q = 0 := by
        by_contra h
        exact d 0 (le_refl _) (by omega) hfit
      subst hq0
      exact ⟨st1, hq, f, e, hfl, hp⟩
    · exact absurd hfit (b 0 (le_refl _) hn)

/-- With no failure injected, the search on an empty file appends page 0,
initialised. -/
theorem find_empty_file {st : PFState} (len : Int) (hf : st.faults = [])
    (hn : st.numpages = 0) :
    ∃ st1, sp_find_page_for_insert st len = .ok 0 st1 ∧
      st1.page 0 = sp_init_page (st.junk 0) ∧ st1.numpages = 1 ∧ st1.faults = [] ∧
      0 < st1.pins 0 := by
  rcases sp_find_page_for_insert_nil st len hf with
    ⟨-, m, hm1, -, -⟩ | ⟨q, st1, hq, hff, -, hfl, hp⟩
  · omega
  · rcases hff with ⟨a, -, -, -, -, -⟩ | ⟨a, -, c, d⟩
    · omega
    · rw [hn] at a c d
      subst a
      exact ⟨st1, hq, by rw [d]; simp, c, hfl, hp⟩

/-- The insertion of a record into a page without tombstones appends a slot
and keeps the invariants; the live bytes grow by the length of the record. -/
theorem insert_page_append {p : Page} {data : List Byte} {len : Int} (hlay : Layout p)
    (hex : SpaceExact p)
    (hnt : ∀ i, i < (sp_read_header p).slot_count → (readSlot p i).offset ≠ -1)
    (hlen : 0 < len) (hdata : len ≤ data.length)
    (hroom : len + 4 ≤ ((sp_read_header p).free_offset : Int) - 12 -
      (sp_read_header p).slot_count * 4) :
    ∃ p', SP_InsertRecord_page p data len = .ok (p', (sp_read_header p).slot_count) ∧
      Layout p' ∧ SpaceExact p' ∧
      (sp_read_header p').slot_count = (sp_read_header p).slot_count + 1 ∧
      ((sp_read_header p').free_offset : Int) = ((sp_read_header p).free_offset : Int) - len ∧
      (∀ i, i < (sp_read_header p).slot_count + 1 → (readSlot p' i).offset ≠ -1) ∧
      liveBytes p' ((sp_read_header p).slot_count + 1) =
        liveBytes p (sp_read_header p).slot_count + len := by
  have hex2 := hex
  unfold SpaceExact at hex2
  simp only [SP_HEADER_SIZE, SP_SLOT_SIZE] at hex2
  have hfit : PageFits p len := Or.inr ⟨hnt, by simp only [SP_SLOT_SIZE]; omega⟩
  obtain ⟨p', idx, hbody⟩ := insert_page_progress hlay hex hfit hlen hdata
  have eff := insert_effect hbody hex hlen
  obtain ⟨hl', he'⟩ := insert_effect_layout eff hlay hlen
  have hdir := hlay.1
  simp only [SP_HEADER_SIZE, SP_SLOT_SIZE] at hdir
  rcases eff.slot_choice with ⟨a, b, -, -⟩ | ⟨-, b, c⟩
  · exact absurd a (hnt idx b)
  · subst b
    have hoth : ∀ j, j < (sp_read_header p).slot_count → readSlot p' j = readSlot p j :=
      fun j hj => eff.slot_other j (by omega) (by omega)
    refine ⟨p', hbody, hl', he', c, eff.free_offset_eq, fun i hi => ?_, ?_⟩
    · by_cases hi2 : i = (sp_read_header p).slot_count
      · rw [hi2, eff.slot_eq]
        simp only
        omega
      · rw [hoth i (by omega)]
        exact hnt i (by omega)
    · rw [liveBytes_succ, liveBytes_congr _ hoth, eff.slot_eq]
      simp only
      rw [if_neg (by omega)]

/-- One more record into a one-page file with room left on the page. -/
theorem onePage_insert {st : PFState} {n f : Nat} {T : Int} (data : List Byte) (len : Int)
    (h : OnePage st n f T) (hlen : 0 < len) (hdata : len ≤ data.length)
    (hroom : len + 4 ≤ (f : Int) - 12 - n * 4) (hn : n < 65536) :
    ∃ st', SP_InsertRecord st data len = .ok n st' ∧ OnePage st' (n + 1) (f - len.toNat) (T + len) := by
  obtain ⟨hf, hnp, hlay, hex, hsc, hfo, hnt, hT⟩ := h
  subst hsc hfo
  have hdir := hlay.1
  have hfo := hlay.2.1
  simp only [SP_HEADER_SIZE, SP_SLOT_SIZE, PF_PAGE_SIZE] at hdir hfo
  have hex2 := hex
  unfold SpaceExact at hex2
  simp only [SP_HEADER_SIZE, SP_SLOT_SIZE] at hex2
  have hfit : PageFits (st.page 0) len := Or.inr ⟨hnt, by simp only [SP_SLOT_SIZE]; omega⟩
  obtain ⟨st1, hfind, hp1, hn1, hf1, hq1⟩ := find_first_page hf (by omega) (by omega) hfit
  obtain ⟨p', hbody, hl', he', hc', hfo', hnt', hT'⟩ :=
    insert_page_append hlay hex hnt hlen hdata hroom
  rw [← hp1] at hbody
  obtain ⟨st', hins, hf', hn', hp'⟩ :=
    SP_InsertRecord_of_find hlen (by omega) hfind hbody hf1 hq1
  have hrid : mkRecId 0 (sp_read_header (st.page 0)).slot_count =
      (sp_read_header (st.page 0)).slot_count := by
    unfold mkRecId
    rw [Nat.zero_shiftLeft, Nat.zero_mod, Nat.zero_or]
    exact Nat.mod_eq_of_lt (by omega)
  rw [hp1, hrid] at hins
  have hcur : st'.page 0 = p' := by rw [hp']; simp
  refine ⟨st', hins, hf', by omega, ?_, ?_, ?_, ?_, ?_, ?_⟩
  · rw [hcur]; exact hl'
  · rw [hcur]; exact he'
  · rw [hcur]; exact hc'
  · rw [hcur]; omega
  · rw [hcur]; exact hnt'
  · rw [hcur, hT', hT]

/-- The first record into an empty file. -/
theorem emptyFile_insert (st : PFState) (data : List Byte) (len : Int) (hf : st.faults = [])
    (hn : st.numpages = 0) (hlen : 0 < len) (hdata : len ≤ data.length) (h1 : len ≤ 4080) :
    ∃ st', SP_InsertRecord st data len = .ok 0 st' ∧ OnePage st' 1 (4096 - len.toNat) len := by
  obtain ⟨st1, hfind, hp1, hn1, hf1, hq1⟩ := find_empty_file len hf hn
  have hh := sp_read_header_init (st.junk 0)
  have hsc : (sp_read_header (sp_init_page (st.junk 0))).slot_count = 0 := by rw [hh]
  have hfo : (sp_read_header (sp_init_page (st.junk 0))).free_offset = 4096 := by rw [hh]
  obtain ⟨p', hbody, hl', he', hc', hfo', hnt', hT'⟩ :=
    insert_page_append (p := sp_init_page (st.junk 0)) (layout_init _)
      (spaceExact_init _) (fun i hi => by omega) hlen hdata (by rw [hsc, hfo]; omega)
  rw [hsc] at hbody hc' hnt' hT'
  rw [hfo] at hfo'
  rw [← hp1] at hbody
  obtain ⟨st', hins, hf', hn', hp'⟩ :=
    SP_InsertRecord_of_find hlen h1 hfind hbody hf1 hq1
  have hcur : st'.page 0 = p' := by rw [hp']; simp
  refine ⟨st', hins, hf', by omega, ?_, ?_, ?_, ?_, ?_, ?_⟩
  · rw [hcur]; exact hl'
  · rw [hcur]; exact he'
  · rw [hcur]; exact hc'
  · rw [hcur]; omega
  · rw [hcur]; exact hnt'
  · rw [hcur, hT']; simp [liveBytes]

/-- The utilization of a one-page file. -/
theorem onePage_utilization {st : PFState} {n f : Nat} {T : Int} (h : OnePage st n f T) :
    ∃ st', SP_ComputeSpaceUtilization st = .ok (1, T, sp_util_value 1 T) st' := by
  obtain ⟨hf, hnp, hlay, hex, hsc, hfo, hnt, hTe⟩ := h
  have hdir := hlay.1
  have hfo2 := hlay.2.1
  simp only [SP_HEADER_SIZE, SP_SLOT_SIZE, PF_PAGE_SIZE] at hdir hfo2
  unfold SP_ComputeSpaceUtilization
  obtain ⟨sa, ea, pa, na, ja, fa, qa⟩ := PF_GetFirstPage_nil hf (by omega)
  rw [ea]
  simp only [PFE_OK, PFE_EOF]
  rw [if_neg (by decide), if_neg (by decide), na, hnp]
  have hused := sp_used_loop_eq (sa.page 0) (sp_read_header (sa.page 0)).slot_count 0 0
    (by rw [pa]; omega)
  simp only [Nat.zero_add, liveBytes, Int.sub_zero, Int.zero_add] at hused
  obtain ⟨sb, eb, pb, nb, jb, fb⟩ := PF_UnfixPage_nil_ex sa 0 false fa qa
  obtain ⟨sc, ec, pc, nc, jc, fc⟩ :=
    PF_GetNextPage_nil_eof (n := 0) fb (by rw [nb, na, hnp])
  have hloop : sp_util_loop 1 sa 0 0 0 = .ok (1, T) sc := by
    unfold sp_util_loop
    simp only [hused, eb, ec, ne_eq, not_true_eq_false, if_false, if_true]
    rw [pa, hsc, hTe]
    simp
  rw [hloop]
  simp only
  refine ⟨sc, ?_⟩
  rw [if_pos (by decide)]

/-- C6 (counterexample): records of 10, 20, 4000 and 30 zero bytes inserted
into a new file all get record ids on page 0 (slots 0 to 3), the file has one
page, and `SP_ComputeSpaceUtilization` reports pages = 1 and live bytes =
4060: the 4000-byte record is not on a page of its own, pages is not 2. -/
theorem C6_counterexample :
    (SP_InsertRecord file0 (List.replicate 10 0) 10).isOk = true ∧
    (SP_InsertRecord scen1 (List.replicate 20 0) 20).isOk = true ∧
    (SP_InsertRecord scen2 (List.replicate 4000 0) 4000).isOk = true ∧
    (SP_InsertRecord scen3 (List.replicate 30 0) 30).isOk = true ∧
    decode_recId ((SP_InsertRecord file0 (List.replicate 10 0) 10).val 9) = (0, 0) ∧
    decode_recId ((SP_InsertRecord scen1 (List.replicate 20 0) 20).val 9) = (0, 1) ∧
    decode_recId ((SP_InsertRecord scen2 (List.replicate 4000 0) 4000).val 9) = (0, 2) ∧
    decode_recId ((SP_InsertRecord scen3 (List.replicate 30 0) 30).val 9) = (0, 3) ∧
    scen4.numpages = 1 ∧
    (SP_ComputeSpaceUtilization scen4).isOk = true ∧
    ((SP_ComputeSpaceUtilization scen4).val (0, 0, 0)).1 = 1 ∧
    ((SP_ComputeSpaceUtilization scen4).val (0, 0, 0)).2.1 = 4060 := by
  decide!

/-- C6 (amended): inserting records of lengths 10, 20, 4000 and 30, in that
order and whatever their bytes, into a new file with no failure coming from
the paged-file layer puts all four records on page 0, in slots 0 to 3 (the
4000-byte record shares the page with the others), and
`SP_ComputeSpaceUtilization` then reports pages = 1 and live bytes = 4060,
that is utilization `(10+20+4000+30)/(1*4096)*100`. -/
theorem C6_scenario_four_one_page (junk : Nat → Page) (r1 r2 r3 r4 : List Byte)
    (h1 : r1.length = 10) (h2 : r2.length = 20) (h3 : r3.length = 4000)
    (h4 : r4.length = 30) :
    ∃ s1 s2 s3 s4 s5,
      SP_InsertRecord (PFState.fresh junk []) r1 10 = .ok 0 s1 ∧
      SP_InsertRecord s1 r2 20 = .ok 1 s2 ∧
      SP_InsertRecord s2 r3 4000 = .ok 2 s3 ∧
      SP_InsertRecord s3 r4 30 = .ok 3 s4 ∧
      decode_recId 0 = (0, 0) ∧ decode_recId 1 = (0, 1) ∧ decode_recId 2 = (0, 2) ∧
      decode_recId 3 = (0, 3) ∧
      s4.numpages = 1 ∧ (sp_read_header (s4.page 0)).slot_count = 4 ∧
      SP_ComputeSpaceUtilization s4 =
        .ok (1, 4060, ((10 + 20 + 4000 + 30 : Int) : ℚ) / ((1 : ℚ) * 4096) * 100) s5 := by
  obtain ⟨s1, e1, o1⟩ := emptyFile_insert (PFState.fresh junk []) r1 10 rfl rfl
    (by omega) (by rw [h1]; decide) (by omega)
  obtain ⟨s2, e2, o2⟩ := onePage_insert r2 20 o1 (by omega) (by rw [h2]; decide)
    (by decide) (by omega)
  obtain ⟨s3, e3, o3⟩ := onePage_insert r3 4000 o2 (by omega) (by rw [h3]; decide)
    (by decide) (by omega)
  obtain ⟨s4, e4, o4⟩ := onePage_insert r4 30 o3 (by omega) (by rw [h4]; decide)
    (by decide) (by omega)
  obtain ⟨s5, e5⟩ := onePage_utilization o4
  refine ⟨s1, s2, s3, s4, s5, e1, e2, e3, e4, by decide, by decide, by decide, by decide,
    o4.2.1, o4.2.2.2.2.1, ?_⟩
  rw [e5]
  exact congrArg (fun u : ℚ => SPRet.ok ((1 : Int), (4060 : Int), u) s5) (by decide!)

/-- C6 (witness): the amended scenario with records of zero bytes. -/
theorem C6_scenario_four_one_page_witness :
    (List.replicate 10 (0 : Byte)).length = 10 ∧ (List.replicate 20 (0 : Byte)).length = 20 ∧
    (List.replicate 4000 (0 : Byte)).length = 4000 ∧
    (List.replicate 30 (0 : Byte)).length = 30 ∧
    ∃ s1 s2 s3 s4 s5,
      SP_InsertRecord (PFState.fresh (fun _ => zeroPage) []) (List.replicate 10 0) 10 =
        .ok 0 s1 ∧
      SP_InsertRecord s1 (List.replicate 20 0) 20 = .ok 1 s2 ∧
      SP_InsertRecord s2 (List.replicate 4000 0) 4000 = .ok 2 s3 ∧
      SP_InsertRecord s3 (List.replicate 30 0) 30 = .ok 3 s4 ∧
      decode_recId 0 = (0, 0) ∧ decode_recId 1 = (0, 1) ∧ decode_recId 2 = (0, 2) ∧
      decode_recId 3 = (0, 3) ∧
      s4.numpages = 1 ∧ (sp_read_header (s4.page 0)).slot_count = 4 ∧
      SP_ComputeSpaceUtilization s4 =
        .ok (1, 4060, ((10 + 20 + 4000 + 30 : Int) : ℚ) / ((1 : ℚ) * 4096) * 100) s5 :=
  ⟨List.length_replicate _ _, List.length_replicate _ _, List.length_replicate _ _,
    List.length_replicate _ _,
    C6_scenario_four_one_page (fun _ => zeroPage) _ _ _ _ (List.length_replicate _ _)
      (List.length_replicate _ _) (List.length_replicate _ _) (List.length_replicate _ _)⟩

/-! ## Record ids, and the round trip where the record fits in the gap -/

theorem mkRecId_eq {q idx : Nat} (hq : q < 65536) (hidx : idx < 65536) :
    mkRecId q idx = q * 65536 + idx := by
  unfold mkRecId
  rw [Nat.shiftLeft_eq, Nat.mod_eq_of_lt (by omega), Nat.mod_eq_of_lt (by omega),
    Nat.mul_comm q (2 ^ 16), ← Nat.mul_add_lt_is_or (i := 16) (b := idx) (by omega) q]

theorem decode_recId_eq (rid : Nat) : decode_recId rid = (rid / 65536, rid % 65536) := by
  unfold decode_recId
  rw [Nat.shiftRight_eq_div_pow]
  have h := Nat.and_pow_two_sub_one_eq_mod rid 16
  simp only [Prod.mk.injEq, true_and]
  exact h

theorem decode_mkRecId (q idx : Nat) (hq : q < 65536) (hidx : idx < 65536) :
    decode_recId (mkRecId q idx) = (q, idx) := by
  rw [mkRecId_eq hq hidx, decode_recId_eq]
  simp only [Prod.mk.injEq]
  constructor <;> omega

/-- A successful insertion whose needed bytes fit in the gap between the slot
directory and `free_offset` can be read back: the lookup of the slot returns
the length and the bytes of the record. -/
theorem insert_page_get {p : Page} {data : List Byte} {len : Int} {p' : Page} {idx : Nat}
    (h : SP_InsertRecord_page p data len = .ok (p', idx)) (hlen : 0 < len)
    (hgap : neededBytes p len ≤ gapBytes p) :
    SP_GetRecord_page p' idx = .ok (len, data.take len.toNat) := by
  have eff := insert_effect_of_gap h hlen hgap
  obtain ⟨hin, -, hslot, -⟩ := SP_InsertRecord_page_ok h
  rw [inPage_iff] at hin
  have e1 := eff.free_offset_eq
  have e2 := eff.free_space_eq
  simp only [SP_HEADER_SIZE, SP_SLOT_SIZE] at e2
  have hfl := sp_read_header_free_offset_lt p
  have hu : ((u16 (((sp_read_header p).free_offset : Int) - len) : Nat) : Int) =
      ((sp_read_header p).free_offset : Int) - len := u16_of_range (by omega) (by omega)
  have hidx : idx < (sp_read_header p').slot_count := by
    rcases eff.slot_choice with ⟨-, a, -, b⟩ | ⟨-, a, b⟩ <;> omega
  unfold SP_GetRecord_page
  simp only [eff.slot_eq]
  rw [if_neg (by omega), if_neg (not_not.mpr hslot), if_neg (by omega), if_neg]
  · have ht : (((sp_read_header p).free_offset : Int) - len).toNat =
        (sp_read_header p).free_offset - len.toNat := by omega
    rw [ht, eff.bytes_eq]
  · rw [not_not, inPage_iff]
    omega

/-- With no failure coming from the paged-file layer, a record inserted by a
successful `SP_InsertRecord` whose needed bytes fit in the gap of the chosen
page is returned, length and bytes, by `SP_GetRecord` of the record id. -/
theorem SP_InsertRecord_get {st : PFState} {data : List Byte} {len : Int} {q : Nat}
    {st1 : PFState} {rid : Nat} {st' : PFState} (hf : st.faults = [])
    (hfind : sp_find_page_for_insert st len = .ok q st1)
    (hins : SP_InsertRecord st data len = .ok rid st')
    (hgap : neededBytes (st1.page q) len ≤ gapBytes (st1.page q)) (hq : q < 65536) :
    ∃ s, SP_GetRecord st' rid = .ok (len, data.take len.toNat) s := by
  obtain ⟨hlen, hmax, q2, st2, p', idx, hfind2, hbody, hrid, hpage, hnp, -⟩ :=
    SP_InsertRecord_ok hins
  rw [hfind] at hfind2
  simp only [SPRet.ok.injEq] at hfind2
  obtain ⟨e1, e2⟩ := hfind2
  subst e1 e2
  have hcur : st'.page q = p' := by rw [hpage]; simp
  rcases SP_InsertRecord_nil st data len hf hlen hmax with hu |
    ⟨q3, st3, p3, idx3, s3, hfind3, hff, -, hok, hfl⟩
  · rw [hu] at hins; cases hins
  · rw [hfind] at hfind3
    simp only [SPRet.ok.injEq] at hfind3
    obtain ⟨e1, e2⟩ := hfind3
    subst e1 e2
    rw [hins] at hok
    simp only [SPRet.ok.injEq] at hok
    obtain ⟨-, e3⟩ := hok
    subst e3
    obtain ⟨-, -, hslot, -⟩ := SP_InsertRecord_page_ok hbody
    rw [slotInPage_iff] at hslot
    have hdec := decode_mkRecId q idx hq (by omega)
    rw [← hrid] at hdec
    have hlt : q < st'.numpages := by
      rw [hnp]
      rcases hff with ⟨a, -, -, -, e, -⟩ | ⟨a, -, c, -⟩ <;> omega
    apply SP_GetRecord_nil rid hfl (by rw [hdec]; exact hlt)
    rw [hdec]
    simp only
    rw [hcur]
    exact insert_page_get hbody hlen hgap

/-! ## A newly allocated page and the record id -/

/-- C15: a newly allocated slotted page is the frame of the new page after
`sp_init_page`, and its header holds `magic = 0x53504C54`, `slot_count = 0`,
`free_offset = PF_PAGE_SIZE = 4096` and
`free_space = PF_PAGE_SIZE - SP_HEADER_SIZE`. -/
theorem C15_new_page_initialised (st : PFState) (pageNum : Nat) (st' : PFState)
    (h : sp_alloc_new_page st = .ok pageNum st') :
    pageNum = st.numpages ∧
    st'.page pageNum = sp_init_page (st.junk pageNum) ∧
    (sp_read_header (st'.page pageNum)).magic = 0x53504C54 ∧
    (sp_read_header (st'.page pageNum)).slot_count = 0 ∧
    (sp_read_header (st'.page pageNum)).free_offset = PF_PAGE_SIZE ∧
    (sp_read_header (st'.page pageNum)).free_offset = 4096 ∧
    (sp_read_header (st'.page pageNum)).free_space = PF_PAGE_SIZE - SP_HEADER_SIZE := by
  have key : pageNum = st.numpages ∧ st'.page pageNum = sp_init_page (st.junk pageNum) := by
    unfold sp_alloc_new_page PF_AllocPage PFState.nextFault at h
    cases hfl : st.faults with
    | nil =>
      simp [hfl, PFState.setPage, PFState.log] at h
      obtain ⟨h1, h2⟩ := h
      subst h1 h2
      simp
    | cons e rest =>
      simp only [hfl] at h
      split_ifs at h with he
      simp only [ne_eq, Decidable.not_not] at he
      simp [PFState.setPage, PFState.log] at h
      obtain ⟨h1, h2⟩ := h
      subst h1 h2
      simp
  refine ⟨key.1, key.2, ?_, ?_, ?_, ?_, ?_⟩ <;> rw [key.2, sp_read_header_init] <;> rfl

theorem C15_new_page_initialised_witness :
    sp_alloc_new_page file0 = .ok 0 ((sp_alloc_new_page file0).state file0) ∧
    (sp_read_header (((sp_alloc_new_page file0).state file0).page 0)).magic = 0x53504C54 ∧
    (sp_read_header (((sp_alloc_new_page file0).state file0).page 0)).slot_count = 0 ∧
    (sp_read_header (((sp_alloc_new_page file0).state file0).page 0)).free_offset = 4096 ∧
    (sp_read_header (((sp_alloc_new_page file0).state file0).page 0)).free_space = 4084 :=
  have h := C15_new_page_initialised file0 0 ((sp_alloc_new_page file0).state file0) rfl
  ⟨rfl, h.2.2.1, h.2.2.2.1, h.2.2.2.2.2.1, h.2.2.2.2.2.2⟩

/-- C16: for every page number `p < 2^16` and slot index `s ≤ 65535`,
`decode_recId` applied to the record id `(p << 16) | s` gives back `(p, s)`,
and the encoding is injective on that domain. -/
theorem C16_record_id_round_trip (p s : Nat) (hp : p < 2 ^ 16) (hs : s ≤ 65535) :
    decode_recId (mkRecId p s) = (p, s) ∧
    ∀ p' s', p' < 2 ^ 16 → s' ≤ 65535 → mkRecId p s = mkRecId p' s' → p = p' ∧ s = s' := by
  have h1 : decode_recId (mkRecId p s) = (p, s) := decode_mkRecId p s (by omega) (by omega)
  refine ⟨h1, ?_⟩
  intro p' s' hp' hs' heq
  have h2 : decode_recId (mkRecId p' s') = (p', s') := decode_mkRecId p' s' (by omega) (by omega)
  rw [← heq, h1] at h2
  exact ⟨congrArg Prod.fst h2, congrArg Prod.snd h2⟩

theorem C16_record_id_round_trip_witness :
    decode_recId (mkRecId 3 65535) = (3, 65535) ∧ mkRecId 3 65535 = 262143 :=
  ⟨(C16_record_id_round_trip 3 65535 (by decide) (by decide)).1, by decide⟩

/-! ## The log of paged-file calls -/

theorem nextFault_trace (st : PFState) : st.nextFault.2.trace = st.trace := by
  unfold PFState.nextFault; cases st.faults <;> rfl

theorem nextFault_pins (st : PFState) : st.nextFault.2.pins = st.pins := by
  unfold PFState.nextFault; cases st.faults <;> rfl

theorem pinRun_append (s : Nat × Option Nat) (a b : List (PFCall × Int)) :
    pinRun s (a ++ b) = (pinRun s a).bind (fun s' => pinRun s' b) := by
  induction a generalizing s with
  | nil => simp [pinRun]
  | cons x xs ih =>
    simp only [List.cons_append, pinRun]
    cases pinStep s x with
    | none => simp
    | some s' => simp [ih]

theorem PinExt.refl (st : PFState) (h : Option Nat) : PinExt st h [] st h :=
  ⟨rfl, rfl, fun _ _ => rfl, fun hb => hb⟩

theorem PinExt.trans {st st1 st2 : PFState} {h h1 h2 : Option Nat}
    {s1 s2 : List (PFCall × Int)} (a : PinExt st h s1 st1 h1) (b : PinExt st1 h1 s2 st2 h2) :
    PinExt st h (s2 ++ s1) st2 h2 := by
  refine ⟨?_, ?_, ?_, fun hb => b.beyond (a.beyond hb)⟩
  · rw [b.trace, a.trace, List.append_assoc]
  · rw [List.reverse_append, pinRun_append, a.run]
    exact b.run
  · intro h0 n
    have ha := a.pins h0 n
    have hb := b.pins (a.beyond h0) n
    omega

/-- Writing into the frame of a pinned page is not a paged-file call. -/
theorem PinExt.setPage (st : PFState) (h : Option Nat) (n : Nat) (p : Page) :
    PinExt st h [] (st.setPage n p) h :=
  ⟨rfl, rfl, fun _ _ => rfl, fun hb => hb⟩

/-- A call that pins page `n`: on success the page is pinned once more, on
failure the pins are as before; the call is logged with its return code. -/
theorem fix_ext (st : PFState) (c : PFCall) (n : Nat)
    (hc : ∀ np, pinStep (np, none) (c, PFE_OK) = some (np, some n)) :
    ((st.fix c n).1 = PFE_OK ∧ n < st.numpages ∧
      PinExt st none [(c, PFE_OK)] (st.fix c n).2 (some n)) ∨
    ((st.fix c n).1 ≠ PFE_OK ∧
      ∀ h, PinExt st h [(c, (st.fix c n).1)] (st.fix c n).2 h) := by
  unfold PFState.fix
  have h1 := nextFault_trace st
  have h2 := nextFault_pins st
  have h3 := nextFault_numpages st
  revert h1 h2 h3
  cases st.nextFault with
  | mk e st1 =>
    intro h1 h2 h3
    simp only at h1 h2 h3 ⊢
    split_ifs with he hn
    · right
      refine ⟨he, fun h => ⟨?_, ?_, ?_, ?_⟩⟩
      · simp [PFState.log, h1]
      · simp [pinRun, pinStep, he, PFState.log, h3]
      · intro _ m; simp [PFState.log, h2]
      · intro hb m hm; simp only [PFState.log] at hm ⊢; rw [h2]; exact hb m (by omega)
    · right
      refine ⟨by simp [PFE_EOF, PFE_OK], fun h => ⟨?_, ?_, ?_, ?_⟩⟩
      · simp [PFState.log, h1]
      · simp [pinRun, pinStep, PFE_EOF, PFE_OK, PFState.log, h3]
      · intro _ m; simp [PFState.log, h2]
      · intro hb m hm; simp only [PFState.log] at hm ⊢; rw [h2]; exact hb m (by omega)
    · left
      refine ⟨rfl, by omega, ⟨?_, ?_, ?_, ?_⟩⟩
      · simp [PFState.log, h1]
      · simp only [List.reverse_singleton, pinRun, hc, PFState.log, h3]
      · intro _ m
        simp only [PFState.log, h2]
        by_cases hm : m = n
        · subst hm; simp
        · have : ¬ n = m := fun h => hm h.symm
          simp [hm, this]
      · intro hb m hm
        simp only [PFState.log] at hm ⊢
        rw [if_neg (by omega), h2]
        exact hb m (by omega)

/-- The call `PF_UnfixPage`: on success the page has one pin less, on failure
the pins are as before; the call is logged with its return code. -/
theorem unfix_ext (st : PFState) (n : Nat) (d : Bool) :
    ((PF_UnfixPage st n d).1 = PFE_OK ∧
      PinExt st (some n) [(.UnfixPage n d, PFE_OK)] (PF_UnfixPage st n d).2 none) ∨
    ((PF_UnfixPage st n d).1 ≠ PFE_OK ∧
      ∀ h, PinExt st h [(.UnfixPage n d, (PF_UnfixPage st n d).1)] (PF_UnfixPage st n d).2 h) := by
  unfold PF_UnfixPage
  have h1 := nextFault_trace st
  have h2 := nextFault_pins st
  have h3 := nextFault_numpages st
  revert h1 h2 h3
  cases st.nextFault with
  | mk e st1 =>
    intro h1 h2 h3
    simp only at h1 h2 h3 ⊢
    split_ifs with he hn
    · right
      refine ⟨he, fun h => ⟨?_, ?_, ?_, ?_⟩⟩
      · simp [PFState.log, h1]
      · simp [pinRun, pinStep, he, PFState.log, h3]
      · intro _ m; simp [PFState.log, h2]
      · intro hb m hm; simp only [PFState.log] at hm ⊢; rw [h2]; exact hb m (by omega)
    · right
      refine ⟨by simp [PFE_PAGEUNFIXED, PFE_OK], fun h => ⟨?_, ?_, ?_, ?_⟩⟩
      · simp [PFState.log, h1]
      · simp [pinRun, pinStep, PFE_PAGEUNFIXED, PFE_OK, PFState.log, h3]
      · intro _ m; simp [PFState.log, h2]
      · intro hb m hm; simp only [PFState.log] at hm ⊢; rw [h2]; exact hb m (by omega)
    · left
      refine ⟨rfl, ⟨?_, ?_, ?_, ?_⟩⟩
      · simp [PFState.log, h1]
      · simp [pinRun, pinStep, PFState.log, h3]
      · intro _ m
        simp only [PFState.log, h2]
        rw [h2] at hn
        by_cases hm : m = n
        · subst hm; simp; omega
        · have : ¬ n = m := fun h => hm h.symm
          simp [hm, this]
      · intro hb m hm
        simp only [PFState.log] at hm ⊢
        rw [h2]
        have := hb m (by omega)
        split_ifs <;> omega

/-- The call `PF_AllocPage`: on success the file has one page more, pinned
once, on failure nothing changes; the call is logged with its return code. -/
theorem alloc_ext (st : PFState) :
    ((PF_AllocPage st).1 = PFE_OK ∧ (PF_AllocPage st).2.1 = st.numpages ∧
      PinExt st none [(.AllocPage, PFE_OK)] (PF_AllocPage st).2.2 (some st.numpages)) ∨
    ((PF_AllocPage st).1 ≠ PFE_OK ∧
      ∀ h, PinExt st h [(.AllocPage, (PF_AllocPage st).1)] (PF_AllocPage st).2.2 h) := by
  unfold PF_AllocPage
  have h1 := nextFault_trace st
  have h2 := nextFault_pins st
  have h3 := nextFault_numpages st
  revert h1 h2 h3
  cases st.nextFault with
  | mk e st1 =>
    intro h1 h2 h3
    simp only at h1 h2 h3 ⊢
    split_ifs with he
    · right
      refine ⟨he, fun h => ⟨?_, ?_, ?_, ?_⟩⟩
      · simp [PFState.log, h1]
      · simp [pinRun, pinStep, he, PFState.log, h3]
      · intro _ m; simp [PFState.log, h2]
      · intro hb m hm; simp only [PFState.log] at hm ⊢; rw [h2]; exact hb m (by omega)
    · left
      refine ⟨rfl, h3, ⟨?_, ?_, ?_, ?_⟩⟩
      · simp [PFState.log, h1]
      · simp [pinRun, pinStep, PFState.log, h3]
      · intro hb m
        simp only [PFState.log, h2, h3]
        by_cases hm : m = st.numpages
        · subst hm; simp; exact hb _ (le_refl _)
        · have : ¬ st.numpages = m := fun h => hm h.symm
          simp [hm, this]
      · intro hb m hm
        simp only [PFState.log] at hm ⊢
        rw [if_neg (by omega), h2]
        exact hb m (by omega)

theorem PF_GetThisPage_ext (st : PFState) (n : Nat) :
    ((PF_GetThisPage st n).1 = PFE_OK ∧ n < st.numpages ∧
      PinExt st none [(.GetThisPage n, PFE_OK)] (PF_GetThisPage st n).2 (some n)) ∨
    ((PF_GetThisPage st n).1 ≠ PFE_OK ∧
      ∀ h, PinExt st h [(.GetThisPage n, (PF_GetThisPage st n).1)] (PF_GetThisPage st n).2 h) :=
  fix_ext st _ n (fun _ => rfl)

theorem PF_GetFirstPage_ext (st : PFState) :
    ((PF_GetFirstPage st).1 = PFE_OK ∧ (PF_GetFirstPage st).2.1 = 0 ∧ 0 < st.numpages ∧
      PinExt st none [(.GetFirstPage, PFE_OK)] (PF_GetFirstPage st).2.2 (some 0)) ∨
    ((PF_GetFirstPage st).1 ≠ PFE_OK ∧
      ∀ h, PinExt st h [(.GetFirstPage, (PF_GetFirstPage st).1)] (PF_GetFirstPage st).2.2 h) := by
  have h := fix_ext st .GetFirstPage 0 (fun _ => rfl)
  unfold PF_GetFirstPage
  revert h
  cases st.fix .GetFirstPage 0 with
  | mk rc st1 =>
    intro h
    rcases h with ⟨a, b, c⟩ | ⟨a, b⟩
    · exact Or.inl ⟨a, rfl, b, c⟩
    · exact Or.inr ⟨a, b⟩

theorem PF_GetNextPage_ext (st : PFState) (n : Nat) :
    ((PF_GetNextPage st n).1 = PFE_OK ∧ (PF_GetNextPage st n).2.1 = n + 1 ∧
      n + 1 < st.numpages ∧
      PinExt st none [(.GetNextPage n, PFE_OK)] (PF_GetNextPage st n).2.2 (some (n + 1))) ∨
    ((PF_GetNextPage st n).1 ≠ PFE_OK ∧
      ∀ h, PinExt st h [(.GetNextPage n, (PF_GetNextPage st n).1)]
        (PF_GetNextPage st n).2.2 h) := by
  have h := fix_ext st (.GetNextPage n) (n + 1) (fun _ => rfl)
  unfold PF_GetNextPage
  revert h
  cases st.fix (.GetNextPage n) (n + 1) with
  | mk rc st1 =>
    intro h
    rcases h with ⟨a, b, c⟩ | ⟨a, b⟩
    · exact Or.inl ⟨a, rfl, b, c⟩
    · exact Or.inr ⟨a, b⟩

/-! ## Reading a record -/

theorem fix_trace (st : PFState) (c : PFCall) (n : Nat) :
    (st.fix c n).2.trace = (c, (st.fix c n).1) :: st.trace := by
  unfold PFState.fix
  have h := nextFault_trace st
  revert h
  cases st.nextFault with
  | mk e st1 => intro h; simp only at h ⊢; split_ifs <;> simp [PFState.log, h]

theorem fix_pins_ok {st : PFState} {c : PFCall} {n : Nat} (hok : (st.fix c n).1 = PFE_OK) :
    (st.fix c n).2.pins = fun m => if m = n then st.pins m + 1 else st.pins m := by
  unfold PFState.fix at hok ⊢
  have h := nextFault_pins st
  revert h hok
  cases st.nextFault with
  | mk e st1 =>
    intro hok h
    simp only at h hok ⊢
    split_ifs at hok ⊢ with h1 h2
    · exact absurd hok h1
    · simp [PFE_EOF, PFE_OK] at hok
    · simp [PFState.log, h]

theorem PF_UnfixPage_trace (st : PFState) (n : Nat) (d : Bool) :
    (PF_UnfixPage st n d).2.trace = (.UnfixPage n d, (PF_UnfixPage st n d).1) :: st.trace := by
  unfold PF_UnfixPage
  have h := nextFault_trace st
  revert h
  cases st.nextFault with
  | mk e st1 => intro h; simp only at h ⊢; split_ifs <;> simp [PFState.log, h]

theorem PF_UnfixPage_pins_ok {st : PFState} {n : Nat} {d : Bool}
    (hok : (PF_UnfixPage st n d).1 = PFE_OK) :
    (PF_UnfixPage st n d).2.pins = fun m => if m = n then st.pins m - 1 else st.pins m := by
  unfold PF_UnfixPage at hok ⊢
  have h := nextFault_pins st
  revert h hok
  cases st.nextFault with
  | mk e st1 =>
    intro hok h
    simp only at h hok ⊢
    split_ifs at hok ⊢ with h1 h2
    · exact absurd hok h1
    · simp [PFE_PAGEUNFIXED, PFE_OK] at hok
    · simp [PFState.log, h]

/-- C11: once `SP_GetRecord` has pinned the page of the record id, it
returns -1 when the slot index is `>= slot_count` or the slot is a tombstone,
and otherwise returns 0 with the slot's length and the `length` bytes at the
slot's offset; in each case the file has the same pages with the same
contents as before, and the one paged-file call after the pin is
`PF_UnfixPage` of that page with `dirty = FALSE`, which brings the pin counts
back when it succeeds. -/
theorem C11_get_record_contract (st : PFState) (recId pageNum slotIndex : Nat)
    (st1 : PFState) (hdec : decode_recId recId = (pageNum, slotIndex))
    (hpin : PF_GetThisPage st pageNum = (PFE_OK, st1)) :
    ∃ rc st2, PF_UnfixPage st1 pageNum false = (rc, st2) ∧
      st2.trace =
        (.UnfixPage pageNum false, rc) :: (.GetThisPage pageNum, PFE_OK) :: st.trace ∧
      st2.page = st.page ∧ st2.numpages = st.numpages ∧
      (rc = PFE_OK → ∀ n, st2.pins n = st.pins n) ∧
      (slotIndex ≥ (sp_read_header (st.page pageNum)).slot_count →
        SP_GetRecord st recId = .fail (-1) st2) ∧
      (slotIndex < (sp_read_header (st.page pageNum)).slot_count → slotInPage slotIndex →
        (readSlot (st.page pageNum) slotIndex).offset = -1 →
        SP_GetRecord st recId = .fail (-1) st2) ∧
      (slotIndex < (sp_read_header (st.page pageNum)).slot_count → slotInPage slotIndex →
        (readSlot (st.page pageNum) slotIndex).offset ≠ -1 →
        inPage (readSlot (st.page pageNum) slotIndex).offset
          (readSlot (st.page pageNum) slotIndex).length →
        SP_GetRecord st recId =
          .ok ((readSlot (st.page pageNum) slotIndex).length,
            readBytes (st.page pageNum) (readSlot (st.page pageNum) slotIndex).offset.toNat
              (readSlot (st.page pageNum) slotIndex).length.toNat) st2) := by
  have hpg1 : st1.page = st.page := by
    have := PF_GetThisPage_page st pageNum; rw [hpin] at this; exact this
  have hnp1 : st1.numpages = st.numpages := by
    have := PF_GetThisPage_numpages st pageNum; rw [hpin] at this; exact this
  have htr1 : st1.trace = (.GetThisPage pageNum, PFE_OK) :: st.trace := by
    have := fix_trace st (.GetThisPage pageNum) pageNum
    unfold PF_GetThisPage at hpin; rw [hpin] at this; exact this
  have hpin1 : st1.pins = fun m => if m = pageNum then st.pins m + 1 else st.pins m := by
    have := @fix_pins_ok st (.GetThisPage pageNum) pageNum
      (by unfold PF_GetThisPage at hpin; rw [hpin])
    unfold PF_GetThisPage at hpin; rw [hpin] at this; exact this
  have hget : SP_GetRecord st recId =
      match SP_GetRecord_page (st.page pageNum) slotIndex with
      | .undef => .undef
      | .fail => .fail (-1) (PF_UnfixPage st1 pageNum false).2
      | .ok v => .ok v (PF_UnfixPage st1 pageNum false).2 := by
    unfold SP_GetRecord
    rw [hdec]
    simp only [hpin, ne_eq, not_true_eq_false, if_false, hpg1]
    try rfl
  refine ⟨(PF_UnfixPage st1 pageNum false).1, (PF_UnfixPage st1 pageNum false).2, rfl, ?_, ?_,
    ?_, ?_, ?_, ?_, ?_⟩
  · rw [PF_UnfixPage_trace, htr1]
  · rw [PF_UnfixPage_page, hpg1]
  · rw [PF_UnfixPage_numpages, hnp1]
  · intro hok n
    rw [PF_UnfixPage_pins_ok hok, hpin1]
    by_cases hn : n = pageNum <;> simp [hn]
  · intro hge
    rw [hget]
    unfold SP_GetRecord_page
    simp only [if_pos hge]
  · intro hlt hsl htomb
    rw [hget]
    unfold SP_GetRecord_page
    simp only [ge_iff_le, if_neg (not_le.mpr hlt), hsl, not_true_eq_false, if_false, htomb,
      if_true]
  · intro hlt hsl hlive hin
    rw [hget]
    unfold SP_GetRecord_page
    simp only [ge_iff_le, if_neg (not_le.mpr hlt), hsl, not_true_eq_false, if_false, hlive,
      hin]

theorem C11_get_record_contract_witness :
    decode_recId 1 = (0, 1) ∧ (PF_GetThisPage file2 0).1 = PFE_OK ∧
    (SP_GetRecord file2 1).val (0, []) = (2, [4, 5]) ∧
    (SP_GetRecord file2 0).val (0, []) = (3, [1, 2, 3]) := by
  refine ⟨rfl, rfl, ?_, ?_⟩
  · obtain ⟨rc, st2, -, -, -, -, -, -, -, h⟩ :=
      C11_get_record_contract file2 1 0 1 (PF_GetThisPage file2 0).2 rfl rfl
    rw [h (by decide) (by decide) (by decide) (by decide)]
    simp only [SPRet.val]
    decide
  · obtain ⟨rc, st2, -, -, -, -, -, -, -, h⟩ :=
      C11_get_record_contract file2 0 0 0 (PF_GetThisPage file2 0).2 rfl rfl
    rw [h (by decide) (by decide) (by decide) (by decide)]
    simp only [SPRet.val]
    decide

/-! ## The layout a compaction leaves -/

/-- Tombstones add nothing to the sum of the live lengths. -/
theorem liveBytes_zero_of_tomb {p : Page} :
    ∀ j, (∀ m, m < j → (readSlot p m).offset = -1) → liveBytes p j = 0 := by
  intro j
  induction j with
  | zero => intro _; rfl
  | succ j ih =>
    intro hall
    rw [liveBytes_succ, if_pos (hall j (by omega)), ih (fun m hm => hall m (by omega))]
    rfl

/-- When every live slot below `n` starts where the live slots up to it have
used up the page from the top, every offset between that mark and the end of
the page lies in the extent of a live slot. -/
theorem compact_cover {p' : Page} {n : Nat}
    (hoff : ∀ j, j < n → (readSlot p' j).offset ≠ -1 →
      (readSlot p' j).offset = 4096 - liveBytes p' (j + 1)) :
    ∀ i, i ≤ n → ∀ x : Int, 4096 - liveBytes p' i ≤ x → x < 4096 →
      ∃ j, j < i ∧ (readSlot p' j).offset ≠ -1 ∧ (readSlot p' j).offset ≤ x ∧
        x < (readSlot p' j).offset + (readSlot p' j).length := by
  intro i
  induction i with
  | zero =>
    intro _ x h1 h2
    simp only [liveBytes] at h1
    omega
  | succ i ih =>
    intro hi x h1 h2
    rw [liveBytes_succ] at h1
    by_cases hl : (readSlot p' i).offset = -1
    · rw [if_pos hl] at h1
      obtain ⟨j, hj, h⟩ := ih (by omega) x (by omega) h2
      exact ⟨j, by omega, h⟩
    · rw [if_neg hl] at h1
      by_cases hx : 4096 - liveBytes p' i ≤ x
      · obtain ⟨j, hj, h⟩ := ih (by omega) x hx h2
        exact ⟨j, by omega, h⟩
      · have ho := hoff i (by omega) hl
        rw [liveBytes_succ, if_neg hl] at ho
        exact ⟨i, by omega, hl, by omega, by omega⟩

/-- C14: `SP_CompactPage` on a page that satisfies the layout invariant
succeeds and leaves the live records in one contiguous region that ends at
`PF_PAGE_SIZE`, in slot order from the high end downward: the extent of a
live slot ends where the live slots below it have used up the page from the
top (at `PF_PAGE_SIZE` for the lowest live slot), and the extents cover
every offset from `free_offset` on; `free_offset` is `PF_PAGE_SIZE` less the
sum of the live lengths, and
`free_space == free_offset - (header_size + slot_count * slot_size)`. -/
theorem C14_compaction_layout (st : PFState) (pn : Nat)
    (hf : st.faults = []) (hn : pn < st.numpages) (hlay : Layout (st.page pn)) :
    ∃ st', SP_CompactPage st pn true = .ok () st' ∧
      (sp_read_header (st'.page pn)).slot_count = (sp_read_header (st.page pn)).slot_count ∧
      (∀ j, j < (sp_read_header (st.page pn)).slot_count →
        (readSlot (st.page pn) j).offset ≠ -1 →
          (readSlot (st'.page pn) j).offset ≠ -1 ∧
          (readSlot (st'.page pn) j).length = (readSlot (st.page pn) j).length ∧
          (readSlot (st'.page pn) j).offset + (readSlot (st'.page pn) j).length =
            4096 - liveBytes (st'.page pn) j ∧
          (readSlot (st'.page pn) j).offset = 4096 - liveBytes (st'.page pn) (j + 1) ∧
          ((∀ m, m < j → (readSlot (st.page pn) m).offset = -1) →
            (readSlot (st'.page pn) j).offset + (readSlot (st'.page pn) j).length =
              (PF_PAGE_SIZE : Int))) ∧
      (∀ x : Int, ((sp_read_header (st'.page pn)).free_offset : Int) ≤ x → x < PF_PAGE_SIZE →
        ∃ j, j < (sp_read_header (st'.page pn)).slot_count ∧
          (readSlot (st'.page pn) j).offset ≠ -1 ∧ (readSlot (st'.page pn) j).offset ≤ x ∧
          x < (readSlot (st'.page pn) j).offset + (readSlot (st'.page pn) j).length) ∧
      ((sp_read_header (st'.page pn)).free_offset : Int) =
        (PF_PAGE_SIZE : Int) -
          liveBytes (st'.page pn) (sp_read_header (st'.page pn)).slot_count ∧
      liveBytes (st'.page pn) (sp_read_header (st'.page pn)).slot_count =
        liveBytes (st.page pn) (sp_read_header (st.page pn)).slot_count ∧
      ((sp_read_header (st'.page pn)).free_space : Int) =
        ((sp_read_header (st'.page pn)).free_offset : Int) -
          ((SP_HEADER_SIZE : Int) +
            (sp_read_header (st'.page pn)).slot_count * (SP_SLOT_SIZE : Int)) := by
  obtain ⟨p', hcp, hhdr, htomb, hlive, -⟩ := compact_page_effect hlay
  obtain ⟨st', hst, -, hpage, -⟩ := SP_CompactPage_nil hf hn hcp
  have hp' : st'.page pn = p' := by rw [hpage]; simp
  have hdir := hlay.1
  have hfo := hlay.2.1
  simp only [SP_HEADER_SIZE, SP_SLOT_SIZE, PF_PAGE_SIZE] at hdir hfo
  have hle : ∀ i, i ≤ (sp_read_header (st.page pn)).slot_count →
      liveBytes (st.page pn) i ≤ 4096 - ((sp_read_header (st.page pn)).free_offset : Int) :=
    fun i hi => liveBytes_le hlay hi
  have hnn : ∀ i, i ≤ (sp_read_header (st.page pn)).slot_count → 0 ≤ liveBytes (st.page pn) i :=
    fun i hi => liveBytes_nonneg hlay hi
  have hsc : (sp_read_header p').slot_count = (sp_read_header (st.page pn)).slot_count := by
    rw [hhdr]
  have hne : ∀ j, j < (sp_read_header (st.page pn)).slot_count →
      (readSlot (st.page pn) j).offset ≠ -1 → (readSlot p' j).offset ≠ -1 := by
    intro j hj hl
    rw [hlive j hj hl]
    have := hle (j + 1) (by omega)
    simp only [ne_eq]
    omega
  have hlb : ∀ i, i ≤ (sp_read_header (st.page pn)).slot_count →
      liveBytes p' i = liveBytes (st.page pn) i := by
    intro i
    induction i with
    | zero => intro _; rfl
    | succ i ih =>
      intro hi
      rw [liveBytes_succ, liveBytes_succ, ih (by omega)]
      by_cases hl : (readSlot (st.page pn) i).offset = -1
      · rw [htomb i (by omega) hl]
      · rw [if_neg hl, if_neg (hne i (by omega) hl), hlive i (by omega) hl]
  refine ⟨st', hst, ?_⟩
  rw [hp']
  have hfo' : ((sp_read_header p').free_offset : Int) =
      4096 - liveBytes p' (sp_read_header (st.page pn)).slot_count := by
    rw [hhdr, hlb _ (le_refl _)]
    have := hle _ (le_refl (sp_read_header (st.page pn)).slot_count)
    simp only
    omega
  refine ⟨hsc, ?_, ?_, ?_, ?_, ?_⟩
  · intro j hj hl
    have h1 := hlb j (by omega)
    have h2 := hlb (j + 1) (by omega)
    have h3 : liveBytes (st.page pn) (j + 1) =
        liveBytes (st.page pn) j + (readSlot (st.page pn) j).length := by
      rw [liveBytes_succ, if_neg hl]
    refine ⟨hne j hj hl, ?_, ?_, ?_, ?_⟩
    · rw [hlive j hj hl]
    · rw [hlive j hj hl, h1]; simp only; omega
    · rw [hlive j hj hl, h2]
    · intro hall
      have h0 : liveBytes (st.page pn) j = 0 := liveBytes_zero_of_tomb j hall
      rw [hlive j hj hl]
      simp only [PF_PAGE_SIZE]
      omega
  · intro x hx1 hx2
    rw [hsc]
    simp only [PF_PAGE_SIZE] at hx2
    rw [hfo'] at hx1
    refine @compact_cover p' _ ?_ _ (le_refl _) x hx1 hx2
    intro j hj hl
    by_cases hl0 : (readSlot (st.page pn) j).offset = -1
    · rw [htomb j hj hl0] at hl; exact absurd hl0 hl
    · rw [hlive j hj hl0, hlb (j + 1) (by omega)]
  · rw [hsc, hfo']; simp only [PF_PAGE_SIZE]; norm_num
  · rw [hsc]; exact hlb _ (le_refl _)
  · rw [hfo', hsc]
    rw [hhdr, hlb _ (le_refl _)]
    have := hle _ (le_refl (sp_read_header (st.page pn)).slot_count)
    simp only [SP_HEADER_SIZE, SP_SLOT_SIZE]
    omega

theorem C14_compaction_layout_witness :
    file3.faults = [] ∧ 0 < file3.numpages ∧ Layout (file3.page 0) ∧
    (sp_read_header (file4.page 0)).free_offset = 4094 ∧
    readSlot (file4.page 0) 1 = { offset := 4094, length := 2 } ∧
    ∃ st', SP_CompactPage file3 0 true = .ok () st' ∧
      ((sp_read_header (st'.page 0)).free_offset : Int) =
        (PF_PAGE_SIZE : Int) -
          liveBytes (st'.page 0) (sp_read_header (st'.page 0)).slot_count :=
  have h := C14_compaction_layout file3 0 rfl (by decide) (by decide)
  ⟨rfl, by decide, by decide, by decide, by decide,
    h.elim fun st' hs => ⟨st', hs.1, hs.2.2.2.2.1⟩⟩

/-! ## Space utilization of a file -/

theorem fileLiveBytes_succ (st : PFState) (n : Nat) :
    fileLiveBytes st (n + 1) =
      fileLiveBytes st n + liveBytes (st.page n) (sp_read_header (st.page n)).slot_count := rfl

/-- The loop of `SP_ComputeSpaceUtilization`, entered at page `q`, counts the
pages from `q` on and adds up their live bytes. -/
theorem sp_util_loop_nil (st : PFState)
    (hdir : ∀ n, n < st.numpages → 12 + (sp_read_header (st.page n)).slot_count * 4 ≤ 4096) :
    ∀ fuel (s : PFState) (q : Nat) (pages total : Int),
      s.faults = [] → s.page = st.page → s.numpages = st.numpages → q < st.numpages →
      0 < s.pins q → st.numpages - q ≤ fuel →
      ∃ s', sp_util_loop fuel s q pages total =
          .ok (pages + ((st.numpages - q : Nat) : Int),
            total + (fileLiveBytes st st.numpages - fileLiveBytes st q)) s' ∧
        s'.page = st.page ∧ s'.numpages = st.numpages ∧ s'.faults = [] := by
  intro fuel
  induction fuel with
  | zero => intro s q pages total _ _ _ hq _ hfu; omega
  | succ fuel ih =>
    intro s q pages total hf hp hnp hq hpin hfu
    have hused := sp_used_loop_eq (s.page q) (sp_read_header (s.page q)).slot_count 0 0
      (by rw [hp]; have := hdir q hq; omega)
    simp only [Nat.zero_add, liveBytes, Int.sub_zero, Int.zero_add] at hused
    obtain ⟨sb, eb, pb, nb, jb, fb⟩ := PF_UnfixPage_nil_ex s q false hf hpin
    unfold sp_util_loop
    simp only [hused, eb, ne_eq, not_true_eq_false, if_false]
    by_cases hlast : q + 1 < st.numpages
    · obtain ⟨sc, ec, pc, nc, jc, fc, qc⟩ :=
        PF_GetNextPage_nil (n := q) fb (by rw [nb, hnp]; exact hlast)
      simp only [ec]
      rw [if_neg (by decide), if_neg (by decide)]
      obtain ⟨s', e', h'⟩ := ih sc (q + 1) (pages + 1)
        (total + liveBytes (s.page q) (sp_read_header (s.page q)).slot_count) fc
        (by rw [pc, pb, hp]) (by rw [nc, nb, hnp]) hlast qc (by omega)
      refine ⟨s', ?_, h'⟩
      rw [e', fileLiveBytes_succ, hp]
      congr 2
      · have : ((st.numpages - q : Nat) : Int) = ((st.numpages - (q + 1) : Nat) : Int) + 1 := by
          omega
        omega
      · omega
    · obtain ⟨sc, ec, pc, nc, jc, fc⟩ :=
        PF_GetNextPage_nil_eof (n := q) fb (by rw [nb, hnp]; omega)
      simp only [ec]
      rw [if_pos (by decide)]
      refine ⟨sc, ?_, by rw [pc, pb, hp], by rw [nc, nb, hnp], fc⟩
      have hq1 : st.numpages = q + 1 := by omega
      rw [hq1, fileLiveBytes_succ, hp]
      congr 2
      · have : ((q + 1 - q : Nat) : Int) = 1 := by omega
        omega
      · omega

/-! ## Rounding to `double` -/

theorem bitLen_spec :
    ∀ fuel n, 0 < n → n ≤ fuel →
      2 ^ (bitLen fuel n - 1) ≤ n ∧ n < 2 ^ bitLen fuel n ∧ 0 < bitLen fuel n := by
  intro fuel
  induction fuel with
  | zero => intro n h1 h2; omega
  | succ f ih =>
    intro n h1 h2
    rw [bitLen, if_neg (by omega)]
    by_cases hn : n / 2 = 0
    · have h1' : n = 1 := by omega
      subst h1'
      have : bitLen f (1 / 2) = 0 := by
        cases f with
        | zero => rfl
        | succ g => rw [bitLen]; simp
      rw [this]
      simp
    · obtain ⟨a, b, c⟩ := ih (n / 2) (by omega) (by omega)
      refine ⟨?_, ?_, by omega⟩
      · have : bitLen f (n / 2) + 1 - 1 = (bitLen f (n / 2) - 1) + 1 := by omega
        rw [this, pow_succ]
        omega
      · rw [pow_succ]
        omega

/-- The number of binary digits of a positive number, as bounds in `ℚ`. -/
theorem bitLen_bounds {n : Nat} (h : 0 < n) :
    (2 : ℚ) ^ ((bitLen n n : Int) - 1) ≤ n ∧ (n : ℚ) < (2 : ℚ) ^ (bitLen n n : Int) := by
  obtain ⟨a, b, c⟩ := bitLen_spec n n h (le_refl _)
  constructor
  · have e : ((bitLen n n : Int) - 1) = ((bitLen n n - 1 : Nat) : Int) := by omega
    rw [e, zpow_natCast]
    exact_mod_cast a
  · rw [zpow_natCast]
    exact_mod_cast b

theorem zpow_two_split (k : Int) :
    (2 : ℚ) ^ k = (2 : ℚ) ^ k.toNat / (2 : ℚ) ^ (-k).toNat := by
  rcases le_total 0 k with h | h
  · have e1 : (-k).toNat = 0 := by omega
    have e2 : k = (k.toNat : Int) := by omega
    rw [e1, pow_zero, div_one]
    conv_lhs => rw [e2]
    rw [zpow_natCast]
  · have e1 : k.toNat = 0 := by omega
    have e2 : k = -((-k).toNat : Int) := by omega
    rw [e1, pow_zero]
    conv_lhs => rw [e2]
    rw [zpow_neg, zpow_natCast, one_div]

/-- The exponent `floorLog2 a b` is the binary exponent of `a / b`. -/
theorem floorLog2_spec {a b : Nat} (ha : 0 < a) (hb : 0 < b) :
    (2 : ℚ) ^ floorLog2 a b ≤ (a : ℚ) / b ∧ (a : ℚ) / b < (2 : ℚ) ^ (floorLog2 a b + 1) := by
  obtain ⟨a1, a2⟩ := bitLen_bounds ha
  obtain ⟨b1, b2⟩ := bitLen_bounds hb
  have hbq : (0 : ℚ) < b := by exact_mod_cast hb
  have haq : (0 : ℚ) < a := by exact_mod_cast ha
  have h2 : ∀ k : Int, (0 : ℚ) < (2 : ℚ) ^ k := fun k => zpow_pos (by norm_num) k
  have hcond : (b * 2 ^ ((bitLen a a : Int) - (bitLen b b : Int)).toNat ≤
      a * 2 ^ ((bitLen b b : Int) - (bitLen a a : Int)).toNat) ↔
      (b : ℚ) * (2 : ℚ) ^ ((bitLen a a : Int) - (bitLen b b : Int)) ≤ a := by
    have e : ((bitLen b b : Int) - (bitLen a a : Int)) =
        -((bitLen a a : Int) - (bitLen b b : Int)) := by ring
    rw [zpow_two_split, e]
    have hp : (0 : ℚ) < (2 : ℚ) ^ (-((bitLen a a : Int) - (bitLen b b : Int))).toNat :=
      pow_pos (by norm_num) _
    rw [← mul_div_assoc, div_le_iff₀ hp]
    constructor
    · intro h
      exact_mod_cast h
    · intro h
      exact_mod_cast h
  have hlow : (2 : ℚ) ^ ((bitLen a a : Int) - (bitLen b b : Int) - 1) ≤ (a : ℚ) / b := by
    rw [le_div_iff₀ hbq]
    have e : ((bitLen a a : Int) - (bitLen b b : Int) - 1) =
        ((bitLen a a : Int) - 1) - (bitLen b b : Int) := by ring
    rw [e, zpow_sub₀ (by norm_num : (2 : ℚ) ≠ 0), div_mul_eq_mul_div,
      div_le_iff₀ (h2 _)]
    have := h2 ((bitLen a a : Int) - 1)
    nlinarith
  have hhigh : (a : ℚ) / b < (2 : ℚ) ^ ((bitLen a a : Int) - (bitLen b b : Int) + 1) := by
    rw [div_lt_iff₀ hbq]
    have e : ((bitLen a a : Int) - (bitLen b b : Int) + 1) =
        (bitLen a a : Int) - ((bitLen b b : Int) - 1) := by ring
    rw [e, zpow_sub₀ (by norm_num : (2 : ℚ) ≠ 0), div_mul_eq_mul_div,
      lt_div_iff₀ (h2 _)]
    have := h2 (bitLen a a : Int)
    nlinarith
  unfold floorLog2
  split_ifs with hc
  · refine ⟨?_, hhigh⟩
    rw [le_div_iff₀ hbq, mul_comm]
    exact hcond.1 hc
  · refine ⟨hlow, ?_⟩
    rw [sub_add_cancel, div_lt_iff₀ hbq, mul_comm]
    exact lt_of_not_le (fun h => hc (hcond.2 h))

/-- The integer `roundHalfEven a b` is within one half of `a / b`. -/
theorem roundHalfEven_err (a : Nat) {b : Nat} (hb : 0 < b) :
    |((roundHalfEven a b : Nat) : ℚ) - (a : ℚ) / b| ≤ 1 / 2 := by
  have hbq : (0 : ℚ) < b := by exact_mod_cast hb
  have hab : (a : ℚ) = (b : ℚ) * ((a / b : Nat) : ℚ) + ((a % b : Nat) : ℚ) := by
    exact_mod_cast (Nat.div_add_mod a b).symm
  have hq : (a : ℚ) / b = ((a / b : Nat) : ℚ) + ((a % b : Nat) : ℚ) / b := by
    have e : (a : ℚ) / b = ((b : ℚ) * ((a / b : Nat) : ℚ) + ((a % b : Nat) : ℚ)) / b := by
      rw [← hab]
    rw [e, add_div, mul_div_cancel_left₀ _ hbq.ne']
  have hr0 : (0 : ℚ) ≤ ((a % b : Nat) : ℚ) / b := div_nonneg (by positivity) hbq.le
  have hr1 : ((a % b : Nat) : ℚ) / b < 1 := by
    rw [div_lt_one hbq]
    exact_mod_cast Nat.mod_lt a hb
  unfold roundHalfEven
  rw [hq, abs_le]
  split_ifs with h1 h2 h3
  · have : (2 : ℚ) * ((a % b : Nat) : ℚ) < b := by exact_mod_cast h1
    have h5 : ((a % b : Nat) : ℚ) / b < 1 / 2 := by
      rw [div_lt_iff₀ hbq]; linarith
    constructor <;> linarith
  · have : (b : ℚ) < 2 * ((a % b : Nat) : ℚ) := by exact_mod_cast h2
    have h5 : 1 / 2 < ((a % b : Nat) : ℚ) / b := by
      rw [lt_div_iff₀ hbq]; linarith
    push_cast
    constructor <;> linarith
  · have : (2 : ℚ) * ((a % b : Nat) : ℚ) = b := by
      have : 2 * (a % b) = b := by omega
      exact_mod_cast this
    have h5 : ((a % b : Nat) : ℚ) / b = 1 / 2 := by
      rw [div_eq_iff hbq.ne']; linarith
    constructor <;> linarith
  · have : (2 : ℚ) * ((a % b : Nat) : ℚ) = b := by
      have : 2 * (a % b) = b := by omega
      exact_mod_cast this
    have h5 : ((a % b : Nat) : ℚ) / b = 1 / 2 := by
      rw [div_eq_iff hbq.ne']; linarith
    push_cast
    constructor <;> linarith

/-- The value `roundDouble x` in terms of the magnitude of `x`. -/
theorem roundDouble_abs (x : ℚ) (hx : x ≠ 0) :
    0 < x.num.natAbs ∧ |x| = (x.num.natAbs : ℚ) / x.den ∧
    abs (roundDouble x - x) =
      abs (((roundHalfEven
          (x.num.natAbs * 2 ^ (min (52 - floorLog2 x.num.natAbs x.den) 1074).toNat)
          (x.den * 2 ^ (-(min (52 - floorLog2 x.num.natAbs x.den) 1074)).toNat) : Nat) : ℚ) *
        2 ^ (-(min (52 - floorLog2 x.num.natAbs x.den) 1074)).toNat /
          2 ^ (min (52 - floorLog2 x.num.natAbs x.den) 1074).toNat - abs x) := by
  have hnum : x.num ≠ 0 := Rat.num_ne_zero.mpr hx
  have habs : |x| = (x.num.natAbs : ℚ) / x.den := by
    conv_lhs => rw [← Rat.num_div_den x]
    rw [abs_div, Nat.abs_cast]
    congr 1
    rw [← Int.cast_abs, Int.abs_eq_natAbs, Int.cast_natCast]
  refine ⟨Int.natAbs_pos.mpr hnum, habs, ?_⟩
  unfold roundDouble
  rw [if_neg hx]
  simp only
  split_ifs with hneg
  · rw [abs_of_neg hneg]
    rw [show ∀ v : ℚ, -v - x = -(v - -x) from fun v => by ring, abs_neg]
  · rw [abs_of_nonneg (not_lt.mp hneg)]

/-- Rounding to `double` of a value of magnitude at least `2^-1022` changes
the value by at most the fraction `2^-53` of its magnitude. -/
theorem roundDouble_rel (x : ℚ) (hx : (2 : ℚ) ^ (-1022 : Int) ≤ |x|) :
    |roundDouble x - x| ≤ |x| * (2 : ℚ) ^ (-53 : Int) := by
  have hpos : (0 : ℚ) < (2 : ℚ) ^ (-1022 : Int) := zpow_pos (by norm_num) _
  have hx0 : x ≠ 0 := by
    intro h
    rw [h, abs_zero] at hx
    exact absurd hx (not_le.mpr hpos)
  obtain ⟨ha, habs, herr⟩ := roundDouble_abs x hx0
  have hb : 0 < x.den := x.den_pos
  obtain ⟨e1, e2⟩ := floorLog2_spec ha hb
  rw [← habs] at e1 e2
  have hE1 : -1022 ≤ floorLog2 x.num.natAbs x.den := by
    by_contra hc
    have h1 : floorLog2 x.num.natAbs x.den + 1 ≤ -1022 := by omega
    have h2 := zpow_le_zpow_right₀ (by norm_num : (1 : ℚ) ≤ 2) h1
    linarith
  have hs : min (52 - floorLog2 x.num.natAbs x.den) 1074 = 52 - floorLog2 x.num.natAbs x.den :=
    min_eq_left (by omega)
  rw [herr, hs]
  have hP : (0 : ℚ) < (2 : ℚ) ^ (52 - floorLog2 x.num.natAbs x.den).toNat :=
    pow_pos (by norm_num) _
  have hN : (0 : ℚ) < (2 : ℚ) ^ (-(52 - floorLog2 x.num.natAbs x.den)).toNat :=
    pow_pos (by norm_num) _
  have hB : 0 < x.den * 2 ^ (-(52 - floorLog2 x.num.natAbs x.den)).toNat :=
    Nat.mul_pos hb (pow_pos (by norm_num) _)
  have hm := roundHalfEven_err
    (x.num.natAbs * 2 ^ (52 - floorLog2 x.num.natAbs x.den).toNat) hB
  have hbq : (0 : ℚ) < x.den := by exact_mod_cast hb
  have hsplit := zpow_two_split (52 - floorLog2 x.num.natAbs x.den)
  have hE : (2 : ℚ) ^ floorLog2 x.num.natAbs x.den =
      (2 : ℚ) ^ (52 : Nat) * ((2 : ℚ) ^ (-(52 - floorLog2 x.num.natAbs x.den)).toNat /
        (2 : ℚ) ^ (52 - floorLog2 x.num.natAbs x.den).toNat) := by
    have e : floorLog2 x.num.natAbs x.den = (52 : Int) - (52 - floorLog2 x.num.natAbs x.den) := by
      ring
    conv_lhs => rw [e]
    rw [zpow_sub₀ (by norm_num : (2 : ℚ) ≠ 0), hsplit]
    have : (2 : ℚ) ^ (52 : Int) = (2 : ℚ) ^ (52 : Nat) := by norm_num
    rw [this]
    field_simp
  push_cast at hm ⊢
  generalize (2 : ℚ) ^ (52 - floorLog2 x.num.natAbs x.den).toNat = P at hP hm hE ⊢
  generalize (2 : ℚ) ^ (-(52 - floorLog2 x.num.natAbs x.den)).toNat = N at hN hm hE ⊢
  generalize hM : ((roundHalfEven (x.num.natAbs * 2 ^ (52 - floorLog2 x.num.natAbs x.den).toNat)
      (x.den * 2 ^ (-(52 - floorLog2 x.num.natAbs x.den)).toNat) : Nat) : ℚ) = M at hm ⊢
  have hXP : (x.num.natAbs : ℚ) * P / ((x.den : ℚ) * N) = |x| * P / N := by
    rw [habs]
    field_simp
  rw [hXP] at hm
  have hNP : (0 : ℚ) < N / P := div_pos hN hP
  have key : M * N / P - |x| = (M - |x| * P / N) * (N / P) := by
    field_simp
    ring
  rw [key, abs_mul, abs_of_pos hNP]
  have h53 : (2 : ℚ) ^ (-53 : Int) = 1 / 2 ^ (53 : Nat) := by
    rw [zpow_neg, one_div]
    norm_num
  have h1 : |M - |x| * P / N| * (N / P) ≤ 1 / 2 * (N / P) :=
    mul_le_mul_of_nonneg_right hm hNP.le
  rw [hE] at e1
  rw [h53]
  generalize N / P = t at h1 e1 hNP ⊢
  generalize |M - |x| * P / N| * t = w at h1 ⊢
  norm_num at e1 ⊢
  linarith

/-- An integer of magnitude below `2^53` is a value of type `double`: the
conversion does not round. -/
theorem roundDouble_int (n : Int) (h : n.natAbs < 2 ^ 53) : roundDouble (n : ℚ) = n := by
  by_cases hn : n = 0
  · subst hn
    simp [roundDouble]
  · have hx : (n : ℚ) ≠ 0 := by exact_mod_cast hn
    have ha : 0 < n.natAbs := Int.natAbs_pos.mpr hn
    obtain ⟨c1, c2, c3⟩ := bitLen_spec n.natAbs n.natAbs ha (le_refl _)
    have hL : bitLen n.natAbs n.natAbs ≤ 53 := by
      by_contra hc
      have : 2 ^ 53 ≤ 2 ^ (bitLen n.natAbs n.natAbs - 1) :=
        Nat.pow_le_pow_right (by norm_num) (by omega)
      omega
    have hb1 : bitLen 1 1 = 1 := by decide
    have hfl : floorLog2 n.natAbs 1 = (bitLen n.natAbs n.natAbs : Int) - 1 := by
      unfold floorLog2
      rw [hb1]
      have e1 : ((bitLen n.natAbs n.natAbs : Int) - ((1 : Nat) : Int)).toNat =
          bitLen n.natAbs n.natAbs - 1 := by omega
      have e2 : (((1 : Nat) : Int) - (bitLen n.natAbs n.natAbs : Int)).toNat = 0 := by omega
      rw [e1, e2, if_pos (by simpa using c1)]
      rfl
    unfold roundDouble
    rw [if_neg hx]
    simp only [Rat.num_intCast, Rat.den_intCast, hfl]
    have hs : min (52 - ((bitLen n.natAbs n.natAbs : Int) - 1)) 1074 =
        ((53 - bitLen n.natAbs n.natAbs : Nat) : Int) := by omega
    rw [hs]
    have t1 : (((53 - bitLen n.natAbs n.natAbs : Nat) : Int)).toNat =
        53 - bitLen n.natAbs n.natAbs := by omega
    have t2 : (-((53 - bitLen n.natAbs n.natAbs : Nat) : Int)).toNat = 0 := by omega
    rw [t1, t2]
    have hr : roundHalfEven (n.natAbs * 2 ^ (53 - bitLen n.natAbs n.natAbs)) (1 * 2 ^ 0) =
        n.natAbs * 2 ^ (53 - bitLen n.natAbs n.natAbs) := by
      unfold roundHalfEven
      simp only [pow_zero, mul_one, Nat.mod_one, Nat.div_one]
      rw [if_pos (by norm_num)]
    rw [hr]
    have hp : (0 : ℚ) < (2 : ℚ) ^ (53 - bitLen n.natAbs n.natAbs) := pow_pos (by norm_num) _
    have hv : ((n.natAbs * 2 ^ (53 - bitLen n.natAbs n.natAbs) : Nat) : ℚ) * 2 ^ 0 /
        2 ^ (53 - bitLen n.natAbs n.natAbs) = (n.natAbs : ℚ) := by
      push_cast
      field_simp
    rw [hv]
    have hcast : ((n.natAbs : Nat) : ℚ) = |(n : ℚ)| := by
      rw [← Int.cast_abs, Int.abs_eq_natAbs, Int.cast_natCast]
    rw [hcast]
    split_ifs with hneg
    · rw [abs_of_neg hneg, neg_neg]
    · rw [abs_of_nonneg (not_lt.mp hneg)]

/-- The value of line 411 of `SP_ComputeSpaceUtilization` is within the
fraction `2^-51` of the exact quotient, for fewer than `2^41` pages and fewer
than `2^53` bytes of records. -/
theorem sp_util_value_err (pages total_bytes : Int) (hp : 0 < pages) (hp2 : pages < 2 ^ 41)
    (ht : total_bytes.natAbs < 2 ^ 53) :
    |sp_util_value pages total_bytes -
        (total_bytes : ℚ) / ((pages : ℚ) * (PF_PAGE_SIZE : ℚ)) * 100| ≤
      |(total_bytes : ℚ) / ((pages : ℚ) * (PF_PAGE_SIZE : ℚ)) * 100| * (2 : ℚ) ^ (-51 : Int) := by
  have h4096 : roundDouble ((PF_PAGE_SIZE : Nat) : ℚ) = 4096 := by
    have := roundDouble_int 4096 (by decide)
    simpa [PF_PAGE_SIZE] using this
  have hpg : roundDouble (pages : ℚ) = pages := roundDouble_int pages (by omega)
  have hprod : roundDouble ((pages : ℚ) * 4096) = (pages : ℚ) * 4096 := by
    have := roundDouble_int (pages * 4096) (by omega)
    push_cast at this
    exact this
  have htb : roundDouble (total_bytes : ℚ) = total_bytes := roundDouble_int total_bytes ht
  unfold sp_util_value
  rw [h4096, hpg, hprod, htb]
  simp only [PF_PAGE_SIZE]
  have e4 : ((4096 : Nat) : ℚ) = 4096 := by norm_num
  rw [e4]
  by_cases ht0 : total_bytes = 0
  · subst ht0
    have hz : roundDouble 0 = 0 := by simp [roundDouble]
    simp [hz]
  · have hpq : (0 : ℚ) < pages := by exact_mod_cast hp
    have hpq2 : (pages : ℚ) < 2 ^ (41 : Nat) := by exact_mod_cast hp2
    have htq : (1 : ℚ) ≤ |(total_bytes : ℚ)| := by
      rw [← Int.cast_abs]
      exact_mod_cast Int.one_le_abs ht0
    have hu : (2 : ℚ) ^ (-53 : Int) = 1 / 2 ^ (53 : Nat) := by
      rw [zpow_neg, one_div]
      norm_num
    have hu4 : (2 : ℚ) ^ (-51 : Int) = 4 / 2 ^ (53 : Nat) := by
      rw [zpow_neg]
      norm_num
    have hmin : (2 : ℚ) ^ (-1022 : Int) ≤ (2 : ℚ) ^ (-53 : Int) :=
      zpow_le_zpow_right₀ (by norm_num) (by norm_num)
    have hden : (0 : ℚ) < (pages : ℚ) * 4096 := by positivity
    have hQ : (2 : ℚ) ^ (-53 : Int) ≤ |(total_bytes : ℚ) / ((pages : ℚ) * 4096)| := by
      rw [abs_div, abs_of_pos hden, hu, div_le_div_iff₀ (by positivity) hden]
      norm_num at hpq2 ⊢
      nlinarith
    generalize (total_bytes : ℚ) / ((pages : ℚ) * 4096) = Q at hQ ⊢
    have hq := roundDouble_rel Q (le_trans hmin hQ)
    have hqa : |(|roundDouble Q| - |Q|)| ≤ |roundDouble Q - Q| := abs_abs_sub_abs_le_abs_sub _ _
    rw [abs_le] at hqa
    have hq100 : (2 : ℚ) ^ (-1022 : Int) ≤ |roundDouble Q * 100| := by
      rw [abs_mul]
      have h100 : |(100 : ℚ)| = 100 := by norm_num
      rw [h100]
      rw [hu] at hq hQ
      have := abs_nonneg Q
      norm_num at hq hQ ⊢
      have hmin2 := le_trans hmin (le_of_eq hu)
      norm_num at hmin2
      linarith [hqa.1, hqa.2]
    have hr := roundDouble_rel (roundDouble Q * 100) hq100
    have htri := abs_sub_le (roundDouble (roundDouble Q * 100)) (roundDouble Q * 100) (Q * 100)
    have hmul : |roundDouble Q * 100 - Q * 100| = |roundDouble Q - Q| * 100 := by
      rw [← sub_mul, abs_mul]
      norm_num
    have hmul2 : |roundDouble Q * 100| = |roundDouble Q| * 100 := by
      rw [abs_mul]
      norm_num
    have hmul3 : |Q * 100| = |Q| * 100 := by
      rw [abs_mul]
      norm_num
    rw [hmul] at htri
    rw [hmul2] at hr
    rw [hmul3, hu4]
    rw [hu] at hq hr
    have := abs_nonneg Q
    generalize |roundDouble (roundDouble Q * 100) - Q * 100| = g at htri ⊢
    generalize |roundDouble (roundDouble Q * 100) - roundDouble Q * 100| = w1 at htri hr
    generalize |roundDouble Q - Q| = w2 at htri hq hqa
    generalize |roundDouble Q| = aq at hr hqa
    generalize |Q| = aQ at hq hqa this ⊢
    norm_num at hq hr ⊢
    nlinarith [hqa.1, hqa.2]

/-- C13 (counterexample): on a new file, insert three records of 4000 bytes
and the record `[1]`.  The file has three pages and 12001 bytes of records,
and `SP_ComputeSpaceUtilization` returns 0 with pages = 3, live bytes =
12001 and the value 3436260167953067 / 2^45 (97.66438802083334 as a
`double`), which is not `12001 / (3 * 4096) * 100 = 300025 / 3072`: that
quotient is not a value of type `double`. -/
theorem C13_counterexample :
    (SP_InsertRecord file0 (List.replicate 4000 170) 4000).isOk = true ∧
    (SP_InsertRecord fileA (List.replicate 4000 187) 4000).isOk = true ∧
    (SP_InsertRecord fileAA (List.replicate 4000 204) 4000).isOk = true ∧
    (SP_InsertRecord fileAAA [1] 1).isOk = true ∧
    fileU.numpages = 3 ∧ fileLiveBytes fileU 3 = 12001 ∧
    (SP_ComputeSpaceUtilization fileU).isOk = true ∧
    ((SP_ComputeSpaceUtilization fileU).val (0, 0, 0)).1 = 3 ∧
    ((SP_ComputeSpaceUtilization fileU).val (0, 0, 0)).2.1 = 12001 ∧
    ((SP_ComputeSpaceUtilization fileU).val (0, 0, 0)).2.2 =
      3436260167953067 / 35184372088832 ∧
    ((SP_ComputeSpaceUtilization fileU).val (0, 0, 0)).2.2 ≠
      (12001 : ℚ) / ((3 : ℚ) * (PF_PAGE_SIZE : ℚ)) * 100 ∧
    (12001 : ℚ) / ((3 : ℚ) * (PF_PAGE_SIZE : ℚ)) * 100 = 300025 / 3072 := by
  decide!

theorem liveBytes_abs_le (p : Page) :
    ∀ k : Nat, -((k : Int) * 32768) ≤ liveBytes p k ∧ liveBytes p k ≤ (k : Int) * 32768 := by
  intro k
  induction k with
  | zero => simp [liveBytes]
  | succ k ih =>
    rw [liveBytes_succ]
    have hr := readSlot_length_range p k
    push_cast
    split_ifs <;> omega

theorem fileLiveBytes_abs_le (st : PFState) (N : Nat)
    (hdir : ∀ n, n < N → 12 + (sp_read_header (st.page n)).slot_count * 4 ≤ 4096) :
    ∀ m : Nat, m ≤ N → -((m : Int) * 33456128) ≤ fileLiveBytes st m ∧
      fileLiveBytes st m ≤ (m : Int) * 33456128 := by
  intro m
  induction m with
  | zero => intro _; simp [fileLiveBytes]
  | succ m ih =>
    intro hm
    obtain ⟨i1, i2⟩ := ih (by omega)
    have hd := hdir m (by omega)
    obtain ⟨l1, l2⟩ := liveBytes_abs_le (st.page m) (sp_read_header (st.page m)).slot_count
    rw [fileLiveBytes]
    push_cast
    constructor <;> omega

/-- C13 (amended): when the paged-file calls succeed and the slot directory
of every page lies inside its page, `SP_ComputeSpaceUtilization` reports
`pages` = the number of pages of the file and `total_bytes` = the sum of the
lengths of the slots that are not tombstones over all pages, and returns the
value of `total_bytes / (pages * PF_PAGE_SIZE) * 100` computed in type
`double`, each conversion, the division and the multiplications rounded to
the nearest `double`; for a file of fewer than `2^28` pages that value
differs from the exact quotient by at most the fraction `2^-51` of the
quotient; for an empty file the function reports 0 pages, 0 bytes and
returns 0. -/
theorem C13_utilization_in_double (st : PFState) (hf : st.faults = [])
    (hdir : ∀ n, n < st.numpages →
      SP_HEADER_SIZE + (sp_read_header (st.page n)).slot_count * SP_SLOT_SIZE ≤ PF_PAGE_SIZE) :
    ∃ st' util, SP_ComputeSpaceUtilization st =
        .ok ((st.numpages : Int), fileLiveBytes st st.numpages, util) st' ∧
      util =
        (if st.numpages = 0 then 0
          else
            roundDouble
              (roundDouble
                  (roundDouble (fileLiveBytes st st.numpages : ℚ) /
                    roundDouble
                      (roundDouble (st.numpages : ℚ) * roundDouble ((PF_PAGE_SIZE : Nat) : ℚ))) *
                100)) ∧
      (0 < st.numpages → st.numpages < 2 ^ 28 →
        |util - (fileLiveBytes st st.numpages : ℚ) /
            ((st.numpages : ℚ) * (PF_PAGE_SIZE : ℚ)) * 100| ≤
          |(fileLiveBytes st st.numpages : ℚ) /
            ((st.numpages : ℚ) * (PF_PAGE_SIZE : ℚ)) * 100| * (2 : ℚ) ^ (-51 : Int)) ∧
      st'.page = st.page ∧ st'.numpages = st.numpages ∧
      (st.numpages = 0 → SP_ComputeSpaceUtilization st = .ok (0, 0, 0) st') := by
  simp only [SP_HEADER_SIZE, SP_SLOT_SIZE, PF_PAGE_SIZE] at hdir
  by_cases h0 : st.numpages = 0
  · obtain ⟨sa, ea, pa, na, ja, fa⟩ := PF_GetFirstPage_nil_eof hf h0
    have hres : SP_ComputeSpaceUtilization st = .ok (0, 0, 0) sa := by
      unfold SP_ComputeSpaceUtilization
      rw [ea]
      simp only [if_true]
    refine ⟨sa, 0, ?_, by rw [if_pos h0], fun h => by omega, pa, na, fun _ => hres⟩
    rw [hres, h0]
    simp [fileLiveBytes]
  · obtain ⟨sa, ea, pa, na, ja, fa, qa⟩ := PF_GetFirstPage_nil hf (by omega)
    obtain ⟨s', e', p', n', -⟩ := sp_util_loop_nil st hdir sa.numpages sa 0 0 0 fa pa na
      (by omega) qa (by rw [na]; omega)
    refine ⟨s', sp_util_value st.numpages (fileLiveBytes st st.numpages), ?_, ?_, ?_, p', n',
      fun h => absurd h h0⟩
    · unfold SP_ComputeSpaceUtilization
      rw [ea]
      simp only [PFE_OK, PFE_EOF]
      rw [if_neg (by decide), if_neg (by decide), e']
      simp only [fileLiveBytes, Nat.sub_zero, Int.zero_add, Int.sub_zero, zero_add, sub_zero]
      rw [if_pos (by omega)]
    · rw [if_neg h0]
      rfl
    · intro hpos hlt
      obtain ⟨b1, b2⟩ := fileLiveBytes_abs_le st st.numpages hdir st.numpages (le_refl _)
      have h28 : (2 : Nat) ^ 28 = 268435456 := by norm_num
      rw [h28] at hlt
      have := sp_util_value_err (st.numpages : Int) (fileLiveBytes st st.numpages)
        (by omega) (by norm_num; omega) (by norm_num; omega)
      exact_mod_cast this

/-- C13 (witness): the file `fileH`, of two pages with 4100 bytes of records,
for which the value returned is 102500 / 2048 (50.048828125, the exact
quotient, which is a `double`), and the empty file `file0`. -/
theorem C13_utilization_in_double_witness :
    fileH.faults = [] ∧ fileH.numpages = 2 ∧ fileLiveBytes fileH 2 = 4100 ∧
    (∀ n, n < fileH.numpages →
      SP_HEADER_SIZE + (sp_read_header (fileH.page n)).slot_count * SP_SLOT_SIZE ≤
        PF_PAGE_SIZE) ∧
    (∃ st', SP_ComputeSpaceUtilization fileH = .ok (2, 4100, 102500 / 2048) st') ∧
    ∃ st', SP_ComputeSpaceUtilization file0 = .ok (0, 0, 0) st' := by
  have hnp : fileH.numpages = 2 := by decide!
  have hlb : fileLiveBytes fileH 2 = 4100 := by decide!
  have hd : ∀ n, n < fileH.numpages →
      SP_HEADER_SIZE + (sp_read_header (fileH.page n)).slot_count * SP_SLOT_SIZE ≤
        PF_PAGE_SIZE := by decide!
  refine ⟨by decide!, hnp, hlb, hd, ?_, ?_⟩
  · obtain ⟨st', util, h, hu, -⟩ := C13_utilization_in_double fileH (by decide!) hd
    refine ⟨st', ?_⟩
    rw [hnp, hlb] at h hu
    rw [if_neg (by decide)] at hu
    have hv : roundDouble
        (roundDouble
            (roundDouble (((4100 : Int)) : ℚ) /
              roundDouble (roundDouble ((2 : Nat) : ℚ) * roundDouble ((PF_PAGE_SIZE : Nat) : ℚ))) *
          100) = 102500 / 2048 := by decide!
    rw [hv] at hu
    rw [h, hu]
    rfl
  · obtain ⟨st', -, -, -, -, -, -, h⟩ := C13_utilization_in_double file0 rfl (by
      intro n hn
      have h0 : file0.numpages = 0 := rfl
      rw [h0] at hn; omega)
    exact ⟨st', h rfl⟩

/-! ## The paged-file calls of each operation -/

theorem benign_ok (c : PFCall) : Benign (c, PFE_OK) := Or.inl rfl

theorem allBenign_nil : AllBenign [] := fun _ h => absurd h (List.not_mem_nil _)

theorem allBenign_append {a b : List (PFCall × Int)} (ha : AllBenign a) (hb : AllBenign b) :
    AllBenign (a ++ b) := by
  intro x hx
  rcases List.mem_append.1 hx with h | h
  · exact ha x h
  · exact hb x h

theorem allBenign_single {x : PFCall × Int} (h : Benign x) : AllBenign [x] := by
  intro y hy
  rw [List.mem_singleton] at hy
  rw [hy]; exact h

theorem unfixFailed_append_left {a : List (PFCall × Int)} (b : List (PFCall × Int))
    (h : UnfixFailed a) : UnfixFailed (a ++ b) := by
  obtain ⟨p, d, rc, hm, hr⟩ := h
  exact ⟨p, d, rc, List.mem_append_left _ hm, hr⟩

theorem unfixFailed_append_right (a : List (PFCall × Int)) {b : List (PFCall × Int)}
    (h : UnfixFailed b) : UnfixFailed (a ++ b) := by
  obtain ⟨p, d, rc, hm, hr⟩ := h
  exact ⟨p, d, rc, List.mem_append_right _ hm, hr⟩

theorem unfixFailed_single {p : Nat} {d : Bool} {rc : Int} (h : rc ≠ PFE_OK) :
    UnfixFailed [(PFCall.UnfixPage p d, rc)] :=
  ⟨p, d, rc, List.mem_singleton.2 rfl, h⟩

/-- The tail of `sp_find_page_for_insert`, entered holding no page. -/
theorem sp_alloc_new_page_trace (st : PFState) :
    FindTrace st none (sp_alloc_new_page st) := by
  unfold sp_alloc_new_page
  have hx := alloc_ext st
  revert hx
  rcases PF_AllocPage st with ⟨rc, pn, st1⟩
  intro hx
  simp only at hx ⊢
  rcases hx with ⟨h1, h2, h3⟩ | ⟨h1, h2⟩
  · subst h1 h2
    simp only [ne_eq, not_true_eq_false, if_false]
    refine ⟨?_, ?_⟩
    · intro q s' he
      simp only [SPRet.ok.injEq] at he
      obtain ⟨e1, e2⟩ := he
      subst e1 e2
      refine ⟨_, (h3.trans (PinExt.setPage _ _ _ _)), ?_⟩
      exact allBenign_append allBenign_nil (allBenign_single (benign_ok _))
    · intro rc s' he
      exact absurd he (by simp)
  · simp only [ne_eq, h1, not_false_eq_true, if_true]
    refine ⟨?_, ?_⟩
    · intro q s' he
      exact absurd he (by simp)
    · intro rc' s' he
      simp only [SPRet.fail.injEq] at he
      obtain ⟨e1, e2⟩ := he
      subst e2
      exact ⟨e1.symm, _, none, h2 none, Or.inl rfl⟩

/-- Calls that did not fail, made before the search, do not change what the
log tells about it. -/
theorem FindTrace.prepend {s s1 : PFState} {h h1 : Option Nat} {seg0 : List (PFCall × Int)}
    {r : SPRet Nat} (a : PinExt s h seg0 s1 h1) (hben : AllBenign seg0)
    (t : FindTrace s1 h1 r) : FindTrace s h r := by
  refine ⟨?_, ?_⟩
  · intro pn s' he
    obtain ⟨seg, hx, hbn⟩ := t.1 pn s' he
    exact ⟨_, a.trans hx, allBenign_append hbn hben⟩
  · intro rc s' he
    obtain ⟨hrc, seg, h', hx, hor⟩ := t.2 rc s' he
    refine ⟨hrc, _, h', a.trans hx, ?_⟩
    rcases hor with h0 | h0
    · exact Or.inl h0
    · exact Or.inr (unfixFailed_append_left _ h0)

theorem findTrace_ok_here (s : PFState) (q : Nat) :
    FindTrace s (some q) (.ok q s) := by
  refine ⟨?_, ?_⟩
  · intro pn s' he
    simp only [SPRet.ok.injEq] at he
    obtain ⟨e1, e2⟩ := he
    subst e1 e2
    exact ⟨[], PinExt.refl _ _, allBenign_nil⟩
  · intro rc s' he
    exact absurd he (by simp)

theorem findTrace_fail_here {s s1 : PFState} {h h' : Option Nat} {seg : List (PFCall × Int)}
    (a : PinExt s h seg s1 h') (hor : h' = none ∨ UnfixFailed seg) :
    FindTrace s h (.fail (-1) s1) := by
  refine ⟨?_, ?_⟩
  · intro pn s' he
    exact absurd he (by simp)
  · intro rc s' he
    simp only [SPRet.fail.injEq] at he
    obtain ⟨e1, e2⟩ := he
    subst e2
    exact ⟨e1.symm, seg, h', a, hor⟩

/-- One iteration of the loop of `sp_find_page_for_insert`, from the test of
`free_space` on. -/
theorem sp_find_page_step_trace (len : Int) (fuel : Nat)
    (ih : ∀ (s : PFState) (q : Nat),
      FindTrace s (some q) (sp_find_page_loop len fuel s q))
    (st : PFState) (pn : Nat) (b : Prop) [Decidable b] (r : SPRet Nat)
    (hr : r =
      if b then .ok pn st
      else
        match PF_UnfixPage st pn false with
        | (rc, st1) =>
          if rc ≠ PFE_OK then .fail (-1) st1
          else
            match PF_GetNextPage st1 pn with
            | (rc2, nextPage, st2) =>
              if rc2 = PFE_EOF then sp_alloc_new_page st2
              else if rc2 ≠ PFE_OK then .fail (-1) st2
              else sp_find_page_loop len fuel st2 nextPage) :
    FindTrace st (some pn) r := by
  subst hr
  by_cases hfit : b
  · rw [if_pos hfit]
    exact findTrace_ok_here _ _
  · rw [if_neg hfit]
    have hu := unfix_ext st pn false
    revert hu
    rcases PF_UnfixPage st pn false with ⟨rc, st1⟩
    intro hu
    simp only at hu ⊢
    rcases hu with ⟨h1, h2⟩ | ⟨h1, h2⟩
    · subst h1
      simp only [ne_eq, not_true_eq_false, if_false]
      have hg := PF_GetNextPage_ext st1 pn
      revert hg
      rcases PF_GetNextPage st1 pn with ⟨rc2, nx, st2⟩
      intro hg
      simp only at hg ⊢
      rcases hg with ⟨g1, g2, g3, g4⟩ | ⟨g1, g2⟩
      · subst g1 g2
        rw [if_neg (by decide), if_neg (by decide)]
        exact FindTrace.prepend (h2.trans g4)
          (allBenign_append (allBenign_single (benign_ok _)) (allBenign_single (benign_ok _)))
          (ih st2 (pn + 1))
      · by_cases heof : rc2 = PFE_EOF
        · rw [if_pos heof]
          subst heof
          exact FindTrace.prepend (h2.trans (g2 none))
            (allBenign_append (allBenign_single (Or.inr ⟨rfl, rfl⟩))
              (allBenign_single (benign_ok _)))
            (sp_alloc_new_page_trace st2)
        · rw [if_neg heof, if_pos g1]
          exact findTrace_fail_here (h2.trans (g2 none)) (Or.inl rfl)
    · simp only [ne_eq, h1, not_false_eq_true, if_true]
      exact findTrace_fail_here (h2 (some pn)) (Or.inr (unfixFailed_single h1))

theorem sp_find_page_loop_trace (len : Int) :
    ∀ fuel (s : PFState) (q : Nat),
      FindTrace s (some q) (sp_find_page_loop len fuel s q) := by
  intro fuel
  induction fuel with
  | zero =>
    intro s q
    unfold sp_find_page_loop
    exact ⟨fun _ _ he => absurd he (by simp), fun _ _ he => absurd he (by simp)⟩
  | succ fuel ih =>
    intro s q
    cases hsc : sp_scan_deleted (s.page q) 0 (sp_read_header (s.page q)).slot_count with
    | oob =>
      unfold sp_find_page_loop
      simp only [hsc]
      exact ⟨fun _ _ he => absurd he (by simp), fun _ _ he => absurd he (by simp)⟩
    | found i =>
      refine sp_find_page_step_trace len fuel ih s q
        (((sp_read_header (s.page q)).free_space : Int) ≥ len + ((0 : Nat) : Int)) _ ?_
      rw [sp_find_page_loop]
      simp only [hsc]
      rfl
    | absent =>
      refine sp_find_page_step_trace len fuel ih s q
        (((sp_read_header (s.page q)).free_space : Int) ≥ len + ((SP_SLOT_SIZE : Nat) : Int)) _ ?_
      rw [sp_find_page_loop]
      simp only [hsc]
      rfl

theorem sp_find_page_for_insert_trace (st : PFState) (len : Int) :
    FindTrace st none (sp_find_page_for_insert st len) := by
  unfold sp_find_page_for_insert
  have hg := PF_GetFirstPage_ext st
  revert hg
  rcases PF_GetFirstPage st with ⟨rc, pn, st1⟩
  intro hg
  simp only at hg ⊢
  rcases hg with ⟨g1, g2, g3, g4⟩ | ⟨g1, g2⟩
  · subst g1 g2
    rw [if_neg (by decide), if_neg (by decide)]
    exact FindTrace.prepend g4 (allBenign_single (benign_ok _))
      (sp_find_page_loop_trace len _ st1 0)
  · by_cases heof : rc = PFE_EOF
    · rw [if_pos heof]
      subst heof
      exact FindTrace.prepend (g2 none) (allBenign_single (Or.inr ⟨rfl, rfl⟩))
        (sp_alloc_new_page_trace st1)
    · rw [if_neg heof, if_pos g1]
      exact findTrace_fail_here (g2 none) (Or.inl rfl)

theorem OpTrace.undef {α : Type} (st : PFState) (c : Int) (lax : Bool) :
    OpTrace st (SPRet.undef : SPRet α) c lax :=
  ⟨fun _ _ he => absurd he (by simp), fun _ _ he => absurd he (by simp)⟩

theorem OpTrace.fail_here {α : Type} {st s : PFState} {seg : List (PFCall × Int)}
    {h' : Option Nat} (a : PinExt st none seg s h') (hor : h' = none ∨ UnfixFailed seg)
    (c : Int) (lax : Bool) : OpTrace st (SPRet.fail c s : SPRet α) c lax := by
  refine ⟨fun _ _ he => absurd he (by simp), ?_⟩
  intro rc s' he
  simp only [SPRet.fail.injEq] at he
  obtain ⟨e1, e2⟩ := he
  subst e2
  exact ⟨e1.symm, seg, h', a, hor⟩

theorem OpTrace.ok_here {α : Type} {st s : PFState} {seg : List (PFCall × Int)}
    {h' : Option Nat} (a : PinExt st none seg s h') (hor : h' = none ∨ UnfixFailed seg)
    (v : α) (c : Int) (lax : Bool)
    (hben : ∀ x, x ∈ seg → Benign x ∨ (lax = true ∧ x.1.isUnfix = true)) :
    OpTrace st (SPRet.ok v s) c lax := by
  refine ⟨?_, fun _ _ he => absurd he (by simp)⟩
  intro v' s' he
  simp only [SPRet.ok.injEq] at he
  obtain ⟨e1, e2⟩ := he
  subst e2
  exact ⟨seg, h', a, hor, hben⟩

/-- The `PF_UnfixPage` of the page held. -/
theorem unfix_close (s : PFState) (pn : Nat) (d : Bool) :
    ∃ h', PinExt s (some pn) [(.UnfixPage pn d, (PF_UnfixPage s pn d).1)]
        (PF_UnfixPage s pn d).2 h' ∧
      (h' = none ∨ UnfixFailed [(.UnfixPage pn d, (PF_UnfixPage s pn d).1)]) := by
  rcases unfix_ext s pn d with ⟨h1, h2⟩ | ⟨h1, h2⟩
  · rw [h1]; exact ⟨none, h2, Or.inl rfl⟩
  · exact ⟨some pn, h2 _, Or.inr (unfixFailed_single h1)⟩

/-- An operation that ends with a `PF_UnfixPage` whose result it returns. -/
theorem OpTrace.checked_unfix {α : Type} {st s : PFState} {seg1 : List (PFCall × Int)}
    {pn : Nat} (a : PinExt st none seg1 s (some pn)) (hben : AllBenign seg1) (d : Bool)
    (v : α) (lax : Bool) :
    OpTrace st
      (match PF_UnfixPage s pn d with
        | (rc, st2) => if rc ≠ PFE_OK then SPRet.fail (-1) st2 else SPRet.ok v st2)
      (-1) lax := by
  obtain ⟨h', hx, hor⟩ := unfix_close s pn d
  revert hx hor
  rcases PF_UnfixPage s pn d with ⟨rc, st2⟩
  intro hx hor
  simp only at hx hor ⊢
  by_cases hrc : rc = PFE_OK
  · subst hrc
    simp only [ne_eq, not_true_eq_false, if_false]
    refine OpTrace.ok_here (a.trans hx) ?_ v _ lax ?_
    · rcases hor with h0 | h0
      · exact Or.inl h0
      · exact Or.inr (unfixFailed_append_left _ h0)
    · intro x hx'
      exact Or.inl (allBenign_append (allBenign_single (benign_ok _)) hben x hx')
  · simp only [ne_eq, hrc, not_false_eq_true, if_true]
    refine OpTrace.fail_here (a.trans hx) ?_ _ lax
    rcases hor with h0 | h0
    · exact Or.inl h0
    · exact Or.inr (unfixFailed_append_left _ h0)

/-- An error exit that unfixes the page held without looking at the result. -/
theorem OpTrace.unchecked_fail {α : Type} {st s : PFState} {seg1 : List (PFCall × Int)}
    {pn : Nat} (a : PinExt st none seg1 s (some pn)) (d : Bool) (c : Int) (lax : Bool) :
    OpTrace st (SPRet.fail c (PF_UnfixPage s pn d).2 : SPRet α) c lax := by
  obtain ⟨h', hx, hor⟩ := unfix_close s pn d
  refine OpTrace.fail_here (a.trans hx) ?_ _ lax
  rcases hor with h0 | h0
  · exact Or.inl h0
  · exact Or.inr (unfixFailed_append_left _ h0)

/-- A success exit that unfixes the page held without looking at the
result. -/
theorem OpTrace.unchecked_ok {α : Type} {st s : PFState} {seg1 : List (PFCall × Int)}
    {pn : Nat} (a : PinExt st none seg1 s (some pn)) (hben : AllBenign seg1) (d : Bool)
    (v : α) (c : Int) : OpTrace st (SPRet.ok v (PF_UnfixPage s pn d).2) c true := by
  obtain ⟨h', hx, hor⟩ := unfix_close s pn d
  refine OpTrace.ok_here (a.trans hx) ?_ v _ true ?_
  · rcases hor with h0 | h0
    · exact Or.inl h0
    · exact Or.inr (unfixFailed_append_left _ h0)
  · intro x hx'
    rcases List.mem_append.1 hx' with h1 | h1
    · rw [List.mem_singleton] at h1
      rw [h1]
      exact Or.inr ⟨rfl, rfl⟩
    · exact Or.inl (hben x h1)

theorem SP_InsertRecord_trace (st : PFState) (data : List Byte) (len : Int)
    : OpTrace st (SP_InsertRecord st data len) (-1) false := by
  unfold SP_InsertRecord
  split_ifs with hlen
  · exact OpTrace.fail_here (PinExt.refl st none) (Or.inl rfl) _ _
  · have ft := sp_find_page_for_insert_trace st len
    revert ft
    cases sp_find_page_for_insert st len with
    | undef => intro _; exact OpTrace.undef _ _ _
    | fail rc st1 =>
      intro ft
      obtain ⟨-, seg, h', hx, hor⟩ := ft.2 rc st1 rfl
      exact OpTrace.fail_here hx hor _ _
    | ok pn st1 =>
      intro ft
      obtain ⟨seg, hx, hben⟩ := ft.1 pn st1 rfl
      simp only
      cases SP_InsertRecord_page (st1.page pn) data len with
      | undef => exact OpTrace.undef _ _ _
      | fail => exact OpTrace.unchecked_fail hx _ _ _
      | ok v =>
        obtain ⟨p, idx⟩ := v
        have hx2 := hx.trans (PinExt.setPage _ (some pn) pn p)
        exact OpTrace.checked_unfix hx2 (allBenign_append allBenign_nil hben) true _ false

theorem SP_GetRecord_trace (st : PFState) (recId : Nat) :
    OpTrace st (SP_GetRecord st recId) (-1) true := by
  unfold SP_GetRecord
  simp only
  have hg := PF_GetThisPage_ext st (decode_recId recId).1
  revert hg
  rcases PF_GetThisPage st (decode_recId recId).1 with ⟨rc, st1⟩
  intro hg
  simp only at hg ⊢
  rcases hg with ⟨g1, g2, g3⟩ | ⟨g1, g2⟩
  · subst g1
    simp only [ne_eq, not_true_eq_false, if_false]
    cases SP_GetRecord_page (st1.page (decode_recId recId).1) (decode_recId recId).2 with
    | undef => exact OpTrace.undef _ _ _
    | fail => exact OpTrace.unchecked_fail g3 _ _ _
    | ok v => exact OpTrace.unchecked_ok g3 (allBenign_single (benign_ok _)) _ _ _
  · simp only [ne_eq, g1, not_false_eq_true, if_true]
    exact OpTrace.fail_here (g2 none) (Or.inl rfl) _ _

theorem SP_DeleteRecord_trace (st : PFState) (recId : Nat) :
    OpTrace st (SP_DeleteRecord st recId) (-1) false := by
  unfold SP_DeleteRecord
  simp only
  have hg := PF_GetThisPage_ext st (decode_recId recId).1
  revert hg
  rcases PF_GetThisPage st (decode_recId recId).1 with ⟨rc, st1⟩
  intro hg
  simp only at hg ⊢
  rcases hg with ⟨g1, g2, g3⟩ | ⟨g1, g2⟩
  · subst g1
    simp only [ne_eq, not_true_eq_false, if_false]
    cases SP_DeleteRecord_page (st1.page (decode_recId recId).1) (decode_recId recId).2 with
    | undef => exact OpTrace.undef _ _ _
    | fail => exact OpTrace.unchecked_fail g3 _ _ _
    | ok p =>
      have hx2 := g3.trans (PinExt.setPage _ (some _) (decode_recId recId).1 p)
      exact OpTrace.checked_unfix hx2
        (allBenign_append allBenign_nil (allBenign_single (benign_ok _))) true _ false
  · simp only [ne_eq, g1, not_false_eq_true, if_true]
    exact OpTrace.fail_here (g2 none) (Or.inl rfl) _ _

theorem SP_CompactPage_page_ne_fail (p : Page) : SP_CompactPage_page p ≠ .fail := by
  unfold SP_CompactPage_page
  simp only
  cases sp_compact_loop p 0 (sp_read_header p).slot_count p PF_PAGE_SIZE with
  | none => simp
  | some v => simp

theorem SP_CompactPage_trace (st : PFState) (pageNum : Nat) (mallocOk : Bool)
    : OpTrace st (SP_CompactPage st pageNum mallocOk) (-1) false := by
  unfold SP_CompactPage
  have hg := PF_GetThisPage_ext st pageNum
  revert hg
  rcases PF_GetThisPage st pageNum with ⟨rc, st1⟩
  intro hg
  simp only at hg ⊢
  rcases hg with ⟨g1, g2, g3⟩ | ⟨g1, g2⟩
  · subst g1
    simp only [ne_eq, not_true_eq_false, if_false]
    by_cases hm : mallocOk = true
    · rw [if_neg (not_not.mpr hm)]
      cases hc : SP_CompactPage_page (st1.page pageNum) with
      | undef => exact OpTrace.undef _ _ _
      | fail => exact absurd hc (SP_CompactPage_page_ne_fail _)
      | ok p =>
        have hx2 := g3.trans (PinExt.setPage _ (some _) pageNum p)
        exact OpTrace.checked_unfix hx2
          (allBenign_append allBenign_nil (allBenign_single (benign_ok _))) true _ false
    · rw [if_pos hm]
      exact OpTrace.unchecked_fail g3 _ _ _
  · simp only [ne_eq, g1, not_false_eq_true, if_true]
    exact OpTrace.fail_here (g2 none) (Or.inl rfl) _ _

/-- What the log tells about the loop of `SP_ComputeSpaceUtilization`,
entered holding page `q`. -/
theorem sp_util_loop_trace :
    ∀ fuel (s : PFState) (q : Nat) (pages total : Int),
      (∀ v s', sp_util_loop fuel s q pages total = .ok v s' →
        ∃ seg, PinExt s (some q) seg s' none ∧ AllBenign seg) ∧
      (∀ rc s', sp_util_loop fuel s q pages total = .fail rc s' → rc = 0 ∧
        ∃ seg h', PinExt s (some q) seg s' h' ∧ (h' = none ∨ UnfixFailed seg)) := by
  intro fuel
  induction fuel with
  | zero =>
    intro s q pages total
    unfold sp_util_loop
    exact ⟨fun _ _ he => absurd he (by simp), fun _ _ he => absurd he (by simp)⟩
  | succ fuel ih =>
    intro s q pages total
    unfold sp_util_loop
    simp only
    cases sp_used_loop (s.page q) 0 (sp_read_header (s.page q)).slot_count 0 with
    | none => exact ⟨fun _ _ he => absurd he (by simp), fun _ _ he => absurd he (by simp)⟩
    | some used =>
      simp only
      have hu := unfix_ext s q false
      revert hu
      rcases PF_UnfixPage s q false with ⟨rc, st1⟩
      intro hu
      simp only at hu ⊢
      rcases hu with ⟨h1, h2⟩ | ⟨h1, h2⟩
      · subst h1
        simp only [ne_eq, not_true_eq_false, if_false]
        have hg := PF_GetNextPage_ext st1 q
        revert hg
        rcases PF_GetNextPage st1 q with ⟨rc2, nx, st2⟩
        intro hg
        simp only at hg ⊢
        rcases hg with ⟨g1, g2, g3, g4⟩ | ⟨g1, g2⟩
        · subst g1 g2
          rw [if_neg (by decide), if_neg (by decide)]
          have hrec := ih st2 (q + 1) (pages + 1) (total + used)
          have hben : AllBenign ([(PFCall.GetNextPage q, PFE_OK)] ++
              [(PFCall.UnfixPage q false, PFE_OK)]) :=
            allBenign_append (allBenign_single (benign_ok _)) (allBenign_single (benign_ok _))
          refine ⟨?_, ?_⟩
          · intro v s' he
            obtain ⟨seg, hx, hbn⟩ := hrec.1 v s' he
            exact ⟨_, (h2.trans g4).trans hx, allBenign_append hbn hben⟩
          · intro rc s' he
            obtain ⟨hrc, seg, h', hx, hor⟩ := hrec.2 rc s' he
            refine ⟨hrc, _, h', (h2.trans g4).trans hx, ?_⟩
            rcases hor with h0 | h0
            · exact Or.inl h0
            · exact Or.inr (unfixFailed_append_left _ h0)
        · by_cases heof : rc2 = PFE_EOF
          · rw [if_pos heof]
            subst heof
            refine ⟨?_, fun _ _ he => absurd he (by simp)⟩
            intro v s' he
            simp only [SPRet.ok.injEq] at he
            obtain ⟨-, e2⟩ := he
            subst e2
            exact ⟨_, h2.trans (g2 none),
              allBenign_append (allBenign_single (Or.inr ⟨rfl, rfl⟩))
                (allBenign_single (benign_ok _))⟩
          · rw [if_neg heof, if_pos g1]
            refine ⟨fun _ _ he => absurd he (by simp), ?_⟩
            intro rc s' he
            simp only [SPRet.fail.injEq] at he
            obtain ⟨e1, e2⟩ := he
            subst e2
            exact ⟨e1.symm, _, none, h2.trans (g2 none), Or.inl rfl⟩
      · simp only [ne_eq, h1, not_false_eq_true, if_true]
        refine ⟨fun _ _ he => absurd he (by simp), ?_⟩
        intro rc' s' he
        simp only [SPRet.fail.injEq] at he
        obtain ⟨e1, e2⟩ := he
        subst e2
        exact ⟨e1.symm, _, some q, h2 _, Or.inr (unfixFailed_single h1)⟩

theorem SP_ComputeSpaceUtilization_trace (st : PFState) :
    OpTrace st (SP_ComputeSpaceUtilization st) 0 false := by
  unfold SP_ComputeSpaceUtilization
  have hg := PF_GetFirstPage_ext st
  revert hg
  rcases PF_GetFirstPage st with ⟨rc, pn, st1⟩
  intro hg
  simp only at hg ⊢
  rcases hg with ⟨g1, g2, g3, g4⟩ | ⟨g1, g2⟩
  · subst g1 g2
    rw [if_neg (by decide), if_neg (by decide)]
    have hl := sp_util_loop_trace st1.numpages st1 0 0 0
    revert hl
    cases sp_util_loop st1.numpages st1 0 0 0 with
    | undef => intro _; exact OpTrace.undef _ _ _
    | fail r st2 =>
      intro hl
      obtain ⟨hr, seg, h', hx, hor⟩ := hl.2 r st2 rfl
      subst hr
      refine OpTrace.fail_here (g4.trans hx) ?_ _ _
      rcases hor with h0 | h0
      · exact Or.inl h0
      · exact Or.inr (unfixFailed_append_left _ h0)
    | ok v st2 =>
      intro hl
      obtain ⟨seg, hx, hbn⟩ := hl.1 v st2 rfl
      obtain ⟨pages, total⟩ := v
      simp only
      refine OpTrace.ok_here (g4.trans hx) (Or.inl rfl) _ _ _ ?_
      intro x hx'
      exact Or.inl (allBenign_append hbn (allBenign_single (benign_ok _)) x hx')
  · by_cases heof : rc = PFE_EOF
    · rw [if_pos heof]
      subst heof
      refine OpTrace.ok_here (g2 none) (Or.inl rfl) _ _ _ ?_
      intro x hx'
      have hbn : AllBenign [(PFCall.GetFirstPage, PFE_EOF)] :=
        allBenign_single (Or.inr ⟨rfl, rfl⟩)
      exact Or.inl (hbn x hx')
    · rw [if_neg heof, if_pos g1]
      exact OpTrace.fail_here (g2 none) (Or.inl rfl) _ _

/-! ## Pin discipline and error reporting of the operations -/

theorem OpTrace.discipline {α : Type} {st : PFState} {r : SPRet α} {c : Int} {lax : Bool}
    (t : OpTrace st r c lax) (st' : PFState) (hfin : r.final = some st') :
    PinDiscipline st st' := by
  have key : ∃ seg h', PinExt st none seg st' h' ∧ (h' = none ∨ UnfixFailed seg) := by
    cases r with
    | undef => simp [SPRet.final] at hfin
    | ok v s =>
      simp only [SPRet.final, Option.some.injEq] at hfin
      subst hfin
      obtain ⟨seg, h', hx, hor, -⟩ := t.1 v s rfl
      exact ⟨seg, h', hx, hor⟩
    | fail rc s =>
      simp only [SPRet.final, Option.some.injEq] at hfin
      subst hfin
      obtain ⟨-, seg, h', hx, hor⟩ := t.2 rc s rfl
      exact ⟨seg, h', hx, hor⟩
  obtain ⟨seg, h', hx, hor⟩ := key
  refine ⟨seg, h', hx, ?_⟩
  intro hall
  have hn : h' = none := by
    rcases hor with h0 | ⟨p, d, rc, hm, hrc⟩
    · exact h0
    · exact absurd (hall p d rc hm) hrc
  refine ⟨hn, fun hb n => ?_⟩
  have := hx.pins hb n
  rw [hn] at this
  simpa using this

theorem OpTrace.reported {α : Type} {st : PFState} {r : SPRet α} {c : Int} {lax : Bool}
    (t : OpTrace st r c lax) (st' : PFState) (seg : List (PFCall × Int))
    (hfin : r.final = some st') (htr : st'.trace = seg ++ st.trace)
    (hbad : ∃ x, x ∈ seg ∧ ¬ Benign x ∧ (lax = true → x.1.isUnfix = false)) :
    r = .fail c st' := by
  cases r with
  | undef => simp [SPRet.final] at hfin
  | ok v s =>
    exfalso
    simp only [SPRet.final, Option.some.injEq] at hfin
    subst hfin
    obtain ⟨seg2, h', hx, -, hben⟩ := t.1 v s rfl
    have hseg : seg2 = seg := by
      have := hx.trace
      rw [htr] at this
      exact (List.append_cancel_right this).symm
    subst hseg
    obtain ⟨x, hm, hnb, hlax⟩ := hbad
    rcases hben x hm with h1 | ⟨h1, h2⟩
    · exact hnb h1
    · rw [hlax h1] at h2; exact absurd h2 (by simp)
  | fail rc s =>
    simp only [SPRet.final, Option.some.injEq] at hfin
    subst hfin
    obtain ⟨hrc, -⟩ := t.2 rc s rfl
    rw [hrc]

/-- C17: with the paged-file layer modelled by per-page pin counts, each of
`SP_InsertRecord`, `SP_GetRecord`, `SP_DeleteRecord`, `SP_CompactPage` and
`SP_ComputeSpaceUtilization` holds at most one pinned page at every step
(a page is pinned only when none is held, and only the page held is unfixed),
and on every return path on which `PF_UnfixPage` itself succeeds it holds no
pin at its return: the pin counts are what they were before the call. -/
theorem C17_pin_discipline (st : PFState) :
    (∀ data len st', (SP_InsertRecord st data len).final = some st' → PinDiscipline st st') ∧
    (∀ recId st', (SP_GetRecord st recId).final = some st' → PinDiscipline st st') ∧
    (∀ recId st', (SP_DeleteRecord st recId).final = some st' → PinDiscipline st st') ∧
    (∀ pageNum mallocOk st', (SP_CompactPage st pageNum mallocOk).final = some st' →
      PinDiscipline st st') ∧
    (∀ st', (SP_ComputeSpaceUtilization st).final = some st' → PinDiscipline st st') :=
  ⟨fun data len st' h => (SP_InsertRecord_trace st data len).discipline st' h,
    fun recId st' h => (SP_GetRecord_trace st recId).discipline st' h,
    fun recId st' h => (SP_DeleteRecord_trace st recId).discipline st' h,
    fun pageNum mallocOk st' h => (SP_CompactPage_trace st pageNum mallocOk).discipline st' h,
    fun st' h => (SP_ComputeSpaceUtilization_trace st).discipline st' h⟩

theorem C17_pin_discipline_witness :
    (SP_InsertRecord file2 [7, 8, 9] 3).final = some ((SP_InsertRecord file2 [7, 8, 9] 3).state file0) ∧
    PinDiscipline file2 ((SP_InsertRecord file2 [7, 8, 9] 3).state file0) ∧
    PinDiscipline file2 ((SP_GetRecord file2 1).state file0) ∧
    PinDiscipline file2 ((SP_ComputeSpaceUtilization file2).state file0) :=
  ⟨rfl, (C17_pin_discipline file2).1 [7, 8, 9] 3 _ rfl,
    (C17_pin_discipline file2).2.1 1 _ rfl,
    (C17_pin_discipline file2).2.2.2.2 _ rfl⟩

theorem fix_fault {st : PFState} {e : Int} {rest : List Int} (c : PFCall) (n : Nat)
    (hf : st.faults = e :: rest) (he : e ≠ PFE_OK) :
    st.fix c n = (e, ({ st with faults := rest } : PFState).log c e) := by
  unfold PFState.fix PFState.nextFault
  rw [hf]
  simp only [ne_eq, he, not_false_eq_true, if_true]

/-- C19, counterexample: `PF_GetThisPage` fails with `PFE_NOBUF` (-2) and
`SP_GetRecord` returns -1, not -2. -/
theorem C19_counterexample :
    SP_GetRecord file2nobuf 1 = .fail (-1) ((SP_GetRecord file2nobuf 1).state file0) ∧
    ((SP_GetRecord file2nobuf 1).state file0).trace.head? =
      some (.GetThisPage 0, PFE_NOBUF) ∧
    PFE_NOBUF ≠ -1 :=
  ⟨rfl, rfl, by decide⟩

/-- C19, amended: when a paged-file call made by `SP_InsertRecord`,
`SP_GetRecord`, `SP_DeleteRecord` or `SP_CompactPage` fails (it returns
neither `PFE_OK` nor, for an iteration call, `PFE_EOF`; for `SP_GetRecord`,
the call is not a `PF_UnfixPage`, whose result that function does not look
at), the operation takes an error exit and the value it returns is -1,
whatever the paged-file code was; `SP_ComputeSpaceUtilization` returns 0 in
that case and stores nothing.  When it is the first paged-file call of the
operation that fails, the operation does return, with that value. -/
theorem C19_pf_failure_returns_minus_one (st : PFState) :
    (∀ data len st' seg, (SP_InsertRecord st data len).final = some st' →
      st'.trace = seg ++ st.trace → (∃ x, x ∈ seg ∧ ¬ Benign x) →
      SP_InsertRecord st data len = .fail (-1) st') ∧
    (∀ recId st' seg, (SP_GetRecord st recId).final = some st' →
      st'.trace = seg ++ st.trace → (∃ x, x ∈ seg ∧ ¬ Benign x ∧ x.1.isUnfix = false) →
      SP_GetRecord st recId = .fail (-1) st') ∧
    (∀ recId st' seg, (SP_DeleteRecord st recId).final = some st' →
      st'.trace = seg ++ st.trace → (∃ x, x ∈ seg ∧ ¬ Benign x) →
      SP_DeleteRecord st recId = .fail (-1) st') ∧
    (∀ pageNum mallocOk st' seg, (SP_CompactPage st pageNum mallocOk).final = some st' →
      st'.trace = seg ++ st.trace → (∃ x, x ∈ seg ∧ ¬ Benign x) →
      SP_CompactPage st pageNum mallocOk = .fail (-1) st') ∧
    (∀ st' seg, (SP_ComputeSpaceUtilization st).final = some st' →
      st'.trace = seg ++ st.trace → (∃ x, x ∈ seg ∧ ¬ Benign x) →
      SP_ComputeSpaceUtilization st = .fail 0 st') ∧
    (∀ e rest, st.faults = e :: rest → e ≠ PFE_OK →
      (∀ recId, ∃ st', SP_GetRecord st recId = .fail (-1) st') ∧
      (∀ recId, ∃ st', SP_DeleteRecord st recId = .fail (-1) st') ∧
      (∀ pageNum mallocOk, ∃ st', SP_CompactPage st pageNum mallocOk = .fail (-1) st') ∧
      (e ≠ PFE_EOF → ∀ data len, ∃ st', SP_InsertRecord st data len = .fail (-1) st') ∧
      (e ≠ PFE_EOF → ∃ st', SP_ComputeSpaceUtilization st = .fail 0 st')) := by
  refine ⟨?_, ?_, ?_, ?_, ?_, ?_⟩
  · intro data len st' seg hfin htr ⟨x, hm, hnb⟩
    exact (SP_InsertRecord_trace st data len).reported st' seg hfin htr
      ⟨x, hm, hnb, fun h => absurd h (by simp)⟩
  · intro recId st' seg hfin htr ⟨x, hm, hnb, hu⟩
    exact (SP_GetRecord_trace st recId).reported st' seg hfin htr ⟨x, hm, hnb, fun _ => hu⟩
  · intro recId st' seg hfin htr ⟨x, hm, hnb⟩
    exact (SP_DeleteRecord_trace st recId).reported st' seg hfin htr
      ⟨x, hm, hnb, fun h => absurd h (by simp)⟩
  · intro pageNum mallocOk st' seg hfin htr ⟨x, hm, hnb⟩
    exact (SP_CompactPage_trace st pageNum mallocOk).reported st' seg hfin htr
      ⟨x, hm, hnb, fun h => absurd h (by simp)⟩
  · intro st' seg hfin htr ⟨x, hm, hnb⟩
    exact (SP_ComputeSpaceUtilization_trace st).reported st' seg hfin htr
      ⟨x, hm, hnb, fun h => absurd h (by simp)⟩
  · intro e rest hf he
    refine ⟨?_, ?_, ?_, ?_, ?_⟩
    · intro recId
      unfold SP_GetRecord PF_GetThisPage
      simp only [fix_fault _ _ hf he, ne_eq, he, not_false_eq_true, if_true]
      exact ⟨_, rfl⟩
    · intro recId
      unfold SP_DeleteRecord PF_GetThisPage
      simp only [fix_fault _ _ hf he, ne_eq, he, not_false_eq_true, if_true]
      exact ⟨_, rfl⟩
    · intro pageNum mallocOk
      unfold SP_CompactPage PF_GetThisPage
      simp only [fix_fault _ _ hf he, ne_eq, he, not_false_eq_true, if_true]
      exact ⟨_, rfl⟩
    · intro heof data len
      unfold SP_InsertRecord
      split_ifs with hlen
      · exact ⟨_, rfl⟩
      · unfold sp_find_page_for_insert PF_GetFirstPage
        simp only [fix_fault _ _ hf he, ne_eq, he, heof, not_false_eq_true, if_true, if_false]
        exact ⟨_, rfl⟩
    · intro heof
      unfold SP_ComputeSpaceUtilization PF_GetFirstPage
      simp only [fix_fault _ _ hf he, ne_eq, he, heof, not_false_eq_true, if_true, if_false]
      exact ⟨_, rfl⟩

theorem C19_pf_failure_returns_minus_one_witness :
    (SP_DeleteRecord file2nobuf 1).final = some ((SP_DeleteRecord file2nobuf 1).state file0) ∧
    ((SP_DeleteRecord file2nobuf 1).state file0).trace =
      [(.GetThisPage 0, PFE_NOBUF)] ++ file2nobuf.trace ∧
    ¬ Benign (PFCall.GetThisPage 0, PFE_NOBUF) ∧
    SP_DeleteRecord file2nobuf 1 = .fail (-1) ((SP_DeleteRecord file2nobuf 1).state file0) :=
  ⟨rfl, rfl, by decide,
    (C19_pf_failure_returns_minus_one file2nobuf).2.2.1 1 _ [(.GetThisPage 0, PFE_NOBUF)] rfl rfl
      ⟨_, List.mem_singleton.2 rfl, by decide⟩⟩

/-! ## The scan of a file -/

/-- C18, a failing run: in a file of two pages the scan returns the record
of page 0 holding that page pinned; in the next call it unfixes page 0, and
`PF_GetNextPage` fails reading page 1, so the call returns -1 with no page
held but `initialized` still set; `SP_ScanClose` then calls `PF_UnfixPage`
on page 0 a second time, which the paged-file layer answers with
`PFE_PAGEUNFIXED`. -/
theorem C18_scan_close_unfixes_twice :
    scanFile.numpages = 2 ∧ scanFile.pins 0 = 0 ∧ scanFile.pins 1 = 0 ∧
    scanStep1.recId = some 0 ∧ (scanStep1.state file0).pins 0 = 1 ∧
    scanStep2.isFail = true ∧
    scanStep2.scan = { curPageNum := 0, slotIndex := 1, initialized := true } ∧
    (scanStep2.state file0).pins 0 = 0 ∧ (scanStep2.state file0).pins 1 = 0 ∧
    scanClosed.2.trace =
      [(.UnfixPage 0 false, PFE_PAGEUNFIXED), (.GetNextPage 0, PFE_INCOMPLETEREAD),
        (.UnfixPage 0 false, PFE_OK), (.GetFirstPage, PFE_OK)] ++ scanFile.trace := by
  decide!

theorem PF_UnfixPage_nil_pins (st : PFState) (n : Nat) (d : Bool) (hf : st.faults = [])
    (hp : 0 < st.pins n) :
    ∃ st1, PF_UnfixPage st n d = (PFE_OK, st1) ∧ st1.page = st.page ∧
      st1.numpages = st.numpages ∧ st1.faults = [] ∧
      (∀ m, st1.pins m = if m = n then st.pins m - 1 else st.pins m) ∧
      st1.trace = (.UnfixPage n d, PFE_OK) :: st.trace := by
  rw [PF_UnfixPage_nil d hf hp]
  exact ⟨_, rfl, rfl, rfl, hf, fun _ => rfl, rfl⟩

theorem PF_GetNextPage_nil_pins (st : PFState) (n : Nat) (hf : st.faults = [])
    (hn : n + 1 < st.numpages) :
    ∃ st1, PF_GetNextPage st n = (PFE_OK, n + 1, st1) ∧ st1.page = st.page ∧
      st1.numpages = st.numpages ∧ st1.faults = [] ∧
      ∀ m, st1.pins m = if m = n + 1 then st.pins m + 1 else st.pins m := by
  unfold PF_GetNextPage
  rw [fix_nil _ hf hn]
  exact ⟨_, rfl, rfl, rfl, hf, fun _ => rfl⟩

theorem PF_GetNextPage_nil_eof_pins (st : PFState) (n : Nat) (hf : st.faults = [])
    (hn : st.numpages ≤ n + 1) :
    ∃ st1, PF_GetNextPage st n = (PFE_EOF, n + 1, st1) ∧ st1.page = st.page ∧
      st1.numpages = st.numpages ∧ st1.faults = [] ∧ st1.pins = st.pins := by
  unfold PF_GetNextPage
  rw [fix_nil_eof _ hf hn]
  exact ⟨_, rfl, rfl, rfl, hf, rfl⟩

theorem PF_GetFirstPage_nil_pins (st : PFState) (hf : st.faults = []) (hn : 0 < st.numpages) :
    ∃ st1, PF_GetFirstPage st = (PFE_OK, 0, st1) ∧ st1.page = st.page ∧
      st1.numpages = st.numpages ∧ st1.faults = [] ∧
      ∀ m, st1.pins m = if m = 0 then st.pins m + 1 else st.pins m := by
  unfold PF_GetFirstPage
  rw [fix_nil _ hf hn]
  exact ⟨_, rfl, rfl, rfl, hf, fun _ => rfl⟩

theorem PF_GetFirstPage_nil_eof_pins (st : PFState) (hf : st.faults = [])
    (hn : st.numpages = 0) :
    ∃ st1, PF_GetFirstPage st = (PFE_EOF, 0, st1) ∧ st1.page = st.page ∧
      st1.numpages = st.numpages ∧ st1.faults = [] ∧ st1.pins = st.pins := by
  unfold PF_GetFirstPage
  rw [fix_nil_eof _ hf (by omega)]
  exact ⟨_, rfl, rfl, rfl, hf, rfl⟩

/-- The loop over the slots of `SP_ScanNext` stops at the first slot that is
not a tombstone. -/
theorem sp_scan_live_spec (p : Page) (pn : Nat) :
    ∀ k i, (∀ j, i ≤ j → j < i + k → slotInPage j) →
      (liveSlotsFrom p pn i k = [] ∧ sp_scan_live p i k = .absent) ∨
      (∃ j, i ≤ j ∧ j < i + k ∧ (readSlot p j).offset ≠ -1 ∧ sp_scan_live p i k = .found j ∧
        liveSlotsFrom p pn i k = (pn, j) :: liveSlotsFrom p pn (j + 1) (i + k - (j + 1))) := by
  intro k
  induction k with
  | zero => intro i _; exact Or.inl ⟨rfl, rfl⟩
  | succ k ih =>
    intro i hin
    have hi := hin i (le_refl _) (by omega)
    by_cases hl : (readSlot p i).offset = -1
    · rcases ih (i + 1) (fun j h1 h2 => hin j (by omega) (by omega)) with ⟨h1, h2⟩ | ⟨j, h1, h2, h3, h4, h5⟩
      · left
        refine ⟨?_, ?_⟩
        · rw [liveSlotsFrom, if_pos hl]; exact h1
        · rw [sp_scan_live]; simp only [hi, not_true_eq_false, if_false, hl, if_true]; exact h2
      · right
        refine ⟨j, by omega, by omega, h3, ?_, ?_⟩
        · rw [sp_scan_live]; simp only [hi, not_true_eq_false, if_false, hl, if_true]; exact h4
        · rw [liveSlotsFrom, if_pos hl, h5]
          have : i + 1 + k - (j + 1) = i + (k + 1) - (j + 1) := by omega
          rw [this]
    · right
      refine ⟨i, le_refl _, by omega, hl, ?_, ?_⟩
      · rw [sp_scan_live]; simp only [hi, not_true_eq_false, if_false, hl]
      · rw [liveSlotsFrom, if_neg hl]
        have : i + (k + 1) - (i + 1) = k := by omega
        rw [this]

theorem scanRest_next_page (st : PFState) (q i : Nat) (hq : q + 1 < st.numpages)
    (h : liveSlotsFrom (st.page q) q i ((sp_read_header (st.page q)).slot_count - i) = []) :
    scanRest st q i = scanRest st (q + 1) 0 := by
  unfold scanRest
  rw [h, List.nil_append]
  have h1 : st.numpages - (q + 1) = (st.numpages - (q + 1 + 1)) + 1 := by omega
  rw [h1, fileLiveSlots, Nat.sub_zero]

theorem scanRest_last_page (st : PFState) (q i : Nat) (hq : st.numpages ≤ q + 1)
    (h : liveSlotsFrom (st.page q) q i ((sp_read_header (st.page q)).slot_count - i) = []) :
    scanRest st q i = [] := by
  unfold scanRest
  rw [h, List.nil_append]
  have h1 : st.numpages - (q + 1) = 0 := by omega
  rw [h1, fileLiveSlots]

/-- With no failure injected and readable pages, the loop of `SP_ScanNext`
entered at slot `i` of the pinned page `q` returns the next slot of the file
that is not a tombstone, holding its page pinned, or -1 with no page held
when there is none; `P` are the pin counts without the pin of the scan. -/
theorem sp_scan_loop_spec (st : PFState) (P : Nat → Nat)
    (hwf : ∀ pn, pn < st.numpages → SlotsReadable (st.page pn)) :
    ∀ fuel (s : PFState) (q i : Nat), s.faults = [] → s.page = st.page →
      s.numpages = st.numpages → q < st.numpages →
      (∀ n, s.pins n = if n = q then P n + 1 else P n) → st.numpages - q ≤ fuel →
      (scanRest st q i = [] ∧
        ∃ sc' s', sp_scan_loop true fuel s ⟨(q : Int), i, true⟩ = .fail sc' s' ∧
          sc'.initialized = false ∧ s'.faults = [] ∧ s'.page = st.page ∧
          s'.numpages = st.numpages ∧ ∀ n, s'.pins n = P n) ∨
      (∃ x s', scanRest st q i = x :: scanRest st x.1 (x.2 + 1) ∧ x.1 < st.numpages ∧
        x.2 < (sp_read_header (st.page x.1)).slot_count ∧
        (readSlot (st.page x.1) x.2).offset ≠ -1 ∧
        sp_scan_loop true fuel s ⟨(q : Int), i, true⟩ =
          .ok (recordAt st x).2.2 (recordAt st x).2.1 (recordAt st x).1
            ⟨(x.1 : Int), x.2 + 1, true⟩ s' ∧
        s'.faults = [] ∧ s'.page = st.page ∧ s'.numpages = st.numpages ∧
        ∀ n, s'.pins n = if n = x.1 then P n + 1 else P n) := by
  intro fuel
  induction fuel with
  | zero => intro s q i _ _ _ hq _ hfu; omega
  | succ fuel ih =>
    intro s q i hf hp hnp hq hpins hfu
    have hrd := hwf q hq
    have hin : ∀ j, i ≤ j → j < i + ((sp_read_header (st.page q)).slot_count - i) →
        slotInPage j := fun j _ h2 => (hrd j (by omega)).1
    have hcur : ¬ ((q : Int) < 0) := by omega
    rcases sp_scan_live_spec (st.page q) q ((sp_read_header (st.page q)).slot_count - i) i hin
      with ⟨h1, h2⟩ | ⟨j, h1, h2, h3, h4, h5⟩
    · -- the page has no live slot left
      obtain ⟨sa, ea, pa, na, fa, qa, -⟩ := PF_UnfixPage_nil_pins s q false hf
        (by rw [hpins q, if_pos rfl]; omega)
      by_cases hlast : q + 1 < st.numpages
      · obtain ⟨sb, eb, pb, nb, fb, qb⟩ := PF_GetNextPage_nil_pins sa q fa (by rw [na, hnp]; exact hlast)
        have hloop : sp_scan_loop true (fuel + 1) s ⟨(q : Int), i, true⟩ =
            sp_scan_loop true fuel sb ⟨((q + 1 : Nat) : Int), 0, true⟩ := by
          rw [sp_scan_loop]
          simp only [hcur, if_false, Int.toNat_ofNat, hp, h2, ea, eb, ne_eq, not_true_eq_false]
          rw [if_neg (by decide)]
        have hpb : ∀ n, sb.pins n = if n = q + 1 then P n + 1 else P n := by
          intro n
          rw [qb n, qa n, hpins n]
          by_cases h1 : n = q + 1
          · have : ¬ n = q := by omega
            simp [h1]
          · by_cases h2 : n = q
            · simp [h1, h2]
            · simp [h1, h2]
        rw [hloop, scanRest_next_page st q i hlast h1]
        exact ih sb (q + 1) 0 fb (by rw [pb, pa, hp]) (by rw [nb, na, hnp]) hlast hpb (by omega)
      · obtain ⟨sb, eb, pb, nb, fb, qb⟩ :=
          PF_GetNextPage_nil_eof_pins sa q fa (by rw [na, hnp]; omega)
        left
        refine ⟨scanRest_last_page st q i (by omega) h1,
          ⟨(q : Int), max i (sp_read_header (st.page q)).slot_count, false⟩, sb, ?_, ?_, fb, by rw [pb, pa, hp],
          by rw [nb, na, hnp], ?_⟩
        · rw [sp_scan_loop]
          simp only [hcur, if_false, Int.toNat_ofNat, hp, h2, ea, eb, ne_eq, not_true_eq_false,
            if_true]
        · rfl
        · intro n
          rw [qb, qa n, hpins n]
          by_cases h2 : n = q
          · simp [h2]
          · simp [h2]
    · -- slot `j` is the next live slot
      right
      have hj : j < (sp_read_header (st.page q)).slot_count := by omega
      have hinp := (hrd j hj).2 h3
      refine ⟨(q, j), s, ?_, hq, hj, h3, ?_, hf, hp, hnp, hpins⟩
      · unfold scanRest
        rw [h5]
        have : i + ((sp_read_header (st.page q)).slot_count - i) - (j + 1) =
            (sp_read_header (st.page q)).slot_count - (j + 1) := by omega
        rw [this]
        rfl
      · rw [sp_scan_loop]
        simp only [hcur, if_false, Int.toNat_ofNat, hp, h4, not_true_eq_false, hinp, recordAt]

theorem SP_ScanNext_initialized (s : PFState) (scan : SP_Scan) (b : Bool)
    (h : scan.initialized = true) :
    SP_ScanNext s scan b = sp_scan_loop b (s.numpages + 1) s scan := by
  unfold SP_ScanNext
  rw [if_neg (by rw [h]; simp)]

/-- With no failure injected and readable pages, the calls of `SP_ScanNext`
from slot `i` of the pinned page `q` on emit the records of the slots that
are not tombstones, in order, and then return -1 with no page held. -/
theorem scanAll_spec (st : PFState) (P : Nat → Nat)
    (hwf : ∀ pn, pn < st.numpages → SlotsReadable (st.page pn)) :
    ∀ (L : List (Nat × Nat)) (s : PFState) (q i : Nat), s.faults = [] → s.page = st.page →
      s.numpages = st.numpages → q < st.numpages →
      (∀ n, s.pins n = if n = q then P n + 1 else P n) → scanRest st q i = L →
      ∃ sc' s', scanAll (L.length + 1) s ⟨(q : Int), i, true⟩ =
          some (L.map (recordAt st), sc', s') ∧
        sc'.initialized = false ∧ s'.faults = [] ∧ s'.page = st.page ∧
        s'.numpages = st.numpages ∧ ∀ n, s'.pins n = P n := by
  intro L
  induction L with
  | nil =>
    intro s q i hf hp hnp hq hpins hL
    rcases sp_scan_loop_spec st P hwf (s.numpages + 1) s q i hf hp hnp hq hpins (by omega)
      with ⟨-, sc', s', h1, h2⟩ | ⟨x, s', h1, -⟩
    · refine ⟨sc', s', ?_, h2⟩
      rw [List.length_nil, scanAll, SP_ScanNext_initialized _ _ _ rfl, h1]
      rfl
    · rw [hL] at h1; exact absurd h1 (by simp)
  | cons y L ih =>
    intro s q i hf hp hnp hq hpins hL
    rcases sp_scan_loop_spec st P hwf (s.numpages + 1) s q i hf hp hnp hq hpins (by omega)
      with ⟨h0, -⟩ | ⟨x, s', h1, h2, -, -, h3, h4, h5, h6, h7⟩
    · rw [hL] at h0; exact absurd h0 (by simp)
    · rw [hL] at h1
      simp only [List.cons.injEq] at h1
      obtain ⟨e1, e2⟩ := h1
      subst e1
      obtain ⟨sc', s'', h8, h9⟩ := ih s' y.1 (y.2 + 1) h4 h5 h6 h2 h7 e2.symm
      refine ⟨sc', s'', ?_, h9⟩
      rw [List.length_cons, scanAll, SP_ScanNext_initialized _ _ _ rfl, h3]
      simp only [h8, List.map_cons]

theorem scanRest_zero (st : PFState) (h : 0 < st.numpages) :
    scanRest st 0 0 = fileLiveSlots st 0 st.numpages := by
  unfold scanRest
  have h1 : st.numpages = (st.numpages - (0 + 1)) + 1 := by omega
  conv_rhs => rw [h1, fileLiveSlots]
  rw [Nat.sub_zero]

/-- With no failure injected and readable pages, a scan from `SP_ScanInit`
emits the records of the slots of the file that are not tombstones, in
order, then returns -1, with the pin counts as before the scan. -/
theorem scanAll_file (st : PFState) (hf : st.faults = [])
    (hwf : ∀ pn, pn < st.numpages → SlotsReadable (st.page pn)) :
    ∃ sc' s', scanAll ((fileLiveSlots st 0 st.numpages).length + 1) st SP_ScanInit =
        some ((fileLiveSlots st 0 st.numpages).map (recordAt st), sc', s') ∧
      sc'.initialized = false ∧ s'.faults = [] ∧ s'.page = st.page ∧
      s'.numpages = st.numpages ∧ ∀ n, s'.pins n = st.pins n := by
  by_cases h0 : st.numpages = 0
  · obtain ⟨sa, ea, pa, na, fa, qa⟩ := PF_GetFirstPage_nil_eof_pins st hf h0
    refine ⟨SP_ScanInit, sa, ?_, rfl, fa, pa, na, fun n => by rw [qa]⟩
    rw [h0]
    simp only [fileLiveSlots, List.length_nil, List.map_nil]
    rw [scanAll, SP_ScanNext]
    simp only [SP_ScanInit, ea, if_true, Bool.false_eq_true, not_false_eq_true]
  · obtain ⟨sa, ea, pa, na, fa, qa⟩ := PF_GetFirstPage_nil_pins st hf (by omega)
    have hnext : SP_ScanNext st SP_ScanInit true =
        sp_scan_loop true (sa.numpages + 1) sa ⟨((0 : Nat) : Int), 0, true⟩ := by
      rw [SP_ScanNext]
      simp only [SP_ScanInit, ea, Bool.false_eq_true, not_false_eq_true, if_true]
      rw [if_neg (by decide), if_neg (by decide)]
    rw [← scanRest_zero st (by omega)]
    rcases sp_scan_loop_spec st st.pins hwf (sa.numpages + 1) sa 0 0 fa pa na (by omega) qa
      (by omega) with ⟨h1, sc', s', h2, h3⟩ | ⟨x, s', h1, h2, -, -, h3, h4, h5, h6, h7⟩
    · refine ⟨sc', s', ?_, h3⟩
      rw [h1, List.length_nil, scanAll, hnext, h2]
      rfl
    · obtain ⟨sc', s'', h8, h9⟩ :=
        scanAll_spec st st.pins hwf _ s' x.1 (x.2 + 1) h4 h5 h6 h2 h7 rfl
      refine ⟨sc', s'', ?_, h9⟩
      rw [h1, List.length_cons, scanAll, hnext, h3]
      simp only [h8, List.map_cons]

theorem mem_liveSlotsFrom (p : Page) (pn : Nat) :
    ∀ k i a j, (a, j) ∈ liveSlotsFrom p pn i k ↔
      a = pn ∧ i ≤ j ∧ j < i + k ∧ (readSlot p j).offset ≠ -1 := by
  intro k
  induction k with
  | zero =>
    intro i a j
    simp only [liveSlotsFrom, List.not_mem_nil, false_iff]
    rintro ⟨-, h2, h3, -⟩
    omega
  | succ k ih =>
    intro i a j
    rw [liveSlotsFrom]
    by_cases hl : (readSlot p i).offset = -1
    · rw [if_pos hl, ih]
      constructor
      · rintro ⟨h1, h2, h3, h4⟩; exact ⟨h1, by omega, by omega, h4⟩
      · rintro ⟨h1, h2, h3, h4⟩
        refine ⟨h1, ?_, by omega, h4⟩
        by_contra hc
        have : j = i := by omega
        subst this
        exact h4 hl
    · rw [if_neg hl, List.mem_cons, ih]
      constructor
      · rintro (h | ⟨h1, h2, h3, h4⟩)
        · simp only [Prod.mk.injEq] at h
          obtain ⟨h1, h2⟩ := h
          subst h1 h2
          exact ⟨rfl, le_refl _, by omega, hl⟩
        · exact ⟨h1, by omega, by omega, h4⟩
      · rintro ⟨h1, h2, h3, h4⟩
        by_cases hj : j = i
        · left; rw [h1, hj]
        · right; exact ⟨h1, by omega, by omega, h4⟩

theorem mem_fileLiveSlots (st : PFState) :
    ∀ n q a j, (a, j) ∈ fileLiveSlots st q n ↔
      q ≤ a ∧ a < q + n ∧ j < (sp_read_header (st.page a)).slot_count ∧
        (readSlot (st.page a) j).offset ≠ -1 := by
  intro n
  induction n with
  | zero => intro q a j; simp only [fileLiveSlots, List.not_mem_nil, false_iff]; omega
  | succ n ih =>
    intro q a j
    rw [fileLiveSlots, List.mem_append, mem_liveSlotsFrom, ih]
    constructor
    · rintro (⟨h1, h2, h3, h4⟩ | ⟨h1, h2, h3, h4⟩)
      · subst h1; exact ⟨le_refl _, by omega, by omega, h4⟩
      · exact ⟨by omega, by omega, h3, h4⟩
    · rintro ⟨h1, h2, h3, h4⟩
      by_cases ha : a = q
      · left; subst ha; exact ⟨rfl, by omega, by omega, h4⟩
      · right; exact ⟨by omega, by omega, h3, h4⟩

theorem pairwise_liveSlotsFrom (p : Page) (pn : Nat) :
    ∀ k i, (liveSlotsFrom p pn i k).Pairwise slotLt := by
  intro k
  induction k with
  | zero => intro i; simp [liveSlotsFrom]
  | succ k ih =>
    intro i
    rw [liveSlotsFrom]
    split_ifs with hl
    · exact ih (i + 1)
    · refine List.pairwise_cons.2 ⟨?_, ih (i + 1)⟩
      rintro ⟨a, j⟩ hm
      obtain ⟨h1, h2, -, -⟩ := (mem_liveSlotsFrom p pn k (i + 1) a j).1 hm
      exact Or.inr ⟨h1.symm, by show i < j; omega⟩

theorem pairwise_fileLiveSlots (st : PFState) :
    ∀ n q, (fileLiveSlots st q n).Pairwise slotLt := by
  intro n
  induction n with
  | zero => intro q; simp [fileLiveSlots]
  | succ n ih =>
    intro q
    rw [fileLiveSlots]
    refine List.pairwise_append.2 ⟨pairwise_liveSlotsFrom _ _ _ _, ih (q + 1), ?_⟩
    rintro ⟨a, j⟩ ha ⟨b, l⟩ hb
    obtain ⟨h1, -⟩ := (mem_liveSlotsFrom _ _ _ _ a j).1 ha
    obtain ⟨h2, -⟩ := (mem_fileLiveSlots st n (q + 1) b l).1 hb
    exact Or.inl (by show a < b; omega)

theorem get_page_readable {p : Page} {slot : Nat} (hrd : SlotsReadable p)
    (hlt : slot < (sp_read_header p).slot_count) (hl : (readSlot p slot).offset ≠ -1) :
    SP_GetRecord_page p slot =
      .ok ((readSlot p slot).length,
        readBytes p (readSlot p slot).offset.toNat (readSlot p slot).length.toNat) := by
  obtain ⟨h1, h2⟩ := hrd slot hlt
  unfold SP_GetRecord_page
  simp only [ge_iff_le, if_neg (not_le.mpr hlt), h1, not_true_eq_false, if_false, hl, h2 hl]

theorem SP_ScanClose_uninit (s : PFState) (scan : SP_Scan) (h : scan.initialized = false) :
    (SP_ScanClose s scan).2 = s := by
  unfold SP_ScanClose
  simp [h]

/-- With no failure injected, `SP_ScanClose` of a scan that holds page `q`
calls `PF_UnfixPage` on that page once, and the pin counts are those without
the pin of the scan. -/
theorem SP_ScanClose_held (s : PFState) (P : Nat → Nat) (q i : Nat) (hf : s.faults = [])
    (hp : ∀ n, s.pins n = if n = q then P n + 1 else P n) :
    (SP_ScanClose s ⟨(q : Int), i, true⟩).2.trace = (.UnfixPage q false, PFE_OK) :: s.trace ∧
    ∀ n, (SP_ScanClose s ⟨(q : Int), i, true⟩).2.pins n = P n := by
  obtain ⟨sa, ea, -, -, -, qa, ta⟩ := PF_UnfixPage_nil_pins s q false hf
    (by rw [hp q, if_pos rfl]; omega)
  have hc : (SP_ScanClose s ⟨(q : Int), i, true⟩).2 = sa := by
    unfold SP_ScanClose
    simp only [Int.toNat_ofNat, ea]
    rw [if_pos ⟨trivial, by omega⟩]
  rw [hc]
  refine ⟨ta, fun n => ?_⟩
  rw [qa n, hp n]
  by_cases h : n = q <;> simp [h]

/-! ## The hash index of the buffer pool -/

theorem chainFind_eq_none_iff (es : List PFhash_entry) (fd page : Nat) :
    chainFind es fd page = none ↔ (fd, page) ∉ es.map PFhash_entry.key := by
  induction es with
  | nil => simp [chainFind]
  | cons e es ih =>
    rw [chainFind, List.map_cons, List.mem_cons, not_or]
    by_cases h : e.fd = fd ∧ e.page = page
    · rw [if_pos h]
      simp only [PFhash_entry.key, Prod.mk.injEq]
      constructor
      · intro hc; exact absurd hc (by simp)
      · rintro ⟨h1, -⟩; exact absurd ⟨h.1.symm, h.2.symm⟩ h1
    · rw [if_neg h, ih]
      simp only [PFhash_entry.key, Prod.mk.injEq]
      constructor
      · intro h1; exact ⟨fun hc => h ⟨hc.1.symm, hc.2.symm⟩, h1⟩
      · rintro ⟨-, h1⟩; exact h1

theorem chainDelete_keys (es : List PFhash_entry) (fd page : Nat) :
    (chainDelete es fd page).map PFhash_entry.key =
      (es.map PFhash_entry.key).erase (fd, page) := by
  induction es with
  | nil => simp [chainDelete]
  | cons e es ih =>
    rw [chainDelete, List.map_cons, List.erase_cons]
    by_cases h : e.fd = fd ∧ e.page = page
    · have hk : e.key = (fd, page) := by simp [PFhash_entry.key, h.1, h.2]
      rw [if_pos h, if_pos (by rw [hk]; simp)]
    · have hk : ¬ e.key = (fd, page) := by
        simp only [PFhash_entry.key, Prod.mk.injEq]; exact h
      rw [if_neg h, if_neg (by simpa using hk), List.map_cons, ih]

theorem chainFind_delete_other (es : List PFhash_entry) {fd page fd' page' : Nat}
    (h : (fd', page') ≠ (fd, page)) :
    chainFind (chainDelete es fd page) fd' page' = chainFind es fd' page' := by
  induction es with
  | nil => simp [chainDelete]
  | cons e es ih =>
    rw [chainDelete]
    by_cases h1 : e.fd = fd ∧ e.page = page
    · rw [if_pos h1, chainFind, if_neg]
      rintro ⟨h2, h3⟩
      exact h (by rw [← h2, ← h3, h1.1, h1.2])
    · rw [if_neg h1, chainFind, chainFind, ih]

theorem chainFind_delete_self (es : List PFhash_entry) (fd page : Nat)
    (hnd : (es.map PFhash_entry.key).Nodup) :
    chainFind (chainDelete es fd page) fd page = none := by
  rw [chainFind_eq_none_iff, chainDelete_keys, hnd.mem_erase_iff]
  simp

theorem hashRep_init : HashRep PFhashInit (fun _ => none) :=
  ⟨fun _ _ => rfl, fun _ => List.nodup_nil⟩

theorem PFhash_eq_of_key {fd page fd' page' : Nat} (h : (fd', page') = (fd, page)) :
    PFhash fd' page' = PFhash fd page := by
  simp only [Prod.mk.injEq] at h
  rw [h.1, h.2]

/-- A call on a hash table that holds a finite map returns what the call on
the map returns, and leaves a hash table that holds the map the call
leaves. -/
theorem hashStep_rep {t : PFhashTbl} {m : FrameMap} (R : HashRep t m) (op : HashOp) :
    (hashStep t op).1 = (mapStep m op).1 ∧ HashRep (hashStep t op).2 (mapStep m op).2 := by
  obtain ⟨hfind, hnd⟩ := R
  cases op with
  | find fd page =>
    simp only [hashStep, mapStep, hfind]
    exact ⟨trivial, hfind, hnd⟩
  | insert fd page bpage =>
    simp only [hashStep, mapStep, PFhashInsert, hfind]
    by_cases hp : (m (fd, page)).isSome
    · simp only [hp, if_true]
      exact ⟨trivial, hfind, hnd⟩
    · simp only [hp, Bool.false_eq_true, if_false]
      refine ⟨trivial, ?_, ?_⟩
      · intro fd' page'
        unfold PFhashFind
        dsimp only
        by_cases hk : (fd', page') = (fd, page)
        · have hk' := hk
          simp only [Prod.mk.injEq] at hk'
          rw [if_pos hk, if_pos (PFhash_eq_of_key hk), chainFind,
            if_pos ⟨hk'.1.symm, hk'.2.symm⟩]
        · rw [if_neg hk]
          by_cases hb : PFhash fd' page' = PFhash fd page
          · rw [if_pos hb, chainFind, if_neg]
            · exact hfind fd' page'
            · rintro ⟨h1, h2⟩
              exact hk (by rw [← h1, ← h2])
          · rw [if_neg hb]
            exact hfind fd' page'
      · intro b
        dsimp only
        by_cases hb : b = PFhash fd page
        · rw [if_pos hb, List.map_cons, List.nodup_cons]
          refine ⟨?_, hnd b⟩
          have hnone : m (fd, page) = none := by
            cases hm : m (fd, page) with
            | none => rfl
            | some v => rw [hm] at hp; exact absurd rfl hp
          have := hfind fd page
          rw [hnone] at this
          unfold PFhashFind at this
          rw [← hb] at this
          exact (chainFind_eq_none_iff _ _ _).1 this
        · rw [if_neg hb]
          exact hnd b
  | delete fd page =>
    simp only [hashStep, mapStep, PFhashDelete, hfind]
    by_cases hp : (m (fd, page)).isNone
    · simp only [hp, if_true]
      exact ⟨trivial, hfind, hnd⟩
    · simp only [hp, Bool.false_eq_true, if_false]
      refine ⟨trivial, ?_, ?_⟩
      · intro fd' page'
        unfold PFhashFind
        dsimp only
        by_cases hk : (fd', page') = (fd, page)
        · have hk' := hk
          simp only [Prod.mk.injEq] at hk'
          rw [if_pos hk, if_pos (PFhash_eq_of_key hk), hk'.1, hk'.2]
          exact chainFind_delete_self _ _ _ (hnd _)
        · rw [if_neg hk]
          by_cases hb : PFhash fd' page' = PFhash fd page
          · rw [if_pos hb, chainFind_delete_other _ hk]
            exact hfind fd' page'
          · rw [if_neg hb]
            exact hfind fd' page'
      · intro b
        dsimp only
        by_cases hb : b = PFhash fd page
        · rw [if_pos hb, chainDelete_keys]
          exact (hnd b).erase _
        · rw [if_neg hb]
          exact hnd b

theorem hashRun_rep {t : PFhashTbl} {m : FrameMap} (R : HashRep t m) (ops : List HashOp) :
    hashRun t ops = mapRun m ops := by
  induction ops generalizing t m with
  | nil => rfl
  | cons op ops ih =>
    rw [hashRun, mapRun, (hashStep_rep R op).1, ih (hashStep_rep R op).2]

/-- Every hash table reached from `PFhashInit` holds a finite map. -/
theorem hashTable_rep (ops : List HashOp) : ∃ m, HashRep (hashTable ops) m := by
  induction ops with
  | nil => exact ⟨_, hashRep_init⟩
  | cons op ops ih =>
    obtain ⟨m, R⟩ := ih
    exact ⟨_, (hashStep_rep R op).2⟩

/-- C20: from `PFhashInit` on, the calls of the hash table return what the
same calls return on a finite map from `(fd, page)` to buffer pages; in a
hash table so reached `PFhashInsert` succeeds iff the key is absent and then
binds the key to the buffer page and changes no other key, and
`PFhashDelete` succeeds iff the key is present and then removes that key and
no other; and `main` of `testhash.c` (100 keys inserted, each found, each
deleted in the reverse order) runs to its end. -/
theorem C20_hash_index_finite_map :
    (∀ ops, hashRun PFhashInit ops = mapRun (fun _ => none) ops) ∧
    (∀ ops fd page bpage,
      ((PFhashInsert (hashTable ops) fd page bpage).1 = PFE_OK ↔
        PFhashFind (hashTable ops) fd page = none) ∧
      ((PFhashInsert (hashTable ops) fd page bpage).1 = PFE_OK →
        ∀ fd' page', PFhashFind (PFhashInsert (hashTable ops) fd page bpage).2 fd' page' =
          if (fd', page') = (fd, page) then some bpage
          else PFhashFind (hashTable ops) fd' page') ∧
      ((PFhashDelete (hashTable ops) fd page).1 = PFE_OK ↔
        PFhashFind (hashTable ops) fd page ≠ none) ∧
      ((PFhashDelete (hashTable ops) fd page).1 = PFE_OK →
        ∀ fd' page', PFhashFind (PFhashDelete (hashTable ops) fd page).2 fd' page' =
          if (fd', page') = (fd, page) then none
          else PFhashFind (hashTable ops) fd' page')) ∧
    testhash_main = 0 := by
  refine ⟨fun ops => hashRun_rep hashRep_init ops, ?_, by decide⟩
  intro ops fd page bpage
  obtain ⟨m, R⟩ := hashTable_rep ops
  have hi := (hashStep_rep R (.insert fd page bpage)).2.1
  have hd := (hashStep_rep R (.delete fd page)).2.1
  simp only [hashStep, mapStep] at hi hd
  have hf := R.1
  refine ⟨?_, ?_, ?_, ?_⟩
  · unfold PFhashInsert
    cases h : PFhashFind (hashTable ops) fd page with
    | none => simp
    | some v => simp [PFE_HASHPAGEEXIST, PFE_OK]
  · intro hok fd' page'
    have hnone : m (fd, page) = none := by
      rw [← hf]
      unfold PFhashInsert at hok
      cases h : PFhashFind (hashTable ops) fd page with
      | none => rfl
      | some v => rw [h] at hok; simp [PFE_HASHPAGEEXIST, PFE_OK] at hok
    rw [hi fd' page', hnone, hf]
    simp
  · unfold PFhashDelete
    cases h : PFhashFind (hashTable ops) fd page with
    | none => simp [PFE_HASHNOTFOUND, PFE_OK]
    | some v => simp
  · intro hok fd' page'
    have hsome : (m (fd, page)).isNone = false := by
      rw [← hf]
      unfold PFhashDelete at hok
      cases h : PFhashFind (hashTable ops) fd page with
      | none => rw [h] at hok; simp [PFE_HASHNOTFOUND, PFE_OK] at hok
      | some v => rfl
    rw [hd fd' page', hsome, hf]
    simp

/-! ## The iteration bounds of the embedding are never used up -/

theorem PF_GetNextPage_eq (st : PFState) (n : Nat) :
    PF_GetNextPage st n =
      ((st.fix (.GetNextPage n) (n + 1)).1, n + 1, (st.fix (.GetNextPage n) (n + 1)).2) := by
  unfold PF_GetNextPage
  rfl

theorem PF_GetFirstPage_eq (st : PFState) :
    PF_GetFirstPage st = ((st.fix .GetFirstPage 0).1, 0, (st.fix .GetFirstPage 0).2) := by
  unfold PF_GetFirstPage
  rfl

theorem sp_alloc_new_page_ne_undef (st : PFState) : sp_alloc_new_page st ≠ .undef := by
  unfold sp_alloc_new_page
  rcases PF_AllocPage st with ⟨rc, pn, st1⟩
  simp only
  split_ifs <;> simp

/-- One iteration of the loop of `sp_find_page_for_insert`, from the test of
`free_space` on, has a defined result when the rest of the loop has. -/
theorem sp_find_page_step_defined (len : Int) (fuel : Nat) (st : PFState) (pn : Nat)
    (ih : ∀ (s : PFState), s.page = st.page → s.numpages = st.numpages →
      pn + 1 < st.numpages → sp_find_page_loop len fuel s (pn + 1) = .undef →
      ∃ m, m < st.numpages ∧
        sp_scan_deleted (st.page m) 0 (sp_read_header (st.page m)).slot_count = .oob)
    (b : Prop) [Decidable b] (r : SPRet Nat)
    (hr : r =
      if b then .ok pn st
      else
        match PF_UnfixPage st pn false with
        | (rc, st1) =>
          if rc ≠ PFE_OK then .fail (-1) st1
          else
            match PF_GetNextPage st1 pn with
            | (rc2, nextPage, st2) =>
              if rc2 = PFE_EOF then sp_alloc_new_page st2
              else if rc2 ≠ PFE_OK then .fail (-1) st2
              else sp_find_page_loop len fuel st2 nextPage)
    (hu : r = .undef) :
    ∃ m, m < st.numpages ∧
      sp_scan_deleted (st.page m) 0 (sp_read_header (st.page m)).slot_count = .oob := by
  subst hr
  split_ifs at hu with hfit
  have hp1 := PF_UnfixPage_page st pn false
  have hn1 := PF_UnfixPage_numpages st pn false
  revert hu hp1 hn1
  rcases PF_UnfixPage st pn false with ⟨rc, st1⟩
  intro hu hp1 hn1
  simp only at hu hp1 hn1
  rw [PF_GetNextPage_eq] at hu
  simp only at hu
  split_ifs at hu with hrc h1 h2
  · exact absurd hu (sp_alloc_new_page_ne_undef _)
  · simp only [ne_eq, Decidable.not_not] at h2
    have hlt := fix_ok_lt h2
    rw [hn1] at hlt
    exact ih _ (by rw [fix_page, hp1]) (by rw [fix_numpages, hn1]) hlt hu

/-- The loop of `sp_find_page_for_insert` has no defined result only when
the scan of a slot directory leaves a page buffer: the iteration bound is
not what stops it. -/
theorem sp_find_page_loop_defined (len : Int) (st : PFState) :
    ∀ fuel (s : PFState) (q : Nat), s.page = st.page → s.numpages = st.numpages →
      q < st.numpages → st.numpages ≤ q + fuel → sp_find_page_loop len fuel s q = .undef →
      ∃ m, m < st.numpages ∧
        sp_scan_deleted (st.page m) 0 (sp_read_header (st.page m)).slot_count = .oob := by
  intro fuel
  induction fuel with
  | zero => intro s q _ _ hq hfu; omega
  | succ fuel ih =>
    intro s q hp hnp hq hfu hu
    have ih' : ∀ (s' : PFState), s'.page = s.page → s'.numpages = s.numpages →
        q + 1 < s.numpages → sp_find_page_loop len fuel s' (q + 1) = .undef →
        ∃ m, m < s.numpages ∧
          sp_scan_deleted (s.page m) 0 (sp_read_header (s.page m)).slot_count = .oob := by
      intro s' hp' hnp' hq' hu'
      rw [hp, hnp]
      exact ih s' (q + 1) (by rw [hp', hp]) (by rw [hnp', hnp]) (by omega) (by omega) hu'
    have hres : ∃ m, m < s.numpages ∧
        sp_scan_deleted (s.page m) 0 (sp_read_header (s.page m)).slot_count = .oob := by
      cases hsc : sp_scan_deleted (s.page q) 0 (sp_read_header (s.page q)).slot_count with
      | oob => exact ⟨q, by omega, hsc⟩
      | found i =>
        refine sp_find_page_step_defined len fuel s q ih'
          (((sp_read_header (s.page q)).free_space : Int) ≥ len + ((0 : Nat) : Int)) _ ?_ hu
        rw [sp_find_page_loop]
        simp only [hsc]
        rfl
      | absent =>
        refine sp_find_page_step_defined len fuel s q ih'
          (((sp_read_header (s.page q)).free_space : Int) ≥ len + ((SP_SLOT_SIZE : Nat) : Int))
          _ ?_ hu
        rw [sp_find_page_loop]
        simp only [hsc]
        rfl
    rw [hp, hnp] at hres
    exact hres

/-- The function `sp_find_page_for_insert` has no defined result only when
the scan of a slot directory leaves a page buffer. -/
theorem sp_find_page_for_insert_defined (st : PFState) (len : Int)
    (hu : sp_find_page_for_insert st len = .undef) :
    ∃ m, m < st.numpages ∧
      sp_scan_deleted (st.page m) 0 (sp_read_header (st.page m)).slot_count = .oob := by
  unfold sp_find_page_for_insert at hu
  rw [PF_GetFirstPage_eq] at hu
  simp only at hu
  split_ifs at hu with h1 h2
  · exact absurd hu (sp_alloc_new_page_ne_undef _)
  · simp only [ne_eq, Decidable.not_not] at h2
    have hlt := fix_ok_lt h2
    exact sp_find_page_loop_defined len st _ _ 0 (fix_page _ _ _) (fix_numpages _ _ _) hlt
      (by rw [fix_numpages]; omega) hu

/-- The loop of `SP_ComputeSpaceUtilization` has no defined result only when
the sum over a slot directory leaves a page buffer. -/
theorem sp_util_loop_defined (st : PFState) :
    ∀ fuel (s : PFState) (q : Nat) (pages total : Int), s.page = st.page →
      s.numpages = st.numpages → q < st.numpages → st.numpages ≤ q + fuel →
      sp_util_loop fuel s q pages total = .undef →
      ∃ m, m < st.numpages ∧
        sp_used_loop (st.page m) 0 (sp_read_header (st.page m)).slot_count 0 = none := by
  intro fuel
  induction fuel with
  | zero => intro s q _ _ _ _ hq hfu; omega
  | succ fuel ih =>
    intro s q pages total hp hnp hq hfu hu
    rw [sp_util_loop] at hu
    simp only at hu
    cases hus : sp_used_loop (s.page q) 0 (sp_read_header (s.page q)).slot_count 0 with
    | none => exact ⟨q, hq, by rw [← hp]; exact hus⟩
    | some used =>
      rw [hus] at hu
      simp only at hu
      have hp1 := PF_UnfixPage_page s q false
      have hn1 := PF_UnfixPage_numpages s q false
      revert hu hp1 hn1
      rcases PF_UnfixPage s q false with ⟨rc, st1⟩
      intro hu hp1 hn1
      simp only at hu hp1 hn1
      rw [PF_GetNextPage_eq] at hu
      simp only at hu
      split_ifs at hu with hrc h1 h2
      simp only [ne_eq, Decidable.not_not] at h2
      have hlt := fix_ok_lt h2
      rw [hn1, hnp] at hlt
      exact ih _ (q + 1) _ _ (by rw [fix_page, hp1, hp]) (by rw [fix_numpages, hn1, hnp]) hlt
        (by omega) hu

/-- The function `SP_ComputeSpaceUtilization` has no defined result only
when the sum over a slot directory leaves a page buffer. -/
theorem SP_ComputeSpaceUtilization_defined (st : PFState)
    (hu : SP_ComputeSpaceUtilization st = .undef) :
    ∃ m, m < st.numpages ∧
      sp_used_loop (st.page m) 0 (sp_read_header (st.page m)).slot_count 0 = none := by
  unfold SP_ComputeSpaceUtilization at hu
  rw [PF_GetFirstPage_eq] at hu
  simp only at hu
  split_ifs at hu with h1 h2
  simp only [ne_eq, Decidable.not_not] at h2
  have hlt := fix_ok_lt h2
  have hl := sp_util_loop_defined st (st.fix .GetFirstPage 0).2.numpages
    (st.fix .GetFirstPage 0).2 0 0 0 (fix_page _ _ _) (fix_numpages _ _ _) hlt
    (by rw [fix_numpages]; omega)
  revert hu hl
  cases sp_util_loop (st.fix .GetFirstPage 0).2.numpages (st.fix .GetFirstPage 0).2 0 0 0 with
  | undef => intro _ hl; exact hl rfl
  | fail r s => intro hu _; simp at hu
  | ok v s => intro hu _; obtain ⟨a, b⟩ := v; simp at hu

/-! ## The hash macro, the static simulation and the build drivers -/

theorem toInt32_of_range {x : Int} (h0 : 0 ≤ x) (h1 : x < 2147483648) : toInt32 x = x := by
  unfold toInt32
  have : x % 4294967296 = x := Int.emod_eq_of_lt h0 (by omega)
  rw [this, if_pos h1]

/-- C27: for a file descriptor and a page number that are not negative and
whose sum is an `int`, the macro `PFhash` gives `(fd + page) mod
PF_HASH_TBL_SIZE`, a bucket index from 0 to 19, the value the hash index
computes on the natural numbers. -/
theorem C27_hash_bucket (fd page : Int) (hfd : 0 ≤ fd) (hpage : 0 ≤ page)
    (hsum : fd + page < 2147483648) :
    PFhash_int fd page = (fd + page) % 20
      ∧ 0 ≤ PFhash_int fd page ∧ PFhash_int fd page < 20
      ∧ PFhash_int fd page = ((PFhash fd.toNat page.toNat : Nat) : Int)
      ∧ PFhash fd.toNat page.toNat < PF_HASH_TBL_SIZE := by
  have h1 : PFhash_int fd page = (fd + page) % 20 := by
    unfold PFhash_int
    rw [toInt32_of_range (by omega) hsum, Int.tmod_eq_emod (by omega) (by decide)]
    rfl
  have h2 : ((PFhash fd.toNat page.toNat : Nat) : Int) = (fd + page) % 20 := by
    unfold PFhash PF_HASH_TBL_SIZE
    push_cast
    rw [Int.toNat_of_nonneg hfd, Int.toNat_of_nonneg hpage]
  refine ⟨h1, ?_, ?_, ?_, ?_⟩
  · rw [h1]; omega
  · rw [h1]; omega
  · rw [h1, h2]
  · unfold PFhash PF_HASH_TBL_SIZE; omega

theorem C27_hash_bucket_witness :
    PFhash_int 3 45 = (3 + 45) % 20
      ∧ 0 ≤ PFhash_int 3 45 ∧ PFhash_int 3 45 < 20
      ∧ PFhash_int 3 45 = ((PFhash (3 : Int).toNat (45 : Int).toNat : Nat) : Int)
      ∧ PFhash (3 : Int).toNat (45 : Int).toNat < PF_HASH_TBL_SIZE :=
  C27_hash_bucket 3 45 (by decide) (by decide) (by decide)

theorem ceil_div_int {a b : Int} (ha : 0 ≤ a) (hb : 0 < b) :
    Int.tdiv (a + b - 1) b = ⌈(a : ℚ) / (b : ℚ)⌉ := by
  rw [Int.tdiv_eq_ediv (by omega) (by omega)]
  symm
  rw [Int.ceil_eq_iff]
  have hbq : (0 : ℚ) < (b : ℚ) := by exact_mod_cast hb
  have h1 : (a + b - 1) / b * b ≤ a + b - 1 := Int.ediv_mul_le _ (by omega)
  have h2 : a + b - 1 < ((a + b - 1) / b + 1) * b := by
    have := Int.lt_ediv_add_one_mul_self (a + b - 1) hb
    linarith
  constructor
  · rw [lt_div_iff₀ hbq]
    have : ((a + b - 1) / b - 1) * b < a := by nlinarith
    exact_mod_cast this
  · rw [div_le_iff₀ hbq]
    have : a ≤ (a + b - 1) / b * b := by nlinarith
    exact_mod_cast this

theorem floor_div_int {a b : Int} (ha : 0 ≤ a) (hb : 0 < b) :
    Int.tdiv a b = ⌊(a : ℚ) / (b : ℚ)⌋ := by
  rw [Int.tdiv_eq_ediv ha (by omega)]
  symm
  rw [Int.floor_eq_iff]
  have hbq : (0 : ℚ) < (b : ℚ) := by exact_mod_cast hb
  have h1 : a / b * b ≤ a := Int.ediv_mul_le _ (by omega)
  have h2 : a < (a / b + 1) * b := Int.lt_ediv_add_one_mul_self a hb
  constructor
  · rw [le_div_iff₀ hbq]
    exact_mod_cast h1
  · rw [div_lt_iff₀ hbq]
    exact_mod_cast h2

theorem per_page_pos {m : Int} (h0 : 0 < m) (h1 : m ≤ 4096) : 0 < Int.tdiv 4096 m := by
  rw [Int.tdiv_eq_ediv (by decide) (by omega)]
  have h2 : (4096 : Int) < (4096 / m + 1) * m := Int.lt_ediv_add_one_mul_self 4096 h0
  by_contra hc
  have h3 : 4096 / m + 1 ≤ 1 := by omega
  have h4 : (4096 / m + 1) * m ≤ 1 * m := Int.mul_le_mul_of_nonneg_right h3 (by omega)
  omega

theorem per_page_zero {m : Int} (h1 : 4096 < m) : Int.tdiv 4096 m = 0 := by
  rw [Int.tdiv_eq_ediv (by decide) (by omega)]
  exact Int.ediv_eq_zero_of_lt (by decide) h1

/-- C29: `simulate_static` returns -1 exactly when `max_rec_len <= 0` or
`max_rec_len > PF_PAGE_SIZE`; otherwise, for `total_records >= 0` and a page
count that is an `int`, it returns 0 with
`pages = ceil(total_records / floor(PF_PAGE_SIZE / max_rec_len))` and
`wasted = pages * PF_PAGE_SIZE - total_records * max_rec_len`, which is not
negative. -/
theorem C29_simulate_static (total_records max_rec_len : Int) :
    (simulate_static total_records max_rec_len = none
        ↔ max_rec_len ≤ 0 ∨ max_rec_len > PF_PAGE_SIZE)
      ∧ (0 < max_rec_len → max_rec_len ≤ PF_PAGE_SIZE → 0 ≤ total_records →
          Int.tdiv (total_records + Int.tdiv PF_PAGE_SIZE max_rec_len - 1)
            (Int.tdiv PF_PAGE_SIZE max_rec_len) < 2147483648 →
          ∃ pages wasted util,
            simulate_static total_records max_rec_len = some (pages, wasted, util)
              ∧ pages = ⌈(total_records : ℚ) / (⌊(PF_PAGE_SIZE : ℚ) / (max_rec_len : ℚ)⌋ : ℚ)⌉
              ∧ wasted = pages * PF_PAGE_SIZE - total_records * max_rec_len
              ∧ 0 ≤ wasted) := by
  have hP : ((PF_PAGE_SIZE : Nat) : Int) = 4096 := rfl
  have hPq : ((PF_PAGE_SIZE : Nat) : ℚ) = ((4096 : Int) : ℚ) := by
    norm_num [PF_PAGE_SIZE]
  constructor
  · unfold simulate_static
    rw [hP]
    by_cases h0 : max_rec_len ≤ 0
    · simp [h0]
    · rw [if_neg h0]
      by_cases h1 : max_rec_len ≤ 4096
      · have hpp := per_page_pos (not_le.mp h0) h1
        simp only [if_neg (not_le.mpr hpp)]
        constructor
        · intro h; cases h
        · intro h; omega
      · have hz := per_page_zero (not_le.mp h1)
        simp only [hz, le_refl, if_true, true_iff]
        right; omega
  · intro h0 h1 ht hfit
    rw [hP] at h1 hfit
    have hpp := per_page_pos h0 h1
    have hnn : 0 ≤ Int.tdiv (total_records + Int.tdiv 4096 max_rec_len - 1)
        (Int.tdiv 4096 max_rec_len) := by
      rw [Int.tdiv_eq_ediv (by omega) (by omega)]
      exact Int.ediv_nonneg (by omega) (by omega)
    have hpg := toInt32_of_range hnn hfit
    have hceil := @ceil_div_int total_records (Int.tdiv 4096 max_rec_len) ht hpp
    have hfloor := @floor_div_int 4096 max_rec_len (by decide) h0
    -- the pages hold all records
    have hcover : total_records ≤ Int.tdiv (total_records + Int.tdiv 4096 max_rec_len - 1)
        (Int.tdiv 4096 max_rec_len) * Int.tdiv 4096 max_rec_len := by
      rw [Int.tdiv_eq_ediv (by omega) (by omega)]
      have := Int.lt_ediv_add_one_mul_self
        (total_records + Int.tdiv 4096 max_rec_len - 1) hpp
      linarith
    have hper : Int.tdiv 4096 max_rec_len * max_rec_len ≤ 4096 := by
      rw [Int.tdiv_eq_ediv (by decide) (by omega)]
      exact Int.ediv_mul_le _ (by omega)
    have hs : simulate_static total_records max_rec_len
        = some (Int.tdiv (total_records + Int.tdiv 4096 max_rec_len - 1)
              (Int.tdiv 4096 max_rec_len),
            Int.tdiv (total_records + Int.tdiv 4096 max_rec_len - 1)
              (Int.tdiv 4096 max_rec_len) * PF_PAGE_SIZE - total_records * max_rec_len,
            if Int.tdiv (total_records + Int.tdiv 4096 max_rec_len - 1)
                (Int.tdiv 4096 max_rec_len) * PF_PAGE_SIZE = 0 then none
            else some (((total_records * max_rec_len : Int) : ℚ)
              / ((Int.tdiv (total_records + Int.tdiv 4096 max_rec_len - 1)
                (Int.tdiv 4096 max_rec_len) * PF_PAGE_SIZE : Int) : ℚ) * 100)) := by
      unfold simulate_static
      rw [hP, if_neg (not_le.mpr h0)]
      simp only [if_neg (not_le.mpr hpp), hpg]
    refine ⟨_, _, _, hs, ?_, rfl, ?_⟩
    · rw [hPq, ← hfloor, hceil]
    · rw [hP]
      have h5 : total_records * max_rec_len
          ≤ Int.tdiv (total_records + Int.tdiv 4096 max_rec_len - 1)
              (Int.tdiv 4096 max_rec_len) * Int.tdiv 4096 max_rec_len * max_rec_len :=
        Int.mul_le_mul_of_nonneg_right hcover (by omega)
      have h6 : Int.tdiv (total_records + Int.tdiv 4096 max_rec_len - 1)
            (Int.tdiv 4096 max_rec_len) * (Int.tdiv 4096 max_rec_len * max_rec_len)
          ≤ Int.tdiv (total_records + Int.tdiv 4096 max_rec_len - 1)
            (Int.tdiv 4096 max_rec_len) * 4096 :=
        Int.mul_le_mul_of_nonneg_left hper hnn
      rw [Int.mul_assoc] at h5
      linarith

theorem C29_simulate_static_witness :
    ∃ pages wasted util,
      simulate_static 10 100 = some (pages, wasted, util)
        ∧ pages = ⌈((10 : Int) : ℚ) / (⌊(PF_PAGE_SIZE : ℚ) / ((100 : Int) : ℚ)⌋ : ℚ)⌉
        ∧ wasted = pages * PF_PAGE_SIZE - 10 * 100
        ∧ 0 ≤ wasted :=
  (C29_simulate_static 10 100).2 (by decide) (by decide) (by decide) (by decide)

theorem AM_indexFileName_student (indexNo : Int) :
    AM_indexFileName "student" indexNo = test_queries_indexfname indexNo := by
  unfold AM_indexFileName test_queries_indexfname
  rfl

theorem driver_insert_target (canOpen : String → Bool) (fname : String) (x : Int × Int) :
    (driver_insert canOpen fname x).1 = if canOpen fname then .opened fname else .fd0 := by
  unfold driver_insert
  split <;> rfl

/-- With no `indexNo` argument (or the default one) and an index file that
`PF_OpenFile` can open, `build_incremental` inserts into the index it created. -/
theorem build_incremental_default (canOpen : String → Bool) (recs : List (Int × Int))
    (h : canOpen "student.2" = true) :
    InsertsIntoCreated (build_incremental none canOpen recs) := by
  intro x hx
  simp only [build_incremental, List.mem_map] at hx
  obtain ⟨y, -, rfl⟩ := hx
  rw [driver_insert_target, if_pos h]
  rfl

theorem bulk_load_index_default (canOpen : String → Bool) (recs : List (Int × Int))
    (h : canOpen "student.3" = true) :
    InsertsIntoCreated (bulk_load_index none canOpen recs) := by
  intro x hx
  simp only [bulk_load_index, List.mem_map] at hx
  obtain ⟨y, -, rfl⟩ := hx
  rw [driver_insert_target, if_pos h]
  rfl

/-- C28: called with `indexNo` 5, each of the three build drivers creates the
index `student.5`, and none of its `AM_InsertEntry` calls works on that file:
`build_incremental` inserts into the file opened as `student.2`,
`bulk_load_index` into `student.3`, and `build_from_file` into file descriptor 0
(first pass) and `student.1`; where the file cannot be opened the call goes to
file descriptor 0. -/
theorem C28_drivers_open_fixed_name (canOpen : String → Bool) (recs : List (Int × Int))
    (firstFail : Nat) :
    AM_indexFileName "student" 5 = "student.5"
      ∧ (build_incremental (some 5) canOpen recs).created = ("student", 5)
      ∧ (build_incremental (some 5) canOpen recs).inserts.map (fun x => x.1)
          = recs.map (fun _ => if canOpen "student.2" then .opened "student.2" else .fd0)
      ∧ (build_from_file (some 5) canOpen firstFail recs).created = ("student", 5)
      ∧ (build_from_file (some 5) canOpen firstFail recs).inserts.map (fun x => x.1)
          = (recs.take (firstFail + 1)).map (fun _ => InsertTarget.fd0)
            ++ recs.map (fun _ => if canOpen "student.1" then .opened "student.1" else .fd0)
      ∧ (bulk_load_index (some 5) canOpen recs).created = ("student", 5)
      ∧ (bulk_load_index (some 5) canOpen recs).inserts.map (fun x => x.1)
          = recs.map (fun _ => if canOpen "student.3" then .opened "student.3" else .fd0)
      ∧ ¬ InsertsIntoCreated (build_incremental (some 5) (fun _ => true) [(95302001, 0)])
      ∧ ¬ InsertsIntoCreated (build_from_file (some 5) (fun _ => true) 0 [(95302001, 0)])
      ∧ ¬ InsertsIntoCreated (bulk_load_index (some 5) (fun _ => true) [(95302001, 0)]) := by
  refine ⟨by decide, rfl, ?_, rfl, ?_, rfl, ?_, by decide, by decide, by decide⟩
  · simp only [build_incremental, List.map_map]
    apply List.map_congr_left
    intro x _
    exact driver_insert_target canOpen "student.2" x
  · simp only [build_from_file, List.map_append, List.map_map]
    congr 1
    apply List.map_congr_left
    intro x _
    exact driver_insert_target canOpen "student.1" x
  · simp only [bulk_load_index, List.map_map]
    have h1 : ∀ l : List (Int × Int),
        l.map ((fun x => x.1) ∘ driver_insert canOpen "student.3")
          = l.map (fun _ => if canOpen "student.3" then InsertTarget.opened "student.3"
              else InsertTarget.fd0) := by
      intro l
      apply List.map_congr_left
      intro x _
      exact driver_insert_target canOpen "student.3" x
    rw [h1]
    have h2 : ∀ (l l' : List (Int × Int)) (c : InsertTarget), l.length = l'.length →
        l.map (fun _ => c) = l'.map (fun _ => c) := by
      intro l l' c hl
      rw [List.map_const', List.map_const', hl]
    exact h2 _ _ _ (List.length_insertionSort _ _)

/-! ## Compaction keeps the invariants, and a second compaction changes nothing -/

theorem wr16_rd16_self (p : Page) (off : Nat) : wr16 p off (rd16 p off) = p := by
  funext i
  unfold wr16 wr8 rd16 byteOf
  have h0 := (p off).isLt
  have h1 := (p (off + 1)).isLt
  by_cases hi1 : i = off + 1
  · subst hi1
    rw [if_pos rfl]
    apply Fin.ext
    simp only
    omega
  · rw [if_neg hi1]
    by_cases hi0 : i = off
    · subst hi0
      rw [if_pos rfl]
      apply Fin.ext
      simp only
      omega
    · rw [if_neg hi0]

theorem wr16_mod (p : Page) (off v : Nat) : wr16 p off (v % 65536) = wr16 p off v := by
  unfold wr16 byteOf
  have e1 : v % 65536 % 256 = v % 256 := by omega
  have e2 : v % 65536 / 256 % 256 = v / 256 % 256 := by omega
  simp only [e1, e2]

theorem wr32_rd32_self (p : Page) (off : Nat) : wr32 p off (rd32 p off) = p := by
  unfold wr32 rd32
  have h0 := rd16_lt p off
  have h1 := rd16_lt p (off + 2)
  have e1 : (rd16 p off + 65536 * rd16 p (off + 2)) % 65536 = rd16 p off := by omega
  have e2 : (rd16 p off + 65536 * rd16 p (off + 2)) / 65536 = rd16 p (off + 2) := by omega
  rw [← wr16_mod p off, e1, e2, wr16_rd16_self, wr16_rd16_self]

theorem sp_write_header_read_self (p : Page) : sp_write_header p (sp_read_header p) = p := by
  unfold sp_write_header sp_read_header
  simp only [wr32_rd32_self, wr16_rd16_self]

theorem writeSlot_readSlot_self (p : Page) (j : Nat) : writeSlot p j (readSlot p j) = p := by
  unfold writeSlot readSlot
  simp only [u16_toInt16 (rd16_lt p _), wr16_rd16_self]

theorem memcpyPage_self (p : Page) (off len : Nat) : memcpyPage p off p off len = p := by
  funext i
  unfold memcpyPage
  split
  · congr 1; omega
  · rfl

/-- The compact form of a page: every live slot starts where the live slots up
to it have used up the page from the top, and `free_offset` is where all of
them have. -/
theorem compact_page_layout {p p' : Page} (hlay : Layout p)
    (h : SP_CompactPage_page p = .ok p') :
    Layout p' ∧ SpaceExact p' ∧
      (sp_read_header p').slot_count = (sp_read_header p).slot_count ∧
      (∀ j, j < (sp_read_header p').slot_count → (readSlot p' j).offset ≠ -1 →
        (readSlot p' j).offset = 4096 - liveBytes p' (j + 1)) ∧
      ((sp_read_header p').free_offset : Int) =
        4096 - liveBytes p' (sp_read_header p').slot_count := by
  obtain ⟨p2, hcp, hhdr, htomb, hlive, -⟩ := compact_page_effect hlay
  rw [h] at hcp
  simp only [PgRes.ok.injEq] at hcp
  subst hcp
  have hdir := hlay.1
  have hfo := hlay.2.1
  simp only [SP_HEADER_SIZE, SP_SLOT_SIZE, PF_PAGE_SIZE] at hdir hfo
  have hle : ∀ i, i ≤ (sp_read_header p).slot_count →
      liveBytes p i ≤ 4096 - ((sp_read_header p).free_offset : Int) :=
    fun i hi => liveBytes_le hlay hi
  have hnn : ∀ i, i ≤ (sp_read_header p).slot_count → 0 ≤ liveBytes p i :=
    fun i hi => liveBytes_nonneg hlay hi
  have hmono : ∀ i j, i ≤ j → j ≤ (sp_read_header p).slot_count →
      liveBytes p i ≤ liveBytes p j := fun i j hij hj => liveBytes_mono hlay hij hj
  have hsc : (sp_read_header p').slot_count = (sp_read_header p).slot_count := by
    rw [hhdr]
  have hne : ∀ j, j < (sp_read_header p).slot_count →
      (readSlot p j).offset ≠ -1 → (readSlot p' j).offset ≠ -1 := by
    intro j hj hl
    rw [hlive j hj hl]
    have := hle (j + 1) (by omega)
    simp only [ne_eq]
    omega
  have hback : ∀ j, j < (sp_read_header p).slot_count →
      (readSlot p' j).offset ≠ -1 → (readSlot p j).offset ≠ -1 := by
    intro j hj hl hl0
    rw [htomb j hj hl0] at hl
    exact hl hl0
  have hlb : ∀ i, i ≤ (sp_read_header p).slot_count → liveBytes p' i = liveBytes p i := by
    intro i
    induction i with
    | zero => intro _; rfl
    | succ i ih =>
      intro hi
      rw [liveBytes_succ, liveBytes_succ, ih (by omega)]
      by_cases hl : (readSlot p i).offset = -1
      · rw [htomb i (by omega) hl]
      · rw [if_neg hl, if_neg (hne i (by omega) hl), hlive i (by omega) hl]
  have hfo' : ((sp_read_header p').free_offset : Int) =
      4096 - liveBytes p (sp_read_header p).slot_count := by
    rw [hhdr]
    have := hle _ (le_refl (sp_read_header p).slot_count)
    simp only
    omega
  have hfs' : ((sp_read_header p').free_space : Int) =
      4096 - liveBytes p (sp_read_header p).slot_count
        - (12 + (sp_read_header p).slot_count * 4) := by
    rw [hhdr]
    have := hle _ (le_refl (sp_read_header p).slot_count)
    simp only
    omega
  have hlen : ∀ j, j < (sp_read_header p).slot_count → (readSlot p j).offset ≠ -1 →
      0 ≤ (readSlot p j).length := fun j hj hl => (hlay.2.2.1 j hj hl).1
  have hsucc : ∀ j, (readSlot p j).offset ≠ -1 →
      liveBytes p (j + 1) = liveBytes p j + (readSlot p j).length := by
    intro j hl
    rw [liveBytes_succ, if_neg hl]
  refine ⟨⟨?_, ?_, ?_, ?_⟩, ?_, hsc, ?_, ?_⟩
  · have := hle _ (le_refl (sp_read_header p).slot_count)
    rw [hsc]
    simp only [SP_HEADER_SIZE, SP_SLOT_SIZE]
    omega
  · have := hnn _ (le_refl (sp_read_header p).slot_count)
    simp only [PF_PAGE_SIZE]
    omega
  · intro j hj hl
    rw [hsc] at hj
    have hl0 := hback j hj hl
    have h1 := hmono (j + 1) _ (by omega) (le_refl (sp_read_header p).slot_count)
    have h2 := hnn j (by omega)
    have h3 := hsucc j hl0
    have h4 := hlen j hj hl0
    unfold SlotInArea
    rw [hlive j hj hl0, hfo']
    simp only [PF_PAGE_SIZE]
    refine ⟨h4, by omega, ?_⟩
    push_cast
    omega
  · intro i hi j hj hij hli hlj
    rw [hsc] at hi hj
    have hli0 := hback i hi hli
    have hlj0 := hback j hj hlj
    unfold SlotsDisjoint
    rw [hlive i hi hli0, hlive j hj hlj0]
    simp only
    have hsi := hsucc i hli0
    have hsj := hsucc j hlj0
    rcases Nat.lt_or_gt_of_ne hij with hlt | hgt
    · right
      have := hmono (i + 1) j (by omega) (by omega)
      omega
    · left
      have := hmono (j + 1) i (by omega) (by omega)
      omega
  · unfold SpaceExact
    rw [hfs', hfo', hsc]
    simp only [SP_HEADER_SIZE, SP_SLOT_SIZE]
    push_cast
    omega
  · intro j hj hl
    rw [hsc] at hj
    have hl0 := hback j hj hl
    rw [hlive j hj hl0, hlb (j + 1) (by omega)]
  · rw [hfo', hsc, hlb _ (le_refl _)]

/-- On a page in compact form the loop of `SP_CompactPage` rewrites every byte
with the value it has. -/
theorem sp_compact_loop_fixed {q : Page} (hlay : Layout q)
    (hoff : ∀ j, j < (sp_read_header q).slot_count → (readSlot q j).offset ≠ -1 →
      (readSlot q j).offset = 4096 - liveBytes q (j + 1)) :
    ∀ k i, i + k = (sp_read_header q).slot_count →
      sp_compact_loop q i k q (4096 - liveBytes q i) = some (q, 4096 - liveBytes q (i + k)) := by
  have hdir := hlay.1
  have hfo := hlay.2.1
  simp only [SP_HEADER_SIZE, SP_SLOT_SIZE, PF_PAGE_SIZE] at hdir hfo
  intro k
  induction k with
  | zero => intro i _; rfl
  | succ k ih =>
    intro i hik
    have hi : i < (sp_read_header q).slot_count := by omega
    have hslot : slotInPage i := by
      unfold slotInPage sp_slot_ptr
      simp only [SP_HEADER_SIZE, SP_SLOT_SIZE, PF_PAGE_SIZE]
      omega
    rw [sp_compact_loop]
    rw [if_neg (not_not.mpr hslot)]
    have e : i + (k + 1) = (i + 1) + k := by omega
    by_cases hl : (readSlot q i).offset = -1
    · simp only [if_pos hl]
      have := ih (i + 1) (by omega)
      rw [liveBytes_succ, if_pos hl] at this
      rw [e]
      simpa using this
    · simp only [if_neg hl]
      have hcur : (4096 : Int) - liveBytes q i - (readSlot q i).length = (readSlot q i).offset := by
        rw [hoff i hi hl, liveBytes_succ, if_neg hl]
        omega
      have harea := hlay.2.2.1 i hi hl
      unfold SlotInArea at harea
      simp only [PF_PAGE_SIZE] at harea
      have hin : inPage (readSlot q i).offset (readSlot q i).length := by
        unfold inPage
        simp only [PF_PAGE_SIZE]
        omega
      rw [hcur, if_neg (not_not.mpr ⟨hin, hin⟩), memcpyPage_self]
      have hrange := readSlot_offset_range q i
      have h16 : int16 (readSlot q i).offset = (readSlot q i).offset :=
        int16_of_range (by omega) (by omega)
      rw [h16]
      have hself : writeSlot q i { offset := (readSlot q i).offset, length := (readSlot q i).length }
          = q := writeSlot_readSlot_self q i
      rw [hself]
      have := ih (i + 1) (by omega)
      rw [liveBytes_succ, if_neg hl] at this
      rw [e, ← this]
      congr 1
      omega

/-- A second compaction leaves the page as the first one made it. -/
theorem compact_page_idem {p p' : Page} (hlay : Layout p)
    (h : SP_CompactPage_page p = .ok p') : SP_CompactPage_page p' = .ok p' := by
  obtain ⟨hlay', hex', -, hoff, hfo'⟩ := compact_page_layout hlay h
  have hloop := sp_compact_loop_fixed hlay' hoff (sp_read_header p').slot_count 0 (by omega)
  have h0 : (4096 : Int) - liveBytes p' 0 = ((PF_PAGE_SIZE : Nat) : Int) := by
    simp [liveBytes, PF_PAGE_SIZE]
  rw [h0, Nat.zero_add, ← hfo'] at hloop
  unfold SP_CompactPage_page
  simp only [hloop]
  have e1 : u16 ((sp_read_header p').free_offset : Int) = (sp_read_header p').free_offset :=
    u16_natCast (sp_read_header_free_offset_lt p')
  unfold SpaceExact at hex'
  have e2 : u16 (((sp_read_header p').free_offset : Int) -
      (SP_HEADER_SIZE + (sp_read_header p').slot_count * SP_SLOT_SIZE))
        = (sp_read_header p').free_space := by
    have e3 : ((sp_read_header p').free_offset : Int) -
        (SP_HEADER_SIZE + (sp_read_header p').slot_count * SP_SLOT_SIZE)
          = (((sp_read_header p').free_space : Nat) : Int) := by
      rw [hex']; ring
    rw [e3]
    exact u16_natCast (sp_read_header_free_space_lt p')
  rw [e1, e2]
  exact congrArg PgRes.ok (sp_write_header_read_self p')

/-! ## The invariants on files built by inserts and compactions -/

theorem insert_page_inv {p : Page} {data : List Byte} {len : Int} {p' : Page} {idx : Nat}
    (hlay : Layout p) (hex : SpaceExact p) (hlen : 0 < len)
    (h : SP_InsertRecord_page p data len = .ok (p', idx)) : Layout p' ∧ SpaceExact p' :=
  insert_effect_layout (insert_effect h hex hlen) hlay hlen

theorem SP_InsertRecord_inv {st : PFState} {data : List Byte} {len : Int} {rid : Nat}
    {st' : PFState} (hf : st.faults = []) (hinv : PagesInv st)
    (h : SP_InsertRecord st data len = .ok rid st') : PagesInv st' ∧ st'.faults = [] := by
  obtain ⟨h0, h1, q, st1, p', idx, hfind, hbody, -, hpage, hnp, -⟩ := SP_InsertRecord_ok h
  rcases SP_InsertRecord_nil st data len hf h0 h1 with hu |
    ⟨q2, st2, p2, idx2, s, hq, hff, -, hok, hfs⟩
  · rw [hu] at h; cases h
  · rw [hok] at h
    simp only [SPRet.ok.injEq] at h
    obtain ⟨-, e⟩ := h
    subst e
    rw [hq] at hfind
    simp only [SPRet.ok.injEq] at hfind
    obtain ⟨e1, e2⟩ := hfind
    subst e1 e2
    refine ⟨?_, hfs⟩
    have hq1 : Layout (st2.page q2) ∧ SpaceExact (st2.page q2) := by
      rcases hff with ⟨a, -, -, -, -, f⟩ | ⟨a, -, -, d⟩
      · rw [f]; exact hinv q2 a
      · rw [d, a]
        simp only [if_true]
        exact ⟨layout_init _, spaceExact_init _⟩
    intro pn hpn
    rw [hpage]
    by_cases hpq : pn = q2
    · simp only [hpq, if_true]
      exact insert_page_inv hq1.1 hq1.2 h0 hbody
    · simp only [if_neg hpq]
      rw [hnp] at hpn
      rcases hff with ⟨-, -, -, -, e, f⟩ | ⟨a, -, c, d⟩
      · rw [f]; exact hinv pn (by omega)
      · rw [d]
        dsimp only
        rw [if_neg (show ¬ pn = st.numpages by omega)]
        exact hinv pn (by omega)

theorem SP_InsertRecord_fail_nil {st : PFState} {data : List Byte} {len : Int} {rc : Int}
    {st' : PFState} (hf : st.faults = []) (h : SP_InsertRecord st data len = .fail rc st') :
    st' = st := by
  by_cases hlen : len ≤ 0 ∨ len > (PF_PAGE_SIZE : Int) - SP_HEADER_SIZE - SP_SLOT_SIZE
  · unfold SP_InsertRecord at h
    rw [if_pos hlen] at h
    simp only [SPRet.fail.injEq] at h
    exact h.2.symm
  · simp only [PF_PAGE_SIZE, SP_HEADER_SIZE, SP_SLOT_SIZE] at hlen
    rcases SP_InsertRecord_nil st data len hf (by omega) (by omega) with hu |
      ⟨q, st1, p', idx, s, -, -, -, hok, -⟩
    · rw [hu] at h; cases h
    · rw [hok] at h; cases h

theorem SP_CompactPage_inv {st : PFState} {pn : Nat} {b : Bool} {st' : PFState}
    (hinv : PagesInv st) (h : SP_CompactPage st pn b = .ok () st') : PagesInv st' := by
  obtain ⟨hn, hnp, p', hcp, hpage⟩ := SP_CompactPage_ok h
  intro m hm
  rw [hpage]
  by_cases hmp : m = pn
  · simp only [hmp, if_true]
    obtain ⟨a, b, -⟩ := compact_page_layout (hinv pn hn).1 hcp
    exact ⟨a, b⟩
  · simp only [if_neg hmp]
    exact hinv m (by omega)

theorem SP_CompactPage_final_nil {st : PFState} {pn : Nat} {b : Bool} {st' : PFState}
    (hf : st.faults = []) (hinv : PagesInv st)
    (h : (SP_CompactPage st pn b).final = some st') : PagesInv st' ∧ st'.faults = [] := by
  by_cases hn : pn < st.numpages
  · obtain ⟨sa, ea, pa, na, ja, fa, qa⟩ := PF_GetThisPage_nil hf hn
    by_cases hb : b = true
    · subst hb
      obtain ⟨p', hcp, -⟩ := compact_page_effect (hinv pn hn).1
      obtain ⟨s, hs, -, -, hfs⟩ := SP_CompactPage_nil hf hn hcp
      rw [hs] at h
      simp only [SPRet.final, Option.some.injEq] at h
      subst h
      exact ⟨SP_CompactPage_inv hinv hs, hfs⟩
    · have hb' : b = false := by simpa using hb
      subst hb'
      obtain ⟨sb, eb, pb, nb, jb, fb⟩ := PF_UnfixPage_nil_ex sa pn false fa qa
      unfold SP_CompactPage at h
      rw [ea] at h
      simp only [ne_eq, not_true_eq_false, if_false, Bool.not_eq_true, if_true, eb,
        SPRet.final, Option.some.injEq] at h
      subst h
      refine ⟨?_, fb⟩
      intro m hm
      rw [pb, pa]
      exact hinv m (by omega)
  · have e : PF_GetThisPage st pn = (PFE_EOF, st.log (.GetThisPage pn) PFE_EOF) := by
      unfold PF_GetThisPage
      exact fix_nil_eof _ hf (by omega)
    unfold SP_CompactPage at h
    rw [e] at h
    have hne : PFE_EOF ≠ PFE_OK := by decide
    simp only [if_pos hne, SPRet.final, Option.some.injEq] at h
    subst h
    exact ⟨hinv, hf⟩

theorem buildStep_inv {st : PFState} {op : BuildOp} {st' : PFState} (hf : st.faults = [])
    (hinv : PagesInv st) (h : buildStep st op = some st') : PagesInv st' ∧ st'.faults = [] := by
  cases op with
  | insert data len =>
    simp only [buildStep] at h
    cases hr : SP_InsertRecord st data len with
    | undef => rw [hr] at h; cases h
    | fail rc s =>
      rw [hr] at h
      simp only [SPRet.final, Option.some.injEq] at h
      subst h
      rw [SP_InsertRecord_fail_nil hf hr]
      exact ⟨hinv, hf⟩
    | ok rid s =>
      rw [hr] at h
      simp only [SPRet.final, Option.some.injEq] at h
      subst h
      exact SP_InsertRecord_inv hf hinv hr
  | compact pn b =>
    simp only [buildStep] at h
    exact SP_CompactPage_final_nil hf hinv h

theorem buildFile_inv : ∀ (ops : List BuildOp) (st st' : PFState), st.faults = [] →
    PagesInv st → buildFile st ops = some st' → PagesInv st' ∧ st'.faults = [] := by
  intro ops
  induction ops with
  | nil =>
    intro st st' hf hinv h
    simp only [buildFile, Option.some.injEq] at h
    subst h
    exact ⟨hinv, hf⟩
  | cons op ops ih =>
    intro st st' hf hinv h
    simp only [buildFile] at h
    cases hs : buildStep st op with
    | none => rw [hs] at h; cases h
    | some s =>
      rw [hs] at h
      obtain ⟨h1, h2⟩ := buildStep_inv hf hinv hs
      exact ih s st' h2 h1 h

/-- C25: the layout invariant together with the space accounting
`free_space == free_offset - header_size - slot_count * slot_size` is kept by
a successful insertion into a page and by a compaction of it; a successful
`SP_InsertRecord` and a successful `SP_CompactPage` on a file all of whose
pages satisfy both leave such a file; hence both hold on every page of every
file that a sequence of `SP_InsertRecord` and `SP_CompactPage` calls builds
from a new file. -/
theorem C25_insert_compact_invariant :
    (∀ (p : Page) (data : List Byte) (len : Int) (p' : Page) (idx : Nat),
        Layout p → SpaceExact p → 0 < len →
        SP_InsertRecord_page p data len = .ok (p', idx) → Layout p' ∧ SpaceExact p')
      ∧ (∀ (p : Page), Layout p → SpaceExact p →
          ∃ p', SP_CompactPage_page p = .ok p' ∧ Layout p' ∧ SpaceExact p')
      ∧ (∀ (st : PFState) (data : List Byte) (len : Int) (rid : Nat) (st' : PFState),
          st.faults = [] → PagesInv st → SP_InsertRecord st data len = .ok rid st' →
          PagesInv st')
      ∧ (∀ (st : PFState) (pageNum : Nat) (mallocOk : Bool) (st' : PFState),
          PagesInv st → SP_CompactPage st pageNum mallocOk = .ok () st' → PagesInv st')
      ∧ (∀ (junk : Nat → Page) (ops : List BuildOp) (st : PFState),
          buildFile (PFState.fresh junk []) ops = some st →
          ∀ pn, pn < st.numpages → Layout (st.page pn) ∧ SpaceExact (st.page pn)) := by
  refine ⟨?_, ?_, ?_, ?_, ?_⟩
  · intro p data len p' idx hlay hex hlen h
    exact insert_page_inv hlay hex hlen h
  · intro p hlay _
    obtain ⟨p', hcp, -⟩ := compact_page_effect hlay
    obtain ⟨a, b, -⟩ := compact_page_layout hlay hcp
    exact ⟨p', hcp, a, b⟩
  · intro st data len rid st' hf hinv h
    exact (SP_InsertRecord_inv hf hinv h).1
  · intro st pn b st' hinv h
    exact SP_CompactPage_inv hinv h
  · intro junk ops st h
    have h0 : PagesInv (PFState.fresh junk []) := by
      intro pn hpn
      simp only [PFState.fresh] at hpn
      omega
    exact (buildFile_inv ops _ st rfl h0 h).1

theorem buildFile_buildOps : buildFile file0 buildOps = some fileBuilt := rfl

theorem C25_insert_compact_invariant_witness :
    buildFile file0 buildOps = some fileBuilt
      ∧ fileBuilt.numpages = 1
      ∧ (sp_read_header (fileBuilt.page 0)).slot_count = 3
      ∧ Layout (fileBuilt.page 0)
      ∧ SpaceExact (fileBuilt.page 0) :=
  ⟨buildFile_buildOps, by decide, by decide,
    C25_insert_compact_invariant.2.2.2.2 (fun _ => zeroPage) buildOps fileBuilt
      buildFile_buildOps 0 (by decide)⟩

/-- C26: on a file with no failure coming from the paged-file layer,
`SP_CompactPage` of a page that satisfies the layout invariant succeeds, a
second `SP_CompactPage` of the page succeeds too, and the page after the
second compaction is, byte for byte, the page after the first; no other page
changes either. -/
theorem C26_compact_idempotent (st : PFState) (pageNum : Nat) (hf : st.faults = [])
    (hn : pageNum < st.numpages) (hlay : Layout (st.page pageNum)) :
    ∃ st1 st2, SP_CompactPage st pageNum true = .ok () st1
      ∧ SP_CompactPage st1 pageNum true = .ok () st2
      ∧ SP_CompactPage_page (st1.page pageNum) = .ok (st1.page pageNum)
      ∧ st2.page pageNum = st1.page pageNum
      ∧ st2.page = st1.page ∧ st2.numpages = st1.numpages := by
  obtain ⟨p', hcp, -⟩ := compact_page_effect hlay
  obtain ⟨st1, hs1, hn1, hp1, hf1⟩ := SP_CompactPage_nil hf hn hcp
  have hidem := compact_page_idem hlay hcp
  have hcur : st1.page pageNum = p' := by rw [hp1]; simp
  rw [← hcur] at hidem
  obtain ⟨st2, hs2, hn2, hp2, -⟩ := SP_CompactPage_nil hf1 (by omega) hidem
  have hall : st2.page = st1.page := by
    rw [hp2]
    funext m
    by_cases hm : m = pageNum
    · rw [if_pos hm, hm]
    · rw [if_neg hm]
  exact ⟨st1, st2, hs1, hs2, hidem, by rw [hall], hall, hn2⟩

theorem C26_compact_idempotent_witness :
    ∃ st1 st2, SP_CompactPage file3 0 true = .ok () st1
      ∧ SP_CompactPage st1 0 true = .ok () st2
      ∧ SP_CompactPage_page (st1.page 0) = .ok (st1.page 0)
      ∧ st2.page 0 = st1.page 0
      ∧ st2.page = st1.page ∧ st2.numpages = st1.numpages :=
  C26_compact_idempotent file3 0 rfl (by decide) (by decide)

/-! ## Inserts after a delete: the frame property and the write bounds -/

/-- Where the needed bytes fit in the gap below `free_offset`, an insertion
into a page that satisfies the layout invariant leaves the lookup of every
live slot as it was. -/
theorem insert_page_get_frame {p : Page} {data : List Byte} {len : Int} {p' : Page} {idx : Nat}
    (hlay : Layout p) (hlen : 0 < len) (hgap : neededBytes p len ≤ gapBytes p)
    (h : SP_InsertRecord_page p data len = .ok (p', idx)) {j : Nat}
    (hj : j < (sp_read_header p).slot_count) (hl : (readSlot p j).offset ≠ -1) :
    SP_GetRecord_page p' j = SP_GetRecord_page p j := by
  have eff := insert_effect_of_gap h hlen hgap
  obtain ⟨hlay', -⟩ := insert_effect_layout eff hlay hlen
  have hsc : (sp_read_header p).slot_count ≤ (sp_read_header p').slot_count := by
    rcases eff.slot_choice with ⟨-, -, -, e⟩ | ⟨-, -, e⟩ <;> omega
  have hne : j ≠ idx := by
    rcases eff.slot_choice with ⟨e, -, -, -⟩ | ⟨-, e, -⟩
    · intro hji; rw [hji] at hl; exact hl e
    · omega
  have hslot : readSlot p' j = readSlot p j := eff.slot_other j (by omega) hne
  have hl' : (readSlot p' j).offset ≠ -1 := by rw [hslot]; exact hl
  rw [get_page_live hlay' (by omega) hl', get_page_live hlay hj hl, hslot]
  have harea := hlay.2.2.1 j hj hl
  unfold SlotInArea at harea
  congr 2
  unfold readBytes
  apply List.map_congr_left
  intro t _
  apply eff.area_eq
  omega

/-- Where the space accounting is exact, the record write of a successful
insertion into a page that satisfies the layout invariant stays inside the
data area, and the slot stores the offset and the length as they are. -/
theorem insert_page_write_bounds {p : Page} {data : List Byte} {len : Int} {p' : Page}
    {idx : Nat} (hlay : Layout p) (hex : SpaceExact p) (hlen : 0 < len)
    (h : SP_InsertRecord_page p data len = .ok (p', idx)) :
    0 ≤ ((sp_read_header p).free_offset : Int) - len
      ∧ ((SP_HEADER_SIZE + (sp_read_header p').slot_count * SP_SLOT_SIZE : Nat) : Int)
          ≤ ((sp_read_header p).free_offset : Int) - len
      ∧ ((sp_read_header p).free_offset : Int) - len + len ≤ (PF_PAGE_SIZE : Int)
      ∧ (readSlot p' idx).offset = ((sp_read_header p).free_offset : Int) - len
      ∧ (readSlot p' idx).length = len := by
  have eff := insert_effect h hex hlen
  obtain ⟨hlay', -⟩ := insert_effect_layout eff hlay hlen
  have h1 := hlay'.1
  have h2 := hlay.2.1
  have h3 := eff.free_offset_eq
  have h4 := eff.slot_eq
  refine ⟨by omega, ?_, by omega, by rw [h4], by rw [h4]⟩
  rw [← h3]
  exact_mod_cast h1

/-- C23 (the code run on an insert after a delete): on a new file, insert a
record of 2000 bytes `0xAA` (record id 0) and one of 2000 bytes `0xBB`
(record id 1), delete record id 0, and insert a record of 90 bytes `0x01`.
Every call returns 0.  Before the last insert `SP_GetRecord` of the live
record id 1 returns 0 with length 2000 and bytes `0xBB`; after it, the call
returns 0 with length 257: the insert has written the record over the slot
entry of record id 1, which read `{96, 2000}` before and reads `{257, 257}`
after. -/
theorem C23_insert_changes_live_record :
    (SP_InsertRecord file0 (List.replicate 2000 170) 2000).isOk = true
      ∧ (SP_InsertRecord file0 (List.replicate 2000 170) 2000).val 9 = 0
      ∧ (SP_InsertRecord fileD (List.replicate 2000 187) 2000).isOk = true
      ∧ (SP_InsertRecord fileD (List.replicate 2000 187) 2000).val 9 = 1
      ∧ (SP_DeleteRecord fileE 0).isOk = true
      ∧ Layout (fileF.page 0)
      ∧ (sp_read_header (fileF.page 0)).free_offset = 96
      ∧ (sp_read_header (fileF.page 0)).free_space = 2076
      ∧ readSlot (fileF.page 0) 1 = { offset := 96, length := 2000 }
      ∧ (SP_GetRecord fileF 1).isOk = true
      ∧ ((SP_GetRecord fileF 1).val (0, [])).1 = 2000
      ∧ ((SP_GetRecord fileF 1).val (0, [])).2.take 2 = [187, 187]
      ∧ (SP_InsertRecord fileF (List.replicate 90 1) 90).isOk = true
      ∧ (SP_InsertRecord fileF (List.replicate 90 1) 90).val 9 = 0
      ∧ readSlot (fileG.page 0) 0 = { offset := 6, length := 90 }
      ∧ readSlot (fileG.page 0) 1 = { offset := 257, length := 257 }
      ∧ (SP_GetRecord fileG 1).isOk = true
      ∧ ((SP_GetRecord fileG 1).val (0, [])).1 = 257
      ∧ ((SP_GetRecord fileG 1).val (0, [])).1 ≠ ((SP_GetRecord fileF 1).val (0, [])).1 := by
  decide!

/-- C24 (the code run on an insert after a delete): on a new file, insert a
record of 4000 bytes and delete it; the page satisfies the layout invariant,
with `free_offset = 96`, one slot and `free_space = 4080`.  An insert of 90
bytes is accepted and returns 0, and writes the record at
`free_offset - len = 6`, below the end of the slot directory at
`header_size + slot_count * slot_size = 16`.  An insert of 4000 bytes is
accepted too (`free_space >= len`): `free_offset - len` is negative, the
`uint16_t` that takes it holds 61632, and the `memcpy` at that offset leaves
the page buffer. -/
theorem C24_insert_writes_outside_data_area :
    (SP_InsertRecord file0 (List.replicate 4000 170) 4000).isOk = true
      ∧ (SP_DeleteRecord fileA 0).isOk = true
      ∧ Layout (fileB.page 0)
      ∧ (sp_read_header (fileB.page 0)).free_offset = 96
      ∧ (sp_read_header (fileB.page 0)).slot_count = 1
      ∧ (sp_read_header (fileB.page 0)).free_space = 4080
      ∧ (SP_InsertRecord fileB (List.replicate 90 170) 90).isOk = true
      ∧ (sp_read_header (fileC.page 0)).slot_count = 1
      ∧ readSlot (fileC.page 0) 0 = { offset := 6, length := 90 }
      ∧ ((sp_read_header (fileB.page 0)).free_offset : Int) - 90
          < ((SP_HEADER_SIZE + (sp_read_header (fileC.page 0)).slot_count * SP_SLOT_SIZE : Nat) : Int)
      ∧ ((sp_read_header (fileB.page 0)).free_offset : Int) - 4000 < 0
      ∧ u16 (((sp_read_header (fileB.page 0)).free_offset : Int) - 4000) = 61632
      ∧ ¬ inPage 61632 4000
      ∧ (SP_InsertRecord fileB (List.replicate 4000 170) 4000).isOk = false
      ∧ (SP_InsertRecord fileB (List.replicate 4000 170) 4000).final.isNone = true := by
  decide!

/-! ## The counter identity of the buffer pool -/

theorem counterIdentity_of_lookups {b b' : PF_BufferPool} (h : b'.lookups = b.lookups)
    (hid : CounterIdentity b) : CounterIdentity b' := by
  unfold PF_BufferPool.lookups at h
  simp only [Prod.mk.injEq] at h
  unfold CounterIdentity at *
  rw [h.1, h.2.1, h.2.2]
  exact hid

theorem counterIdentity_hit {b b' : PF_BufferPool}
    (h1 : b'.logicalPageRequests = ulInc b.logicalPageRequests)
    (h2 : b'.logicalPageHits = ulInc b.logicalPageHits)
    (h3 : b'.physicalReads = b.physicalReads)
    (hid : CounterIdentity b) : CounterIdentity b' := by
  unfold CounterIdentity ulInc at *
  rw [h1, h2, h3, hid]
  omega

theorem counterIdentity_read {b b' : PF_BufferPool}
    (h1 : b'.logicalPageRequests = ulInc b.logicalPageRequests)
    (h2 : b'.logicalPageHits = b.logicalPageHits)
    (h3 : b'.physicalReads = ulInc b.physicalReads)
    (hid : CounterIdentity b) : CounterIdentity b' := by
  unfold CounterIdentity ulInc at *
  rw [h1, h2, h3, hid]
  omega

theorem PFbufVictim_lookups {b : PF_BufferPool} {i : Nat} {b1 : PF_BufferPool}
    (h : PFbufVictim b = some (i, b1)) : b1.lookups = b.lookups := by
  unfold PFbufVictim at h
  split at h
  · simp only [Option.some.injEq, Prod.mk.injEq] at h
    rw [← h.2]
  · simp only at h
    split at h
    · cases h
    · simp only [Option.some.injEq, Prod.mk.injEq] at h
      rw [← h.2]
      rfl

theorem install_lookups (b : PF_BufferPool) (i fd page : Nat) (d : Bool) :
    (b.install i fd page d).lookups = b.lookups := rfl

/-- A `get` that succeeds is a hit or a read, and counts as one request. -/
theorem PFbufGet_identity {c : Bool} {b : PF_BufferPool} {fd page : Nat}
    (hid : CounterIdentity b)
    (hok : c = false ∨ (PFbufGet c b fd page).1 = PFE_OK) :
    CounterIdentity (PFbufGet c b fd page).2 := by
  unfold PFbufGet at hok ⊢
  cases hf : PFhashFind b.hash fd page with
  | some i =>
    simp only [hf]
    exact counterIdentity_hit rfl rfl rfl hid
  | none =>
    simp only [hf] at hok ⊢
    cases hv : PFbufVictim b with
    | none =>
      simp only [hv] at hok ⊢
      rcases hok with hc | hrc
      · subst hc
        exact hid
      · exact absurd hrc (by decide)
    | some v =>
      obtain ⟨i, b1⟩ := v
      simp only [hv]
      have hl := PFbufVictim_lookups hv
      have hid1 : CounterIdentity b1 := counterIdentity_of_lookups hl hid
      exact counterIdentity_read rfl rfl rfl hid1

theorem PFbufGet_requests {c : Bool} {b : PF_BufferPool} {fd page : Nat}
    (hok : (PFbufGet c b fd page).1 = PFE_OK) :
    (PFbufGet c b fd page).2.logicalPageRequests = ulInc b.logicalPageRequests := by
  unfold PFbufGet at hok ⊢
  cases hf : PFhashFind b.hash fd page with
  | some i => simp only [hf]
  | none =>
    simp only [hf] at hok ⊢
    cases hv : PFbufVictim b with
    | none =>
      simp only [hv] at hok
      exact absurd hok (by decide)
    | some v =>
      obtain ⟨i, b1⟩ := v
      simp only [hv]
      have hl := PFbufVictim_lookups hv
      unfold PF_BufferPool.lookups at hl
      simp only [Prod.mk.injEq] at hl
      show ulInc b1.logicalPageRequests = _
      rw [hl.1]

theorem PFbufAlloc_lookups (b : PF_BufferPool) (fd page : Nat) :
    (PFbufAlloc b fd page).2.lookups = b.lookups := by
  unfold PFbufAlloc
  split
  · rfl
  · cases hv : PFbufVictim b with
    | none => rfl
    | some v =>
      obtain ⟨i, b1⟩ := v
      simp only
      exact (PFbufVictim_lookups hv : b1.lookups = b.lookups)

theorem PFbufUnfix_lookups (b : PF_BufferPool) (fd page : Nat) (d : Bool) :
    (PFbufUnfix b fd page d).2.lookups = b.lookups := by
  unfold PFbufUnfix
  split
  · rfl
  · simp only
    split <;> rfl

theorem releaseFrame_lookups (b : PF_BufferPool) (i : Nat) :
    (b.releaseFrame i).lookups = b.lookups := rfl

theorem foldl_releaseFrame_lookups (l : List Nat) :
    ∀ b : PF_BufferPool, (l.foldl PF_BufferPool.releaseFrame b).lookups = b.lookups := by
  induction l with
  | nil => intro b; rfl
  | cons i l ih =>
    intro b
    rw [List.foldl_cons, ih, releaseFrame_lookups]

theorem PFbufReleaseFile_lookups (b : PF_BufferPool) (fd : Nat) :
    (PFbufReleaseFile b fd).2.lookups = b.lookups := by
  unfold PFbufReleaseFile
  split
  · rfl
  · exact foldl_releaseFrame_lookups _ b

theorem PF_GetThisPage_identity {s : PFsys} {fd page : Nat} (hid : CounterIdentity s.pool)
    (hok : s.countFailed = false ∨ (s.PF_GetThisPage fd page).1 = PFE_OK) :
    CounterIdentity (s.PF_GetThisPage fd page).2.pool := by
  unfold PFsys.PF_GetThisPage at hok ⊢
  split
  · rename_i heof
    rw [if_pos heof] at hok
    rcases hok with hc | hrc
    · simp only [hc]
      exact hid
    · have hrc2 : PFE_EOF = PFE_OK := hrc
      exact absurd hrc2 (by decide)
  · rename_i heof
    rw [if_neg heof] at hok
    exact PFbufGet_identity hid hok

theorem PF_GetThisPage_requests {s : PFsys} {fd page : Nat}
    (hok : (s.PF_GetThisPage fd page).1 = PFE_OK) :
    (s.PF_GetThisPage fd page).2.pool.logicalPageRequests
      = ulInc s.pool.logicalPageRequests := by
  unfold PFsys.PF_GetThisPage at hok ⊢
  split
  · rename_i heof
    rw [if_pos heof] at hok
    have hrc2 : PFE_EOF = PFE_OK := hok
    exact absurd hrc2 (by decide)
  · rename_i heof
    rw [if_neg heof] at hok
    exact PFbufGet_requests hok

theorem PF_AllocPage_lookups (s : PFsys) (fd : Nat) :
    (s.PF_AllocPage fd).2.2.pool.lookups = s.pool.lookups := by
  unfold PFsys.PF_AllocPage
  simp only
  split
  · rfl
  · split <;> exact PFbufAlloc_lookups _ _ _

theorem PF_UnfixPage_lookups (s : PFsys) (fd page : Nat) (d : Bool) :
    (s.PF_UnfixPage fd page d).2.pool.lookups = s.pool.lookups :=
  PFbufUnfix_lookups _ _ _ _

theorem PF_CloseFile_lookups (s : PFsys) (fd : Nat) :
    (s.PF_CloseFile fd).2.pool.lookups = s.pool.lookups :=
  PFbufReleaseFile_lookups _ _

theorem PF_GetThisPage_countFailed (s : PFsys) (fd page : Nat) :
    (s.PF_GetThisPage fd page).2.countFailed = s.countFailed := by
  unfold PFsys.PF_GetThisPage
  split
  · split <;> rfl
  · rfl

theorem PF_AllocPage_countFailed (s : PFsys) (fd : Nat) :
    (s.PF_AllocPage fd).2.2.countFailed = s.countFailed := by
  unfold PFsys.PF_AllocPage
  simp only
  split
  · rfl
  · split <;> rfl

theorem poolStep_countFailed (s : PFsys) (op : PoolOp) :
    (poolStep s op).2.countFailed = s.countFailed := by
  cases op with
  | get fd page => exact PF_GetThisPage_countFailed s fd page
  | unfix fd page d => rfl
  | alloc fd => exact PF_AllocPage_countFailed s fd

theorem poolStep_identity {s : PFsys} {op : PoolOp} (hid : CounterIdentity s.pool)
    (hok : s.countFailed = false ∨ (op.isGet = true → (poolStep s op).1 = PFE_OK)) :
    CounterIdentity (poolStep s op).2.pool := by
  cases op with
  | get fd page =>
    apply PF_GetThisPage_identity hid
    rcases hok with h | h
    · exact Or.inl h
    · exact Or.inr (h rfl)
  | unfix fd page d => exact counterIdentity_of_lookups (PF_UnfixPage_lookups s fd page d) hid
  | alloc fd => exact counterIdentity_of_lookups (PF_AllocPage_lookups s fd) hid

theorem poolRun_identity : ∀ (ops : List PoolOp) (s : PFsys), CounterIdentity s.pool →
    (s.countFailed = false ∨
      ∀ x, x ∈ (poolRun s ops).1 → x.1.isGet = true → x.2 = PFE_OK) →
    CounterIdentity (poolRun s ops).2.pool := by
  intro ops
  induction ops with
  | nil => intro s hid _; exact hid
  | cons op ops ih =>
    intro s hid hok
    simp only [poolRun] at hok ⊢
    apply ih
    · apply poolStep_identity hid
      rcases hok with h | h
      · exact Or.inl h
      · exact Or.inr (fun hg => h (op, (poolStep s op).1) (List.mem_cons_self _ _) hg)
    · rcases hok with h | h
      · left; rw [poolStep_countFailed]; exact h
      · right
        intro x hx
        exact h x (List.mem_cons_of_mem _ hx)

theorem run_workload_alloc_lookups (fd : Nat) : ∀ (k : Nat) (s s' : PFsys),
    run_workload_alloc fd k s = some s' → s'.pool.lookups = s.pool.lookups := by
  intro k
  induction k with
  | zero =>
    intro s s' h
    simp only [run_workload_alloc, Option.some.injEq] at h
    rw [← h]
  | succ k ih =>
    intro s s' h
    simp only [run_workload_alloc] at h
    split at h
    · cases h
    · rw [ih _ _ h, PF_UnfixPage_lookups, PF_AllocPage_lookups]

theorem ulInc_iter_zero (n : Nat) : ulInc (n % 18446744073709551616)
    = (n + 1) % 18446744073709551616 := by
  unfold ulInc
  omega

theorem run_workload_ops_identity (fd readPct maxPage : Nat) :
    ∀ (rands : List (Nat × Nat)) (s s' : PFsys) (n : Nat), CounterIdentity s.pool →
      s.pool.logicalPageRequests = n % 18446744073709551616 →
      run_workload_ops fd readPct maxPage rands s = some s' →
      CounterIdentity s'.pool ∧
        s'.pool.logicalPageRequests = (n + rands.length) % 18446744073709551616 := by
  intro rands
  induction rands with
  | nil =>
    intro s s' n hid hn h
    simp only [run_workload_ops, Option.some.injEq] at h
    subst h
    exact ⟨hid, by simpa using hn⟩
  | cons x rands ih =>
    intro s s' n hid hn h
    obtain ⟨r0, t0⟩ := x
    simp only [run_workload_ops] at h
    split at h
    · cases h
    · rename_i hrc
      have hrc' : (s.PF_GetThisPage fd (t0 % maxPage)).1 = PFE_OK := not_not.mp hrc
      have h1 := PF_GetThisPage_identity hid (Or.inr hrc')
      have h2 := PF_GetThisPage_requests hrc'
      have h3 := PF_UnfixPage_lookups (s.PF_GetThisPage fd (t0 % maxPage)).2 fd (t0 % maxPage)
        (decide (¬ r0 % 100 < readPct))
      have h4 := counterIdentity_of_lookups h3 h1
      have h5 : ((s.PF_GetThisPage fd (t0 % maxPage)).2.PF_UnfixPage fd (t0 % maxPage)
          (decide (¬ r0 % 100 < readPct))).2.pool.logicalPageRequests
            = (n + 1) % 18446744073709551616 := by
        unfold PF_BufferPool.lookups at h3
        simp only [Prod.mk.injEq] at h3
        rw [h3.1, h2, hn, ulInc_iter_zero]
      obtain ⟨h6, h7⟩ := ih _ s' (n + 1) h4 h5 h
      refine ⟨h6, ?_⟩
      rw [h7, List.length_cons]
      congr 1
      omega

/-- C21: from counters at zero, at the end of every run of `get`, `unfix` and
`alloc` calls in which every `get` returned `PFE_OK` (or every run, if a
`get` that fails does not count as a request),
`logicalPageRequests = logicalPageHits + physicalReads`; and the counters that
`run_workload` of `test_pf_experiments.c` reports satisfy the identity, with
one request for each of its operations. -/
theorem C21_counter_identity (s : PFsys) (ops : List PoolOp)
    (hzero : s.pool.logicalPageRequests = 0 ∧ s.pool.logicalPageHits = 0
      ∧ s.pool.physicalReads = 0)
    (hok : s.countFailed = false ∨
      ∀ x, x ∈ (poolRun s ops).1 → x.1.isGet = true → x.2 = PFE_OK) :
    CounterIdentity (poolRun s ops).2.pool
      ∧ ∀ (fd readPct maxPage : Nat) (rands : List (Nat × Nat)) (s' : PFsys),
          run_workload s fd readPct maxPage rands = some s' →
          CounterIdentity s'.pool
            ∧ s'.pool.logicalPageRequests = rands.length % 18446744073709551616 := by
  constructor
  · apply poolRun_identity ops s _ hok
    unfold CounterIdentity
    rw [hzero.1, hzero.2.1, hzero.2.2]
  · intro fd readPct maxPage rands s' h
    unfold run_workload at h
    simp only at h
    split at h
    · cases h
    · rename_i s1 h1
      split at h
      · cases h
      · rename_i s2 h2
        simp only [Option.some.injEq] at h
        subst h
        have e1 := run_workload_alloc_lookups fd maxPage _ s1 h1
        have hid1 : CounterIdentity s1.pool := by
          apply counterIdentity_of_lookups e1
          unfold CounterIdentity
          rfl
        have hn1 : s1.pool.logicalPageRequests = 0 % 18446744073709551616 := by
          unfold PF_BufferPool.lookups at e1
          simp only [Prod.mk.injEq] at e1
          rw [e1.1]
        obtain ⟨h3, h4⟩ := run_workload_ops_identity fd readPct maxPage rands s1 s2 0 hid1 hn1 h2
        have e2 := PF_CloseFile_lookups s2 fd
        refine ⟨counterIdentity_of_lookups e2 h3, ?_⟩
        unfold PF_BufferPool.lookups at e2
        simp only [Prod.mk.injEq] at e2
        rw [e2.1, h4, Nat.zero_add]

theorem C21_counter_identity_witness :
    (poolRun pfInit3 poolOps).2.pool.logicalPageRequests = 4
      ∧ (poolRun pfInit3 poolOps).2.pool.logicalPageHits = 2
      ∧ (poolRun pfInit3 poolOps).2.pool.physicalReads = 2
      ∧ (run_workload pfInit3 0 100 5
          [(0, 0), (0, 1), (0, 2), (0, 3), (0, 4), (0, 5), (0, 6)]).isSome = true
      ∧ CounterIdentity (poolRun pfInit3 poolOps).2.pool :=
  ⟨by decide, by decide, by decide, by decide,
    (C21_counter_identity pfInit3 poolOps ⟨rfl, rfl, rfl⟩ (Or.inr (by decide))).1⟩

/-! ## The B+-tree: insertion into a leaf -/

theorem pairs_cons (k : Int) (c : List Int) (es : List (Int × List Int)) :
    ((k, c) :: es).flatMap (fun e => e.2.map (fun r => (e.1, r)))
      = c.map (fun r => (k, r)) ++ es.flatMap (fun e => e.2.map (fun r => (e.1, r))) := by
  simp [List.flatMap]

/-- The insertion into a leaf adds the pair to the pairs of the leaf. -/
theorem AM_InsertintoLeaf_pairs (key recId : Int) : ∀ es : List (Int × List Int),
    ((AM_InsertintoLeaf es key recId).flatMap (fun e => e.2.map (fun r => (e.1, r)))).Perm
      ((key, recId) :: es.flatMap (fun e => e.2.map (fun r => (e.1, r)))) := by
  intro es
  induction es with
  | nil => simp [AM_InsertintoLeaf, List.flatMap]
  | cons e es ih =>
    obtain ⟨k, c⟩ := e
    unfold AM_InsertintoLeaf
    by_cases h1 : key = k
    · rw [if_pos h1, pairs_cons, pairs_cons, h1, List.map_append]
      simp only [List.map_cons, List.map_nil, List.append_assoc, List.singleton_append]
      exact List.perm_middle
    · rw [if_neg h1]
      by_cases h2 : key < k
      · rw [if_pos h2, pairs_cons]
        simp
      · rw [if_neg h2, pairs_cons, pairs_cons]
        refine (List.Perm.append_left _ ih).trans ?_
        exact List.perm_middle

theorem AM_InsertintoLeaf_keys (key recId : Int) : ∀ (es : List (Int × List Int)) (x : Int),
    x ∈ (AM_InsertintoLeaf es key recId).map Prod.fst ↔ x = key ∨ x ∈ es.map Prod.fst := by
  intro es
  induction es with
  | nil => intro x; simp [AM_InsertintoLeaf]
  | cons e es ih =>
    intro x
    obtain ⟨k, c⟩ := e
    unfold AM_InsertintoLeaf
    by_cases h1 : key = k
    · rw [if_pos h1]
      simp only [List.map_cons, List.mem_cons]
      constructor
      · intro h; exact Or.inr h
      · rintro (h | h)
        · left; rw [h, h1]
        · exact h
    · rw [if_neg h1]
      by_cases h2 : key < k
      · rw [if_pos h2]
        simp only [List.map_cons, List.mem_cons]
      · rw [if_neg h2]
        simp only [List.map_cons, List.mem_cons, ih]
        tauto

theorem AM_InsertintoLeaf_sorted (key recId : Int) : ∀ es : List (Int × List Int),
    (es.map Prod.fst).Pairwise (fun a b => a < b) →
    ((AM_InsertintoLeaf es key recId).map Prod.fst).Pairwise (fun a b => a < b) := by
  intro es
  induction es with
  | nil => intro _; simp [AM_InsertintoLeaf]
  | cons e es ih =>
    intro hs
    obtain ⟨k, c⟩ := e
    simp only [List.map_cons, List.pairwise_cons] at hs
    unfold AM_InsertintoLeaf
    by_cases h1 : key = k
    · rw [if_pos h1]
      simp only [List.map_cons, List.pairwise_cons]
      exact hs
    · rw [if_neg h1]
      by_cases h2 : key < k
      · rw [if_pos h2]
        simp only [List.map_cons, List.pairwise_cons, List.mem_cons]
        refine ⟨?_, hs⟩
        rintro a (rfl | ha)
        · exact h2
        · have := hs.1 a ha
          omega
      · rw [if_neg h2]
        simp only [List.map_cons, List.pairwise_cons]
        refine ⟨?_, ih hs.2⟩
        intro a ha
        rw [AM_InsertintoLeaf_keys] at ha
        rcases ha with rfl | ha
        · omega
        · exact hs.1 a ha

theorem AM_InsertintoLeaf_ok {es : List (Int × List Int)} {lo hi : Option Int} (key recId : Int)
    (h : EntriesOK es lo hi) (hlo : geLo lo key) (hhi : ltHi hi key) :
    EntriesOK (AM_InsertintoLeaf es key recId) lo hi := by
  refine ⟨AM_InsertintoLeaf_sorted key recId es h.1, ?_⟩
  intro e he
  have hk : e.1 ∈ (AM_InsertintoLeaf es key recId).map Prod.fst := List.mem_map_of_mem _ he
  rw [AM_InsertintoLeaf_keys] at hk
  rcases hk with hk | hk
  · rw [hk]; exact ⟨hlo, hhi⟩
  · obtain ⟨e2, he2, h2⟩ := List.mem_map.mp hk
    rw [← h2]
    exact h.2 e2 he2

theorem AM_InsertintoLeaf_head (key recId : Int) (k : Int) (c : List Int)
    (es : List (Int × List Int)) (h : k ≤ key) :
    ∃ c1 es1, AM_InsertintoLeaf ((k, c) :: es) key recId = (k, c1) :: es1 := by
  unfold AM_InsertintoLeaf
  by_cases h1 : key = k
  · rw [if_pos h1]; exact ⟨_, _, rfl⟩
  · rw [if_neg h1, if_neg (by omega)]; exact ⟨_, _, rfl⟩

/-! ## The B+-tree: the split of a leaf -/

theorem EntriesOK.weaken_hi {es : List (Int × List Int)} {lo hi : Option Int} {s : Int}
    (h : EntriesOK es lo hi) (hs : ∀ e, e ∈ es → e.1 < s) : EntriesOK es lo (some s) := by
  refine ⟨h.1, fun e he => ⟨(h.2 e he).1, ?_⟩⟩
  intro b hb
  simp only [Option.some.injEq] at hb
  rw [← hb]
  exact hs e he

theorem EntriesOK.weaken_lo {es : List (Int × List Int)} {lo hi : Option Int} {s : Int}
    (h : EntriesOK es lo hi) (hs : ∀ e, e ∈ es → s ≤ e.1) : EntriesOK es (some s) hi := by
  refine ⟨h.1, fun e he => ⟨?_, (h.2 e he).2⟩⟩
  intro a ha
  simp only [Option.some.injEq] at ha
  rw [← ha]
  exact hs e he

theorem EntriesOK.append {xs ys : List (Int × List Int)} {lo hi : Option Int}
    (h : EntriesOK (xs ++ ys) lo hi) :
    EntriesOK xs lo hi ∧ EntriesOK ys lo hi ∧ ∀ a, a ∈ xs → ∀ b, b ∈ ys → a.1 < b.1 := by
  obtain ⟨hs, hb⟩ := h
  rw [List.map_append, List.pairwise_append] at hs
  refine ⟨⟨hs.1, fun e he => hb e (List.mem_append_left _ he)⟩,
    ⟨hs.2.1, fun e he => hb e (List.mem_append_right _ he)⟩, ?_⟩
  intro a ha b hb2
  exact hs.2.2 a.1 (List.mem_map_of_mem _ ha) b.1 (List.mem_map_of_mem _ hb2)

theorem drop_half_nil {α : Type} (es : List α) (h : es.drop (es.length / 2) = []) : es = [] := by
  rw [List.drop_eq_nil_iff] at h
  have : es.length = 0 := by omega
  exact List.length_eq_zero.mp this

theorem AM_SplitLeaf_room {maxKeys : Nat} {splitDup : Bool} (newPage : Nat) {l : AMLeaf}
    {key : Int} (recId : Int)
    (h : l.entries.length < maxKeys ∨
      (l.entries.any (fun e => decide (e.1 = key)) = true ∧ splitDup = false)) :
    AM_SplitLeaf maxKeys splitDup newPage l key recId
      = ({ l with entries := AM_InsertintoLeaf l.entries key recId }, none) := by
  unfold AM_SplitLeaf
  simp only [if_pos h]

theorem AM_SplitLeaf_right {maxKeys : Nat} {splitDup : Bool} (newPage : Nat) {l : AMLeaf}
    {key : Int} (recId : Int)
    (h : ¬ (l.entries.length < maxKeys ∨
      (l.entries.any (fun e => decide (e.1 = key)) = true ∧ splitDup = false)))
    {e : Int × List Int} {u : List (Int × List Int)}
    (hu : l.entries.drop (l.entries.length / 2) = e :: u) (hg : e.1 ≤ key) :
    ∃ c1 u1, AM_InsertintoLeaf (e :: u) key recId = (e.1, c1) :: u1 ∧
      AM_SplitLeaf maxKeys splitDup newPage l key recId
        = ({ page := l.page, entries := l.entries.take (l.entries.length / 2),
             next_leaf := some newPage },
           some (e.1, { page := newPage, entries := (e.1, c1) :: u1,
                        next_leaf := l.next_leaf })) := by
  obtain ⟨c1, u1, he1⟩ := AM_InsertintoLeaf_head key recId e.1 e.2 u hg
  have he : (e.1, e.2) = e := rfl
  rw [he] at he1
  refine ⟨c1, u1, he1, ?_⟩
  unfold AM_SplitLeaf
  simp only [if_neg h, hu, hg, decide_True, if_true, he1]

theorem AM_SplitLeaf_left {maxKeys : Nat} {splitDup : Bool} (newPage : Nat) {l : AMLeaf}
    {key : Int} (recId : Int)
    (h : ¬ (l.entries.length < maxKeys ∨
      (l.entries.any (fun e => decide (e.1 = key)) = true ∧ splitDup = false)))
    {e : Int × List Int} {u : List (Int × List Int)}
    (hu : l.entries.drop (l.entries.length / 2) = e :: u) (hg : ¬ e.1 ≤ key) :
    AM_SplitLeaf maxKeys splitDup newPage l key recId
      = ({ page := l.page,
           entries := AM_InsertintoLeaf (l.entries.take (l.entries.length / 2)) key recId,
           next_leaf := some newPage },
         some (e.1, { page := newPage, entries := e :: u, next_leaf := l.next_leaf })) := by
  unfold AM_SplitLeaf
  simp only [if_neg h, hu, hg, decide_False, if_false, Bool.false_eq_true]

theorem AM_SplitLeaf_empty {maxKeys : Nat} {splitDup : Bool} (newPage : Nat) {l : AMLeaf}
    {key : Int} (recId : Int)
    (h : ¬ (l.entries.length < maxKeys ∨
      (l.entries.any (fun e => decide (e.1 = key)) = true ∧ splitDup = false)))
    (hu : l.entries.drop (l.entries.length / 2) = []) :
    l.entries = [] ∧ AM_SplitLeaf maxKeys splitDup newPage l key recId
      = ({ page := l.page, entries := [], next_leaf := some newPage },
         some (key, { page := newPage, entries := [(key, [recId])],
                      next_leaf := l.next_leaf })) := by
  have hnil := drop_half_nil _ hu
  refine ⟨hnil, ?_⟩
  unfold AM_SplitLeaf
  simp only [if_neg h]
  simp only [hu, if_true, AM_InsertintoLeaf]
  simp only [hnil, List.length_nil, Nat.zero_div, List.take_nil]

/-- The order invariant of a leaf after an insertion, in place or with a
split: where the leaf was split, the split key separates the two leaves. -/
theorem AM_SplitLeaf_bounded (maxKeys : Nat) (splitDup : Bool) (newPage : Nat) (l : AMLeaf)
    (key recId : Int) {lo hi : Option Int} (h : EntriesOK l.entries lo hi)
    (hlo : geLo lo key) (hhi : ltHi hi key) :
    ((AM_SplitLeaf maxKeys splitDup newPage l key recId).2 = none →
        EntriesOK (AM_SplitLeaf maxKeys splitDup newPage l key recId).1.entries lo hi)
      ∧ ∀ s r, (AM_SplitLeaf maxKeys splitDup newPage l key recId).2 = some (s, r) →
          EntriesOK (AM_SplitLeaf maxKeys splitDup newPage l key recId).1.entries lo (some s)
            ∧ EntriesOK r.entries (some s) hi ∧ geLo lo s ∧ leHi hi s := by
  by_cases hc : l.entries.length < maxKeys ∨
      (l.entries.any (fun e => decide (e.1 = key)) = true ∧ splitDup = false)
  · rw [AM_SplitLeaf_room newPage recId hc]
    refine ⟨fun _ => AM_InsertintoLeaf_ok key recId h hlo hhi, ?_⟩
    intro s r hsr
    cases hsr
  · have hsplit : l.entries.take (l.entries.length / 2) ++ l.entries.drop (l.entries.length / 2)
        = l.entries := List.take_append_drop _ _
    have h0 := h
    rw [← hsplit] at h
    obtain ⟨hlow, hupp, hcross⟩ := h.append
    cases hu : l.entries.drop (l.entries.length / 2) with
    | nil =>
      obtain ⟨hnil, heq⟩ := AM_SplitLeaf_empty newPage recId hc hu
      rw [heq]
      refine ⟨fun hn => (by cases hn), ?_⟩
      intro s r hsr
      simp only [Option.some.injEq, Prod.mk.injEq] at hsr
      obtain ⟨hs, hr⟩ := hsr
      subst hs hr
      refine ⟨⟨List.Pairwise.nil, fun e he => by cases he⟩, ⟨by simp, ?_⟩, hlo,
        fun b hb => le_of_lt (hhi b hb)⟩
      intro e he
      simp only [List.mem_singleton] at he
      subst he
      exact ⟨fun a ha => by simp only [Option.some.injEq] at ha; omega, hhi⟩
    | cons e u =>
      rw [hu] at hupp hcross
      have hupp_lo : EntriesOK (e :: u) (some e.1) hi := by
        apply hupp.weaken_lo
        intro x hx
        rcases List.mem_cons.mp hx with rfl | hx
        · exact le_refl _
        · have := hupp.1
          simp only [List.map_cons, List.pairwise_cons] at this
          exact le_of_lt (this.1 x.1 (List.mem_map_of_mem _ hx))
      have hlow_hi : EntriesOK (l.entries.take (l.entries.length / 2)) lo (some e.1) :=
        hlow.weaken_hi (fun x hx => hcross x hx e (List.mem_cons_self _ _))
      have hein := hupp.2 e (List.mem_cons_self _ _)
      have hehi : leHi hi e.1 := fun b hb => le_of_lt (hein.2 b hb)
      by_cases hg : e.1 ≤ key
      · obtain ⟨c1, u1, he1, heq⟩ := AM_SplitLeaf_right newPage recId hc hu hg
        rw [heq]
        refine ⟨fun hn => (by cases hn), ?_⟩
        intro s r hsr
        simp only [Option.some.injEq, Prod.mk.injEq] at hsr
        obtain ⟨hs, hr⟩ := hsr
        subst hs hr
        have hins := @AM_InsertintoLeaf_ok (e :: u) (some e.1) hi key recId hupp_lo
          (fun a ha => by simp only [Option.some.injEq] at ha; omega) hhi
        rw [he1] at hins
        exact ⟨hlow_hi, hins, hein.1, hehi⟩
      · rw [AM_SplitLeaf_left newPage recId hc hu hg]
        refine ⟨fun hn => (by cases hn), ?_⟩
        intro s r hsr
        simp only [Option.some.injEq, Prod.mk.injEq] at hsr
        obtain ⟨hs, hr⟩ := hsr
        subst hs hr
        refine ⟨?_, hupp_lo, hein.1, hehi⟩
        exact AM_InsertintoLeaf_ok key recId hlow_hi hlo
          (fun b hb => by simp only [Option.some.injEq] at hb; omega)

theorem entries_pairs_split (es : List (Int × List Int)) (n : Nat) :
    es.flatMap (fun e => e.2.map (fun r => (e.1, r)))
      = (es.take n).flatMap (fun e => e.2.map (fun r => (e.1, r)))
        ++ (es.drop n).flatMap (fun e => e.2.map (fun r => (e.1, r))) := by
  rw [← List.flatMap_append, List.take_append_drop]

/-- The leaves an insertion leaves in the place of a leaf hold the pairs of
the leaf and the new pair. -/
theorem leafResult_pairs (maxKeys : Nat) (splitDup : Bool) (newPage : Nat) (l : AMLeaf)
    (key recId : Int) :
    ((leafResult maxKeys splitDup newPage l key recId).flatMap AMLeaf.pairs).Perm
      ((key, recId) :: l.pairs) := by
  unfold leafResult
  by_cases hc : l.entries.length < maxKeys ∨
      (l.entries.any (fun e => decide (e.1 = key)) = true ∧ splitDup = false)
  · rw [AM_SplitLeaf_room newPage recId hc]
    simp only [List.flatMap_cons, List.flatMap_nil, List.append_nil]
    exact AM_InsertintoLeaf_pairs key recId l.entries
  · have hp := entries_pairs_split l.entries (l.entries.length / 2)
    cases hu : l.entries.drop (l.entries.length / 2) with
    | nil =>
      obtain ⟨hnil, heq⟩ := AM_SplitLeaf_empty newPage recId hc hu
      rw [heq]
      simp [AMLeaf.pairs, hnil, List.flatMap]
    | cons e u =>
      rw [hu] at hp
      by_cases hg : e.1 ≤ key
      · obtain ⟨c1, u1, he1, heq⟩ := AM_SplitLeaf_right newPage recId hc hu hg
        rw [heq]
        simp only [List.flatMap_cons, List.flatMap_nil, List.append_nil]
        unfold AMLeaf.pairs
        simp only
        rw [hp, ← he1]
        refine (List.Perm.append_left _ (AM_InsertintoLeaf_pairs key recId _)).trans ?_
        exact List.perm_middle
      · rw [AM_SplitLeaf_left newPage recId hc hu hg]
        simp only [List.flatMap_cons, List.flatMap_nil, List.append_nil]
        unfold AMLeaf.pairs
        simp only
        rw [hp]
        exact List.Perm.append_right _ (AM_InsertintoLeaf_pairs key recId _)

/-- The pages and the links of the leaves an insertion leaves in the place of
a leaf. -/
theorem leafResult_shape (maxKeys : Nat) (splitDup : Bool) (newPage : Nat) (l : AMLeaf)
    (key recId : Int) :
    (∃ l1, leafResult maxKeys splitDup newPage l key recId = [l1]
        ∧ (AM_SplitLeaf maxKeys splitDup newPage l key recId).2 = none
        ∧ l1.page = l.page ∧ l1.next_leaf = l.next_leaf)
      ∨ (∃ l1 r, leafResult maxKeys splitDup newPage l key recId = [l1, r]
        ∧ (AM_SplitLeaf maxKeys splitDup newPage l key recId).2.isSome = true
        ∧ l1.page = l.page ∧ l1.next_leaf = some newPage ∧ r.page = newPage
        ∧ r.next_leaf = l.next_leaf) := by
  unfold leafResult
  by_cases hc : l.entries.length < maxKeys ∨
      (l.entries.any (fun e => decide (e.1 = key)) = true ∧ splitDup = false)
  · rw [AM_SplitLeaf_room newPage recId hc]
    exact Or.inl ⟨_, rfl, rfl, rfl, rfl⟩
  · cases hu : l.entries.drop (l.entries.length / 2) with
    | nil =>
      obtain ⟨-, heq⟩ := AM_SplitLeaf_empty newPage recId hc hu
      rw [heq]
      exact Or.inr ⟨_, _, rfl, rfl, rfl, rfl, rfl, rfl⟩
    | cons e u =>
      by_cases hg : e.1 ≤ key
      · obtain ⟨c1, u1, -, heq⟩ := AM_SplitLeaf_right newPage recId hc hu hg
        rw [heq]
        exact Or.inr ⟨_, _, rfl, rfl, rfl, rfl, rfl, rfl⟩
      · rw [AM_SplitLeaf_left newPage recId hc hu hg]
        exact Or.inr ⟨_, _, rfl, rfl, rfl, rfl, rfl, rfl⟩

/-! ## The B+-tree: the order invariant under insertion -/

theorem BoundedKids_append {h : Nat} (B : AMTree h → Option Int → Option Int → Prop) :
    ∀ (xs : List (Int × AMTree h)) (c : AMTree h) (k : Int) (d : AMTree h)
      (ys : List (Int × AMTree h)) (lo hi : Option Int),
      BoundedKids B c (xs ++ (k, d) :: ys) lo hi →
        BoundedKids B c xs lo (some k) ∧ geLo lo k ∧ leHi hi k ∧
          BoundedKids B d ys (some k) hi := by
  intro xs
  induction xs with
  | nil =>
    intro c k d ys lo hi hb
    exact hb
  | cons x xs ih =>
    intro c k d ys lo hi hb
    obtain ⟨k1, d1⟩ := x
    obtain ⟨h1, h2, h3, h4⟩ := hb
    obtain ⟨i1, i2, i3, i4⟩ := ih d1 k d ys (some k1) hi h4
    have hk : k1 ≤ k := i2 k1 rfl
    refine ⟨⟨h1, h2, ?_, i1⟩, ?_, i3, i4⟩
    · intro b hb
      simp only [Option.some.injEq] at hb
      omega
    · intro a ha
      have := h2 a ha
      omega

/-- The step at an internal node keeps the children within their ranges, if
the insertion below a child does. -/
theorem AM_AddtoIntPage_bounded {h : Nat} (B : AMTree h → Option Int → Option Int → Prop)
    (ins : AMTree h → Nat → AMInsertResult h) (key : Int)
    (hins : ∀ c np lo hi, B c lo hi → geLo lo key → ltHi hi key →
      ((ins c np).2.1 = none → B (ins c np).1 lo hi) ∧
      (∀ s r, (ins c np).2.1 = some (s, r) →
        B (ins c np).1 lo (some s) ∧ B r (some s) hi ∧ geLo lo s ∧ leHi hi s)) :
    ∀ (ps : List (Int × AMTree h)) (c : AMTree h) (np : Nat) (lo hi : Option Int),
      BoundedKids B c ps lo hi → geLo lo key → ltHi hi key →
      BoundedKids B (AM_AddtoIntPage ins key c ps np).1.1 (AM_AddtoIntPage ins key c ps np).1.2
        lo hi := by
  intro ps
  induction ps with
  | nil =>
    intro c np lo hi hb hlo hhi
    have h1 := hins c np lo hi hb hlo hhi
    unfold AM_AddtoIntPage
    revert h1
    rcases ins c np with ⟨c1, sp, np1⟩
    cases sp with
    | none => intro h1; exact h1.1 rfl
    | some v =>
      obtain ⟨s, r⟩ := v
      intro h1
      obtain ⟨g1, g2, g3, g4⟩ := h1.2 s r rfl
      exact ⟨g1, g3, g4, g2⟩
  | cons p rest ih =>
    intro c np lo hi hb hlo hhi
    obtain ⟨k, d⟩ := p
    obtain ⟨hb1, hbk1, hbk2, hb2⟩ := hb
    unfold AM_AddtoIntPage
    by_cases hk : key < k
    · rw [if_pos hk]
      have h1 := hins c np lo (some k) hb1 hlo
        (fun b hb => by simp only [Option.some.injEq] at hb; omega)
      revert h1
      rcases ins c np with ⟨c1, sp, np1⟩
      cases sp with
      | none => intro h1; exact ⟨h1.1 rfl, hbk1, hbk2, hb2⟩
      | some v =>
        obtain ⟨s, r⟩ := v
        intro h1
        obtain ⟨g1, g2, g3, g4⟩ := h1.2 s r rfl
        have hsk : s ≤ k := g4 k rfl
        refine ⟨g1, g3, ?_, g2, ?_, hbk2, hb2⟩
        · intro b hb
          have := hbk2 b hb
          omega
        · intro a ha
          simp only [Option.some.injEq] at ha
          omega
    · rw [if_neg hk]
      have h2 := ih d np (some k) hi hb2
        (fun a ha => by simp only [Option.some.injEq] at ha; omega) hhi
      exact ⟨hb1, hbk1, hbk2, h2⟩

theorem AM_SplitIntNode_bounded {h : Nat} (maxKeys : Nat)
    (node : AMTree h × List (Int × AMTree h)) (np : Nat) (lo hi : Option Int)
    (hb : BoundedKids (Bounded h) node.1 node.2 lo hi) :
    AMInsertResult.Bounded (AM_SplitIntNode maxKeys node np) lo hi := by
  unfold AM_SplitIntNode
  by_cases hl : node.2.length ≤ maxKeys
  · rw [if_pos hl]
    exact hb
  · rw [if_neg hl]
    cases hd : node.2.drop (node.2.length / 2) with
    | nil => exact hb
    | cons x rest =>
      obtain ⟨k, d⟩ := x
      have hsplit : node.2.take (node.2.length / 2) ++ (k, d) :: rest = node.2 := by
        rw [← hd, List.take_append_drop]
      rw [← hsplit] at hb
      obtain ⟨g1, g2, g3, g4⟩ := BoundedKids_append _ _ _ _ _ _ _ _ hb
      exact ⟨g1, g4, g2, g3⟩

/-- The order invariant is kept by an insertion below a node: where the node
was split, the split key separates the node from its new right sibling. -/
theorem AM_insertAt_bounded (maxLeaf maxInt : Nat) (splitDup : Bool) (key recId : Int) :
    ∀ (h : Nat) (t : AMTree h) (np : Nat) (lo hi : Option Int),
      Bounded h t lo hi → geLo lo key → ltHi hi key →
      AMInsertResult.Bounded (AM_insertAt maxLeaf maxInt splitDup key recId h t np) lo hi := by
  intro h
  induction h with
  | zero =>
    intro l np lo hi hb hlo hhi
    have h1 := AM_SplitLeaf_bounded maxLeaf splitDup np l key recId hb hlo hhi
    unfold AM_insertAt AMInsertResult.Bounded
    revert h1
    rcases AM_SplitLeaf maxLeaf splitDup np l key recId with ⟨l1, sp⟩
    cases sp with
    | none => intro h1; exact h1.1 rfl
    | some v =>
      obtain ⟨s, r⟩ := v
      intro h1
      exact h1.2 s r rfl
  | succ h ih =>
    intro t np lo hi hb hlo hhi
    obtain ⟨c, ps⟩ := t
    unfold AM_insertAt
    apply AM_SplitIntNode_bounded
    apply AM_AddtoIntPage_bounded (Bounded h) _ key _ ps c np lo hi hb hlo hhi
    intro c2 np2 lo2 hi2 hb2 hlo2 hhi2
    have := ih c2 np2 lo2 hi2 hb2 hlo2 hhi2
    unfold AMInsertResult.Bounded at this
    revert this
    rcases AM_insertAt maxLeaf maxInt splitDup key recId h c2 np2 with ⟨c1, sp, np1⟩
    cases sp with
    | none => intro h1; exact ⟨fun _ => h1, fun s r hsr => by cases hsr⟩
    | some v =>
      obtain ⟨s, r⟩ := v
      intro h1
      refine ⟨fun hn => (by cases hn), ?_⟩
      intro s2 r2 hsr
      simp only [Option.some.injEq, Prod.mk.injEq] at hsr
      obtain ⟨e1, e2⟩ := hsr
      subst e1 e2
      exact h1

/-! ## The B+-tree: the leaves under insertion -/

/-- The step at an internal node changes the leaves below the node in the
place of one leaf, if the insertion below a child does. -/
theorem AM_AddtoIntPage_leaves {h : Nat} (LR : Nat → AMLeaf → List AMLeaf)
    (ins : AMTree h → Nat → AMInsertResult h) (key : Int)
    (hins : ∀ c np, ∃ pre l post, AMTree.leaves h c = pre ++ l :: post ∧
      AMInsertResult.leaves (ins c np) = pre ++ LR np l ++ post ∧
      np + (LR np l).length ≤ (ins c np).2.2 + 1) :
    ∀ (ps : List (Int × AMTree h)) (c : AMTree h) (np : Nat),
      ∃ pre l post,
        AMTree.leaves h c ++ ps.flatMap (fun p => AMTree.leaves h p.2) = pre ++ l :: post ∧
        AMTree.leaves h (AM_AddtoIntPage ins key c ps np).1.1 ++
            (AM_AddtoIntPage ins key c ps np).1.2.flatMap (fun p => AMTree.leaves h p.2)
          = pre ++ LR np l ++ post ∧
        np + (LR np l).length ≤ (AM_AddtoIntPage ins key c ps np).2 + 1 := by
  intro ps
  induction ps with
  | nil =>
    intro c np
    obtain ⟨pre, l, post, h1, h2, h3⟩ := hins c np
    refine ⟨pre, l, post, by simpa using h1, ?_, ?_⟩
    · unfold AM_AddtoIntPage
      revert h2
      unfold AMInsertResult.leaves
      rcases ins c np with ⟨c1, sp, np1⟩
      cases sp with
      | none => intro h2; simpa using h2
      | some v =>
        obtain ⟨s, r⟩ := v
        intro h2
        simpa using h2
    · unfold AM_AddtoIntPage
      revert h3
      rcases ins c np with ⟨c1, sp, np1⟩
      cases sp with
      | none => intro h3; exact h3
      | some v => intro h3; exact h3
  | cons p rest ih =>
    intro c np
    obtain ⟨k, d⟩ := p
    unfold AM_AddtoIntPage
    by_cases hk : key < k
    · rw [if_pos hk]
      obtain ⟨pre, l, post, h1, h2, h3⟩ := hins c np
      refine ⟨pre, l, post ++ (AMTree.leaves h d ++ rest.flatMap (fun p => AMTree.leaves h p.2)),
        ?_, ?_, ?_⟩
      · rw [h1]; simp
      · revert h2
        unfold AMInsertResult.leaves
        rcases ins c np with ⟨c1, sp, np1⟩
        cases sp with
        | none =>
          intro h2
          simp only [List.append_nil] at h2
          simp only [List.flatMap_cons, h2, List.append_assoc]
        | some v =>
          obtain ⟨s, r⟩ := v
          intro h2
          simp only at h2
          simp only [List.flatMap_cons]
          rw [← List.append_assoc (AMTree.leaves h c1), h2]
          simp only [List.append_assoc]
      · revert h3
        rcases ins c np with ⟨c1, sp, np1⟩
        cases sp with
        | none => intro h3; exact h3
        | some v => intro h3; exact h3
    · rw [if_neg hk]
      obtain ⟨pre, l, post, h1, h2, h3⟩ := ih d np
      refine ⟨AMTree.leaves h c ++ pre, l, post, ?_, ?_, h3⟩
      · simp only [List.flatMap_cons, h1, List.append_assoc]
      · simp only [List.flatMap_cons, h2, List.append_assoc]

theorem flatMap_take_drop {α β : Type} (f : α → List β) (xs : List α) (n : Nat) (x : α)
    (rest : List α) (hd : xs.drop n = x :: rest) :
    (xs.take n).flatMap f ++ (f x ++ rest.flatMap f) = xs.flatMap f := by
  have hsplit : xs.take n ++ x :: rest = xs := by rw [← hd, List.take_append_drop]
  conv_rhs => rw [← hsplit]
  simp

theorem AM_SplitIntNode_leaves {h : Nat} (maxKeys : Nat)
    (node : AMTree h × List (Int × AMTree h)) (np : Nat) :
    AMInsertResult.leaves (AM_SplitIntNode maxKeys node np)
        = AMTree.leaves h node.1 ++ node.2.flatMap (fun p => AMTree.leaves h p.2)
      ∧ np ≤ (AM_SplitIntNode maxKeys node np).2.2 := by
  unfold AM_SplitIntNode
  by_cases hl : node.2.length ≤ maxKeys
  · rw [if_pos hl]
    exact ⟨by simp [AMInsertResult.leaves, AMTree.leaves], le_refl _⟩
  · rw [if_neg hl]
    cases hd : node.2.drop (node.2.length / 2) with
    | nil => exact ⟨by simp [AMInsertResult.leaves, AMTree.leaves], le_refl _⟩
    | cons x rest =>
      obtain ⟨k, d⟩ := x
      refine ⟨?_, Nat.le_succ _⟩
      have := flatMap_take_drop (fun p : Int × AMTree h => AMTree.leaves h p.2) node.2 _ _ _ hd
      simp only [AMInsertResult.leaves, AMTree.leaves, List.append_assoc]
      rw [this]

/-- An insertion below a node changes the leaves below the node in the place
of one leaf, which it leaves as `AM_SplitLeaf` makes it; a leaf that is split
takes the page `np`, and the file has grown by at least that page. -/
theorem AM_insertAt_leaves (maxLeaf maxInt : Nat) (splitDup : Bool) (key recId : Int) :
    ∀ (h : Nat) (t : AMTree h) (np : Nat),
      ∃ pre l post, AMTree.leaves h t = pre ++ l :: post ∧
        AMInsertResult.leaves (AM_insertAt maxLeaf maxInt splitDup key recId h t np)
          = pre ++ leafResult maxLeaf splitDup np l key recId ++ post ∧
        np + (leafResult maxLeaf splitDup np l key recId).length
          ≤ (AM_insertAt maxLeaf maxInt splitDup key recId h t np).2.2 + 1 := by
  intro h
  induction h with
  | zero =>
    intro l np
    refine ⟨[], l, [], rfl, ?_, ?_⟩
    · unfold AM_insertAt AMInsertResult.leaves leafResult
      rcases AM_SplitLeaf maxLeaf splitDup np l key recId with ⟨l1, sp⟩
      cases sp with
      | none => rfl
      | some v => rfl
    · unfold AM_insertAt leafResult
      rcases AM_SplitLeaf maxLeaf splitDup np l key recId with ⟨l1, sp⟩
      cases sp with
      | none => exact le_refl _
      | some v => exact le_refl _
  | succ h ih =>
    intro t np
    obtain ⟨c, ps⟩ := t
    obtain ⟨pre, l, post, h1, h2, h3⟩ :=
      AM_AddtoIntPage_leaves (fun np l => leafResult maxLeaf splitDup np l key recId)
        (AM_insertAt maxLeaf maxInt splitDup key recId h) key ih ps c np
    refine ⟨pre, l, post, h1, ?_, ?_⟩
    · unfold AM_insertAt
      rw [(AM_SplitIntNode_leaves maxInt _ _).1]
      exact h2
    · unfold AM_insertAt
      have := (AM_SplitIntNode_leaves maxInt
        (AM_AddtoIntPage (AM_insertAt maxLeaf maxInt splitDup key recId h) key c ps np).1
        (AM_AddtoIntPage (AM_insertAt maxLeaf maxInt splitDup key recId h) key c ps np).2).2
      simp only at h3 this ⊢
      omega

/-! ## The B+-tree: the chain of the leaves and the scan -/

theorem Linked_append : ∀ (xs ys : List AMLeaf) (s e : Option Nat),
    Linked s (xs ++ ys) e ↔ ∃ m, Linked s xs m ∧ Linked m ys e := by
  intro xs
  induction xs with
  | nil =>
    intro ys s e
    simp only [List.nil_append, Linked]
    constructor
    · intro h; exact ⟨s, rfl, h⟩
    · rintro ⟨m, h1, h2⟩; rw [h1]; exact h2
  | cons x xs ih =>
    intro ys s e
    show (s = some x.page ∧ Linked x.next_leaf (xs ++ ys) e) ↔
      ∃ m, (s = some x.page ∧ Linked x.next_leaf xs m) ∧ Linked m ys e
    rw [ih]
    constructor
    · rintro ⟨h1, m, h2, h3⟩; exact ⟨m, ⟨h1, h2⟩, h3⟩
    · rintro ⟨m, ⟨h1, h2⟩, h3⟩; exact ⟨h1, m, h2, h3⟩

/-- The leaves an insertion leaves in the place of a leaf are chained from
the page of the leaf to its right sibling. -/
theorem leafResult_linked (maxKeys : Nat) (splitDup : Bool) (newPage : Nat) (l : AMLeaf)
    (key recId : Int) :
    Linked (some l.page) (leafResult maxKeys splitDup newPage l key recId) l.next_leaf := by
  rcases leafResult_shape maxKeys splitDup newPage l key recId with
    ⟨l1, h1, -, h2, h3⟩ | ⟨l1, r, h1, -, h2, h3, h4, h5⟩
  · rw [h1]
    exact ⟨by rw [h2], h3⟩
  · rw [h1]
    exact ⟨by rw [h2], by rw [h3, h4], h5⟩

theorem Linked_replace {pre post : List AMLeaf} {l : AMLeaf} {s e : Option Nat}
    (maxKeys : Nat) (splitDup : Bool) (newPage : Nat) (key recId : Int)
    (h : Linked s (pre ++ l :: post) e) :
    Linked s (pre ++ leafResult maxKeys splitDup newPage l key recId ++ post) e := by
  rw [Linked_append] at h
  obtain ⟨m, h1, h2, h3⟩ := h
  rw [List.append_assoc, Linked_append]
  refine ⟨m, h1, ?_⟩
  rw [Linked_append]
  refine ⟨l.next_leaf, ?_, h3⟩
  rw [h2]
  exact leafResult_linked maxKeys splitDup newPage l key recId

theorem leafResult_pages {pre post : List AMLeaf} {l : AMLeaf} {np np1 : Nat}
    (maxKeys : Nat) (splitDup : Bool) (key recId : Int)
    (hnd : ((pre ++ l :: post).map AMLeaf.page).Nodup)
    (hlt : ∀ x, x ∈ pre ++ l :: post → x.page < np)
    (hnp : np + (leafResult maxKeys splitDup np l key recId).length ≤ np1 + 1) :
    ((pre ++ leafResult maxKeys splitDup np l key recId ++ post).map AMLeaf.page).Nodup
      ∧ ∀ x, x ∈ pre ++ leafResult maxKeys splitDup np l key recId ++ post → x.page < np1 := by
  rcases leafResult_shape maxKeys splitDup np l key recId with
    ⟨l1, h1, -, h2, -⟩ | ⟨l1, r, h1, -, h2, -, h4, -⟩
  · rw [h1] at hnp ⊢
    simp only [List.length_singleton] at hnp
    constructor
    · simp only [List.map_append, List.map_cons, List.map_nil, h2, List.append_assoc,
        List.singleton_append]
      simpa using hnd
    · intro x hx
      simp only [List.mem_append, List.mem_singleton] at hx
      have hl := hlt l (by simp)
      rcases hx with (hx | hx) | hx
      · have := hlt x (by simp [hx]); omega
      · rw [hx, h2]; omega
      · have := hlt x (by simp [hx]); omega
  · rw [h1] at hnp ⊢
    simp only [List.length_cons, List.length_nil] at hnp
    constructor
    · simp only [List.map_append, List.map_cons, List.map_nil, h2, h4, List.append_assoc,
        List.cons_append, List.nil_append]
      simp only [List.map_append, List.map_cons] at hnd
      have hpre : ∀ p, p ∈ pre.map AMLeaf.page → p < np := by
        intro p hp
        obtain ⟨x, hx, rfl⟩ := List.mem_map.mp hp
        exact hlt x (by simp [hx])
      have hpost : ∀ p, p ∈ post.map AMLeaf.page → p < np := by
        intro p hp
        obtain ⟨x, hx, rfl⟩ := List.mem_map.mp hp
        exact hlt x (by simp [hx])
      have hl := hlt l (by simp)
      rw [List.nodup_append] at hnd ⊢
      obtain ⟨n1, n2, n3⟩ := hnd
      rw [List.nodup_cons] at n2
      refine ⟨n1, ?_, ?_⟩
      · rw [List.nodup_cons, List.nodup_cons]
        refine ⟨?_, ?_, n2.2⟩
        · simp only [List.mem_cons, not_or]
          exact ⟨by omega, n2.1⟩
        · intro hin
          have := hpost np hin
          omega
      · intro a ha1 ha2
        simp only [List.mem_cons] at ha2
        rcases ha2 with ha2 | ha2 | ha2
        · exact n3 ha1 (by rw [ha2]; exact List.mem_cons_self _ _)
        · have := hpre a ha1; omega
        · exact n3 ha1 (List.mem_cons_of_mem _ ha2)
    · intro x hx
      simp only [List.mem_append, List.mem_cons, List.mem_singleton, List.not_mem_nil,
        or_false] at hx
      have hl := hlt l (by simp)
      rcases hx with (hx | hx | hx) | hx
      · have := hlt x (by simp [hx]); omega
      · rw [hx, h2]; omega
      · rw [hx, h4]; omega
      · have := hlt x (by simp [hx]); omega

theorem leafAt_mid {pre post : List AMLeaf} {l : AMLeaf}
    (hnd : ((pre ++ l :: post).map AMLeaf.page).Nodup) :
    leafAt (pre ++ l :: post) l.page = some l := by
  unfold leafAt
  rw [List.find?_append]
  have hpre : pre.find? (fun x => decide (x.page = l.page)) = none := by
    rw [List.find?_eq_none]
    intro x hx
    simp only [decide_eq_true_eq]
    intro hxl
    simp only [List.map_append, List.map_cons] at hnd
    rw [List.nodup_append] at hnd
    exact hnd.2.2 (List.mem_map_of_mem _ hx) (by rw [hxl]; exact List.mem_cons_self _ _)
  rw [hpre]
  simp

/-- Along a chain of leaves with distinct pages the scan emits the pairs of
the leaves in their order. -/
theorem AM_scanFrom_linked : ∀ (post pre : List AMLeaf) (s : Option Nat) (fuel : Nat),
    ((pre ++ post).map AMLeaf.page).Nodup → Linked s post none → post.length ≤ fuel →
    AM_scanFrom (pre ++ post) fuel s = post.flatMap AMLeaf.pairs := by
  intro post
  induction post with
  | nil =>
    intro pre s fuel _ hl _
    simp only [Linked] at hl
    subst hl
    cases fuel <;> rfl
  | cons l rest ih =>
    intro pre s fuel hnd hl hfuel
    obtain ⟨hs, hl2⟩ := hl
    subst hs
    cases fuel with
    | zero => simp at hfuel
    | succ f =>
      simp only [List.length_cons] at hfuel
      unfold AM_scanFrom
      rw [leafAt_mid hnd]
      simp only [List.flatMap_cons]
      have e : pre ++ l :: rest = (pre ++ [l]) ++ rest := by simp
      rw [e] at hnd ⊢
      rw [ih (pre ++ [l]) l.next_leaf f hnd hl2 (by omega)]

/-- The pairs under strictly ascending keys are in ascending key order. -/
theorem pairs_sorted : ∀ es : List (Int × List Int),
    (es.map Prod.fst).Pairwise (fun a b => a < b) →
    ((es.flatMap (fun e => e.2.map (fun r => (e.1, r)))).map Prod.fst).Pairwise
      (fun a b => a ≤ b) := by
  intro es
  induction es with
  | nil => intro _; simp
  | cons e es ih =>
    intro hs
    simp only [List.map_cons, List.pairwise_cons] at hs
    simp only [List.flatMap_cons, List.map_append, List.map_map]
    rw [List.pairwise_append]
    refine ⟨?_, ih hs.2, ?_⟩
    · rw [List.pairwise_map]
      exact List.pairwise_of_forall (fun _ _ => le_refl _)
    · intro a ha b hb
      simp only [List.mem_map, Function.comp] at ha
      obtain ⟨r, -, rfl⟩ := ha
      simp only [List.mem_map, List.mem_flatMap] at hb
      obtain ⟨x, ⟨e2, he2, hx⟩, rfl⟩ := hb
      obtain ⟨r2, -, rfl⟩ := hx
      exact le_of_lt (hs.1 e2.1 (List.mem_map_of_mem _ he2))

/-- The keys below a node are strictly ascending from left to right and lie
within the range of the node. -/
theorem BoundedKids_keys {h : Nat}
    (hB : ∀ (c : AMTree h) (lo hi : Option Int), Bounded h c lo hi →
      EntriesOK ((AMTree.leaves h c).flatMap AMLeaf.entries) lo hi) :
    ∀ (ps : List (Int × AMTree h)) (c : AMTree h) (lo hi : Option Int),
      BoundedKids (Bounded h) c ps lo hi →
      EntriesOK ((AMTree.leaves h c ++ ps.flatMap (fun p => AMTree.leaves h p.2)).flatMap
        AMLeaf.entries) lo hi := by
  intro ps
  induction ps with
  | nil =>
    intro c lo hi hb
    simpa using hB c lo hi hb
  | cons p rest ih =>
    intro c lo hi hb
    obtain ⟨k, d⟩ := p
    obtain ⟨hb1, hbk1, hbk2, hb2⟩ := hb
    have h1 := hB c lo (some k) hb1
    have h2 := ih d (some k) hi hb2
    simp only [List.flatMap_cons, List.flatMap_append] at h2 ⊢
    refine ⟨?_, ?_⟩
    · rw [List.map_append, List.pairwise_append]
      refine ⟨h1.1, by simpa using h2.1, ?_⟩
      intro a ha b hb
      obtain ⟨x, hx, rfl⟩ := List.mem_map.mp ha
      obtain ⟨y, hy, rfl⟩ := List.mem_map.mp hb
      have hxk := (h1.2 x hx).2 k rfl
      have hyk := (h2.2 y (by simpa using hy)).1 k rfl
      omega
    · intro e he
      rcases List.mem_append.mp he with he | he
      · refine ⟨(h1.2 e he).1, fun b hb => ?_⟩
        have g1 := (h1.2 e he).2 k rfl
        have g2 := hbk2 b hb
        omega
      · refine ⟨fun a ha => ?_, (h2.2 e (by simpa using he)).2⟩
        have g1 := (h2.2 e (by simpa using he)).1 k rfl
        have g2 := hbk1 a ha
        omega

/-! ## The B+-tree: scan completeness and order -/

/-- The keys in the leaves below a node are strictly ascending from left to
right and lie within the range of the node. -/
theorem Bounded_keys : ∀ (h : Nat) (t : AMTree h) (lo hi : Option Int), Bounded h t lo hi →
    EntriesOK ((AMTree.leaves h t).flatMap AMLeaf.entries) lo hi := by
  intro h
  induction h with
  | zero =>
    intro l lo hi hb
    have e : (AMTree.leaves 0 l).flatMap AMLeaf.entries = AMLeaf.entries l := by
      simp [AMTree.leaves]
    rw [e]
    exact hb
  | succ h ih =>
    intro t lo hi hb
    obtain ⟨c, ps⟩ := t
    exact BoundedKids_keys ih ps c lo hi hb

theorem leaves_pairs (ls : List AMLeaf) :
    ls.flatMap AMLeaf.pairs
      = (ls.flatMap AMLeaf.entries).flatMap (fun e => e.2.map (fun r => (e.1, r))) := by
  induction ls with
  | nil => rfl
  | cons l ls ih =>
    simp only [List.flatMap_cons, List.flatMap_append, ih]
    rfl

theorem nodup_length_le {l : List Nat} {n : Nat} (hnd : l.Nodup) (hlt : ∀ x, x ∈ l → x < n) :
    l.length ≤ n := by
  have h1 : l.toFinset.card = l.length := List.toFinset_card_of_nodup hnd
  have h2 : l.toFinset ⊆ Finset.range n := by
    intro x hx
    rw [List.mem_toFinset] at hx
    exact Finset.mem_range.mpr (hlt x hx)
  have h3 := Finset.card_le_card h2
  rw [Finset.card_range] at h3
  omega

/-- On an index that satisfies the invariant, the scan emits the pairs in the
leaves from left to right, in ascending key order. -/
theorem AM_scanAll_inv {x : AMIndex} (h : IndexInv x) :
    AM_scanAll x = x.pairs ∧ (x.pairs.map Prod.fst).Pairwise (fun a b => a ≤ b) := by
  obtain ⟨hb, hl, hnd, hlt⟩ := h
  constructor
  · unfold AM_scanAll AMIndex.pairs
    have hlen : (AMTree.leaves x.height x.root).length ≤ x.numpages := by
      have := @nodup_length_le ((AMTree.leaves x.height x.root).map AMLeaf.page) x.numpages hnd
        (fun p hp => by
          obtain ⟨l, hl1, rfl⟩ := List.mem_map.mp hp
          exact hlt l hl1)
      simpa using this
    have := AM_scanFrom_linked (AMTree.leaves x.height x.root) [] (some x.leftPageNum)
      x.numpages (by simpa using hnd) hl hlen
    simpa using this
  · unfold AMIndex.pairs
    rw [leaves_pairs]
    exact pairs_sorted _ (Bounded_keys _ _ _ _ hb).1

theorem IndexInv_create (maxLeaf maxInt : Nat) (splitDup : Bool) :
    IndexInv (AM_CreateIndex maxLeaf maxInt splitDup) := by
  refine ⟨?_, ?_, ?_, ?_⟩
  · exact ⟨List.Pairwise.nil, fun e he => by cases he⟩
  · exact ⟨rfl, rfl⟩
  · simp [AM_CreateIndex, AMTree.leaves]
  · intro l hl
    simp only [AM_CreateIndex, AMTree.leaves, List.mem_singleton] at hl
    subst hl
    show 1 < 2
    omega

/-- The leaves of the index after `AM_InsertEntry` are the leaves the
insertion below the root leaves, and the tree is within its range. -/
theorem AM_InsertEntry_root (x : AMIndex) (key recId : Int)
    (hb : AMInsertResult.Bounded
      (AM_insertAt x.maxLeaf x.maxInt x.splitDup key recId x.height x.root x.numpages)
      none none) :
    AMTree.leaves (AM_InsertEntry x key recId).height (AM_InsertEntry x key recId).root
        = AMInsertResult.leaves
            (AM_insertAt x.maxLeaf x.maxInt x.splitDup key recId x.height x.root x.numpages)
      ∧ Bounded (AM_InsertEntry x key recId).height (AM_InsertEntry x key recId).root none none
      ∧ (AM_insertAt x.maxLeaf x.maxInt x.splitDup key recId x.height x.root x.numpages).2.2
          ≤ (AM_InsertEntry x key recId).numpages
      ∧ (AM_InsertEntry x key recId).leftPageNum = x.leftPageNum := by
  unfold AM_InsertEntry
  revert hb
  unfold AMInsertResult.Bounded AMInsertResult.leaves
  rcases AM_insertAt x.maxLeaf x.maxInt x.splitDup key recId x.height x.root x.numpages with
    ⟨t, sp, np⟩
  cases sp with
  | none =>
    intro hb
    exact ⟨by simp, hb, le_refl _, rfl⟩
  | some v =>
    obtain ⟨s, r⟩ := v
    intro hb
    refine ⟨by simp [AMTree.leaves], ?_, Nat.le_succ _, rfl⟩
    exact ⟨hb.1, hb.2.2.1, hb.2.2.2, hb.2.1⟩

/-- The invariant of an index file is kept by `AM_InsertEntry`, which adds the
pair to the pairs in the leaves. -/
theorem IndexInv_insert {x : AMIndex} (key recId : Int) (h : IndexInv x) :
    IndexInv (AM_InsertEntry x key recId)
      ∧ (AM_InsertEntry x key recId).pairs.Perm ((key, recId) :: x.pairs)
      ∧ (AM_InsertEntry x key recId).maxLeaf = x.maxLeaf
      ∧ (AM_InsertEntry x key recId).maxInt = x.maxInt
      ∧ (AM_InsertEntry x key recId).splitDup = x.splitDup := by
  obtain ⟨hb, hl, hnd, hlt⟩ := h
  have hb1 := AM_insertAt_bounded x.maxLeaf x.maxInt x.splitDup key recId x.height x.root
    x.numpages none none hb (fun a ha => by cases ha) (fun b hb => by cases hb)
  obtain ⟨e1, e2, e3, e4⟩ := AM_InsertEntry_root x key recId hb1
  obtain ⟨pre, l, post, f1, f2, f3⟩ :=
    AM_insertAt_leaves x.maxLeaf x.maxInt x.splitDup key recId x.height x.root x.numpages
  rw [f1] at hl hnd hlt
  obtain ⟨g1, g2⟩ := @leafResult_pages pre post l x.numpages
    (AM_insertAt x.maxLeaf x.maxInt x.splitDup key recId x.height x.root x.numpages).2.2
    x.maxLeaf x.splitDup key recId hnd hlt f3
  refine ⟨⟨e2, ?_, ?_, ?_⟩, ?_, ?_, ?_, ?_⟩
  · rw [e1, f2, e4]
    exact Linked_replace x.maxLeaf x.splitDup x.numpages key recId hl
  · rw [e1, f2]
    exact g1
  · intro y hy
    rw [e1, f2] at hy
    have := g2 y hy
    omega
  · unfold AMIndex.pairs
    rw [e1, f2, f1]
    simp only [List.flatMap_append, List.flatMap_cons]
    have hp := leafResult_pairs x.maxLeaf x.splitDup x.numpages l key recId
    rw [List.append_assoc]
    refine ((List.Perm.append_left _ (List.Perm.append_right _ hp)).trans ?_)
    simp only [List.cons_append]
    exact List.perm_middle
  · unfold AM_InsertEntry
    rcases AM_insertAt x.maxLeaf x.maxInt x.splitDup key recId x.height x.root x.numpages with
      ⟨t, sp, np⟩
    cases sp <;> rfl
  · unfold AM_InsertEntry
    rcases AM_insertAt x.maxLeaf x.maxInt x.splitDup key recId x.height x.root x.numpages with
      ⟨t, sp, np⟩
    cases sp <;> rfl
  · unfold AM_InsertEntry
    rcases AM_insertAt x.maxLeaf x.maxInt x.splitDup key recId x.height x.root x.numpages with
      ⟨t, sp, np⟩
    cases sp <;> rfl

theorem IndexInv_inserts : ∀ (ins : List (Int × Int)) (x : AMIndex), IndexInv x →
    IndexInv (AM_inserts x ins) ∧ (AM_inserts x ins).pairs.Perm (ins ++ x.pairs) := by
  intro ins
  induction ins with
  | nil => intro x h; exact ⟨h, List.Perm.refl _⟩
  | cons p ins ih =>
    intro x h
    obtain ⟨key, recId⟩ := p
    obtain ⟨h1, h2, -⟩ := IndexInv_insert key recId h
    obtain ⟨h3, h4⟩ := ih (AM_InsertEntry x key recId) h1
    refine ⟨h3, ?_⟩
    show (AM_inserts (AM_InsertEntry x key recId) ins).pairs.Perm _
    refine h4.trans ?_
    refine (List.Perm.append_left _ h2).trans ?_
    simp only [List.cons_append]
    exact List.perm_middle

/-! ## The B+-tree: the scan cursor -/

theorem pairsFrom_zero (es : List (Int × List Int)) :
    pairsFrom es 0 0 = es.flatMap (fun e => e.2.map (fun r => (e.1, r))) := by
  unfold pairsFrom
  cases es with
  | nil => rfl
  | cons e rest => simp

theorem pairsFrom_nil {es : List (Int × List Int)} {i : Nat} (j : Nat) (h : es.drop i = []) :
    pairsFrom es i j = [] := by
  unfold pairsFrom
  rw [h]

theorem pairsFrom_skip {es : List (Int × List Int)} {i j : Nat} {e : Int × List Int}
    {rest : List (Int × List Int)} (h : es.drop i = e :: rest) (hc : e.2.drop j = []) :
    pairsFrom es i j = pairsFrom es (i + 1) 0 := by
  have h2 : es.drop (i + 1) = rest := by
    rw [← List.drop_drop, h]
    rfl
  unfold pairsFrom
  rw [h, h2]
  simp only [hc, List.map_nil, List.nil_append]
  cases rest with
  | nil => rfl
  | cons e2 rest2 => simp

theorem pairsFrom_emit {es : List (Int × List Int)} {i j : Nat} {e : Int × List Int}
    {rest : List (Int × List Int)} {r : Int} {rs : List Int} (h : es.drop i = e :: rest)
    (hc : e.2.drop j = r :: rs) :
    pairsFrom es i j = (e.1, r) :: pairsFrom es i (j + 1) := by
  have h2 : e.2.drop (j + 1) = rs := by
    rw [← List.drop_drop, hc]
    rfl
  unfold pairsFrom
  rw [h]
  simp only [hc, h2, List.map_cons, List.cons_append]

theorem BUSY_ne_OVER : BUSY ≠ OVER := by decide

theorem FIRST_ne_OVER : FIRST ≠ OVER := by decide

theorem scanWork_pos (ls : List AMLeaf) : 1 ≤ scanWork ls := by
  cases ls with
  | nil => exact le_refl _
  | cons l ls => unfold scanWork; omega

theorem scanWork_append (pre : List AMLeaf) (l : AMLeaf) (post : List AMLeaf) :
    l.entries.length + 1 + scanWork post ≤ scanWork (pre ++ l :: post) := by
  induction pre with
  | nil => exact le_refl _
  | cons x pre ih =>
    show l.entries.length + 1 + scanWork post
      ≤ x.entries.length + 1 + scanWork (pre ++ l :: post)
    omega

theorem CursorAt.work_le {ls : List AMLeaf} {c : AMScan} {tail : List (Int × Int)} {w : Nat}
    (h : CursorAt ls c tail w) : w ≤ scanWork ls := by
  rcases h.2 with ⟨-, -, hw⟩ | ⟨pre, l, post, hls, -, -, -, hw⟩
  · rw [hw]; exact scanWork_pos ls
  · rw [hw, hls]
    have := scanWork_append pre l post
    omega

/-- A call of `AM_FindNextEntry` at a cursor with nothing left to emit
returns `AME_EOF`; with pairs left to emit it returns the first pair and
leaves the cursor before the rest. -/
theorem AM_FindNextEntry_step {ls : List AMLeaf} (hnd : (ls.map AMLeaf.page).Nodup) :
    ∀ (fuel : Nat) (c : AMScan) (tail : List (Int × Int)) (w : Nat),
      CursorAt ls c tail w → w ≤ fuel →
      (tail = [] → (AM_FindNextEntry ls fuel c).1 = none) ∧
      (∀ pr tl, tail = pr :: tl →
        (AM_FindNextEntry ls fuel c).1 = some pr ∧
        ∃ w1, CursorAt ls (AM_FindNextEntry ls fuel c).2 tl w1) := by
  intro fuel
  induction fuel with
  | zero =>
    intro c tail w hc hw
    rcases hc.2 with ⟨-, -, h1⟩ | ⟨pre, l, post, -, -, -, -, h1⟩ <;> omega
  | succ f ih =>
    intro c tail w hc hw
    obtain ⟨hst, hpos⟩ := hc
    unfold AM_FindNextEntry
    rw [if_neg hst]
    rcases hpos with ⟨hp, ht, -⟩ | ⟨pre, l, post, hls, hp, hlink, ht, hwk⟩
    · rw [hp]
      simp only
      refine ⟨fun _ => (by first | rfl | trivial), ?_⟩
      intro pr tl htl
      rw [ht] at htl
      cases htl
    · rw [hp]
      simp only
      have hat : leafAt ls l.page = some l := by
        rw [hls]
        apply leafAt_mid
        rw [← hls]
        exact hnd
      rw [hat]
      simp only
      cases hd : l.entries.drop c.index with
      | nil =>
        simp only
        have hlen : l.entries.length - c.index = 0 := by
          rw [List.drop_eq_nil_iff] at hd
          omega
        rw [pairsFrom_nil _ hd, List.nil_append] at ht
        cases post with
        | nil =>
          simp only [Linked] at hlink
          apply ih _ tail 1
          · refine ⟨BUSY_ne_OVER, Or.inl ⟨hlink, ?_, rfl⟩⟩
            rw [ht]
            rfl
          · simp only [scanWork] at hwk
            omega
        | cons l2 post2 =>
          obtain ⟨hn1, hn2⟩ := hlink
          apply ih _ tail (l2.entries.length + 1 + scanWork post2)
          · refine ⟨BUSY_ne_OVER, Or.inr ⟨pre ++ [l], l2, post2, ?_, hn1, hn2, ?_, ?_⟩⟩
            · rw [hls]; simp
            · rw [ht]
              simp only [List.flatMap_cons, pairsFrom_zero]
              rfl
            · simp only [Nat.sub_zero]
          · simp only [scanWork] at hwk
            omega
      | cons e rest =>
        simp only
        have hlt : c.index < l.entries.length := by
          by_contra hcon
          have : l.entries.drop c.index = [] := List.drop_eq_nil_iff.mpr (by omega)
          rw [this] at hd
          cases hd
        cases hr : e.2.drop c.recIndex with
        | nil =>
          simp only
          apply ih _ tail (l.entries.length - (c.index + 1) + 1 + scanWork post)
          · refine ⟨BUSY_ne_OVER, Or.inr ⟨pre, l, post, hls, rfl, hlink, ?_, rfl⟩⟩
            rw [ht, pairsFrom_skip hd hr]
          · omega
        | cons r rs =>
          simp only
          constructor
          · intro htl
            rw [ht, pairsFrom_emit hd hr] at htl
            cases htl
          · intro pr tl htl
            rw [ht, pairsFrom_emit hd hr] at htl
            simp only [List.cons_append, List.cons.injEq] at htl
            obtain ⟨e1, e2⟩ := htl
            refine ⟨by rw [e1], _, BUSY_ne_OVER, Or.inr ⟨pre, l, post, hls, rfl, hlink, ?_, rfl⟩⟩
            rw [← e2]

/-- The calls of `AM_FindNextEntry` emit the pairs left at the cursor, one by
one, and then return `AME_EOF`. -/
theorem AM_scanLoop_spec {ls : List AMLeaf} (hnd : (ls.map AMLeaf.page).Nodup) {fuel : Nat}
    (hfuel : scanWork ls ≤ fuel) :
    ∀ (tail : List (Int × Int)) (c : AMScan) (w n : Nat), CursorAt ls c tail w →
      tail.length ≤ n → AM_scanLoop ls fuel n c = tail := by
  intro tail
  induction tail with
  | nil =>
    intro c w n hc _
    cases n with
    | zero => rfl
    | succ m =>
      have h1 := (AM_FindNextEntry_step hnd fuel c [] w hc (le_trans hc.work_le hfuel)).1 rfl
      unfold AM_scanLoop
      revert h1
      rcases AM_FindNextEntry ls fuel c with ⟨o, c1⟩
      intro h1
      simp only at h1
      rw [h1]
  | cons pr tl ih =>
    intro c w n hc hn
    cases n with
    | zero => simp at hn
    | succ m =>
      obtain ⟨h1, w1, h2⟩ :=
        (AM_FindNextEntry_step hnd fuel c (pr :: tl) w hc (le_trans hc.work_le hfuel)).2 pr tl rfl
      unfold AM_scanLoop
      revert h1 h2
      rcases AM_FindNextEntry ls fuel c with ⟨o, c1⟩
      intro h1 h2
      simp only at h1 h2
      rw [h1]
      simp only
      rw [ih c1 w1 m h2 (by simpa using hn)]

/-- After `n` calls that emitted the pairs left at the cursor, fewer than `n`,
the next call of `AM_FindNextEntry` returns `AME_EOF`. -/
theorem AM_scan_inv {x : AMIndex} (h : IndexInv x) {fuel n : Nat}
    (hfuel : scanWork (AMTree.leaves x.height x.root) ≤ fuel) (hn : x.pairs.length ≤ n) :
    AM_scan x fuel n = x.pairs := by
  obtain ⟨-, hl, hnd, -⟩ := h
  unfold AM_scan
  cases hls : AMTree.leaves x.height x.root with
  | nil =>
    rw [hls] at hl
    simp only [Linked] at hl
    cases hl
  | cons l post =>
    rw [hls] at hl hnd hfuel
    obtain ⟨hl1, hl2⟩ := hl
    have hc : CursorAt (l :: post) (AM_OpenIndexScan x) x.pairs
        (l.entries.length - 0 + 1 + scanWork post) := by
      refine ⟨FIRST_ne_OVER, Or.inr ⟨[], l, post, rfl, hl1, hl2, ?_, rfl⟩⟩
      unfold AMIndex.pairs
      rw [hls]
      simp only [List.flatMap_cons, AM_OpenIndexScan, pairsFrom_zero]
      rfl
    exact AM_scanLoop_spec hnd hfuel _ _ _ n hc hn

/-- The first end-to-end scenario of the spec: after the inserts
`(100, 1), (50, 2), (200, 3), (50, 4)` the scan yields the record ids
`2, 4, 1, 3`, and then `AME_EOF`. -/
theorem AM_scan_scenario (splitDup : Bool) :
    (AM_scan (AM_inserts (AM_CreateIndex 2 2 splitDup)
      [(100, 1), (50, 2), (200, 3), (50, 4)]) 20 10).map Prod.snd = [2, 4, 1, 3] := by
  cases splitDup <;> decide

/-- C22: after any number of `AM_InsertEntry` calls on a new index, whatever
the `max_keys` of leaves and of internal nodes, the scan with operator `ALL`
(`AM_OpenIndexScan`, then `AM_FindNextEntry` until `AME_EOF`) returns the
inserted `(key, recId)` pairs in ascending key order, each as often as it was
inserted: these are the pairs in the leaves along the `next_leaf` chain from
the leftmost leaf.  `fuel` and `n` are the bounds of the embedding on the key
slots and leaves a call moves over and on the number of calls. -/
theorem C22_scan_complete_ordered (maxLeaf maxInt : Nat) (splitDup : Bool)
    (ins : List (Int × Int)) (fuel n : Nat)
    (hfuel : scanWork (AMTree.leaves (AM_inserts (AM_CreateIndex maxLeaf maxInt splitDup) ins).height
      (AM_inserts (AM_CreateIndex maxLeaf maxInt splitDup) ins).root) ≤ fuel)
    (hn : ins.length < n) :
    ((AM_scan (AM_inserts (AM_CreateIndex maxLeaf maxInt splitDup) ins) fuel n).map
        Prod.fst).Pairwise (fun a b => a ≤ b)
      ∧ Multiset.ofList (AM_scan (AM_inserts (AM_CreateIndex maxLeaf maxInt splitDup) ins) fuel n)
          = Multiset.ofList ins
      ∧ (AM_scan (AM_inserts (AM_CreateIndex maxLeaf maxInt splitDup) ins) fuel n).length < n
      ∧ AM_scan (AM_inserts (AM_CreateIndex maxLeaf maxInt splitDup) ins) fuel n
          = AM_scanAll (AM_inserts (AM_CreateIndex maxLeaf maxInt splitDup) ins) := by
  obtain ⟨h1, h2⟩ := IndexInv_inserts ins _ (IndexInv_create maxLeaf maxInt splitDup)
  obtain ⟨h3, h4⟩ := AM_scanAll_inv h1
  have e : (AM_CreateIndex maxLeaf maxInt splitDup).pairs = [] := rfl
  rw [e, List.append_nil] at h2
  have hlen : (AM_inserts (AM_CreateIndex maxLeaf maxInt splitDup) ins).pairs.length
      = ins.length := h2.length_eq
  have hlt : (AM_inserts (AM_CreateIndex maxLeaf maxInt splitDup) ins).pairs.length < n := by
    omega
  have h5 := AM_scan_inv h1 hfuel (le_of_lt hlt)
  rw [h5, h3]
  exact ⟨h4, Multiset.coe_eq_coe.mpr h2, hlt, rfl⟩

theorem C22_scan_complete_ordered_witness :
    AM_scan (AM_inserts (AM_CreateIndex 2 1 true)
        [(100, 1), (50, 2), (200, 3), (50, 4), (7, 5), (300, 6), (150, 7)]) 30 8
      = [(7, 5), (50, 2), (50, 4), (100, 1), (150, 7), (200, 3), (300, 6)]
      ∧ (AM_inserts (AM_CreateIndex 2 1 true)
        [(100, 1), (50, 2), (200, 3), (50, 4), (7, 5), (300, 6), (150, 7)]).height = 2
      ∧ ((AM_scan (AM_inserts (AM_CreateIndex 2 1 true)
          [(100, 1), (50, 2), (200, 3), (50, 4), (7, 5), (300, 6), (150, 7)]) 30 8).map
            Prod.fst).Pairwise (fun a b => a ≤ b) :=
  ⟨by decide, by decide,
    (C22_scan_complete_ordered 2 1 true
      [(100, 1), (50, 2), (200, 3), (50, 4), (7, 5), (300, 6), (150, 7)] 30 8
      (by decide) (by decide)).1⟩

/-! ## First-fit page selection, with the insertion run to its end -/

/-- On a page that passes the test of `sp_find_page_for_insert`, an insertion
whose accesses stay inside the buffer (the loop that looks for a tombstone
slot, the copy of the record, the slot it appends) runs to its success
exit. -/
theorem insert_page_defined {p : Page} {data : List Byte} {len : Int}
    (hscan : sp_scan_deleted p 0 (sp_read_header p).slot_count ≠ .oob) (hin : InsertInPage p len)
    (hfit : PageFits p len) (hlen : 0 < len) (hdata : len ≤ data.length) :
    ∃ p' idx, SP_InsertRecord_page p data len = .ok (p', idx) := by
  obtain ⟨h1, h2, h3⟩ := hin
  simp only [PF_PAGE_SIZE] at h2
  have hfo2 : ((u16 (((sp_read_header p).free_offset : Int) - len) : Nat) : Int) =
      ((sp_read_header p).free_offset : Int) - len := u16_of_range (by omega) (by omega)
  cases hsc : sp_scan_deleted p 0 (sp_read_header p).slot_count with
  | oob => exact absurd hsc hscan
  | found i =>
    have hsp := ((pageFits_iff_of_scan p len).1 i hsc).1 hfit
    obtain ⟨-, hlt, hin, -, -⟩ := sp_scan_deleted_found _ _ _ hsc
    simp only [SP_InsertRecord_page, hsc]
    simp only [bne_iff_ne, ne_eq, reduceCtorEq, not_false_eq_true, decide_True, if_true]
    rw [if_neg (by simp; omega), if_neg, if_neg (not_not.mpr hin)]
    · exact ⟨_, _, rfl⟩
    · rw [not_not, inPage_iff]
      exact ⟨⟨by omega, by omega, by omega⟩, hdata⟩
  | absent =>
    have hsp := ((pageFits_iff_of_scan p len).2 hsc).1 hfit
    have hall := sp_scan_deleted_absent _ _ hsc
    have hin : slotInPage (sp_read_header p).slot_count :=
      h3 (fun i hi => hall i (by omega) (by omega))
    simp only [SP_InsertRecord_page, hsc]
    simp only [bne_self_eq_false, Bool.false_eq_true, if_false, SP_SLOT_SIZE]
    rw [if_neg (by simp; omega), if_neg, if_neg (not_not.mpr hin)]
    · exact ⟨_, _, rfl⟩
    · rw [not_not, inPage_iff]
      exact ⟨⟨by omega, by omega, by omega⟩, hdata⟩

/-- With no failure coming from the paged-file layer and every access inside
its page buffer, `SP_InsertRecord` of a record of valid length returns 0 and
has put the record on the first-fit page. -/
theorem SP_InsertRecord_total (st : PFState) (data : List Byte) (len : Int)
    (hf : st.faults = []) (hlen : 0 < len) (hmax : len ≤ 4080) (hdata : len ≤ data.length)
    (hscan : ∀ m, m < st.numpages → (∀ k, k < m → ¬ PageFits (st.page k) len) →
      sp_scan_deleted (st.page m) 0 (sp_read_header (st.page m)).slot_count ≠ .oob)
    (hbuf : ∀ q, q < st.numpages → PageFits (st.page q) len →
      (∀ m, m < q → ¬ PageFits (st.page m) len) → InsertInPage (st.page q) len) :
    ∃ q st1 p' idx st', sp_find_page_for_insert st len = .ok q st1 ∧
      FirstFit st len 0 q st1 ∧
      SP_InsertRecord_page (st1.page q) data len = .ok (p', idx) ∧
      SP_InsertRecord st data len = .ok (mkRecId q idx) st' ∧ st'.faults = [] ∧
      st'.numpages = st1.numpages ∧ (st'.page = fun m => if m = q then p' else st1.page m) ∧
      st'.junk = st.junk := by
  rcases sp_find_page_for_insert_nil st len hf with ⟨-, m, hm1, hm2, hm3⟩ |
    ⟨q, st1, hq, hff, hj, hfl, hp⟩
  · exact absurd hm3 (hscan m hm1 hm2)
  · have hbody : ∃ p' idx, SP_InsertRecord_page (st1.page q) data len = .ok (p', idx) := by
      rcases hff with ⟨a, -, c, d, -, f⟩ | ⟨a, -, -, d⟩
      · rw [f]
        exact insert_page_defined (hscan q a (fun m hm => d m (Nat.zero_le _) hm))
          (hbuf q a c (fun m hm => d m (Nat.zero_le _) hm)) c hlen hdata
      · rw [d, a]
        simp only [if_true]
        exact insert_page_progress (layout_init _) (spaceExact_init _) (pageFits_init _ hmax)
          hlen hdata
    obtain ⟨p', idx, hb⟩ := hbody
    obtain ⟨st', hins, hf', hn', hp'⟩ := SP_InsertRecord_of_find hlen hmax hq hb hfl hp
    obtain ⟨-, -, q2, st2, p2, idx2, hfind2, -, -, -, -, hjk⟩ := SP_InsertRecord_ok hins
    rw [hq] at hfind2
    simp only [SPRet.ok.injEq] at hfind2
    obtain ⟨e1, e2⟩ := hfind2
    subst e1 e2
    exact ⟨q, st1, p', idx, st', hq, hff, hb, hins, hf', hn', hp', hjk.trans hj⟩

/-- C8: with no failure coming from the paged-file layer, a record of valid
length `len` held by the caller's buffer, and every access of the run inside
a page buffer (on each page that the search reaches, the loop that looks for
a tombstone slot stays inside the page; on the first page that can take the
record, the copy of the record and the slot that the insertion appends lie
inside the page), `SP_InsertRecord` returns 0 and puts the record on page
`q`, where either `q` is the first page of the file, in page order, that can
take the record (`free_space >= len` with a tombstone slot,
`free_space >= len + slot_size` without), and the file keeps its number of
pages; or no page of the file can take the record (or the file is empty), and
`q` is one new page appended to the file, initialised by `sp_init_page`
before the insertion.  Every other page is unchanged. -/
theorem C8_first_fit_page_selection (st : PFState) (data : List Byte) (len : Int)
    (hf : st.faults = []) (hlen : 0 < len)
    (hmax : len ≤ (PF_PAGE_SIZE : Int) - SP_HEADER_SIZE - SP_SLOT_SIZE)
    (hdata : len ≤ data.length)
    (hscan : ∀ m, m < st.numpages → (∀ k, k < m → ¬ PageFits (st.page k) len) →
      sp_scan_deleted (st.page m) 0 (sp_read_header (st.page m)).slot_count ≠ .oob)
    (hbuf : ∀ q, q < st.numpages → PageFits (st.page q) len →
      (∀ m, m < q → ¬ PageFits (st.page m) len) → InsertInPage (st.page q) len) :
    ∃ rid st' q idx, SP_InsertRecord st data len = .ok rid st' ∧ rid = mkRecId q idx ∧
      ((q < st.numpages ∧ PageFits (st.page q) len ∧
          (∀ m, m < q → ¬ PageFits (st.page m) len) ∧ st'.numpages = st.numpages ∧
          SP_InsertRecord_page (st.page q) data len = .ok (st'.page q, idx)) ∨
        (q = st.numpages ∧ (∀ m, m < st.numpages → ¬ PageFits (st.page m) len) ∧
          st'.numpages = st.numpages + 1 ∧
          SP_InsertRecord_page (sp_init_page (st.junk st.numpages)) data len =
            .ok (st'.page q, idx))) ∧
      ∀ m, m ≠ q → st'.page m = st.page m := by
  simp only [PF_PAGE_SIZE, SP_HEADER_SIZE, SP_SLOT_SIZE] at hmax
  obtain ⟨q, st1, p', idx, st', -, hff, hbody, hins, -, hnp, hpage, -⟩ :=
    SP_InsertRecord_total st data len hf hlen (by omega) hdata hscan hbuf
  have hcur : st'.page q = p' := by rw [hpage]; simp
  refine ⟨mkRecId q idx, st', q, idx, hins, rfl, ?_, ?_⟩
  · rcases hff with ⟨a, -, c, d, e, f⟩ | ⟨a, b, c, d⟩
    · refine Or.inl ⟨a, c, fun m hm => d m (Nat.zero_le _) hm, hnp.trans e, ?_⟩
      rw [hcur, ← hbody, f]
    · refine Or.inr ⟨a, fun m hm => b m (Nat.zero_le _) hm, hnp.trans c, ?_⟩
      rw [hcur, ← hbody, d, a]
      simp
  · intro m hm
    rw [hpage]
    simp only [hm, if_false]
    rcases hff with ⟨-, -, -, -, -, f⟩ | ⟨a, -, -, d⟩
    · rw [f]
    · rw [d]; simp only [← a, hm, if_false]

/-- C8 (witness): the file `fileH` has two pages, page 0 with 80 bytes of
free space and page 1 with 3980.  A record of 90 bytes does not fit on page 0
and goes to page 1, slot 1 (record id 65537), the file keeping its two pages;
a record of 4000 bytes fits on neither page and goes to the new page 2, slot
0 (record id 131072). -/
theorem C8_first_fit_page_selection_witness :
    fileH.faults = [] ∧ fileH.numpages = 2 ∧
    (sp_read_header (fileH.page 0)).free_space = 80 ∧
    (sp_read_header (fileH.page 1)).free_space = 3980 ∧
    ¬ PageFits (fileH.page 0) 90 ∧ PageFits (fileH.page 1) 90 ∧
    ¬ PageFits (fileH.page 0) 4000 ∧ ¬ PageFits (fileH.page 1) 4000 ∧
    (SP_InsertRecord fileH (List.replicate 90 9) 90).val 0 = 65537 ∧
    decode_recId 65537 = (1, 1) ∧
    ((SP_InsertRecord fileH (List.replicate 90 9) 90).state file0).numpages = 2 ∧
    (SP_InsertRecord fileH (List.replicate 4000 9) 4000).val 0 = 131072 ∧
    decode_recId 131072 = (2, 0) ∧
    ((SP_InsertRecord fileH (List.replicate 4000 9) 4000).state file0).numpages = 3 ∧
    (∃ rid st' q idx, SP_InsertRecord fileH (List.replicate 90 9) 90 = .ok rid st' ∧
      rid = mkRecId q idx ∧
      ((q < fileH.numpages ∧ PageFits (fileH.page q) 90 ∧
          (∀ m, m < q → ¬ PageFits (fileH.page m) 90) ∧ st'.numpages = fileH.numpages ∧
          SP_InsertRecord_page (fileH.page q) (List.replicate 90 9) 90 = .ok (st'.page q, idx)) ∨
        (q = fileH.numpages ∧ (∀ m, m < fileH.numpages → ¬ PageFits (fileH.page m) 90) ∧
          st'.numpages = fileH.numpages + 1 ∧
          SP_InsertRecord_page (sp_init_page (fileH.junk fileH.numpages))
            (List.replicate 90 9) 90 = .ok (st'.page q, idx))) ∧
      ∀ m, m ≠ q → st'.page m = fileH.page m) ∧
    ∃ rid st' q idx, SP_InsertRecord fileH (List.replicate 4000 9) 4000 = .ok rid st' ∧
      rid = mkRecId q idx ∧
      ((q < fileH.numpages ∧ PageFits (fileH.page q) 4000 ∧
          (∀ m, m < q → ¬ PageFits (fileH.page m) 4000) ∧ st'.numpages = fileH.numpages ∧
          SP_InsertRecord_page (fileH.page q) (List.replicate 4000 9) 4000 =
            .ok (st'.page q, idx)) ∨
        (q = fileH.numpages ∧ (∀ m, m < fileH.numpages → ¬ PageFits (fileH.page m) 4000) ∧
          st'.numpages = fileH.numpages + 1 ∧
          SP_InsertRecord_page (sp_init_page (fileH.junk fileH.numpages))
            (List.replicate 4000 9) 4000 = .ok (st'.page q, idx))) ∧
      ∀ m, m ≠ q → st'.page m = fileH.page m :=
  ⟨by decide!, by decide!, by decide!, by decide!, by decide!, by decide!, by decide!,
    by decide!, by decide!, by decide!, by decide!, by decide!, by decide!, by decide!,
    C8_first_fit_page_selection fileH (List.replicate 90 9) 90 (by decide!) (by decide)
      (by decide) (by decide) (by decide!) (by decide!),
    C8_first_fit_page_selection fileH (List.replicate 4000 9) 4000 (by decide!) (by decide)
      (by decide) (by decide!) (by decide!) (by decide!)⟩

/-! ## Runs on a page that an insert after a delete has left -/

/-- C9 (the code run on an insert after a delete): on a new file, insert a
record of 4000 bytes and delete it.  Page 0 then has `slot_count = 1`,
`free_offset = 96`, `free_space = 4080` and the tombstone slot 0, and
`SP_InsertRecord` of 90 bytes `0xAA` chooses it and returns 0 with record id
0, the tombstone slot.  After the call `free_offset` is `96 - 90 = 6`,
`slot_count` is 1 and slot 0 is `{offset = 6, length = 90}`, as the claim
says; but the 90 bytes at offset 6 are not the record: the header written
after the record covers bytes 6 to 11 (`free_offset = 6`,
`free_space = 65526`, padding) and the slot entry covers bytes 12 to 15; and
`free_space` is 65526, while
`free_offset - (header_size + slot_count * slot_size)` is `6 - 16`. -/
theorem C9_record_overwritten_after_delete :
    (SP_InsertRecord file0 (List.replicate 4000 170) 4000).isOk = true
      ∧ (SP_DeleteRecord fileA 0).isOk = true
      ∧ (sp_read_header (fileB.page 0)).slot_count = 1
      ∧ (sp_read_header (fileB.page 0)).free_offset = 96
      ∧ (sp_read_header (fileB.page 0)).free_space = 4080
      ∧ (readSlot (fileB.page 0) 0).offset = -1
      ∧ (sp_find_page_for_insert fileB 90).isOk = true
      ∧ (sp_find_page_for_insert fileB 90).val 9 = 0
      ∧ (SP_InsertRecord fileB (List.replicate 90 170) 90).isOk = true
      ∧ (SP_InsertRecord fileB (List.replicate 90 170) 90).val 9 = mkRecId 0 0
      ∧ (sp_read_header (fileC.page 0)).slot_count = 1
      ∧ (sp_read_header (fileC.page 0)).free_offset = 6
      ∧ readSlot (fileC.page 0) 0 = { offset := 6, length := 90 }
      ∧ (readBytes (fileC.page 0) (96 - 90) 90).take 10 = [6, 0, 246, 255, 0, 0, 6, 0, 90, 0]
      ∧ readBytes (fileC.page 0) (96 - 90) 90 ≠ (List.replicate 90 170).take 90
      ∧ (sp_read_header (fileC.page 0)).free_space = 65526
      ∧ ((sp_read_header (fileC.page 0)).free_space : Int) ≠
          ((sp_read_header (fileC.page 0)).free_offset : Int) -
            (SP_HEADER_SIZE + (sp_read_header (fileC.page 0)).slot_count * SP_SLOT_SIZE : Nat) := by
  decide!

/-- C10 (the code run on a delete after an insert after a delete): on a new
file, insert a record of 4000 bytes, delete it, and insert a record of 90
bytes; every call returns 0, and page 0 has the live slot 0 of length 90 and
`free_space = 65526`.  `SP_DeleteRecord` of that record (record id 0) returns
0 and sets the slot to `{offset = -1, length = 0}`, leaving `slot_count` and
`free_offset`; but `free_space` becomes 80: the sum `65526 + 90` does not fit
in the `uint16_t` field, and `free_space` has not increased by 90. -/
theorem C10_free_space_wraps_after_delete :
    (SP_InsertRecord file0 (List.replicate 4000 170) 4000).isOk = true
      ∧ (SP_DeleteRecord fileA 0).isOk = true
      ∧ (SP_InsertRecord fileB (List.replicate 90 170) 90).isOk = true
      ∧ decode_recId 0 = (0, 0)
      ∧ readSlot (fileC.page 0) 0 = { offset := 6, length := 90 }
      ∧ (sp_read_header (fileC.page 0)).free_space = 65526
      ∧ (SP_DeleteRecord fileC 0).isOk = true
      ∧ readSlot (fileC2.page 0) 0 = { offset := -1, length := 0 }
      ∧ (sp_read_header (fileC2.page 0)).slot_count = (sp_read_header (fileC.page 0)).slot_count
      ∧ (sp_read_header (fileC2.page 0)).free_offset = (sp_read_header (fileC.page 0)).free_offset
      ∧ (sp_read_header (fileC2.page 0)).free_space = 80
      ∧ ((sp_read_header (fileC2.page 0)).free_space : Int) ≠
          ((sp_read_header (fileC.page 0)).free_space : Int) + (readSlot (fileC.page 0) 0).length
      ∧ u16 (65526 + 90) = 80 := by
  decide!

/-- C4 (the code run on a page that an insert after a delete has left): on a
new file, insert a record of 2000 bytes `0xAA` (record id 0) and one of 2000
bytes `0xBB` (record id 1), delete record id 0, and insert the 90 bytes of
`craftedRecord`.  Every call returns 0; the insert goes to offset
`96 - 90 = 6` and writes its bytes 10 to 13 over the slot entry of the live
record id 1, which reads `{offset = 96, length = 4000}` afterwards.
`SP_GetRecord` of record id 1 then returns 0 with length 4000 and bytes that
start with `0xBB`.  `SP_CompactPage` of the page returns 0, every access
inside the page buffer, and keeps `slot_count = 2`; after it `SP_GetRecord`
of record id 1 returns 0 with length 4000 again, but other bytes: the live
slots hold 4090 bytes, more than the page has room for, the copy of slot 1
goes to offset 6, over the slot directory, and the header (`free_offset =
6`, `free_space = 65522`) is written over its first bytes. -/
theorem C4_compact_changes_live_record :
    (SP_InsertRecord file0 (List.replicate 2000 170) 2000).isOk = true
      ∧ (SP_InsertRecord fileD (List.replicate 2000 187) 2000).isOk = true
      ∧ (SP_DeleteRecord fileE 0).isOk = true
      ∧ craftedRecord.length = 90
      ∧ (SP_InsertRecord fileF craftedRecord 90).isOk = true
      ∧ (sp_read_header (fileK.page 0)).slot_count = 2
      ∧ (sp_read_header (fileK.page 0)).free_offset = 6
      ∧ readSlot (fileK.page 0) 0 = { offset := 6, length := 90 }
      ∧ readSlot (fileK.page 0) 1 = { offset := 96, length := 4000 }
      ∧ decode_recId 1 = (0, 1)
      ∧ (SP_GetRecord fileK 1).isOk = true
      ∧ ((SP_GetRecord fileK 1).val (0, [])).1 = 4000
      ∧ ((SP_GetRecord fileK 1).val (0, [])).2.take 4 = [187, 187, 187, 187]
      ∧ (SP_CompactPage fileK 0 true).isOk = true
      ∧ (sp_read_header (fileL.page 0)).slot_count = 2
      ∧ (readSlot (fileL.page 0) 1).offset ≠ -1
      ∧ readSlot (fileL.page 0) 1 = { offset := 6, length := 4000 }
      ∧ (SP_GetRecord fileL 1).isOk = true
      ∧ ((SP_GetRecord fileL 1).val (0, [])).1 = 4000
      ∧ ((SP_GetRecord fileL 1).val (0, [])).2.take 4 = [6, 0, 242, 255]
      ∧ ((SP_GetRecord fileL 1).val (0, [])).2.take 4 ≠
          ((SP_GetRecord fileK 1).val (0, [])).2.take 4 := by
  decide!

/-! ## The space accounting after each operation -/

/-- A call that returned 0 returned its output and left its state. -/
theorem SPRet.eq_ok_of_isOk {α : Type} (r : SPRet α) (d : α) (s : PFState)
    (h : r.isOk = true) : r = .ok (r.val d) (r.state s) := by
  cases r with
  | ok v st => rfl
  | fail rc st => simp [SPRet.isOk] at h
  | undef => simp [SPRet.isOk] at h

/-- A successful insertion of a record of positive length leaves the space
accounting exact if and only if the bytes it needed fit in the gap between
the slot directory and `free_offset`. -/
theorem insert_page_spaceExact_iff {p : Page} {data : List Byte} {len : Int} {p' : Page}
    {idx : Nat} (h : SP_InsertRecord_page p data len = .ok (p', idx)) (hlen : 0 < len) :
    SpaceExact p' ↔ neededBytes p len ≤ gapBytes p := by
  obtain ⟨hin, -, hslot, hcase⟩ := SP_InsertRecord_page_ok h
  rw [inPage_iff] at hin
  rw [slotInPage_iff] at hslot
  have hfl := sp_read_header_free_offset_lt p
  have hsl := sp_read_header_slot_count_lt p
  have hfo : ((u16 (((sp_read_header p).free_offset : Int) - len) : Nat) : Int) =
      ((sp_read_header p).free_offset : Int) - len := by
    have h1 := hin.1
    have h3 := hin.2.2
    unfold u16 at h1 h3 ⊢
    omega
  have hfo0 : u16 (((sp_read_header p).free_offset : Int) - len) < 65536 := u16_lt _
  unfold SpaceExact neededBytes gapBytes
  simp only [SP_HEADER_SIZE, SP_SLOT_SIZE]
  rcases hcase with ⟨hsc, -, hp⟩ | ⟨hsc, hidx, -, hp⟩
  · obtain ⟨-, hlt, -, hoff, -⟩ := sp_scan_deleted_found _ _ _ hsc
    rw [if_pos ⟨idx, by omega, hoff⟩, hp, sp_read_header_write]
    simp only [SP_HEADER_SIZE, SP_SLOT_SIZE]
    rw [Nat.mod_eq_of_lt hsl, Nat.mod_eq_of_lt hfo0, u16_mod, hfo]
    unfold u16
    omega
  · have hall := sp_scan_deleted_absent _ _ hsc
    rw [if_neg (fun ⟨i, hi, ho⟩ => hall i (by omega) (by omega) ho), hp, sp_read_header_write]
    simp only [SP_HEADER_SIZE, SP_SLOT_SIZE]
    have hn : ((sp_read_header p).slot_count + 1) % 65536 = (sp_read_header p).slot_count + 1 :=
      Nat.mod_eq_of_lt (by omega)
    rw [hn, hn, Nat.mod_eq_of_lt hfo0, u16_mod]
    unfold u16
    omega

/-- A successful deletion on a page whose space accounting is exact leaves
it exact if and only if the deleted slot has length 0. -/
theorem delete_page_spaceExact_iff {p : Page} {slot : Nat} {p' : Page}
    (h : SP_DeleteRecord_page p slot = .ok p') (hex : SpaceExact p) :
    SpaceExact p' ↔ (readSlot p slot).length = 0 := by
  have hh := delete_page_header h
  have hr := readSlot_length_range p slot
  have hfs := sp_read_header_free_space_lt p
  unfold SpaceExact at hex ⊢
  rw [hh]
  simp only
  unfold u16
  omega

/-- The compaction loop, when it runs through, ends with `cur_free` equal to
its start value less the lengths of the live slots it has visited, and
`cur_free` stays between 0 and `PF_PAGE_SIZE`. -/
theorem sp_compact_loop_cur (tmp : Page) :
    ∀ k i q c q' c', sp_compact_loop tmp i k q c = some (q', c') → 0 ≤ c → c ≤ 4096 →
      c' = c - (liveBytes tmp (i + k) - liveBytes tmp i) ∧ 0 ≤ c' ∧ c' ≤ 4096 := by
  intro k
  induction k with
  | zero =>
    intro i q c q' c' h h0 h1
    simp only [sp_compact_loop, Option.some.injEq, Prod.mk.injEq] at h
    obtain ⟨-, e⟩ := h
    subst e
    exact ⟨by simp, h0, h1⟩
  | succ k ih =>
    intro i q c q' c' h h0 h1
    rw [sp_compact_loop] at h
    simp only at h
    have e : i + (k + 1) = (i + 1) + k := by omega
    split_ifs at h with ha hb hc
    · obtain ⟨r1, r2, r3⟩ := ih (i + 1) q c q' c' h h0 h1
      rw [e]
      refine ⟨?_, r2, r3⟩
      rw [r1, liveBytes_succ tmp i, if_pos hb]
      omega
    · rw [inPage_iff, inPage_iff] at hc
      obtain ⟨r1, r2, r3⟩ := ih (i + 1) _ _ q' c' h (by omega) (by omega)
      rw [e]
      refine ⟨?_, r2, r3⟩
      rw [r1, liveBytes_succ tmp i, if_neg hb]
      omega

/-- A successful compaction leaves the space accounting exact if and only if
the header, the slot directory and the live records together fit in the
page. -/
theorem compact_page_spaceExact_iff {p p' : Page} (h : SP_CompactPage_page p = .ok p') :
    SpaceExact p' ↔
      (SP_HEADER_SIZE : Int) + (sp_read_header p).slot_count * SP_SLOT_SIZE +
        liveBytes p (sp_read_header p).slot_count ≤ PF_PAGE_SIZE := by
  unfold SP_CompactPage_page at h
  simp only at h
  cases hl : sp_compact_loop p 0 (sp_read_header p).slot_count p PF_PAGE_SIZE with
  | none => simp [hl] at h
  | some v =>
    obtain ⟨p1, cur⟩ := v
    simp only [hl, PgRes.ok.injEq] at h
    simp only [PF_PAGE_SIZE] at hl
    obtain ⟨r1, r2, r3⟩ := sp_compact_loop_cur p _ 0 p _ p1 cur hl (by omega) (by omega)
    simp only [Nat.zero_add, liveBytes, sub_zero] at r1
    have hsl := sp_read_header_slot_count_lt p
    have hc : ((u16 cur : Nat) : Int) = cur := u16_of_range r2 (by omega)
    unfold SpaceExact
    rw [← h, sp_read_header_write]
    simp only [SP_HEADER_SIZE, SP_SLOT_SIZE, PF_PAGE_SIZE]
    rw [Nat.mod_eq_of_lt hsl, u16_mod, u16_mod, hc]
    unfold u16
    omega

/-- The page `fullPage b`: what the insertion of 4080 bytes `b` into a newly
initialised page gives.  It has one slot, `{offset = 16, length = 4080}`,
holding the record, and no free space. -/
theorem fullPage_spec (b : Byte) :
    SP_InsertRecord_page (sp_init_page zeroPage) (List.replicate 4080 b) 4080 =
      .ok (fullPage b, 0) ∧
    (sp_read_header (fullPage b)).slot_count = 1 ∧
    (sp_read_header (fullPage b)).free_space = 0 ∧
    readSlot (fullPage b) 0 = { offset := 16, length := 4080 } ∧
    readBytes (fullPage b) 16 4080 = List.replicate 4080 b := by
  have hh := sp_read_header_init zeroPage
  have hsc : (sp_read_header (sp_init_page zeroPage)).slot_count = 0 := by rw [hh]
  have hfo : (sp_read_header (sp_init_page zeroPage)).free_offset = 4096 := by rw [hh]
  obtain ⟨p', idx, hbody⟩ := @insert_page_progress (sp_init_page zeroPage) (List.replicate 4080 b) 4080
    (layout_init zeroPage) (spaceExact_init zeroPage) (pageFits_init zeroPage (le_refl _))
    (by decide : (0 : Int) < 4080) (by rw [List.length_replicate]; decide)
  have eff := insert_effect hbody (spaceExact_init zeroPage) (by decide)
  have hidx : idx = 0 ∧ (sp_read_header p').slot_count = 1 := by
    rcases eff.slot_choice with ⟨-, a, -, -⟩ | ⟨-, a, c⟩
    · rw [hsc] at a; omega
    · rw [hsc] at a c; exact ⟨a, c⟩
  obtain ⟨hi, hc⟩ := hidx
  subst hi
  have hfp : fullPage b = p' := by
    unfold fullPage
    rw [hbody]
  have e1 := eff.free_offset_eq
  have e2 := eff.free_space_eq
  have e3 := eff.slot_eq
  have e4 := eff.bytes_eq
  rw [hfo] at e1 e3 e4
  rw [hc] at e2
  simp only [SP_HEADER_SIZE, SP_SLOT_SIZE] at e2
  rw [hfp]
  refine ⟨hbody, hc, by omega, ?_, ?_⟩
  · rw [e3]
    simp
  · have ht : ((4080 : Int)).toNat = 4080 := by decide
    rw [ht] at e4
    rw [e4, List.take_of_length_le (by rw [List.length_replicate])]

theorem fullPage_not_fits (b : Byte) : ¬ PageFits (fullPage b) 4080 := by
  obtain ⟨-, hc, hfs, hs, -⟩ := fullPage_spec b
  unfold PageFits
  rw [hc, hfs]
  rintro (⟨⟨i, hi, ho⟩, -⟩ | ⟨-, h⟩)
  · have : i = 0 := by omega
    subst this
    rw [hs] at ho
    simp at ho
  · simp [SP_SLOT_SIZE] at h

theorem fullPage_readable (b : Byte) : SlotsReadable (fullPage b) := by
  obtain ⟨-, hc, -, hs, -⟩ := fullPage_spec b
  intro i hi
  rw [hc] at hi
  have : i = 0 := by omega
  subst this
  rw [hs]
  exact ⟨by decide, fun _ => by decide⟩

/-- The file `fillFile n`: each of the `n` insertions returns 0 and appends
one page, which the record fills. -/
theorem fillFile_spec :
    ∀ n, (fillFile n).faults = [] ∧ (fillFile n).numpages = n ∧
      (fillFile n).junk = (fun _ => zeroPage) ∧
      (∀ m, m < n → (fillFile n).page m = fullPage (if m = 0 then 170 else 187)) ∧
      (SP_InsertRecord (fillFile n) (fillRecord n) 4080).isOk = true := by
  have hstep : ∀ n, ((fillFile n).faults = [] ∧ (fillFile n).numpages = n ∧
      (fillFile n).junk = (fun _ => zeroPage) ∧
      (∀ m, m < n → (fillFile n).page m = fullPage (if m = 0 then 170 else 187))) →
      ∃ st', SP_InsertRecord (fillFile n) (fillRecord n) 4080 = .ok (mkRecId n 0) st' ∧
        st'.faults = [] ∧ st'.numpages = n + 1 ∧ st'.junk = (fun _ => zeroPage) ∧
        (∀ m, m < n + 1 → st'.page m = fullPage (if m = 0 then 170 else 187)) := by
    rintro n ⟨hf, hn, hj, hp⟩
    have hnofit : ∀ m, m < (fillFile n).numpages → ¬ PageFits ((fillFile n).page m) 4080 := by
      intro m hm
      rw [hp m (by omega)]
      exact fullPage_not_fits _
    obtain ⟨q, st1, p', idx, st', -, hff, hbody, hins, hf', hn', hp', hj'⟩ :=
      SP_InsertRecord_total (fillFile n) (fillRecord n) 4080 hf (by decide) (by decide)
        (by unfold fillRecord; rw [List.length_replicate]; decide)
        (fun m hm _ => sp_scan_deleted_ne_oob _ 0 (by
          rw [hp m (by omega), (fullPage_spec _).2.1]; omega))
        (fun q hq hfit _ => absurd hfit (hnofit q hq))
    rcases hff with ⟨a, -, c, -, -, -⟩ | ⟨a, -, c, d⟩
    · exact absurd c (hnofit q a)
    · rw [hn] at a c d
      subst a
      have hinit : st1.page q = sp_init_page zeroPage := by
        rw [d, hj]; simp
      rw [hinit] at hbody
      have hrec : fillRecord q = List.replicate 4080 (if q = 0 then 170 else 187) := rfl
      rw [hrec, (fullPage_spec _).1] at hbody
      simp only [PgRes.ok.injEq, Prod.mk.injEq] at hbody
      obtain ⟨e1, e2⟩ := hbody
      subst e2
      refine ⟨st', hins, hf', by omega, hj'.trans hj, fun m hm => ?_⟩
      rw [hp']
      by_cases hmq : m = q
      · simp only [hmq, if_true]
        exact e1.symm
      · simp only [hmq, if_false, d]
        exact hp m (by omega)
  have hinv : ∀ n, (fillFile n).faults = [] ∧ (fillFile n).numpages = n ∧
      (fillFile n).junk = (fun _ => zeroPage) ∧
      (∀ m, m < n → (fillFile n).page m = fullPage (if m = 0 then 170 else 187)) := by
    intro n
    induction n with
    | zero => exact ⟨rfl, rfl, rfl, fun m hm => by omega⟩
    | succ n ih =>
      obtain ⟨st', hins, h1, h2, h3, h4⟩ := hstep n ih
      have hst : fillFile (n + 1) = st' := by
        show (SP_InsertRecord (fillFile n) (fillRecord n) 4080).state file0 = st'
        rw [hins]
        rfl
      rw [hst]
      exact ⟨h1, h2, h3, h4⟩
  intro n
  obtain ⟨st', hins, -⟩ := hstep n (hinv n)
  obtain ⟨h1, h2, h3, h4⟩ := hinv n
  refine ⟨h1, h2, h3, h4, ?_⟩
  rw [hins]
  rfl

end ToyDB
